import Mathlib

/-!
# Bundle adjustment core of `examples/task2/task2-3_test_lm_optimize.cc`

A shallow embedding of the Levenberg-Marquardt bundle adjustment example:
the parameter records, the residual evaluator, the analytic Jacobian, the
parameter update, the block matrix helpers, the Schur complement solver and
the loop of `lm_optimization`.

Conventions of the embedding.

* `double` is modelled by the elements of a field `K` (exact arithmetic, no
  rounding, no overflow).  The definitions are executable over `ℚ`;
  statements about derivatives are made over `ℝ`.
* A `double` that is not a finite number arises where the code divides by
  zero: in the perspective division of `compute_reprojection_errors` for a
  point at depth zero (lines 399-401) and in `compute_mse` for a vector of
  fewer than two values (line 421).  `K` has no such value.  The mean squared
  errors of `lm_optimization` and what the controller computes from them are
  therefore of type `Extended K`: a finite number, an infinity or NaN, with
  the subtraction, the division and the comparisons of IEEE 754 (a comparison
  with NaN does not hold).  `residual_kind` tells whether the values of a
  residual vector are finite, infinite or NaN; the vector of the embedding
  holds the value of the field quotient in the place of a value that is not
  finite (`x / 0 = 0` in a field).
* `sqrt`, `cos` and `sin` of the C library are parameters (`Libm`).
* A `double const*` argument is the function from offsets to the values it
  points at.  The caller that forms the pointer from a vector checks that the
  range it hands out lies inside the vector (`ptr?`).
* Checked accesses (`at`) that throw and unchecked accesses out of range are
  both modelled by `none`.
* Index types (`std::size_t`, `int` identifiers) are `Nat`.
* The sparse matrix helpers, the solver and `lm_optimization` return in
  `Except Fault`.
* Only where a claim speaks of the exact value of a `double` sum is the
  rounding of the machine made explicit (`round_double`, `double_add`).
* The loop of `lm_optimization` is a recursion on a fuel argument; the
  function hands it enough fuel for `lm_max_iterations` rounds.  A run is
  recorded as the list of its iterations, the last state and the exit taken.
-/

namespace BA

/-! ## Parameter records -/

/-- Modelled from the spec: `sfm::ba::Camera` (declared in
`sfm/ba_types.h`, not among the sources): a focal length, two radial distortion
coefficients, a translation and a row-major 3x3 rotation. -/
structure Camera (K : Type) where
  focal_length : K
  distortion : Fin 2 → K
  translation : Fin 3 → K
  rotation : Fin 9 → K

/-- Modelled from the spec: `sfm::ba::Point3D`, a position vector. -/
structure Point3D (K : Type) where
  pos : Fin 3 → K

/-- Modelled from the spec: `sfm::ba::Observation`, the observed pixel and the
indices of the camera and of the point it belongs to. -/
structure Observation (K : Type) where
  pos : Fin 2 → K
  camera_id : Nat
  point_id : Nat

/-- The three functions of the C math library used by `rodrigues_to_matrix`. -/
structure Libm (K : Type) where
  sqrt : K → K
  cos : K → K
  sin : K → K

/-- `num_cam_params` (line 74). -/
def num_cam_params : Nat := 9

/-- `camera_block_dim` (line 72). -/
def camera_block_dim : Nat := 9

section Defs

variable {K : Type} [Field K] [DecidableEq K]

/-- A freshly declared local `sfm::ba::Camera` (lines 370): every field is
overwritten by `update_camera` before it is read. -/
def Camera.fresh : Camera K := ⟨0, fun _ => 0, fun _ => 0, fun _ => 0⟩

/-- A freshly declared local `sfm::ba::Point3D` (line 369). -/
def Point3D.fresh : Point3D K := ⟨fun _ => 0⟩

/-- The pointer `v.data() + off`, read at offset `j`. -/
def ptr (v : List K) (off : Nat) : Nat → K := fun j => v.getD (off + j) 0

/-- The pointer `v.data() + off` handed to a callee that reads `len` values:
defined only if the whole range lies inside the vector. -/
def ptr? (v : List K) (off len : Nat) : Option (Nat → K) :=
  if off + len ≤ v.length then some (ptr v off) else none

/-- Modelled from the spec: `math::matrix_multiply(a, 3, 3, b, 3, out)` (from
`math/matrix_tools.h`, not among the sources): the row-major product of two
3x3 matrices, each entry accumulated from zero. -/
def matrix_multiply (a b : Fin 9 → K) : Fin 9 → K :=
  ![0 + a 0 * b 0 + a 1 * b 3 + a 2 * b 6,
    0 + a 0 * b 1 + a 1 * b 4 + a 2 * b 7,
    0 + a 0 * b 2 + a 1 * b 5 + a 2 * b 8,
    0 + a 3 * b 0 + a 4 * b 3 + a 5 * b 6,
    0 + a 3 * b 1 + a 4 * b 4 + a 5 * b 7,
    0 + a 3 * b 2 + a 4 * b 5 + a 5 * b 8,
    0 + a 6 * b 0 + a 7 * b 3 + a 8 * b 6,
    0 + a 6 * b 1 + a 7 * b 4 + a 8 * b 7,
    0 + a 6 * b 2 + a 7 * b 5 + a 8 * b 8]

/-- `rodrigues_to_matrix` (lines 240-257): axis-angle vector to matrix. -/
def rodrigues_to_matrix (lm : Libm K) (r : Nat → K) : Fin 9 → K :=
  let a := lm.sqrt (r 0 * r 0 + r 1 * r 1 + r 2 * r 2)
  let ct := if a = 0 then (1 / 2 : K) else (1 - lm.cos a) / (2 * a)
  let st := if a = 0 then (1 : K) else lm.sin a / a
  ![1 - (r 1 * r 1 + r 2 * r 2) * ct,
    r 0 * r 1 * ct - r 2 * st,
    r 2 * r 0 * ct + r 1 * st,
    r 0 * r 1 * ct + r 2 * st,
    1 - (r 2 * r 2 + r 0 * r 0) * ct,
    r 1 * r 2 * ct - r 0 * st,
    r 2 * r 0 * ct - r 1 * st,
    r 1 * r 2 * ct + r 0 * st,
    1 - (r 0 * r 0 + r 1 * r 1) * ct]

/-- `update_camera` (lines 265-281), statement by statement.  `out` is the
content of the output object at entry.  `aliased = true` is the call in which
`out` points at `cam` itself (as in `update_parameters`): every read of
`cam` then sees what has been written to `out` so far. -/
def update_camera (lm : Libm K) (aliased : Bool) (cam : Camera K) (update : Nat → K)
    (out : Camera K) : Camera K :=
  let src := fun (s : Camera K) => if aliased then s else cam
  let s1 : Camera K := { out with focal_length := (src out).focal_length + update 0 }
  let s2 : Camera K :=
    { s1 with distortion := Function.update s1.distortion 0 ((src s1).distortion 0 + update 1) }
  let s3 : Camera K :=
    { s2 with distortion := Function.update s2.distortion 1 ((src s2).distortion 1 + update 2) }
  let s4 : Camera K :=
    { s3 with translation := Function.update s3.translation 0 ((src s3).translation 0 + update 3) }
  let s5 : Camera K :=
    { s4 with translation := Function.update s4.translation 1 ((src s4).translation 1 + update 4) }
  let s6 : Camera K :=
    { s5 with translation := Function.update s5.translation 2 ((src s5).translation 2 + update 5) }
  let rot_orig := (src s6).rotation
  let rot_update := rodrigues_to_matrix lm (fun j => update (6 + j))
  { s6 with rotation := matrix_multiply rot_update rot_orig }

/-- `update_point` (lines 289-295), with the same treatment of an output
object that is the input object. -/
def update_point (aliased : Bool) (pt : Point3D K) (update : Nat → K)
    (out : Point3D K) : Point3D K :=
  let src := fun (s : Point3D K) => if aliased then s else pt
  let s1 : Point3D K := { pos := Function.update out.pos 0 ((src out).pos 0 + update 0) }
  let s2 : Point3D K := { pos := Function.update s1.pos 1 ((src s1).pos 1 + update 1) }
  { pos := Function.update s2.pos 2 ((src s2).pos 2 + update 2) }

/-- One round of the camera loop of `update_parameters` (lines 310-315): the
state is the camera vector and `total_camera_params`. -/
def update_parameters_cam_step (lm : Libm K) (delta_x : List K)
    (st : List (Camera K) × Nat) (i : Nat) : Option (List (Camera K) × Nat) :=
  match st.1[i]?, ptr? delta_x (num_cam_params * i) 9 with
  | some c, some p => some (st.1.set i (update_camera lm true c p c), st.1.length * num_cam_params)
  | _, _ => none

/-- One round of the point loop of `update_parameters` (lines 318-322). -/
def update_parameters_point_step (delta_x : List K) (total_camera_params : Nat)
    (pts : List (Point3D K)) (i : Nat) : Option (List (Point3D K)) :=
  match pts[i]?, ptr? delta_x (total_camera_params + i * 3) 3 with
  | some p, some u => some (pts.set i (update_point true p u p))
  | _, _ => none

/-- `update_parameters` (lines 303-323). -/
def update_parameters (lm : Libm K) (delta_x : List K) (cameras : List (Camera K))
    (points : List (Point3D K)) : Option (List (Camera K) × List (Point3D K)) :=
  match (List.range cameras.length).foldlM (update_parameters_cam_step lm delta_x) (cameras, 0) with
  | none => none
  | some (cameras1, total_camera_params) =>
    match (List.range points.length).foldlM
        (update_parameters_point_step delta_x total_camera_params) points with
    | none => none
    | some points1 => some (cameras1, points1)

/-- `radial_distort` (lines 331-337): the new values of `*x` and `*y`. -/
def radial_distort (x y : K) (dist : Fin 2 → K) : K × K :=
  let radius2 := x * x + y * y
  let factor := 1 + radius2 * (dist 0 + dist 1 * radius2)
  (x * factor, y * factor)

/-- Lines 391-404 of `compute_reprojection_errors`: the distorted image plane
coordinates `rp[0]`, `rp[1]` of a point (the loop over `d` unrolled), for a
depth `rp[2]` that is not zero.  For the depth zero the two quotients of lines
400-401 are infinite or NaN, and so are the two coordinates; the quotient of
the field is zero then (see `observation_kind`). -/
def project (rot : Fin 9 → K) (trans : Fin 3 → K) (dist : Fin 2 → K)
    (point : Fin 3 → K) : K × K :=
  let rp0 := 0 + rot 0 * point 0 + rot 1 * point 1 + rot 2 * point 2
  let rp1 := 0 + rot 3 * point 0 + rot 4 * point 1 + rot 5 * point 2
  let rp2 := 0 + rot 6 * point 0 + rot 7 * point 1 + rot 8 * point 2
  let rp2 := rp2 + trans 2
  let rp0 := (rp0 + trans 0) / rp2
  let rp1 := (rp1 + trans 1) / rp2
  radial_distort rp0 rp1 dist

/-- The predicted pixel of the evaluator: `rp[0] * (*flen)` and
`rp[1] * (*flen)` of lines 407-408. -/
def predicted_pixel (cam : Camera K) (point : Point3D K) : K × K :=
  let rp := project cam.rotation cam.translation cam.distortion point.pos
  (rp.1 * cam.focal_length, rp.2 * cam.focal_length)

/-- The camera and the point an observation is projected with (lines 359-389):
the stored ones, or private updated copies if `delta_x` is given. -/
def reprojection_operands (lm : Libm K) (delta_x : Option (List K))
    (cameras : List (Camera K)) (points : List (Point3D K)) (obs : Observation K) :
    Option (Camera K × Point3D K) :=
  match points[obs.point_id]?, cameras[obs.camera_id]? with
  | some p3d, some cam =>
    match delta_x with
    | none => some (cam, p3d)
    | some d =>
      let cam_id := obs.camera_id * num_cam_params
      let pt_id := obs.point_id * 3
      match ptr? d cam_id 9 with
      | none => none
      | some pc =>
        let new_camera := update_camera lm false cam pc Camera.fresh
        let pt_id := pt_id + cameras.length * num_cam_params
        match ptr? d pt_id 3 with
        | none => none
        | some pp => some (new_camera, update_point false p3d pp Point3D.fresh)
  | _, _ => none

/-- Lines 359-408 of `compute_reprojection_errors` for one observation: the two
values stored at positions `2i` and `2i+1` of the residual vector. -/
def observation_residual (lm : Libm K) (delta_x : Option (List K))
    (cameras : List (Camera K)) (points : List (Point3D K)) (obs : Observation K) :
    Option (K × K) :=
  match reprojection_operands lm delta_x cameras points obs with
  | none => none
  | some (cam, p3d) =>
    let px := predicted_pixel cam p3d
    some (px.1 - obs.pos 0, px.2 - obs.pos 1)

/-- The body of the loop of `compute_reprojection_errors` (lines 358-409) for
observation `i`, acting on the output vector. -/
def compute_reprojection_errors_step (lm : Libm K) (delta_x : Option (List K))
    (cameras : List (Camera K)) (points : List (Point3D K))
    (observations : List (Observation K)) (vector_f : List K) (i : Nat) : Option (List K) :=
  match observations[i]? with
  | none => none
  | some obs =>
    match observation_residual lm delta_x cameras points obs with
    | none => none
    | some r =>
      if i * 2 + 1 < vector_f.length then
        some ((vector_f.set (i * 2 + 0) r.1).set (i * 2 + 1) r.2)
      else none

/-- Modelled from the spec: `DenseVector::resize(n)` (from
`sfm/ba_dense_vector.h`, not among the sources), the resize of `std::vector`:
it keeps a prefix and pads with zeros. -/
def resize (v : List K) (n : Nat) : List K :=
  v.take n ++ List.replicate (n - v.length) 0

/-- `compute_reprojection_errors` (lines 347-410).  `vector_f` is the content
of the output vector at entry; the result is its content at exit. -/
def compute_reprojection_errors (lm : Libm K) (vector_f : List K) (delta_x : Option (List K))
    (cameras : List (Camera K)) (points : List (Point3D K))
    (observations : List (Observation K)) : Option (List K) :=
  let vector_f :=
    if vector_f.length ≠ observations.length * 2 then resize vector_f (observations.length * 2)
    else vector_f
  (List.range observations.length).foldlM
    (compute_reprojection_errors_step lm delta_x cameras points observations) vector_f

/-- What `my_jacobian` writes through its four output pointers. -/
structure JacobianRows (K : Type) where
  cam_x_ptr : Fin 9 → K
  cam_y_ptr : Fin 9 → K
  point_x_ptr : Fin 3 → K
  point_y_ptr : Fin 3 → K

/-- `my_jacobian` (lines 433-551), for a depth `zc` that is not zero; for the
depth zero the quotients by `zc` are infinite or NaN in the code. -/
def my_jacobian (cam : Camera K) (point : Point3D K) : JacobianRows K :=
  let f := cam.focal_length
  let R := cam.rotation
  let t := cam.translation
  let X := point.pos
  let k0 := cam.distortion 0
  let k1 := cam.distortion 1
  let xc := R 0 * X 0 + R 1 * X 1 + R 2 * X 2 + t 0
  let yc := R 3 * X 0 + R 4 * X 1 + R 5 * X 2 + t 1
  let zc := R 6 * X 0 + R 7 * X 1 + R 8 * X 2 + t 2
  let x := xc / zc
  let y := yc / zc
  let r2 := x * x + y * y
  let distort := 1 + (k0 + k1 * r2) * r2
  let u_deriv_distort := f * x
  let v_deriv_distort := f * y
  let distort_deriv_k0 := r2
  let distort_deriv_k1 := r2 * r2
  let x_deriv_xc := 1 / zc
  let x_deriv_yc : K := 0
  let x_deriv_zc := -x / zc
  let y_deriv_xc : K := 0
  let y_deriv_yc := 1 / zc
  let y_deriv_zc := -y / zc
  let u_deriv_x := f * distort
  let v_deriv_y := f * distort
  let distort_deriv_r2 := k0 + 2 * k1 * r2
  let r2_deriv_xc := 2 * x / zc
  let r2_deriv_yc := 2 * y / zc
  let r2_deriv_zc := -2 * r2 / zc
  let distort_deriv_xc := distort_deriv_r2 * r2_deriv_xc
  let distort_deriv_yc := distort_deriv_r2 * r2_deriv_yc
  let distort_deriv_zc := distort_deriv_r2 * r2_deriv_zc
  let u_deriv_xc := u_deriv_distort * distort_deriv_xc + u_deriv_x * x_deriv_xc
  let u_deriv_yc := u_deriv_distort * distort_deriv_yc + u_deriv_x * x_deriv_yc
  let u_deriv_zc := u_deriv_distort * distort_deriv_zc + u_deriv_x * x_deriv_zc
  let v_deriv_xc := v_deriv_distort * distort_deriv_xc + v_deriv_y * y_deriv_xc
  let v_deriv_yc := v_deriv_distort * distort_deriv_yc + v_deriv_y * y_deriv_yc
  let v_deriv_zc := v_deriv_distort * distort_deriv_zc + v_deriv_y * y_deriv_zc
  let xc_deriv_t0 : K := 1
  let yc_deriv_t1 : K := 1
  let zc_deriv_t2 : K := 1
  let rx := R 0 * X 0 + R 1 * X 1 + R 2 * X 2
  let ry := R 3 * X 0 + R 4 * X 1 + R 5 * X 2
  let rz := R 6 * X 0 + R 7 * X 1 + R 8 * X 2
  let xc_deriv_w1 := rz
  let xc_deriv_w2 := -ry
  let yc_deriv_w0 := -rz
  let yc_deriv_w2 := rx
  let zc_deriv_w0 := ry
  let zc_deriv_w1 := -rx
  let xc_deriv_X := R 0
  let xc_deriv_Y := R 1
  let xc_deriv_Z := R 2
  let yc_deriv_X := R 3
  let yc_deriv_Y := R 4
  let yc_deriv_Z := R 5
  let zc_deriv_X := R 6
  let zc_deriv_Y := R 7
  let zc_deriv_Z := R 8
  { cam_x_ptr :=
      ![distort * x,
        u_deriv_distort * distort_deriv_k0,
        u_deriv_distort * distort_deriv_k1,
        u_deriv_xc * xc_deriv_t0,
        u_deriv_yc * yc_deriv_t1,
        u_deriv_zc * zc_deriv_t2,
        u_deriv_yc * yc_deriv_w0 + u_deriv_zc * zc_deriv_w0,
        u_deriv_xc * xc_deriv_w1 + u_deriv_zc * zc_deriv_w1,
        u_deriv_xc * xc_deriv_w2 + u_deriv_yc * yc_deriv_w2]
    cam_y_ptr :=
      ![distort * y,
        v_deriv_distort * distort_deriv_k0,
        v_deriv_distort * distort_deriv_k1,
        v_deriv_xc * xc_deriv_t0,
        v_deriv_yc * yc_deriv_t1,
        v_deriv_zc * zc_deriv_t2,
        v_deriv_yc * yc_deriv_w0 + v_deriv_zc * zc_deriv_w0,
        v_deriv_xc * xc_deriv_w1 + v_deriv_zc * zc_deriv_w1,
        v_deriv_xc * xc_deriv_w2 + v_deriv_yc * yc_deriv_w2]
    point_x_ptr :=
      ![u_deriv_xc * xc_deriv_X + u_deriv_yc * yc_deriv_X + u_deriv_zc * zc_deriv_X,
        u_deriv_xc * xc_deriv_Y + u_deriv_yc * yc_deriv_Y + u_deriv_zc * zc_deriv_Y,
        u_deriv_xc * xc_deriv_Z + u_deriv_yc * yc_deriv_Z + u_deriv_zc * zc_deriv_Z]
    point_y_ptr :=
      ![v_deriv_xc * xc_deriv_X + v_deriv_yc * yc_deriv_X + v_deriv_zc * zc_deriv_X,
        v_deriv_xc * xc_deriv_Y + v_deriv_yc * yc_deriv_Y + v_deriv_zc * zc_deriv_Y,
        v_deriv_xc * xc_deriv_Z + v_deriv_yc * yc_deriv_Z + v_deriv_zc * zc_deriv_Z] }

/-- The depth `zc` of a point in the frame of a camera, the divisor of the
perspective division (line 399, line 447). -/
def camera_depth (cam : Camera K) (point : Point3D K) : K :=
  cam.rotation 6 * point.pos 0 + cam.rotation 7 * point.pos 1
    + cam.rotation 8 * point.pos 2 + cam.translation 2

/-- The first camera-frame coordinate `xc` of a point (line 445). -/
def camera_x (cam : Camera K) (point : Point3D K) : K :=
  cam.rotation 0 * point.pos 0 + cam.rotation 1 * point.pos 1
    + cam.rotation 2 * point.pos 2 + cam.translation 0

/-- The second camera-frame coordinate `yc` of a point (line 446). -/
def camera_y (cam : Camera K) (point : Point3D K) : K :=
  cam.rotation 3 * point.pos 0 + cam.rotation 4 * point.pos 1
    + cam.rotation 5 * point.pos 2 + cam.translation 1

/-- The pixel the evaluator predicts, as a function of the intrinsics and of
the camera-frame coordinates. -/
def pixel_of (f k0 k1 xc yc zc : K) : K × K :=
  (xc / zc * (1 + (xc / zc * (xc / zc) + yc / zc * (yc / zc))
      * (k0 + k1 * (xc / zc * (xc / zc) + yc / zc * (yc / zc)))) * f,
   yc / zc * (1 + (xc / zc * (xc / zc) + yc / zc * (yc / zc))
      * (k0 + k1 * (xc / zc * (xc / zc) + yc / zc * (yc / zc)))) * f)

/-- The partial derivatives of the pixel with respect to `xc`, `yc`, `zc`
as `my_jacobian` computes them (lines 449-505):
`((u_deriv_xc, u_deriv_yc, u_deriv_zc), (v_deriv_xc, v_deriv_yc, v_deriv_zc))`. -/
def pixel_grad (f k0 k1 xc yc zc : K) : (K × K × K) × (K × K × K) :=
  let x := xc / zc
  let y := yc / zc
  let r2 := x * x + y * y
  let distort := 1 + (k0 + k1 * r2) * r2
  let u_deriv_distort := f * x
  let v_deriv_distort := f * y
  let x_deriv_xc := 1 / zc
  let x_deriv_yc : K := 0
  let x_deriv_zc := -x / zc
  let y_deriv_xc : K := 0
  let y_deriv_yc := 1 / zc
  let y_deriv_zc := -y / zc
  let u_deriv_x := f * distort
  let v_deriv_y := f * distort
  let distort_deriv_r2 := k0 + 2 * k1 * r2
  let r2_deriv_xc := 2 * x / zc
  let r2_deriv_yc := 2 * y / zc
  let r2_deriv_zc := -2 * r2 / zc
  let distort_deriv_xc := distort_deriv_r2 * r2_deriv_xc
  let distort_deriv_yc := distort_deriv_r2 * r2_deriv_yc
  let distort_deriv_zc := distort_deriv_r2 * r2_deriv_zc
  ((u_deriv_distort * distort_deriv_xc + u_deriv_x * x_deriv_xc,
    u_deriv_distort * distort_deriv_yc + u_deriv_x * x_deriv_yc,
    u_deriv_distort * distort_deriv_zc + u_deriv_x * x_deriv_zc),
   (v_deriv_distort * distort_deriv_xc + v_deriv_y * y_deriv_xc,
    v_deriv_distort * distort_deriv_yc + v_deriv_y * y_deriv_yc,
    v_deriv_distort * distort_deriv_zc + v_deriv_y * y_deriv_zc))

/-- The camera of the scenario of the specification: identity rotation, zero
translation, focal length 1, no distortion. -/
def scenario_camera : Camera K :=
  ⟨1, ![0, 0], ![0, 0, 0], ![1, 0, 0, 0, 1, 0, 0, 0, 1]⟩

/-- The point `(0, 0, 5)` of the scenario of the specification. -/
def scenario_point : Point3D K := ⟨![0, 0, 5]⟩

/-- The observation of the scenario: pixel `(0, 0)` of point 0 in camera 0. -/
def scenario_observation : Observation K := ⟨![0, 0], 0, 0⟩

/-- Stand-ins for the C math library that are exact at zero (`sqrt 0 = 0`,
`cos 0 = 1`, `sin 0 = 0`), enough to evaluate a zero rotation increment over
the rationals. -/
def libm_at_zero : Libm K := ⟨fun x => x, fun _ => 1, fun x => x⟩

end Defs

/-! ## Sparse matrices and dense vectors -/

/-- How a call can fail to return a value. -/
inductive Fault where
  /-- `std::invalid_argument` was thrown, with this message. -/
  | invalid_argument (what : String)
  /-- `std::out_of_range` was thrown by a checked access (`at`). -/
  | out_of_range
  /-- An access out of range in the residual evaluator or in the parameter
  update, where the first part of the embedding returns `none`: a checked
  access (`at`) that throws, or an unchecked access that is undefined. -/
  | access
  /-- The call leaves the defined behaviour of the language: an unchecked access
  out of range, or a loop that does not end. -/
  | undefined
  deriving DecidableEq, Repr

/-- Modelled from the spec: `SparseMatrix<double>::Triplet` (from
`sfm/ba_sparse_matrix.h`, not among the sources), a `(row, col, value)` entry. -/
structure Triplet (K : Type) where
  row : Nat
  col : Nat
  value : K

/-- Modelled from the spec: `sfm::ba::SparseMatrix<double>` (from
`sfm/ba_sparse_matrix.h`, not among the sources).  The column-compressed storage
is described by the shape, the set of stored positions and the value held at
each stored position.  Within a column the stored entries are kept by
increasing row; the value array lists the columns one after the other. -/
structure SparseMatrix (K : Type) where
  rows : Nat
  cols : Nat
  stored : Nat → Nat → Bool
  value : Nat → Nat → K

/-- The status codes of the conjugate gradient solver. -/
inductive CGInfo where
  | CG_CONVERGENCE
  | CG_MAX_ITERATIONS
  | CG_INVALID_INPUT
  deriving DecidableEq, Repr

/-- Modelled from the spec: `ConjugateGradient<double>::Status`. -/
structure CGStatus where
  num_iterations : Nat
  info : CGInfo

/-- Modelled from the spec: `sfm::ba::LinearSolver::Status`: success flag and
number of conjugate gradient iterations. -/
structure Status where
  success : Bool
  num_cg_iterations : Nat
  deriving DecidableEq, Repr

section SparseDefs

variable {K : Type} [LinearOrderedField K]

/-- The position of a triplet. -/
def Triplet.pos (t : Triplet K) : Nat × Nat := (t.row, t.col)

/-- The mathematical entry of a sparse matrix: the stored value, zero where
nothing is stored. -/
def SparseMatrix.entry (A : SparseMatrix K) (r c : Nat) : K :=
  if r < A.rows ∧ c < A.cols ∧ A.stored r c = true then A.value r c else 0

/-- The rows stored in a column, in storage order. -/
def SparseMatrix.column_rows (A : SparseMatrix K) (c : Nat) : List Nat :=
  (List.range A.rows).filter (fun r => A.stored r c)

/-- Modelled from the spec: `SparseMatrix::column_nonzeros(col, &vector)`: the
stored values of a column, in storage order, without their row indices.  The
column index is not checked. -/
def SparseMatrix.column_nonzeros (A : SparseMatrix K) (col : Nat) : Except Fault (List K) :=
  if col < A.cols then .ok ((A.column_rows col).map (fun r => A.value r col))
  else .error Fault.undefined

/-- Modelled from the spec: `SparseMatrix::num_non_zero()`, the number of stored
entries. -/
def SparseMatrix.num_non_zero (A : SparseMatrix K) : Nat :=
  ((List.range A.cols).map (fun c => (A.column_rows c).length)).sum

/-- Modelled from the spec: the value array between `SparseMatrix::begin()` and
`SparseMatrix::end()`: the stored values, column after column. -/
def SparseMatrix.values (A : SparseMatrix K) : List K :=
  (List.range A.cols).flatMap (fun c => (A.column_rows c).map (fun r => A.value r c))

/-- The index in the value array of the entry stored at `(r, c)`. -/
def SparseMatrix.offset (A : SparseMatrix K) (r c : Nat) : Nat :=
  ((List.range c).map (fun c1 => (A.column_rows c1).length)).sum
    + ((List.range r).filter (fun r1 => A.stored r1 c)).length

/-- The matrix after its value array has been overwritten in place. -/
def SparseMatrix.with_values (A : SparseMatrix K) (vals : List K) : SparseMatrix K :=
  { A with value := fun r c => vals.getD (A.offset r c) 0 }

/-- Modelled from the spec: `SparseMatrix::allocate(rows, cols)`. -/
def SparseMatrix.allocate (rows cols : Nat) : SparseMatrix K :=
  ⟨rows, cols, fun _ _ => false, fun _ _ => 0⟩

/-- Modelled from the spec: `SparseMatrix::set_from_triplets`: the matrix
assembled from triplets, duplicate positions summed.  A triplet outside the
allocated shape is outside the defined behaviour. -/
def SparseMatrix.set_from_triplets (A : SparseMatrix K) (triplets : List (Triplet K)) :
    Except Fault (SparseMatrix K) :=
  if triplets.all (fun t => decide (t.row < A.rows ∧ t.col < A.cols)) then
    .ok { rows := A.rows
          cols := A.cols
          stored := fun r c => triplets.any (fun t => decide (t.row = r ∧ t.col = c))
          value := fun r c =>
            ((triplets.filter (fun t => decide (t.row = r ∧ t.col = c))).map Triplet.value).sum }
  else .error Fault.undefined

/-- Modelled from the spec: `SparseMatrix::transpose()`. -/
def SparseMatrix.transpose (A : SparseMatrix K) : SparseMatrix K :=
  ⟨A.cols, A.rows, fun r c => A.stored c r, fun r c => A.value c r⟩

/-- Modelled from the spec: `SparseMatrix::multiply(SparseMatrix)`, the matrix
product; it throws if the inner dimensions differ.  A position is stored in
the product if some pair of stored entries contributes to it. -/
def SparseMatrix.multiply (A B : SparseMatrix K) : Except Fault (SparseMatrix K) :=
  if A.cols = B.rows then
    .ok { rows := A.rows
          cols := B.cols
          stored := fun r c => (List.range A.cols).any (fun k => A.stored r k && B.stored k c)
          value := fun r c => ∑ k ∈ Finset.range A.cols, A.entry r k * B.entry k c }
  else .error (Fault.invalid_argument "Incompatible matrix dimensions")

/-- Modelled from the spec: `SparseMatrix::multiply(DenseVector)`, the
matrix-vector product; it throws if the dimensions differ. -/
def SparseMatrix.multiply_vector (A : SparseMatrix K) (v : List K) : Except Fault (List K) :=
  if A.cols = v.length then
    .ok ((List.range A.rows).map
      (fun r => ∑ k ∈ Finset.range A.cols, A.entry r k * v.getD k 0))
  else .error (Fault.invalid_argument "Incompatible dimensions")

/-- Modelled from the spec: `SparseMatrix::subtract`, the element-wise
difference of two matrices of the same shape. -/
def SparseMatrix.subtract (A B : SparseMatrix K) : Except Fault (SparseMatrix K) :=
  if A.rows = B.rows ∧ A.cols = B.cols then
    .ok { rows := A.rows
          cols := A.cols
          stored := fun r c => A.stored r c || B.stored r c
          value := fun r c => A.entry r c - B.entry r c }
  else .error (Fault.invalid_argument "Incompatible matrix dimensions")

/-- Modelled from the spec: `SparseMatrix::mult_diagonal(factor)`: the stored
values on the diagonal are multiplied by the factor. -/
def SparseMatrix.mult_diagonal (A : SparseMatrix K) (factor : K) : SparseMatrix K :=
  { A with value := fun r c => if r = c then A.value r c * factor else A.value r c }

/-- Modelled from the spec: `DenseVector::dot`; it throws if the sizes differ. -/
def dot (a b : List K) : Except Fault K :=
  if a.length = b.length then .ok (List.zipWith (fun x y => x * y) a b).sum
  else .error (Fault.invalid_argument "Incompatible vector dimensions")

/-- Modelled from the spec: `DenseVector::subtract`; it throws if the sizes
differ. -/
def vector_subtract (a b : List K) : Except Fault (List K) :=
  if a.length = b.length then .ok (List.zipWith (fun x y => x - y) a b)
  else .error (Fault.invalid_argument "Incompatible vector dimensions")

/-- Modelled from the spec: `DenseVector::negate_self`. -/
def negate_self (a : List K) : List K := a.map (fun x => -x)

/-- Modelled from the spec: the macro `MATH_DOUBLE_EQ(x, v)` (from
`math/defines.h`, not among the sources): equality within a tolerance `eps`
(`MATH_DBL_EPS`), `v - eps <= x && x <= v + eps`. -/
def MATH_DOUBLE_EQ (eps x v : K) : Bool := decide (v - eps ≤ x ∧ x ≤ v + eps)

/-- Modelled from the spec: `math::matrix_determinant` of a row-major 3x3
matrix (from `math/matrix_tools.h`, not among the sources). -/
def matrix_determinant (m : Fin 9 → K) : K :=
  m 0 * m 4 * m 8 + m 1 * m 5 * m 6 + m 2 * m 3 * m 7
    - m 2 * m 4 * m 6 - m 1 * m 3 * m 8 - m 0 * m 5 * m 7

/-- Modelled from the spec: `math::matrix_inverse(m, det)` of a row-major 3x3
matrix (from `math/matrix_tools.h`, not among the sources): the closed form,
the adjugate divided by the determinant. -/
def matrix_inverse (m : Fin 9 → K) (det : K) : Fin 9 → K :=
  ![(m 4 * m 8 - m 5 * m 7) / det, (m 2 * m 7 - m 1 * m 8) / det, (m 1 * m 5 - m 2 * m 4) / det,
    (m 5 * m 6 - m 3 * m 8) / det, (m 0 * m 8 - m 2 * m 6) / det, (m 2 * m 3 - m 0 * m 5) / det,
    (m 3 * m 7 - m 4 * m 6) / det, (m 1 * m 6 - m 0 * m 7) / det, (m 0 * m 4 - m 1 * m 3) / det]

/-- The triplets pushed by the two inner loops of `analytic_jacobian` (lines
602-610) for one observation: for each of the `n` parameters `j` the entry of
row `row_x` and the entry of row `row_y`. -/
def jacobian_triplets {n : Nat} (row_x row_y col : Nat) (x_ptr y_ptr : Fin n → K) :
    List (Triplet K) :=
  (List.finRange n).flatMap
    (fun j => [⟨row_x, col + j.val, x_ptr j⟩, ⟨row_y, col + j.val, y_ptr j⟩])

/-- The body of the observation loop of `analytic_jacobian` (lines 579-611): the
state is the pair `(cam_triplets, point_triplets)`. -/
def analytic_jacobian_step (cameras : List (Camera K)) (points : List (Point3D K))
    (observations : List (Observation K)) (st : List (Triplet K) × List (Triplet K)) (i : Nat) :
    Except Fault (List (Triplet K) × List (Triplet K)) :=
  match observations[i]? with
  | none => .error Fault.undefined
  | some obs =>
    match points[obs.point_id]?, cameras[obs.camera_id]? with
    | some p3d, some cam =>
      let J := my_jacobian cam p3d
      let row_x := i * 2 + 0
      let row_y := i * 2 + 1
      let cam_col := obs.camera_id * num_cam_params
      let point_col := obs.point_id * 3
      .ok (st.1 ++ jacobian_triplets row_x row_y cam_col J.cam_x_ptr J.cam_y_ptr,
           st.2 ++ jacobian_triplets row_x row_y point_col J.point_x_ptr J.point_y_ptr)
    | _, _ => .error Fault.undefined

/-- The triplet lists `cam_triplets` and `point_triplets` at the end of the
observation loop of `analytic_jacobian` (line 611). -/
def analytic_jacobian_triplets (cameras : List (Camera K)) (points : List (Point3D K))
    (observations : List (Observation K)) :
    Except Fault (List (Triplet K) × List (Triplet K)) :=
  (List.range observations.length).foldlM
    (analytic_jacobian_step cameras points observations) ([], [])

/-- `analytic_jacobian` (lines 560-623) on the camera, point and observation
lists: the pair `(jac_cam, jac_points)`. -/
def analytic_jacobian (cameras : List (Camera K)) (points : List (Point3D K))
    (observations : List (Observation K)) :
    Except Fault (SparseMatrix K × SparseMatrix K) := do
  let camera_cols := cameras.length * num_cam_params
  let point_cols := points.length * 3
  let jacobi_rows := observations.length * 2
  let (cam_triplets, point_triplets) ← analytic_jacobian_triplets cameras points observations
  let jac_cam ← (SparseMatrix.allocate jacobi_rows camera_cols).set_from_triplets cam_triplets
  let jac_points ←
    (SparseMatrix.allocate jacobi_rows point_cols).set_from_triplets point_triplets
  pure (jac_cam, jac_points)

/-- The triplets `matrix_block_column_multiply` pushes for the column `col` of
a block (lines 159-167): the diagonal entry, then for every later column
`row` of the block the two mirrored entries. -/
def block_column_triplets (block block_size : Nat) (columns : List (List K)) (col : Nat) :
    Except Fault (List (Triplet K)) := do
  let d ← dot (columns.getD col []) (columns.getD col [])
  let rest ← (List.range' (col + 1) (block_size - (col + 1))).mapM (fun row => do
    let d ← dot (columns.getD col []) (columns.getD row [])
    pure [(⟨block + row, block + col, d⟩ : Triplet K), ⟨block + col, block + row, d⟩])
  pure (⟨block + col, block + col, d⟩ :: rest.flatten)

/-- The triplets `matrix_block_column_multiply` pushes for one block of columns
(lines 156-167). -/
def block_triplets (A : SparseMatrix K) (block_size block : Nat) :
    Except Fault (List (Triplet K)) := do
  let columns ← (List.range block_size).mapM (fun col => A.column_nonzeros (block + col))
  let ts ← (List.range block_size).mapM (block_column_triplets block block_size columns)
  pure ts.flatten

/-- `matrix_block_column_multiply` (lines 150-171).  The loop over the blocks
`0, block_size, 2 * block_size, ...` below `A.num_cols()` does not end if
`block_size` is zero and the matrix has columns. -/
def matrix_block_column_multiply (A : SparseMatrix K) (block_size : Nat) :
    Except Fault (SparseMatrix K) :=
  if block_size = 0 ∧ 0 < A.cols then .error Fault.undefined
  else do
    let ts ← (List.range ((A.cols + block_size - 1) / block_size)).mapM
      (fun b => block_triplets A block_size (b * block_size))
    (SparseMatrix.allocate A.cols A.cols).set_from_triplets ts.flatten

/-- The block walks of `invert_block_matrix_3x3_inplace` (lines 185-200) and of
`invert_block_matrix_NxN_inplace` (lines 218-232) over the value array: while
the read pointer differs from the end, a block of `len` values is read and
`f` of it is written back.  `fuel` bounds the number of rounds; a walk that
reads past the end of the array, or does not end, has no result. -/
def block_walk (len : Nat) (f : List K → List K) : Nat → List K → Option (List K)
  | _, [] => some []
  | 0, _ :: _ => none
  | fuel + 1, v :: vs =>
    if (v :: vs).length < len ∨ len = 0 then none
    else (block_walk len f fuel ((v :: vs).drop len)).map (fun r => f ((v :: vs).take len) ++ r)

/-- What one round of the walk of `invert_block_matrix_3x3_inplace` writes back
for the nine values it read (lines 188-199). -/
def invert_block_3x3 (eps : K) (block : List K) : List K :=
  let rot : Fin 9 → K := fun i => block.getD i.val 0
  let det := matrix_determinant rot
  if MATH_DOUBLE_EQ eps det 0 then block
  else List.ofFn (matrix_inverse rot det)

/-- `invert_block_matrix_3x3_inplace` (lines 178-201). -/
def invert_block_matrix_3x3_inplace (eps : K) (A : SparseMatrix K) :
    Except Fault (SparseMatrix K) :=
  if A.rows ≠ A.cols then .error (Fault.invalid_argument "Block matrix must be square")
  else if A.num_non_zero ≠ A.rows * 3 then
    .error (Fault.invalid_argument "Invalid number of non-zeros")
  else
    match block_walk 9 (invert_block_3x3 eps) A.values.length A.values with
    | none => .error Fault.undefined
    | some vals => .ok (A.with_values vals)

/-- What one round of the walk of `invert_block_matrix_NxN_inplace` writes back
(lines 221-231): the `blocksize * blocksize` values of the inverted block, a
value that is not finite replaced by zero.  `cholesky_invert_inplace` (from
`sfm/ba_cholesky.h`) and `std::isfinite` are parameters. -/
def invert_block_NxN (cholesky_invert_inplace : List K → Nat → List K) (isfinite : K → Bool)
    (blocksize : Nat) (block : List K) : List K :=
  (List.range (blocksize * blocksize)).map (fun i =>
    let x := (cholesky_invert_inplace block blocksize).getD i 0
    if isfinite x then x else 0)

/-- `invert_block_matrix_NxN_inplace` (lines 208-233). -/
def invert_block_matrix_NxN_inplace (cholesky_invert_inplace : List K → Nat → List K)
    (isfinite : K → Bool) (A : SparseMatrix K) (blocksize : Nat) :
    Except Fault (SparseMatrix K) :=
  if A.rows ≠ A.cols then .error (Fault.invalid_argument "Block matrix must be square")
  else if A.num_non_zero ≠ A.rows * blocksize then
    .error (Fault.invalid_argument "Invalid number of non-zeros")
  else
    match block_walk (blocksize * blocksize)
        (invert_block_NxN cholesky_invert_inplace isfinite blocksize)
        A.values.length A.values with
    | none => .error Fault.undefined
    | some vals => .ok (A.with_values vals)

/-- What `my_solve_schur` reads from outside: the global `trust_region_radius`,
the tolerance of `MATH_DOUBLE_EQ`, the Cholesky inversion, `std::isfinite`
and the conjugate gradient solver `solver.solve(S, rhs, &delta_y, &precond)`,
which returns its status and the new content of `delta_y`. -/
structure SolverEnv (K : Type) where
  trust_region_radius : K
  eps : K
  cholesky_invert_inplace : List K → Nat → List K
  isfinite : K → Bool
  cg_solve : SparseMatrix K → List K → List K → SparseMatrix K → CGStatus × List K

/-- The matrices and vectors `my_solve_schur` builds before it calls the
conjugate gradient solver (lines 647-694).  `B` and `C_damped` are the blocks
after `mult_diagonal`, `C` is `C_damped` after the in-place block inversion. -/
structure SchurSystem (K : Type) where
  B : SparseMatrix K
  C_damped : SparseMatrix K
  C : SparseMatrix K
  E : SparseMatrix K
  ET : SparseMatrix K
  v : List K
  w : List K
  S : SparseMatrix K
  rhs : List K
  precond : SparseMatrix K

/-- Lines 647-694 of `my_solve_schur`: the set-up of the reduced system. -/
def schur_system (env : SolverEnv K) (jac_cams jac_points : SparseMatrix K) (values : List K) :
    Except Fault (SchurSystem K) := do
  let F := values
  let Jc := jac_cams
  let Jp := jac_points
  let JcT := Jc.transpose
  let JpT := Jp.transpose
  let B ← matrix_block_column_multiply Jc camera_block_dim
  let C ← matrix_block_column_multiply Jp 3
  let E ← JcT.multiply Jp
  let v ← JcT.multiply_vector F
  let w ← JpT.multiply_vector F
  let v := negate_self v
  let w := negate_self w
  let C_damped := C.mult_diagonal (1 + 1 / env.trust_region_radius)
  let B := B.mult_diagonal (1 + 1 / env.trust_region_radius)
  let C ← invert_block_matrix_3x3_inplace env.eps C_damped
  let ET := E.transpose
  let EC ← E.multiply C
  let ECET ← EC.multiply ET
  let S ← B.subtract ECET
  let Cw ← C.multiply_vector w
  let ECw ← E.multiply_vector Cw
  let rhs ← vector_subtract v ECw
  let precond ← invert_block_matrix_NxN_inplace env.cholesky_invert_inplace env.isfinite B
    camera_block_dim
  pure { B := B, C_damped := C_damped, C := C, E := E, ET := ET, v := v, w := w, S := S,
         rhs := rhs, precond := precond }

/-- One round of the loops that fill the output vector of `my_solve_schur`
(lines 734-737): `delta_x->at(off + i) = src[i]`.  The read of `src` is not
checked. -/
def fill_step (src : List K) (off : Nat) (delta_x : List K) (i : Nat) : Except Fault (List K) :=
  match src[i]? with
  | some z =>
    if off + i < delta_x.length then .ok (delta_x.set (off + i) z)
    else .error Fault.out_of_range
  | none => .error Fault.undefined

/-- The two loops that fill the output vector of `my_solve_schur` (lines
734-737): `delta_x->at(i) = delta_y[i]`, then
`delta_x->at(jac_cam_cols + i) = delta_z[i]`. -/
def fill_output (delta_x delta_y delta_z : List K) (jac_cam_cols jac_point_cols : Nat) :
    Except Fault (List K) := do
  let delta_x ← (List.range jac_cam_cols).foldlM (fill_step delta_y 0) delta_x
  (List.range jac_point_cols).foldlM (fill_step delta_z jac_cam_cols) delta_x

/-- `my_solve_schur` (lines 627-740).  `delta_x` is the content of the output
vector at entry; the result is the returned status and the content of the
output vector at exit. -/
def my_solve_schur (env : SolverEnv K) (jac_cams jac_points : SparseMatrix K) (values : List K)
    (delta_x : List K) : Except Fault (Status × List K) := do
  let sys ← schur_system env jac_cams jac_points values
  let delta_y : List K := List.replicate jac_cams.cols 0
  let (cg_status, delta_y) := env.cg_solve sys.S sys.rhs delta_y sys.precond
  match cg_status.info with
  | CGInfo.CG_INVALID_INPUT => pure (⟨false, cg_status.num_iterations⟩, delta_x)
  | _ =>
    let status : Status := ⟨true, cg_status.num_iterations⟩
    let ETdy ← sys.ET.multiply_vector delta_y
    let wETdy ← vector_subtract sys.w ETdy
    let delta_z ← sys.C.multiply_vector wETdy
    let jac_cam_cols := jac_cams.cols
    let jac_point_cols := jac_points.cols
    let jac_cols := jac_cam_cols + jac_point_cols
    let delta_x := if delta_x.length ≠ jac_cols then resize delta_x jac_cols else delta_x
    let delta_x ← fill_output delta_x delta_y delta_z jac_cam_cols jac_point_cols
    pure (status, delta_x)

/-- The entry `(c1, c2)` of the full product `A^T * A`. -/
def SparseMatrix.gram (A : SparseMatrix K) (c1 c2 : Nat) : K :=
  ∑ k ∈ Finset.range A.rows, A.entry k c1 * A.entry k c2

/-- The triplets of one column of a block, with the values given by `D`. -/
def block_column_list (D : Nat → Nat → K) (block block_size col : Nat) : List (Triplet K) :=
  ⟨block + col, block + col, D (block + col) (block + col)⟩ ::
    (List.range' (col + 1) (block_size - (col + 1))).flatMap (fun row =>
      [⟨block + row, block + col, D (block + col) (block + row)⟩,
       ⟨block + col, block + row, D (block + col) (block + row)⟩])

/-- The triplets of `m` blocks of `block_size` columns, with the values given
by `D`. -/
def block_list (D : Nat → Nat → K) (block_size m : Nat) : List (Triplet K) :=
  (List.range m).flatMap (fun b =>
    (List.range block_size).flatMap (block_column_list D (b * block_size) block_size))

/-- The columns of a block have the same stored rows: the test that makes
the packed dot products of `matrix_block_column_multiply` meaningful. -/
def BlockUniform (A : SparseMatrix K) (bs m : ℕ) : Prop :=
  ∀ b i j r, b < m → i < bs → j < bs → r < A.rows →
    A.stored r (b * bs + i) = A.stored r (b * bs + j)

/-! ### Block diagonal matrices, dense views and a worked example -/

/-- A square matrix of `m` diagonal blocks of size `bs` that stores exactly
the positions of its diagonal blocks. -/
def BlockDiagonal (M : SparseMatrix K) (bs m : Nat) : Prop :=
  M.rows = m * bs ∧ M.cols = m * bs
    ∧ ∀ b1 b2 i j, b1 < m → b2 < m → i < bs → j < bs →
      (M.stored (b1 * bs + i) (b2 * bs + j) = true ↔ b1 = b2)

/-- The part of the value array that holds the diagonal block `b` of a block
diagonal matrix: the columns of the block one after the other. -/
def SparseMatrix.block_values (M : SparseMatrix K) (bs b : Nat) : List K :=
  (List.range bs).flatMap (fun j => (List.range' (b * bs) bs).map (fun r => M.value r (b * bs + j)))

/-- The entries of a sparse matrix as a matrix of a given shape. -/
def SparseMatrix.toMatrix (A : SparseMatrix K) (m n : Nat) : Matrix (Fin m) (Fin n) K :=
  Matrix.of (fun i j => A.entry i.val j.val)

/-- The entries of a dense vector as a vector of a given size. -/
def toVector (v : List K) (n : Nat) : Fin n → K := fun i => v.getD i.val 0

/-- The diagonal block `b` of a matrix of 3x3 blocks, row-major. -/
def SparseMatrix.block3 (A : SparseMatrix K) (b : Nat) : Fin 9 → K :=
  fun k => A.entry (b * 3 + k.val / 3) (b * 3 + k.val % 3)

/-- A conjugate gradient solver that stops at its start vector and reports
convergence, as a solver does whose start vector already solves the system. -/
def cg_at_start (_S : SparseMatrix K) (_rhs x : List K) (_precond : SparseMatrix K) :
    CGStatus × List K :=
  (⟨0, CGInfo.CG_CONVERGENCE⟩, x)

/-- An environment of `my_solve_schur` with trust region radius `lam`, the
tolerance `DBL_EPSILON = 2^-52`, every value finite, and stand-ins for the
Cholesky inversion and the conjugate gradient solver. -/
def example_env (lam : K) : SolverEnv K :=
  ⟨lam, 1 / 2 ^ 52, fun block _ => block, fun _ => true, cg_at_start⟩

/-- A matrix with every position stored that holds `d` on its diagonal and
zero elsewhere. -/
def diagonal_jacobian (rows cols : Nat) (d : K) : SparseMatrix K :=
  ⟨rows, cols, fun _ _ => true, fun r c => if r = c then d else 0⟩

/-! ### The Levenberg-Marquardt controller -/

/-- The constant `lm_max_iterations` (line 56). -/
def lm_max_iterations : Nat := 100

/-- The global `lm_mse_threshold` (line 65), never written: `1e-16`. -/
def lm_mse_threshold : K := 1 / 10 ^ 16

/-- The global `lm_delta_threshold` (line 66), never written: `1e-8`. -/
def lm_delta_threshold : K := 1 / 10 ^ 8

/-- The macro `TRUST_REGION_RADIUS_INIT` (line 51). -/
def TRUST_REGION_RADIUS_INIT : K := 1000

/-- The macro `TRUST_REGION_RADIUS_DECREMENT` (line 52). -/
def TRUST_REGION_RADIUS_DECREMENT : K := 1 / 10

/-- The macro `TRUST_REGION_RADIUS_GAIN` (line 53). -/
def TRUST_REGION_RADIUS_GAIN : K := 10

/-- A result of the first part of the embedding as a result of the second:
`none` becomes the fault `access`. -/
def of_access {α : Type} (o : Option α) : Except Fault α :=
  match o with
  | some a => .ok a
  | none => .error Fault.access

/-- A `double` of the controller of `lm_optimization`: a finite number, one of
the two infinities, or NaN. -/
inductive Extended (K : Type) where
  /-- A finite number. -/
  | finite (x : K)
  /-- The value `+inf`. -/
  | pos_inf
  /-- The value `-inf`. -/
  | neg_inf
  /-- The value NaN. -/
  | nan
  deriving DecidableEq

/-- The difference `a - b` of two `double` values: `inf - inf` is NaN, and so
is every difference with NaN. -/
def Extended.sub (a b : Extended K) : Extended K :=
  match a, b with
  | .finite x, .finite y => .finite (x - y)
  | .finite _, .pos_inf => .neg_inf
  | .finite _, .neg_inf => .pos_inf
  | .pos_inf, .finite _ => .pos_inf
  | .pos_inf, .neg_inf => .pos_inf
  | .neg_inf, .finite _ => .neg_inf
  | .neg_inf, .pos_inf => .neg_inf
  | _, _ => .nan

/-- The quotient `a / b` of two `double` values: `0 / 0` and `inf / inf` are
NaN, `x / 0` is an infinity for `x` other than zero, `x / inf` is zero.  The
two zeros of `double` are not told apart: a divisor zero is taken to be
`+0.0` (the divisors of the controller are sums of squares), and the sign of
a quotient zero is dropped. -/
def Extended.div (a b : Extended K) : Extended K :=
  match a, b with
  | .finite x, .finite y =>
    if y = 0 then (if x = 0 then .nan else if 0 < x then .pos_inf else .neg_inf)
    else .finite (x / y)
  | .finite _, .pos_inf => .finite 0
  | .finite _, .neg_inf => .finite 0
  | .pos_inf, .finite y => if y < 0 then .neg_inf else .pos_inf
  | .neg_inf, .finite y => if y < 0 then .pos_inf else .neg_inf
  | _, _ => .nan

/-- The comparison `a < b` of two `double` values; it does not hold if one of
them is NaN. -/
def Extended.lt (a b : Extended K) : Bool :=
  match a, b with
  | .finite x, .finite y => decide (x < y)
  | .finite _, .pos_inf => true
  | .neg_inf, .finite _ => true
  | .neg_inf, .pos_inf => true
  | _, _ => false

/-- The comparison `a <= b` of two `double` values; it does not hold if one of
them is NaN. -/
def Extended.le (a b : Extended K) : Bool :=
  match a, b with
  | .finite x, .finite y => decide (x ≤ y)
  | .finite _, .pos_inf => true
  | .neg_inf, .finite _ => true
  | .neg_inf, .pos_inf => true
  | .pos_inf, .pos_inf => true
  | .neg_inf, .neg_inf => true
  | _, _ => false

/-- `compute_mse` (lines 417-422) of a vector of finite values: the sum of the
squares, accumulated from zero, divided by the integer `vector_f.size() / 2`.
If that integer is zero the quotient is `0.0 / 0`, NaN, for the empty
vector. -/
def compute_mse (vector_f : List K) : Extended K :=
  let mse := vector_f.foldl (fun mse x => mse + x * x) 0
  Extended.div (.finite mse) (.finite ((vector_f.length / 2 : Nat) : K))

/-- Whether the values of a residual vector, or the two values stored for one
observation, are finite numbers, infinities, or NaN. -/
inductive Kind where
  | finite
  | infinite
  | nan
  deriving DecidableEq

/-- The kind of the two values that lines 391-408 of
`compute_reprojection_errors` store for one observation.  Line 399 computes
the depth `rp[2]` and lines 400-401 divide by it.  For a depth other than zero
both values are finite.  For the depth zero `rp[0]` and `rp[1]` are `x / 0`:
an infinity if the numerator is not zero, NaN if it is.  If one of them is
NaN, so are `radius2`, `factor` and both values.  If both are infinite,
`radius2` is `+inf`, and `factor = 1.0 + radius2 * (dist[0] + dist[1] *
radius2)` is an infinity if `dist[1]` is not zero and NaN if it is
(`0 * inf`); the products with the focal length are infinities if the focal
length is not zero and NaN if it is.  The observed pixel is finite and
changes nothing.  For an observation that names no camera or no point the
evaluator does not return; the kind is of no account then. -/
def observation_kind (lm : Libm K) (delta_x : Option (List K)) (cameras : List (Camera K))
    (points : List (Point3D K)) (obs : Observation K) : Kind :=
  match reprojection_operands lm delta_x cameras points obs with
  | none => Kind.finite
  | some (cam, p3d) =>
    if camera_depth cam p3d ≠ 0 then Kind.finite
    else if camera_x cam p3d ≠ 0 ∧ camera_y cam p3d ≠ 0 ∧ cam.distortion 1 ≠ 0
        ∧ cam.focal_length ≠ 0 then Kind.infinite
    else Kind.nan

/-- The kind of the values that `compute_reprojection_errors` stores: NaN if
the values of some observation are NaN, else infinite if those of some
observation are, else finite. -/
def residual_kind (lm : Libm K) (delta_x : Option (List K)) (cameras : List (Camera K))
    (points : List (Point3D K)) (observations : List (Observation K)) : Kind :=
  if observations.any
      (fun obs => decide (observation_kind lm delta_x cameras points obs = Kind.nan)) then
    Kind.nan
  else if observations.any
      (fun obs => decide (observation_kind lm delta_x cameras points obs = Kind.infinite)) then
    Kind.infinite
  else Kind.finite

/-- The value of `compute_mse(F)` for a residual vector `F` as
`lm_optimization` computes it (lines 758 and 791), `kind` being the kind of
the values of `F`.  The square of an infinity is `+inf` and that of NaN is
NaN, so the sum of the squares, and its quotient by the number of
observations, is NaN if a value is NaN and `+inf` if a value is infinite and
none is NaN. -/
def residual_mse (kind : Kind) (vector_f : List K) : Extended K :=
  match kind with
  | Kind.finite => compute_mse vector_f
  | Kind.infinite => Extended.pos_inf
  | Kind.nan => Extended.nan

/-- What `lm_optimization` reads from outside: the C math library and what
`my_solve_schur` reads (its `trust_region_radius` is overwritten by the
controller before every solve). -/
structure LMEnv (K : Type) where
  lm : Libm K
  solver : SolverEnv K

/-- The global variables at the entry of `lm_optimization` (lines 47-62).  The
global lists `cameras`, `points`, `observations` are read by
`analytic_jacobian`; `none` stands for a global list that is the very object
the corresponding argument of `lm_optimization` points to (as in `main`),
`some l` for another object that holds `l`. -/
structure LMGlobals (K : Type) where
  cameras : Option (List (Camera K))
  points : Option (List (Point3D K))
  observations : Option (List (Observation K))
  num_lm_iterations : Int
  num_lm_successful_iterations : Int
  num_lm_unsuccessful_iterations : Int

/-- The variables of the loop of `lm_optimization`: the lists behind the
arguments `cameras` and `points`, the locals `F`, `F_new`, `current_mse` and
the globals the loop writes. -/
structure LMState (K : Type) where
  cameras : List (Camera K)
  points : List (Point3D K)
  F : List K
  F_new : List K
  current_mse : Extended K
  trust_region_radius : K
  num_lm_iterations : Int
  num_lm_successful_iterations : Int
  num_lm_unsuccessful_iterations : Int

/-- Lines 784-800 of `lm_optimization`: the values of `F_new`, `new_mse`,
`delta_mse` and `delta_mse_ratio` after the trial evaluation.  The ratio is
read only on a successful iteration. -/
def lm_trial (lm : Libm K) (observations : List (Observation K)) (st : LMState K)
    (success : Bool) (delta_x : List K) :
    Except Fault (List K × Extended K × Extended K × Extended K) :=
  if success then do
    let F_new ← of_access
      (compute_reprojection_errors lm st.F_new (some delta_x) st.cameras st.points observations)
    let new_mse := residual_mse
      (residual_kind lm (some delta_x) st.cameras st.points observations) F_new
    pure (F_new, new_mse, Extended.sub st.current_mse new_mse,
      Extended.sub (.finite 1) (Extended.div new_mse st.current_mse))
  else pure (st.F_new, st.current_mse, .finite 0, .finite 1)

/-- Lines 803-850 of `lm_optimization`: the state after the iteration, the flag
`successful_iteration`, and whether the loop is left through the `break` of
line 831. -/
def lm_update (lm : Libm K) (st : LMState K) (delta_x F_new : List K)
    (new_mse delta_mse delta_mse_ratio : Extended K) :
    Except Fault (LMState K × Bool × Bool) :=
  let successful_iteration := Extended.lt (.finite 0) delta_mse
  if successful_iteration then do
    let (cameras, points) ← of_access (update_parameters lm delta_x st.cameras st.points)
    let st1 : LMState K :=
      { cameras := cameras
        points := points
        F := F_new
        F_new := st.F
        current_mse := new_mse
        trust_region_radius := st.trust_region_radius
        num_lm_iterations := st.num_lm_iterations + 1
        num_lm_successful_iterations := st.num_lm_successful_iterations + 1
        num_lm_unsuccessful_iterations := st.num_lm_unsuccessful_iterations }
    if Extended.lt delta_mse_ratio (.finite lm_delta_threshold) then pure (st1, true, true)
    else
      pure ({ st1 with trust_region_radius := st1.trust_region_radius * TRUST_REGION_RADIUS_GAIN },
        true, false)
  else
    pure ({ st with
            F_new := F_new
            num_lm_iterations := st.num_lm_iterations + 1
            num_lm_unsuccessful_iterations := st.num_lm_unsuccessful_iterations + 1
            trust_region_radius := st.trust_region_radius * TRUST_REGION_RADIUS_DECREMENT },
      false, false)

/-- The record of one executed iteration of the loop of `lm_optimization`. -/
structure LMIteration (K : Type) where
  before : LMState K
  solve_success : Bool
  delta_x : List K
  new_mse : Extended K
  successful : Bool
  stop : Bool
  after : LMState K

/-- Lines 775-850 of `lm_optimization`: one iteration after the test of the
absolute threshold.  `analytic_jacobian` reads the global lists, the rest
reads the lists behind the arguments.  In an iteration that starts from an
error that is not finite the Jacobian and the solver of the code work on
values that are not finite, those of the embedding on the field quotients;
what the solver returns is a parameter in both. -/
def lm_iteration (env : LMEnv K) (g : LMGlobals K) (observations : List (Observation K))
    (st : LMState K) : Except Fault (LMIteration K) := do
  let (Jc, Jp) ← analytic_jacobian (g.cameras.getD st.cameras) (g.points.getD st.points)
    (g.observations.getD observations)
  let (cg_status, delta_x) ← my_solve_schur
    { env.solver with trust_region_radius := st.trust_region_radius } Jc Jp st.F []
  let (F_new, new_mse, delta_mse, delta_mse_ratio) ←
    lm_trial env.lm observations st cg_status.success delta_x
  let (after, successful, stop) ← lm_update env.lm st delta_x F_new new_mse delta_mse
    delta_mse_ratio
  pure { before := st, solve_success := cg_status.success, delta_x := delta_x,
         new_mse := new_mse, successful := successful, stop := stop, after := after }

/-- The three ways out of the loop of `lm_optimization`: the `break` of line
772, of line 831 and of line 856. -/
inductive LMExit where
  | mse_threshold
  | delta_threshold
  | max_iterations
  deriving DecidableEq, Repr

/-- A run of the loop of `lm_optimization`: the executed iterations in order,
the state when the loop is left and the exit taken. -/
structure LMRun (K : Type) where
  iterations : List (LMIteration K)
  final : LMState K
  exit : LMExit

/-- The loop of `lm_optimization` (lines 767-858) from the head of iteration
`lm_iter` on.  `fuel` bounds the number of further iterations; the cap of
line 853 leaves the loop before `lm_max_iterations - 1 - lm_iter` is used up. -/
def lm_loop (env : LMEnv K) (g : LMGlobals K) (observations : List (Observation K)) :
    Nat → Nat → LMState K → Except Fault (LMRun K)
  | fuel, lm_iter, st =>
    if Extended.lt st.current_mse (.finite lm_mse_threshold) then
      .ok ⟨[], st, LMExit.mse_threshold⟩
    else
      match lm_iteration env g observations st with
      | .error e => .error e
      | .ok it =>
        if it.stop then .ok ⟨[it], it.after, LMExit.delta_threshold⟩
        else if lm_iter + 1 ≥ lm_max_iterations then .ok ⟨[it], it.after, LMExit.max_iterations⟩
        else
          match fuel with
          | 0 => .error Fault.undefined
          | fuel + 1 =>
            match lm_loop env g observations fuel (lm_iter + 1) it.after with
            | .error e => .error e
            | .ok run => .ok { run with iterations := it :: run.iterations }

/-- What `lm_optimization` leaves behind: the run of its loop, whose final state
holds the lists, the counters and the trust region radius, and the globals
`initial_mse` and `final_mse`. -/
structure LMResult (K : Type) where
  run : LMRun K
  initial_mse : Extended K
  final_mse : Extended K

/-- `lm_optimization` (lines 747-861).  The output to `std::cout` is left out. -/
def lm_optimization (env : LMEnv K) (g : LMGlobals K) (cameras : List (Camera K))
    (points : List (Point3D K)) (observations : List (Observation K)) :
    Except Fault (LMResult K) := do
  let F ← of_access (compute_reprojection_errors env.lm [] none cameras points observations)
  let current_mse := residual_mse (residual_kind env.lm none cameras points observations) F
  let st : LMState K :=
    { cameras := cameras
      points := points
      F := F
      F_new := []
      current_mse := current_mse
      trust_region_radius := TRUST_REGION_RADIUS_INIT
      num_lm_iterations := g.num_lm_iterations
      num_lm_successful_iterations := g.num_lm_successful_iterations
      num_lm_unsuccessful_iterations := g.num_lm_unsuccessful_iterations }
  let run ← lm_loop env g observations (lm_max_iterations - 1) 0 st
  pure { run := run, initial_mse := current_mse, final_mse := run.final.current_mse }

/-- The committed values of the mean squared error of a run: `current_mse` at
the start of each executed iteration and at the exit of the loop. -/
def LMRun.committed (run : LMRun K) : List (Extended K) :=
  run.iterations.map (fun it => it.before.current_mse) ++ [run.final.current_mse]

/-! ### Further notions for the statements -/

/-- The rows of a row-major 3x3 matrix are orthonormal: `m * m^T = I`. -/
def orthonormal (m : Fin 9 → K) : Prop :=
  m 0 * m 0 + m 1 * m 1 + m 2 * m 2 = 1
    ∧ m 3 * m 3 + m 4 * m 4 + m 5 * m 5 = 1
    ∧ m 6 * m 6 + m 7 * m 7 + m 8 * m 8 = 1
    ∧ m 0 * m 3 + m 1 * m 4 + m 2 * m 5 = 0
    ∧ m 0 * m 6 + m 1 * m 7 + m 2 * m 8 = 0
    ∧ m 3 * m 6 + m 4 * m 7 + m 5 * m 8 = 0

/-- The content of `*A` when control leaves `invert_block_matrix_3x3_inplace`
(lines 178-201), by return or by exception: both `throw` statements come
before the first write.  `none` where the walk leaves the array. -/
def invert_block_matrix_3x3_inplace_leaves (eps : K) (A : SparseMatrix K) :
    Option (SparseMatrix K) :=
  if A.rows ≠ A.cols then some A
  else if A.num_non_zero ≠ A.rows * 3 then some A
  else
    match block_walk 9 (invert_block_3x3 eps) A.values.length A.values with
    | none => none
    | some vals => some (A.with_values vals)

/-- The content of `*A` when control leaves `invert_block_matrix_NxN_inplace`
(lines 208-233), by return or by exception. -/
def invert_block_matrix_NxN_inplace_leaves (cholesky_invert_inplace : List K → Nat → List K)
    (isfinite : K → Bool) (A : SparseMatrix K) (blocksize : Nat) : Option (SparseMatrix K) :=
  if A.rows ≠ A.cols then some A
  else if A.num_non_zero ≠ A.rows * blocksize then some A
  else
    match block_walk (blocksize * blocksize)
        (invert_block_NxN cholesky_invert_inplace isfinite blocksize)
        A.values.length A.values with
    | none => none
    | some vals => some (A.with_values vals)

/-- A square matrix of size `n` with every position stored and every value
one: a single block, with determinant zero when `n = 3`. -/
def ones_block (n : Nat) : SparseMatrix K := ⟨n, n, fun _ _ => true, fun _ _ => 1⟩

/-- A 3x3 matrix with every position stored that is `c` times the identity. -/
def scaled_block (c : K) : SparseMatrix K :=
  ⟨3, 3, fun _ _ => true, fun i j => if i = j then c else 0⟩

/-- A stand-in for `cholesky_invert_inplace` on 2x2 blocks whose result has the
value 2 in its first place and ones elsewhere. -/
def cholesky_first_bad (_block : List K) (_n : Nat) : List K := [2, 1, 1, 1]

/-- A stand-in for `std::isfinite` that takes the values above one for the
values that are not finite. -/
def isfinite_upto_one (x : K) : Bool := decide (x ≤ 1)

/-- A conjugate gradient solver that reports invalid input and leaves its
vector as it is. -/
def cg_invalid_input (_S : SparseMatrix K) (_rhs x : List K) (_precond : SparseMatrix K) :
    CGStatus × List K :=
  (⟨0, CGInfo.CG_INVALID_INPUT⟩, x)

/-- An environment of `lm_optimization`: the stand-ins of `libm_at_zero` and of
`example_env` with the given conjugate gradient solver. -/
def example_lm_env
    (cg_solve : SparseMatrix K → List K → List K → SparseMatrix K → CGStatus × List K) :
    LMEnv K :=
  ⟨libm_at_zero, ⟨1000, 1 / 2 ^ 52, fun block _ => block, fun _ => true, cg_solve⟩⟩

/-- The globals at the entry of `lm_optimization` in `main`: the arguments are
the global lists and the counters are zero. -/
def main_globals : LMGlobals K := ⟨none, none, none, 0, 0, 0⟩

/-- The point `(0, 0, z)` on the optical axis of the scenario camera. -/
def axis_point (z : K) : Point3D K := ⟨![0, 0, z]⟩

/-- An observation of point 0 in camera 0 at the pixel `(r, 0)`. -/
def axis_observation (r : K) : Observation K := ⟨![r, 0], 0, 0⟩

/-- The state of `lm_optimization` at the head of its loop on the scenario
camera, the point `(0, 0, 200)` and the pixel `(1, 0)`: the residual is
`(-1, 0)`, its mean squared error 1. -/
def axis_state : LMState K :=
  ⟨[scenario_camera], [axis_point 200], [-1, 0], [], .finite 1, 1000, 0, 0, 0⟩

/-- The fault a call ended with, if it did not return. -/
def thrown {α : Type} (r : Except Fault α) : Option Fault :=
  match r with
  | .error e => some e
  | .ok _ => none

/-! ### The rounding of `double` additions -/

/-- The integer nearest to a rational, the even one of the two if it lies
halfway between them. -/
def round_half_even (q : ℚ) : ℤ :=
  let f := ⌊q⌋
  if q - f < 1 / 2 then f
  else if 1 / 2 < q - f then f + 1
  else if f % 2 = 0 then f
  else f + 1

/-- The search of `floor_log2`: halve while the value is at least 2, double
while it is below 1, counting the steps. -/
def floor_log2_search : Nat → ℚ → ℤ
  | 0, _ => 0
  | fuel + 1, x =>
    if 2 ≤ x then floor_log2_search fuel (x / 2) + 1
    else if x < 1 then floor_log2_search fuel (x * 2) - 1
    else 0

/-- The exponent `e` with `2^e <= x < 2^(e+1)` of a positive rational.  The
search takes fewer steps than the sum of numerator and denominator. -/
def floor_log2 (x : ℚ) : ℤ := floor_log2_search (x.num.natAbs + x.den) x

/-- The `double` a real value is rounded to (IEEE 754 binary64, round to
nearest, ties to even): the nearest multiple of `2^(e-52)` where
`2^e <= |x| < 2^(e+1)`.  The exponent range is taken as unbounded: no overflow
and no subnormal numbers. -/
def round_double (x : ℚ) : ℚ :=
  if x = 0 then 0
  else
    let ulp : ℚ := 2 ^ (floor_log2 |x| - 52)
    (round_half_even (x / ulp) : ℚ) * ulp

/-- The sum `a + b` of two `double` values as the machine computes it. -/
def double_add (a b : ℚ) : ℚ := round_double (a + b)

/-- `update_point` (lines 289-295) with its three additions computed in
`double`. -/
def update_point_double (pt : Point3D ℚ) (update : Nat → ℚ) : Point3D ℚ :=
  ⟨![double_add (pt.pos 0) (update 0), double_add (pt.pos 1) (update 1),
    double_add (pt.pos 2) (update 2)]⟩

/-- The six additions of `update_camera` (lines 268-274) computed in `double`:
the focal length, the distortion coefficients and the translation it writes.
The rotation of lines 276-280 is left out: the camera keeps the one it has. -/
def update_camera_double (cam : Camera ℚ) (update : Nat → ℚ) : Camera ℚ :=
  { focal_length := double_add cam.focal_length (update 0)
    distortion :=
      ![double_add (cam.distortion 0) (update 1), double_add (cam.distortion 1) (update 2)]
    translation :=
      ![double_add (cam.translation 0) (update 3), double_add (cam.translation 1) (update 4),
        double_add (cam.translation 2) (update 5)]
    rotation := cam.rotation }

/-- The update vector whose only entry that is not zero is `update[i] = x`. -/
def single_update (i : Nat) (x : ℚ) : Nat → ℚ := fun j => if j = i then x else 0

/-! ### Further examples -/

/-- A 4x4 matrix that stores the first three rows of every column, twelve
values, each of them one. -/
def three_of_four : SparseMatrix K := ⟨4, 4, fun r _ => decide (r < 3), fun _ _ => 1⟩

/-- A 3x3 matrix that stores the first two rows of every column, six values,
each of them one. -/
def two_of_three : SparseMatrix K := ⟨3, 3, fun r _ => decide (r < 2), fun _ _ => 1⟩

/-- The globals a call of `lm_optimization` leaves behind for a next call on
the same lists: the counters as the call left them. -/
def LMResult.globals (res : LMResult K) : LMGlobals K :=
  ⟨none, none, none, res.run.final.num_lm_iterations,
    res.run.final.num_lm_successful_iterations, res.run.final.num_lm_unsuccessful_iterations⟩

/-- The residual vector and the error of a state are those of its cameras and
points: `F` is what `compute_reprojection_errors` returns for them without an
update vector and `current_mse` is `compute_mse` of it. -/
def LMState.consistent (lm : Libm K) (observations : List (Observation K)) (st : LMState K) :
    Prop :=
  compute_reprojection_errors lm [] none st.cameras st.points observations = some st.F
    ∧ residual_mse (residual_kind lm none st.cameras st.points observations) st.F
        = st.current_mse

/-- The point `(x, 0, 0)`, in the plane through the optical centre of the
scenario camera: its depth in that camera is zero. -/
def plane_point (x : K) : Point3D K := ⟨![x, 0, 0]⟩

/-- The scenario camera with the second distortion coefficient set to one. -/
def distorted_camera : Camera K :=
  { focal_length := 1
    distortion := ![0, 1]
    translation := ![0, 0, 0]
    rotation := ![1, 0, 0, 0, 1, 0, 0, 0, 1] }

/-- The point `(1, 1, 0)`: its depth in the scenario camera is zero and its
other two camera coordinates are not. -/
def diagonal_point : Point3D K := ⟨![1, 1, 0]⟩

/-- Globals in which the global observation list is another object than the
list passed to `lm_optimization` and holds two observations of point 0 in
camera 0; the camera and point lists are the passed ones and the counters are
zero. -/
def other_observations_globals : LMGlobals K :=
  ⟨none, none, some [axis_observation 1, axis_observation 1], 0, 0, 0⟩

/-- Globals in which the global point list is another object than the list
passed to `lm_optimization` and holds the point `(0, 0, 400)`; the camera and
observation lists are the passed ones and the counters are zero. -/
def other_point_globals : LMGlobals K := ⟨none, some [axis_point 400], none, 0, 0, 0⟩

end SparseDefs

section Algebra
variable {K : Type} [Field K]

theorem predicted_pixel_eq (cam : Camera K) (point : Point3D K) :
    predicted_pixel cam point = pixel_of cam.focal_length (cam.distortion 0) (cam.distortion 1)
      (camera_x cam point) (camera_y cam point) (camera_depth cam point) := by
  simp only [predicted_pixel, project, radial_distort, zero_add, pixel_of, camera_x, camera_y,
    camera_depth]

theorem my_jacobian_eq (cam : Camera K) (point : Point3D K) :
    my_jacobian cam point =
      (let f := cam.focal_length
       let k0 := cam.distortion 0
       let k1 := cam.distortion 1
       let R := cam.rotation
       let X := point.pos
       let xc := camera_x cam point
       let yc := camera_y cam point
       let zc := camera_depth cam point
       let r2 := xc / zc * (xc / zc) + yc / zc * (yc / zc)
       let g := pixel_grad f k0 k1 xc yc zc
       let rx := R 0 * X 0 + R 1 * X 1 + R 2 * X 2
       let ry := R 3 * X 0 + R 4 * X 1 + R 5 * X 2
       let rz := R 6 * X 0 + R 7 * X 1 + R 8 * X 2
       { cam_x_ptr := ![(1 + (k0 + k1 * r2) * r2) * (xc / zc), f * (xc / zc) * r2,
            f * (xc / zc) * (r2 * r2), g.1.1 * 1, g.1.2.1 * 1, g.1.2.2 * 1,
            g.1.2.1 * -rz + g.1.2.2 * ry, g.1.1 * rz + g.1.2.2 * -rx,
            g.1.1 * -ry + g.1.2.1 * rx]
         cam_y_ptr := ![(1 + (k0 + k1 * r2) * r2) * (yc / zc), f * (yc / zc) * r2,
            f * (yc / zc) * (r2 * r2), g.2.1 * 1, g.2.2.1 * 1, g.2.2.2 * 1,
            g.2.2.1 * -rz + g.2.2.2 * ry, g.2.1 * rz + g.2.2.2 * -rx,
            g.2.1 * -ry + g.2.2.1 * rx]
         point_x_ptr := ![g.1.1 * R 0 + g.1.2.1 * R 3 + g.1.2.2 * R 6,
            g.1.1 * R 1 + g.1.2.1 * R 4 + g.1.2.2 * R 7,
            g.1.1 * R 2 + g.1.2.1 * R 5 + g.1.2.2 * R 8]
         point_y_ptr := ![g.2.1 * R 0 + g.2.2.1 * R 3 + g.2.2.2 * R 6,
            g.2.1 * R 1 + g.2.2.1 * R 4 + g.2.2.2 * R 7,
            g.2.1 * R 2 + g.2.2.1 * R 5 + g.2.2.2 * R 8] }) := rfl

theorem my_jacobian_intrinsics_affine (cam : Camera K) (point : Point3D K) (d : K)
    (_hz : camera_depth cam point ≠ 0) :
    (predicted_pixel { cam with focal_length := cam.focal_length + d } point
        = ((predicted_pixel cam point).1 + d * (my_jacobian cam point).cam_x_ptr 0,
           (predicted_pixel cam point).2 + d * (my_jacobian cam point).cam_y_ptr 0))
    ∧ (predicted_pixel
          { cam with distortion := Function.update cam.distortion 0 (cam.distortion 0 + d) } point
        = ((predicted_pixel cam point).1 + d * (my_jacobian cam point).cam_x_ptr 1,
           (predicted_pixel cam point).2 + d * (my_jacobian cam point).cam_y_ptr 1))
    ∧ (predicted_pixel
          { cam with distortion := Function.update cam.distortion 1 (cam.distortion 1 + d) } point
        = ((predicted_pixel cam point).1 + d * (my_jacobian cam point).cam_x_ptr 2,
           (predicted_pixel cam point).2 + d * (my_jacobian cam point).cam_y_ptr 2)) := by
  simp only [predicted_pixel_eq, my_jacobian_eq]
  have e1 : camera_x { cam with focal_length := cam.focal_length + d } point = camera_x cam point := rfl
  have e2 : camera_y { cam with focal_length := cam.focal_length + d } point = camera_y cam point := rfl
  have e3 : camera_depth { cam with focal_length := cam.focal_length + d } point = camera_depth cam point := rfl
  have e4 : ∀ g, camera_x { cam with distortion := g } point = camera_x cam point := fun _ => rfl
  have e5 : ∀ g, camera_y { cam with distortion := g } point = camera_y cam point := fun _ => rfl
  have e6 : ∀ g, camera_depth { cam with distortion := g } point = camera_depth cam point := fun _ => rfl
  simp only [e1, e2, e3, e4, e5, e6]
  generalize camera_x cam point = xc
  generalize camera_y cam point = yc
  generalize camera_depth cam point = zc
  simp only [pixel_of, Prod.mk.injEq, Matrix.cons_val_zero, Matrix.cons_val_one, Matrix.head_cons,
    Matrix.cons_val_two, Matrix.tail_cons, Function.update_same]
  have h10 : (1 : Fin 2) ≠ 0 := by decide
  have h01 : (0 : Fin 2) ≠ 1 := by decide
  simp only [Function.update_noteq h10, Function.update_noteq h01]
  refine ⟨⟨?_, ?_⟩, ⟨?_, ?_⟩, ⟨?_, ?_⟩⟩ <;> ring
end Algebra

section Calculus

/-- Derivative of a quotient, in the shape `my_jacobian` uses:
`x_deriv_xc = 1/zc` and `x_deriv_zc = -x/zc`. -/
theorem hasDerivAt_ratio (n d : ℝ → ℝ) (n' d' s0 : ℝ) (hn : HasDerivAt n n' s0)
    (hd : HasDerivAt d d' s0) (h0 : d s0 ≠ 0) :
    HasDerivAt (fun s => n s / d s) (1 / d s0 * n' + -(n s0 / d s0) / d s0 * d') s0 := by
  refine (hn.div hd h0).congr_deriv ?_
  field_simp
  ring

/-- Closed form of `pixel_grad`. -/
theorem pixel_grad_eq {K : Type} [Field K] (f k0 k1 xc yc zc : K) :
    pixel_grad f k0 k1 xc yc zc =
      ((f * (xc / zc) * ((k0 + 2 * k1 * (xc / zc * (xc / zc) + yc / zc * (yc / zc)))
            * (2 * (xc / zc) / zc))
          + f * (1 + (k0 + k1 * (xc / zc * (xc / zc) + yc / zc * (yc / zc)))
            * (xc / zc * (xc / zc) + yc / zc * (yc / zc))) * (1 / zc),
        f * (xc / zc) * ((k0 + 2 * k1 * (xc / zc * (xc / zc) + yc / zc * (yc / zc)))
            * (2 * (yc / zc) / zc))
          + f * (1 + (k0 + k1 * (xc / zc * (xc / zc) + yc / zc * (yc / zc)))
            * (xc / zc * (xc / zc) + yc / zc * (yc / zc))) * 0,
        f * (xc / zc) * ((k0 + 2 * k1 * (xc / zc * (xc / zc) + yc / zc * (yc / zc)))
            * (-2 * (xc / zc * (xc / zc) + yc / zc * (yc / zc)) / zc))
          + f * (1 + (k0 + k1 * (xc / zc * (xc / zc) + yc / zc * (yc / zc)))
            * (xc / zc * (xc / zc) + yc / zc * (yc / zc))) * (-(xc / zc) / zc)),
       (f * (yc / zc) * ((k0 + 2 * k1 * (xc / zc * (xc / zc) + yc / zc * (yc / zc)))
            * (2 * (xc / zc) / zc))
          + f * (1 + (k0 + k1 * (xc / zc * (xc / zc) + yc / zc * (yc / zc)))
            * (xc / zc * (xc / zc) + yc / zc * (yc / zc))) * 0,
        f * (yc / zc) * ((k0 + 2 * k1 * (xc / zc * (xc / zc) + yc / zc * (yc / zc)))
            * (2 * (yc / zc) / zc))
          + f * (1 + (k0 + k1 * (xc / zc * (xc / zc) + yc / zc * (yc / zc)))
            * (xc / zc * (xc / zc) + yc / zc * (yc / zc))) * (1 / zc),
        f * (yc / zc) * ((k0 + 2 * k1 * (xc / zc * (xc / zc) + yc / zc * (yc / zc)))
            * (-2 * (xc / zc * (xc / zc) + yc / zc * (yc / zc)) / zc))
          + f * (1 + (k0 + k1 * (xc / zc * (xc / zc) + yc / zc * (yc / zc)))
            * (xc / zc * (xc / zc) + yc / zc * (yc / zc))) * (-(yc / zc) / zc))) := rfl

/-- Chain rule through the projection: if the camera-frame coordinates are
differentiable functions of a parameter and the depth is not zero, the pixel
is differentiable and its derivative is the one `my_jacobian` forms with
`u_deriv_xc`, `u_deriv_yc`, `u_deriv_zc` (and the `v` counterparts). -/
theorem pixel_of_hasDerivAt (f k0 k1 : ℝ) (xc yc zc : ℝ → ℝ) (xc' yc' zc' s0 : ℝ)
    (hx : HasDerivAt xc xc' s0) (hy : HasDerivAt yc yc' s0) (hz : HasDerivAt zc zc' s0)
    (h0 : zc s0 ≠ 0) :
    HasDerivAt (fun s => (pixel_of f k0 k1 (xc s) (yc s) (zc s)).1)
        ((pixel_grad f k0 k1 (xc s0) (yc s0) (zc s0)).1.1 * xc'
          + (pixel_grad f k0 k1 (xc s0) (yc s0) (zc s0)).1.2.1 * yc'
          + (pixel_grad f k0 k1 (xc s0) (yc s0) (zc s0)).1.2.2 * zc') s0
    ∧ HasDerivAt (fun s => (pixel_of f k0 k1 (xc s) (yc s) (zc s)).2)
        ((pixel_grad f k0 k1 (xc s0) (yc s0) (zc s0)).2.1 * xc'
          + (pixel_grad f k0 k1 (xc s0) (yc s0) (zc s0)).2.2.1 * yc'
          + (pixel_grad f k0 k1 (xc s0) (yc s0) (zc s0)).2.2.2 * zc') s0 := by
  have hX := hasDerivAt_ratio xc zc xc' zc' s0 hx hz h0
  have hY := hasDerivAt_ratio yc zc yc' zc' s0 hy hz h0
  have hr := (hX.mul hX).add (hY.mul hY)
  have hd := (hr.mul ((hr.const_mul k1).const_add k0)).const_add 1
  have hu := (hX.mul hd).mul_const f
  have hv := (hY.mul hd).mul_const f
  rw [pixel_grad_eq]
  constructor
  · refine hu.congr_deriv ?_
    ring
  · refine hv.congr_deriv ?_
    ring

/-- A function that is affine in its argument has its slope as derivative. -/
theorem hasDerivAt_of_affine (g : ℝ → ℝ) (a s0 : ℝ) (h : ∀ s, g s = a * s + g 0) :
    HasDerivAt g a s0 := by
  have e : g = fun s => a * s + g 0 := funext h
  rw [e]
  simpa using ((hasDerivAt_id s0).const_mul a).add_const (g 0)

/-- Chain rule for the predicted pixel along a one-parameter family of cameras
and points with fixed intrinsics. -/
theorem predicted_pixel_hasDerivAt (camf : ℝ → Camera ℝ) (ptf : ℝ → Point3D ℝ)
    (xc' yc' zc' s0 : ℝ)
    (hf : ∀ s, (camf s).focal_length = (camf s0).focal_length)
    (hk : ∀ s, (camf s).distortion = (camf s0).distortion)
    (hx : HasDerivAt (fun s => camera_x (camf s) (ptf s)) xc' s0)
    (hy : HasDerivAt (fun s => camera_y (camf s) (ptf s)) yc' s0)
    (hz : HasDerivAt (fun s => camera_depth (camf s) (ptf s)) zc' s0)
    (h0 : camera_depth (camf s0) (ptf s0) ≠ 0) :
    HasDerivAt (fun s => (predicted_pixel (camf s) (ptf s)).1)
        ((pixel_grad (camf s0).focal_length ((camf s0).distortion 0) ((camf s0).distortion 1)
            (camera_x (camf s0) (ptf s0)) (camera_y (camf s0) (ptf s0))
            (camera_depth (camf s0) (ptf s0))).1.1 * xc'
          + (pixel_grad (camf s0).focal_length ((camf s0).distortion 0) ((camf s0).distortion 1)
            (camera_x (camf s0) (ptf s0)) (camera_y (camf s0) (ptf s0))
            (camera_depth (camf s0) (ptf s0))).1.2.1 * yc'
          + (pixel_grad (camf s0).focal_length ((camf s0).distortion 0) ((camf s0).distortion 1)
            (camera_x (camf s0) (ptf s0)) (camera_y (camf s0) (ptf s0))
            (camera_depth (camf s0) (ptf s0))).1.2.2 * zc') s0
    ∧ HasDerivAt (fun s => (predicted_pixel (camf s) (ptf s)).2)
        ((pixel_grad (camf s0).focal_length ((camf s0).distortion 0) ((camf s0).distortion 1)
            (camera_x (camf s0) (ptf s0)) (camera_y (camf s0) (ptf s0))
            (camera_depth (camf s0) (ptf s0))).2.1 * xc'
          + (pixel_grad (camf s0).focal_length ((camf s0).distortion 0) ((camf s0).distortion 1)
            (camera_x (camf s0) (ptf s0)) (camera_y (camf s0) (ptf s0))
            (camera_depth (camf s0) (ptf s0))).2.2.1 * yc'
          + (pixel_grad (camf s0).focal_length ((camf s0).distortion 0) ((camf s0).distortion 1)
            (camera_x (camf s0) (ptf s0)) (camera_y (camf s0) (ptf s0))
            (camera_depth (camf s0) (ptf s0))).2.2.2 * zc') s0 := by
  have e : ∀ s, predicted_pixel (camf s) (ptf s)
      = pixel_of (camf s0).focal_length ((camf s0).distortion 0) ((camf s0).distortion 1)
          (camera_x (camf s) (ptf s)) (camera_y (camf s) (ptf s))
          (camera_depth (camf s) (ptf s)) := by
    intro s
    rw [predicted_pixel_eq, hf s, hk s]
  simp only [e]
  exact pixel_of_hasDerivAt _ _ _ _ _ _ xc' yc' zc' s0 hx hy hz h0

/-- C2: entries 3..5 of `cam_x_ptr`, `cam_y_ptr` are the partial derivatives
of the predicted pixel `(u, v)` with respect to the translation components,
and `point_x_ptr`, `point_y_ptr` are its partial derivatives with respect to
the point coordinates, wherever the depth `zc` is not zero. -/
theorem my_jacobian_translation_point_derivatives (cam : Camera ℝ) (point : Point3D ℝ)
    (hz : camera_depth cam point ≠ 0) (i : Fin 3) :
    HasDerivAt (fun s => (predicted_pixel
          { cam with translation := Function.update cam.translation i s } point).1)
        ((my_jacobian cam point).cam_x_ptr ⟨3 + i.val, by omega⟩) (cam.translation i)
    ∧ HasDerivAt (fun s => (predicted_pixel
          { cam with translation := Function.update cam.translation i s } point).2)
        ((my_jacobian cam point).cam_y_ptr ⟨3 + i.val, by omega⟩) (cam.translation i)
    ∧ HasDerivAt (fun s => (predicted_pixel cam
          { pos := Function.update point.pos i s }).1)
        ((my_jacobian cam point).point_x_ptr i) (point.pos i)
    ∧ HasDerivAt (fun s => (predicted_pixel cam
          { pos := Function.update point.pos i s }).2)
        ((my_jacobian cam point).point_y_ptr i) (point.pos i) := by
  have hcam : ∀ j : Fin 3,
      ({ cam with translation := Function.update cam.translation j (cam.translation j) }
        : Camera ℝ) = cam := by
    intro j; simp
  have hpt : ∀ j : Fin 3, ({ pos := Function.update point.pos j (point.pos j) } : Point3D ℝ)
      = point := by
    intro j; simp
  have T := fun (j : Fin 3) (a b c : ℝ) hx hy hz' => predicted_pixel_hasDerivAt
    (fun s => { cam with translation := Function.update cam.translation j s }) (fun _ => point)
    a b c (cam.translation j) (fun _ => rfl) (fun _ => rfl) hx hy hz'
    (by simpa only [hcam] using hz)
  have P := fun (j : Fin 3) (a b c : ℝ) hx hy hz' => predicted_pixel_hasDerivAt
    (fun _ => cam) (fun s => { pos := Function.update point.pos j s })
    a b c (point.pos j) (fun _ => rfl) (fun _ => rfl) hx hy hz'
    (by simpa only [hpt] using hz)
  simp only [hcam, hpt] at T P
  rw [my_jacobian_eq]
  fin_cases i
  · have t := T 0 1 0 0
      (hasDerivAt_of_affine _ _ _ (fun s => by simp [camera_x]; try ring))
      (hasDerivAt_of_affine _ _ _ (fun s => by simp [camera_y]; try ring))
      (hasDerivAt_of_affine _ _ _ (fun s => by simp [camera_depth]; try ring))
    have p := P 0 (cam.rotation 0) (cam.rotation 3) (cam.rotation 6)
      (hasDerivAt_of_affine _ _ _ (fun s => by simp [camera_x]; try ring))
      (hasDerivAt_of_affine _ _ _ (fun s => by simp [camera_y]; try ring))
      (hasDerivAt_of_affine _ _ _ (fun s => by simp [camera_depth]; try ring))
    refine ⟨t.1.congr_deriv ?_, t.2.congr_deriv ?_, p.1.congr_deriv ?_, p.2.congr_deriv ?_⟩
      <;> (simp; try rfl)
  · have t := T 1 0 1 0
      (hasDerivAt_of_affine _ _ _ (fun s => by simp [camera_x]; try ring))
      (hasDerivAt_of_affine _ _ _ (fun s => by simp [camera_y]; try ring))
      (hasDerivAt_of_affine _ _ _ (fun s => by simp [camera_depth]; try ring))
    have p := P 1 (cam.rotation 1) (cam.rotation 4) (cam.rotation 7)
      (hasDerivAt_of_affine _ _ _ (fun s => by simp [camera_x]; try ring))
      (hasDerivAt_of_affine _ _ _ (fun s => by simp [camera_y]; try ring))
      (hasDerivAt_of_affine _ _ _ (fun s => by simp [camera_depth]; try ring))
    refine ⟨t.1.congr_deriv ?_, t.2.congr_deriv ?_, p.1.congr_deriv ?_, p.2.congr_deriv ?_⟩
      <;> (simp; try rfl)
  · have t := T 2 0 0 1
      (hasDerivAt_of_affine _ _ _ (fun s => by simp [camera_x]; try ring))
      (hasDerivAt_of_affine _ _ _ (fun s => by simp [camera_y]; try ring))
      (hasDerivAt_of_affine _ _ _ (fun s => by simp [camera_depth]; try ring))
    have p := P 2 (cam.rotation 2) (cam.rotation 5) (cam.rotation 8)
      (hasDerivAt_of_affine _ _ _ (fun s => by simp [camera_x]; try ring))
      (hasDerivAt_of_affine _ _ _ (fun s => by simp [camera_y]; try ring))
      (hasDerivAt_of_affine _ _ _ (fun s => by simp [camera_depth]; try ring))
    refine ⟨t.1.congr_deriv ?_, t.2.congr_deriv ?_, p.1.congr_deriv ?_, p.2.congr_deriv ?_⟩
      <;> (simp; try rfl)

end Calculus

section Vec9

variable {α : Type}

theorem vec9_0 (a0 a1 a2 a3 a4 a5 a6 a7 a8 : α) : (![a0, a1, a2, a3, a4, a5, a6, a7, a8] : Fin 9 → α) 0 = a0 := rfl

theorem vec9_1 (a0 a1 a2 a3 a4 a5 a6 a7 a8 : α) : (![a0, a1, a2, a3, a4, a5, a6, a7, a8] : Fin 9 → α) 1 = a1 := rfl

theorem vec9_2 (a0 a1 a2 a3 a4 a5 a6 a7 a8 : α) : (![a0, a1, a2, a3, a4, a5, a6, a7, a8] : Fin 9 → α) 2 = a2 := rfl

theorem vec9_3 (a0 a1 a2 a3 a4 a5 a6 a7 a8 : α) : (![a0, a1, a2, a3, a4, a5, a6, a7, a8] : Fin 9 → α) 3 = a3 := rfl

theorem vec9_4 (a0 a1 a2 a3 a4 a5 a6 a7 a8 : α) : (![a0, a1, a2, a3, a4, a5, a6, a7, a8] : Fin 9 → α) 4 = a4 := rfl

theorem vec9_5 (a0 a1 a2 a3 a4 a5 a6 a7 a8 : α) : (![a0, a1, a2, a3, a4, a5, a6, a7, a8] : Fin 9 → α) 5 = a5 := rfl

theorem vec9_6 (a0 a1 a2 a3 a4 a5 a6 a7 a8 : α) : (![a0, a1, a2, a3, a4, a5, a6, a7, a8] : Fin 9 → α) 6 = a6 := rfl

theorem vec9_7 (a0 a1 a2 a3 a4 a5 a6 a7 a8 : α) : (![a0, a1, a2, a3, a4, a5, a6, a7, a8] : Fin 9 → α) 7 = a7 := rfl

theorem vec9_8 (a0 a1 a2 a3 a4 a5 a6 a7 a8 : α) : (![a0, a1, a2, a3, a4, a5, a6, a7, a8] : Fin 9 → α) 8 = a8 := rfl

end Vec9

section Rotation

/-- `r * st` of `rodrigues_to_matrix` for a vector of length `|s|` along one
axis: the sine of the signed angle. -/
theorem rodrigues_st_mul (s : ℝ) :
    s * (if |s| = 0 then (1 : ℝ) else Real.sin |s| / |s|) = Real.sin s := by
  by_cases h : s = 0
  · simp [h]
  · have h' : |s| ≠ 0 := abs_ne_zero.mpr h
    rw [if_neg h']
    rcases abs_cases s with ⟨e, _⟩ | ⟨e, _⟩
    · rw [e]; field_simp
    · rw [e, Real.sin_neg]; field_simp

/-- `r * r * ct` of `rodrigues_to_matrix` along one axis. -/
theorem rodrigues_ct_mul (s : ℝ) :
    s * s * (if |s| = 0 then (1 / 2 : ℝ) else (1 - Real.cos |s|) / (2 * |s|))
      = |s| * (1 - Real.cos s) / 2 := by
  by_cases h : s = 0
  · simp [h]
  · have h' : |s| ≠ 0 := abs_ne_zero.mpr h
    rw [if_neg h', Real.cos_abs]
    field_simp
    have e : |s| ^ 2 = s ^ 2 := sq_abs s
    ring_nf
    rw [e]
    ring

/-- The quadratic term of the rotation update vanishes to first order. -/
theorem hasDerivAt_rodrigues_ct_mul :
    HasDerivAt (fun s : ℝ => |s| * (1 - Real.cos s) / 2) 0 0 := by
  have hb : (fun s : ℝ => |s| * (1 - Real.cos s) / 2) =O[nhds 0] fun s => ‖s - 0‖ ^ 3 := by
    refine Asymptotics.IsBigO.of_bound 1 (Filter.Eventually.of_forall fun s => ?_)
    have h1 : 0 ≤ 1 - Real.cos s := by linarith [Real.cos_le_one s]
    have h2 : 1 - Real.cos s ≤ s ^ 2 / 2 := by linarith [Real.one_sub_sq_div_two_le_cos (x := s)]
    have h3 : s ^ 2 = |s| ^ 2 := (sq_abs s).symm
    have h4 : 0 ≤ |s| := abs_nonneg s
    simp only [sub_zero, Real.norm_eq_abs, abs_pow, abs_abs, one_mul]
    rw [abs_of_nonneg (by positivity)]
    nlinarith [mul_nonneg h4 h1, mul_nonneg h4 (mul_nonneg h4 h4), pow_nonneg h4 3]
  exact (hb.hasFDerivAt (by norm_num)).hasDerivAt.congr_deriv (by simp)

/-- The matrix of `rodrigues_to_matrix` for a vector along the first axis. -/
theorem rodrigues_axis0 (r : ℕ → ℝ) (s : ℝ) (h0 : r 0 = s) (h1 : r 1 = 0) (h2 : r 2 = 0) :
    rodrigues_to_matrix ⟨Real.sqrt, Real.cos, Real.sin⟩ r
      = ![1, 0, 0,
          0, 1 - |s| * (1 - Real.cos s) / 2, -Real.sin s,
          0, Real.sin s, 1 - |s| * (1 - Real.cos s) / 2] := by
  have hs := rodrigues_st_mul s
  have hc := rodrigues_ct_mul s
  simp only [rodrigues_to_matrix, h0, h1, h2, mul_zero, zero_mul, add_zero, zero_add, sub_zero,
    zero_sub, Real.sqrt_mul_self_eq_abs]
  rw [hs, hc]

/-- The matrix of `rodrigues_to_matrix` for a vector along the second axis. -/
theorem rodrigues_axis1 (r : ℕ → ℝ) (s : ℝ) (h0 : r 0 = 0) (h1 : r 1 = s) (h2 : r 2 = 0) :
    rodrigues_to_matrix ⟨Real.sqrt, Real.cos, Real.sin⟩ r
      = ![1 - |s| * (1 - Real.cos s) / 2, 0, Real.sin s,
          0, 1, 0,
          -Real.sin s, 0, 1 - |s| * (1 - Real.cos s) / 2] := by
  have hs := rodrigues_st_mul s
  have hc := rodrigues_ct_mul s
  simp only [rodrigues_to_matrix, h0, h1, h2, mul_zero, zero_mul, add_zero, zero_add, sub_zero,
    zero_sub, Real.sqrt_mul_self_eq_abs]
  rw [hs, hc]

/-- The matrix of `rodrigues_to_matrix` for a vector along the third axis. -/
theorem rodrigues_axis2 (r : ℕ → ℝ) (s : ℝ) (h0 : r 0 = 0) (h1 : r 1 = 0) (h2 : r 2 = s) :
    rodrigues_to_matrix ⟨Real.sqrt, Real.cos, Real.sin⟩ r
      = ![1 - |s| * (1 - Real.cos s) / 2, -Real.sin s, 0,
          Real.sin s, 1 - |s| * (1 - Real.cos s) / 2, 0,
          0, 0, 1] := by
  have hs := rodrigues_st_mul s
  have hc := rodrigues_ct_mul s
  simp only [rodrigues_to_matrix, h0, h1, h2, mul_zero, zero_mul, add_zero, zero_add, sub_zero,
    zero_sub, Real.sqrt_mul_self_eq_abs]
  rw [hs, hc]

end Rotation

section Update

variable {K : Type} [Field K] [DecidableEq K]

/-- A vector of two entries written entry by entry. -/
theorem update_update_fin2 (g : Fin 2 → K) (a b : K) :
    Function.update (Function.update g 0 a) 1 b = ![a, b] := by
  funext i
  fin_cases i <;> simp [Function.update]

/-- A vector of three entries written entry by entry. -/
theorem update_update_fin3 (g : Fin 3 → K) (a b c : K) :
    Function.update (Function.update (Function.update g 0 a) 1 b) 2 c = ![a, b, c] := by
  funext i
  fin_cases i <;> simp [Function.update]

/-- What `update_camera` writes when the output object is a different object
than the input camera. -/
theorem update_camera_eq (lm : Libm K) (cam : Camera K) (update : ℕ → K) (out : Camera K) :
    update_camera lm false cam update out =
      { focal_length := cam.focal_length + update 0
        distortion := ![cam.distortion 0 + update 1, cam.distortion 1 + update 2]
        translation := ![cam.translation 0 + update 3, cam.translation 1 + update 4,
          cam.translation 2 + update 5]
        rotation := matrix_multiply (rodrigues_to_matrix lm (fun j => update (6 + j)))
          cam.rotation } := by
  simp [update_camera, update_update_fin2, update_update_fin3]

/-- What `update_camera` writes when the output object is the input camera. -/
theorem update_camera_eq_aliased (lm : Libm K) (cam : Camera K) (update : ℕ → K) :
    update_camera lm true cam update cam =
      { focal_length := cam.focal_length + update 0
        distortion := ![cam.distortion 0 + update 1, cam.distortion 1 + update 2]
        translation := ![cam.translation 0 + update 3, cam.translation 1 + update 4,
          cam.translation 2 + update 5]
        rotation := matrix_multiply (rodrigues_to_matrix lm (fun j => update (6 + j)))
          cam.rotation } := by
  simp [update_camera, update_update_fin2, update_update_fin3]

end Update

section RotationDerivative

/-- Chain rule for a camera whose rotation is `M s * R` with `M 0` the
identity: the derivative of the pixel at `s = 0` in terms of the derivative
`M'` of the entries of `M`. -/
theorem rotated_pixel_hasDerivAt (cam : Camera ℝ) (point : Point3D ℝ)
    (hz : camera_depth cam point ≠ 0) (M : ℝ → Fin 9 → ℝ) (M' : Fin 9 → ℝ)
    (hM : ∀ k, HasDerivAt (fun s => M s k) (M' k) 0)
    (hM0 : M 0 = ![1, 0, 0, 0, 1, 0, 0, 0, 1]) (camf : ℝ → Camera ℝ)
    (hcamf : ∀ s, camf s = { cam with rotation := matrix_multiply (M s) cam.rotation }) :
    HasDerivAt (fun s => (predicted_pixel (camf s) point).1)
        ((pixel_grad cam.focal_length (cam.distortion 0) (cam.distortion 1) (camera_x cam point)
            (camera_y cam point) (camera_depth cam point)).1.1
            * (M' 0 * (cam.rotation 0 * point.pos 0 + cam.rotation 1 * point.pos 1 + cam.rotation 2 * point.pos 2)
              + M' 1 * (cam.rotation 3 * point.pos 0 + cam.rotation 4 * point.pos 1 + cam.rotation 5 * point.pos 2)
              + M' 2 * (cam.rotation 6 * point.pos 0 + cam.rotation 7 * point.pos 1 + cam.rotation 8 * point.pos 2))
          + (pixel_grad cam.focal_length (cam.distortion 0) (cam.distortion 1) (camera_x cam point)
            (camera_y cam point) (camera_depth cam point)).1.2.1
            * (M' 3 * (cam.rotation 0 * point.pos 0 + cam.rotation 1 * point.pos 1 + cam.rotation 2 * point.pos 2)
              + M' 4 * (cam.rotation 3 * point.pos 0 + cam.rotation 4 * point.pos 1 + cam.rotation 5 * point.pos 2)
              + M' 5 * (cam.rotation 6 * point.pos 0 + cam.rotation 7 * point.pos 1 + cam.rotation 8 * point.pos 2))
          + (pixel_grad cam.focal_length (cam.distortion 0) (cam.distortion 1) (camera_x cam point)
            (camera_y cam point) (camera_depth cam point)).1.2.2
            * (M' 6 * (cam.rotation 0 * point.pos 0 + cam.rotation 1 * point.pos 1 + cam.rotation 2 * point.pos 2)
              + M' 7 * (cam.rotation 3 * point.pos 0 + cam.rotation 4 * point.pos 1 + cam.rotation 5 * point.pos 2)
              + M' 8 * (cam.rotation 6 * point.pos 0 + cam.rotation 7 * point.pos 1 + cam.rotation 8 * point.pos 2))) 0
    ∧ HasDerivAt (fun s => (predicted_pixel (camf s) point).2)
        ((pixel_grad cam.focal_length (cam.distortion 0) (cam.distortion 1) (camera_x cam point)
            (camera_y cam point) (camera_depth cam point)).2.1
            * (M' 0 * (cam.rotation 0 * point.pos 0 + cam.rotation 1 * point.pos 1 + cam.rotation 2 * point.pos 2)
              + M' 1 * (cam.rotation 3 * point.pos 0 + cam.rotation 4 * point.pos 1 + cam.rotation 5 * point.pos 2)
              + M' 2 * (cam.rotation 6 * point.pos 0 + cam.rotation 7 * point.pos 1 + cam.rotation 8 * point.pos 2))
          + (pixel_grad cam.focal_length (cam.distortion 0) (cam.distortion 1) (camera_x cam point)
            (camera_y cam point) (camera_depth cam point)).2.2.1
            * (M' 3 * (cam.rotation 0 * point.pos 0 + cam.rotation 1 * point.pos 1 + cam.rotation 2 * point.pos 2)
              + M' 4 * (cam.rotation 3 * point.pos 0 + cam.rotation 4 * point.pos 1 + cam.rotation 5 * point.pos 2)
              + M' 5 * (cam.rotation 6 * point.pos 0 + cam.rotation 7 * point.pos 1 + cam.rotation 8 * point.pos 2))
          + (pixel_grad cam.focal_length (cam.distortion 0) (cam.distortion 1) (camera_x cam point)
            (camera_y cam point) (camera_depth cam point)).2.2.2
            * (M' 6 * (cam.rotation 0 * point.pos 0 + cam.rotation 1 * point.pos 1 + cam.rotation 2 * point.pos 2)
              + M' 7 * (cam.rotation 3 * point.pos 0 + cam.rotation 4 * point.pos 1 + cam.rotation 5 * point.pos 2)
              + M' 8 * (cam.rotation 6 * point.pos 0 + cam.rotation 7 * point.pos 1 + cam.rotation 8 * point.pos 2))) 0 := by
  have e0 : camf 0 = cam := by
    rw [hcamf 0, hM0]
    have : matrix_multiply ![1, 0, 0, 0, 1, 0, 0, 0, 1] cam.rotation = cam.rotation := by
      funext k
      fin_cases k <;> simp [matrix_multiply, vec9_0, vec9_1, vec9_2, vec9_3, vec9_4, vec9_5, vec9_6, vec9_7, vec9_8]
    rw [this]
  have hx : HasDerivAt (fun s => camera_x (camf s) point)
      (M' 0 * (cam.rotation 0 * point.pos 0 + cam.rotation 1 * point.pos 1 + cam.rotation 2 * point.pos 2)
        + M' 1 * (cam.rotation 3 * point.pos 0 + cam.rotation 4 * point.pos 1 + cam.rotation 5 * point.pos 2)
        + M' 2 * (cam.rotation 6 * point.pos 0 + cam.rotation 7 * point.pos 1 + cam.rotation 8 * point.pos 2)) 0 := by
    have h := ((((hM 0).mul_const (cam.rotation 0 * point.pos 0 + cam.rotation 1 * point.pos 1 + cam.rotation 2 * point.pos 2)).add
      ((hM 1).mul_const (cam.rotation 3 * point.pos 0 + cam.rotation 4 * point.pos 1 + cam.rotation 5 * point.pos 2))).add
      ((hM 2).mul_const (cam.rotation 6 * point.pos 0 + cam.rotation 7 * point.pos 1 + cam.rotation 8 * point.pos 2))).add_const (cam.translation 0)
    refine h.congr_of_eventuallyEq (Filter.Eventually.of_forall fun s => ?_)
    simp only [hcamf s]
    simp [camera_x, matrix_multiply, vec9_0, vec9_1, vec9_2, vec9_3, vec9_4, vec9_5, vec9_6, vec9_7, vec9_8]
    ring
  have hy : HasDerivAt (fun s => camera_y (camf s) point)
      (M' 3 * (cam.rotation 0 * point.pos 0 + cam.rotation 1 * point.pos 1 + cam.rotation 2 * point.pos 2)
        + M' 4 * (cam.rotation 3 * point.pos 0 + cam.rotation 4 * point.pos 1 + cam.rotation 5 * point.pos 2)
        + M' 5 * (cam.rotation 6 * point.pos 0 + cam.rotation 7 * point.pos 1 + cam.rotation 8 * point.pos 2)) 0 := by
    have h := ((((hM 3).mul_const (cam.rotation 0 * point.pos 0 + cam.rotation 1 * point.pos 1 + cam.rotation 2 * point.pos 2)).add
      ((hM 4).mul_const (cam.rotation 3 * point.pos 0 + cam.rotation 4 * point.pos 1 + cam.rotation 5 * point.pos 2))).add
      ((hM 5).mul_const (cam.rotation 6 * point.pos 0 + cam.rotation 7 * point.pos 1 + cam.rotation 8 * point.pos 2))).add_const (cam.translation 1)
    refine h.congr_of_eventuallyEq (Filter.Eventually.of_forall fun s => ?_)
    simp only [hcamf s]
    simp [camera_y, matrix_multiply, vec9_0, vec9_1, vec9_2, vec9_3, vec9_4, vec9_5, vec9_6, vec9_7, vec9_8]
    ring
  have hd : HasDerivAt (fun s => camera_depth (camf s) point)
      (M' 6 * (cam.rotation 0 * point.pos 0 + cam.rotation 1 * point.pos 1 + cam.rotation 2 * point.pos 2)
        + M' 7 * (cam.rotation 3 * point.pos 0 + cam.rotation 4 * point.pos 1 + cam.rotation 5 * point.pos 2)
        + M' 8 * (cam.rotation 6 * point.pos 0 + cam.rotation 7 * point.pos 1 + cam.rotation 8 * point.pos 2)) 0 := by
    have h := ((((hM 6).mul_const (cam.rotation 0 * point.pos 0 + cam.rotation 1 * point.pos 1 + cam.rotation 2 * point.pos 2)).add
      ((hM 7).mul_const (cam.rotation 3 * point.pos 0 + cam.rotation 4 * point.pos 1 + cam.rotation 5 * point.pos 2))).add
      ((hM 8).mul_const (cam.rotation 6 * point.pos 0 + cam.rotation 7 * point.pos 1 + cam.rotation 8 * point.pos 2))).add_const (cam.translation 2)
    refine h.congr_of_eventuallyEq (Filter.Eventually.of_forall fun s => ?_)
    simp only [hcamf s]
    simp [camera_depth, matrix_multiply, vec9_0, vec9_1, vec9_2, vec9_3, vec9_4, vec9_5, vec9_6, vec9_7, vec9_8]
    ring
  have key := predicted_pixel_hasDerivAt camf (fun _ => point) _ _ _ 0
    (fun s => by rw [hcamf s, hcamf 0]) (fun s => by rw [hcamf s, hcamf 0]) hx hy hd
    (by rw [e0]; exact hz)
  rw [e0] at key
  exact key

/-- C3: entries 6..8 of `cam_x_ptr`, `cam_y_ptr` are the partial derivatives at
`w = 0` of the predicted pixel of the camera updated by `update_camera` with
the rotation increment `w` (rotation `rodrigues_to_matrix(w) * R`) and all
other increments zero, wherever the depth `zc` is not zero. -/
theorem my_jacobian_rotation_derivatives (cam : Camera ℝ) (point : Point3D ℝ)
    (hz : camera_depth cam point ≠ 0) (i : Fin 3) (out : Camera ℝ) :
    HasDerivAt (fun s => (predicted_pixel
          (update_camera ⟨Real.sqrt, Real.cos, Real.sin⟩ false cam
            (fun j => if j = 6 + i.val then s else 0) out) point).1)
        ((my_jacobian cam point).cam_x_ptr ⟨6 + i.val, by omega⟩) 0
    ∧ HasDerivAt (fun s => (predicted_pixel
          (update_camera ⟨Real.sqrt, Real.cos, Real.sin⟩ false cam
            (fun j => if j = 6 + i.val then s else 0) out) point).2)
        ((my_jacobian cam point).cam_y_ptr ⟨6 + i.val, by omega⟩) 0 := by
  have hsin : HasDerivAt Real.sin 1 0 := by simpa using Real.hasDerivAt_sin 0
  have hA := hasDerivAt_rodrigues_ct_mul.const_sub 1
  have hfix2 : (![cam.distortion 0, cam.distortion 1] : Fin 2 → ℝ) = cam.distortion := by
    funext k
    fin_cases k <;> rfl
  have hfix3 : (![cam.translation 0, cam.translation 1, cam.translation 2] : Fin 3 → ℝ)
      = cam.translation := by
    funext k
    fin_cases k <;> rfl
  rw [my_jacobian_eq]
  fin_cases i
  · have hR : ∀ s : ℝ, rodrigues_to_matrix ⟨Real.sqrt, Real.cos, Real.sin⟩
        (fun j => (fun k => if k = 6 + ((0 : Fin 3) : ℕ) then s else 0) (6 + j)) = _ :=
      fun s => rodrigues_axis0 _ s (by simp) (by simp) (by simp)
    have key := rotated_pixel_hasDerivAt cam point hz
      (fun s => rodrigues_to_matrix ⟨Real.sqrt, Real.cos, Real.sin⟩
        (fun j => (fun k => if k = 6 + ((0 : Fin 3) : ℕ) then s else 0) (6 + j)))
      ![0, 0, 0, 0, 0, -1, 0, 1, 0]
      (fun k => by
        simp only [hR]
        fin_cases k <;> simp only [vec9_0, vec9_1, vec9_2, vec9_3, vec9_4, vec9_5, vec9_6, vec9_7, vec9_8]
        all_goals first
          | exact hasDerivAt_const _ _
          | exact hsin
          | exact hsin.neg
          | exact hA.congr_deriv neg_zero)
      ((hR 0).trans (by simp))
      (fun s => update_camera ⟨Real.sqrt, Real.cos, Real.sin⟩ false cam
        (fun j => if j = 6 + ((0 : Fin 3) : ℕ) then s else 0) out)
      (fun s => by
        beta_reduce
        rw [update_camera_eq]
        simp [hfix2, hfix3])
    refine ⟨key.1.congr_deriv ?_, key.2.congr_deriv ?_⟩ <;>
      simp [vec9_0, vec9_1, vec9_2, vec9_3, vec9_4, vec9_5, vec9_6, vec9_7, vec9_8]
  · have hR : ∀ s : ℝ, rodrigues_to_matrix ⟨Real.sqrt, Real.cos, Real.sin⟩
        (fun j => (fun k => if k = 6 + ((1 : Fin 3) : ℕ) then s else 0) (6 + j)) = _ :=
      fun s => rodrigues_axis1 _ s (by simp) (by simp) (by simp)
    have key := rotated_pixel_hasDerivAt cam point hz
      (fun s => rodrigues_to_matrix ⟨Real.sqrt, Real.cos, Real.sin⟩
        (fun j => (fun k => if k = 6 + ((1 : Fin 3) : ℕ) then s else 0) (6 + j)))
      ![0, 0, 1, 0, 0, 0, -1, 0, 0]
      (fun k => by
        simp only [hR]
        fin_cases k <;> simp only [vec9_0, vec9_1, vec9_2, vec9_3, vec9_4, vec9_5, vec9_6, vec9_7, vec9_8]
        all_goals first
          | exact hasDerivAt_const _ _
          | exact hsin
          | exact hsin.neg
          | exact hA.congr_deriv neg_zero)
      ((hR 0).trans (by simp))
      (fun s => update_camera ⟨Real.sqrt, Real.cos, Real.sin⟩ false cam
        (fun j => if j = 6 + ((1 : Fin 3) : ℕ) then s else 0) out)
      (fun s => by
        beta_reduce
        rw [update_camera_eq]
        simp [hfix2, hfix3])
    refine ⟨key.1.congr_deriv ?_, key.2.congr_deriv ?_⟩ <;>
      simp [vec9_0, vec9_1, vec9_2, vec9_3, vec9_4, vec9_5, vec9_6, vec9_7, vec9_8]
  · have hR : ∀ s : ℝ, rodrigues_to_matrix ⟨Real.sqrt, Real.cos, Real.sin⟩
        (fun j => (fun k => if k = 6 + ((2 : Fin 3) : ℕ) then s else 0) (6 + j)) = _ :=
      fun s => rodrigues_axis2 _ s (by simp) (by simp) (by simp)
    have key := rotated_pixel_hasDerivAt cam point hz
      (fun s => rodrigues_to_matrix ⟨Real.sqrt, Real.cos, Real.sin⟩
        (fun j => (fun k => if k = 6 + ((2 : Fin 3) : ℕ) then s else 0) (6 + j)))
      ![0, -1, 0, 1, 0, 0, 0, 0, 0]
      (fun k => by
        simp only [hR]
        fin_cases k <;> simp only [vec9_0, vec9_1, vec9_2, vec9_3, vec9_4, vec9_5, vec9_6, vec9_7, vec9_8]
        all_goals first
          | exact hasDerivAt_const _ _
          | exact hsin
          | exact hsin.neg
          | exact hA.congr_deriv neg_zero)
      ((hR 0).trans (by simp))
      (fun s => update_camera ⟨Real.sqrt, Real.cos, Real.sin⟩ false cam
        (fun j => if j = 6 + ((2 : Fin 3) : ℕ) then s else 0) out)
      (fun s => by
        beta_reduce
        rw [update_camera_eq]
        simp [hfix2, hfix3])
    refine ⟨key.1.congr_deriv ?_, key.2.congr_deriv ?_⟩ <;>
      simp [vec9_0, vec9_1, vec9_2, vec9_3, vec9_4, vec9_5, vec9_6, vec9_7, vec9_8]

end RotationDerivative

section Loops

variable {K : Type} [Field K] [DecidableEq K]

/-- C6: `update_camera` adds the first six update entries to the focal length,
the distortion coefficients and the translation, and multiplies the old
rotation from the left by `rodrigues_to_matrix` of the last three; the same
holds when the output camera is the input camera itself. -/
theorem update_camera_spec (lm : Libm K) (cam : Camera K) (update : ℕ → K) :
    (∀ out : Camera K, update_camera lm false cam update out =
      { focal_length := cam.focal_length + update 0
        distortion := ![cam.distortion 0 + update 1, cam.distortion 1 + update 2]
        translation := ![cam.translation 0 + update 3, cam.translation 1 + update 4,
          cam.translation 2 + update 5]
        rotation := matrix_multiply (rodrigues_to_matrix lm (fun j => update (6 + j)))
          cam.rotation })
    ∧ update_camera lm true cam update cam =
      { focal_length := cam.focal_length + update 0
        distortion := ![cam.distortion 0 + update 1, cam.distortion 1 + update 2]
        translation := ![cam.translation 0 + update 3, cam.translation 1 + update 4,
          cam.translation 2 + update 5]
        rotation := matrix_multiply (rodrigues_to_matrix lm (fun j => update (6 + j)))
          cam.rotation } :=
  ⟨fun out => update_camera_eq lm cam update out, update_camera_eq_aliased lm cam update⟩

/-- The loop of `compute_reprojection_errors` over the first `n` observations:
it succeeds if every observation has a residual, keeps the length of the
vector, writes the residual of observation `i` to positions `2i`, `2i+1` and
leaves the positions from `2n` on as they were. -/
theorem compute_reprojection_errors_loop (lm : Libm K) (delta_x : Option (List K))
    (cameras : List (Camera K)) (points : List (Point3D K))
    (observations : List (Observation K)) (vector_f : List K)
    (hlen : vector_f.length = observations.length * 2)
    (hres : ∀ o ∈ observations, (observation_residual lm delta_x cameras points o).isSome)
    (n : ℕ) (hn : n ≤ observations.length) :
    ∃ F, (List.range n).foldlM
          (compute_reprojection_errors_step lm delta_x cameras points observations) vector_f
        = some F
      ∧ F.length = observations.length * 2
      ∧ (∀ i, i < n → ∃ o r, observations[i]? = some o
          ∧ observation_residual lm delta_x cameras points o = some r
          ∧ F[i * 2]? = some r.1 ∧ F[i * 2 + 1]? = some r.2)
      ∧ (∀ k, n * 2 ≤ k → F[k]? = vector_f[k]?) := by
  induction n with
  | zero => exact ⟨vector_f, by simp, hlen, by simp, by simp⟩
  | succ n ih =>
    obtain ⟨F, hF, hFlen, hFi, hFk⟩ := ih (by omega)
    have hn' : n < observations.length := by omega
    obtain ⟨r, hr⟩ := Option.isSome_iff_exists.mp
      (hres observations[n] (List.getElem_mem _))
    have hstep : compute_reprojection_errors_step lm delta_x cameras points observations F n
        = some ((F.set (n * 2 + 0) r.1).set (n * 2 + 1) r.2) := by
      simp only [compute_reprojection_errors_step, List.getElem?_eq_getElem hn', hr]
      rw [if_pos (by omega)]
    refine ⟨(F.set (n * 2 + 0) r.1).set (n * 2 + 1) r.2, ?_, by simpa using hFlen, ?_, ?_⟩
    · rw [List.range_succ, List.foldlM_append, hF]
      simp [hstep]
    · intro i hi
      by_cases hin : i = n
      · subst hin
        refine ⟨observations[i], r, List.getElem?_eq_getElem hn', hr, ?_, ?_⟩
        · rw [List.getElem?_set_ne (by omega), add_zero, List.getElem?_set_self (by omega)]
        · rw [List.getElem?_set_self (by simp; omega)]
      · obtain ⟨o, r', ho, hr', h1, h2⟩ := hFi i (by omega)
        refine ⟨o, r', ho, hr', ?_, ?_⟩
        · rw [List.getElem?_set_ne (by omega), List.getElem?_set_ne (by omega), h1]
        · rw [List.getElem?_set_ne (by omega), List.getElem?_set_ne (by omega), h2]
    · intro k hk
      rw [List.getElem?_set_ne (by omega), List.getElem?_set_ne (by omega), hFk k (by omega)]

/-- The length of a resized vector. -/
theorem resize_length (v : List K) (n : ℕ) : (resize v n).length = n := by
  simp only [resize, List.length_append, List.length_take, List.length_replicate]
  omega

/-- Without an update vector an observation whose indices are in range is
projected with the stored camera and point. -/
theorem observation_residual_none (lm : Libm K) (cameras : List (Camera K))
    (points : List (Point3D K)) (o : Observation K) (cam : Camera K) (p : Point3D K)
    (hc : cameras[o.camera_id]? = some cam) (hp : points[o.point_id]? = some p) :
    observation_residual lm none cameras points o
      = some ((predicted_pixel cam p).1 - o.pos 0, (predicted_pixel cam p).2 - o.pos 1) := by
  simp [observation_residual, reprojection_operands, hc, hp]

/-- C1: without an update vector and with all observation indices in range,
`compute_reprojection_errors` returns a vector of length `2 * |observations|`
whose entries `2i`, `2i+1` are `f*s*x - obs_x`, `f*s*y - obs_y` for the camera
and point of observation `i`, with `(xc, yc, zc) = R X + t`, `x = xc/zc`,
`y = yc/zc`, `r2 = x*x + y*y`, `s = 1 + r2*(k0 + k1*r2)`, whatever the content
and size of the output vector at entry. -/
theorem compute_reprojection_errors_spec (lm : Libm K) (vector_f : List K)
    (cameras : List (Camera K)) (points : List (Point3D K))
    (observations : List (Observation K))
    (hin : ∀ o ∈ observations, o.camera_id < cameras.length ∧ o.point_id < points.length)
    (_hz : ∀ o ∈ observations, ∀ cam p, cameras[o.camera_id]? = some cam →
      points[o.point_id]? = some p → camera_depth cam p ≠ 0) :
    ∃ F, compute_reprojection_errors lm vector_f none cameras points observations = some F
      ∧ F.length = 2 * observations.length
      ∧ ∀ i, i < observations.length → ∃ o cam p, observations[i]? = some o
          ∧ cameras[o.camera_id]? = some cam ∧ points[o.point_id]? = some p
          ∧ (let R := cam.rotation
             let t := cam.translation
             let X := p.pos
             let xc := R 0 * X 0 + R 1 * X 1 + R 2 * X 2 + t 0
             let yc := R 3 * X 0 + R 4 * X 1 + R 5 * X 2 + t 1
             let zc := R 6 * X 0 + R 7 * X 1 + R 8 * X 2 + t 2
             let x := xc / zc
             let y := yc / zc
             let r2 := x * x + y * y
             let s := 1 + r2 * (cam.distortion 0 + cam.distortion 1 * r2)
             F[2 * i]? = some (cam.focal_length * s * x - o.pos 0)
               ∧ F[2 * i + 1]? = some (cam.focal_length * s * y - o.pos 1)) := by
  have hres : ∀ o ∈ observations,
      (observation_residual lm none cameras points o).isSome := by
    intro o ho
    obtain ⟨h1, h2⟩ := hin o ho
    rw [observation_residual_none lm cameras points o cameras[o.camera_id] points[o.point_id]
      (List.getElem?_eq_getElem h1) (List.getElem?_eq_getElem h2)]
    rfl
  have hlen : (if vector_f.length ≠ observations.length * 2
      then resize vector_f (observations.length * 2) else vector_f).length
        = observations.length * 2 := by
    split
    · exact resize_length _ _
    · rename_i h
      exact not_not.mp h
  obtain ⟨F, hF, hFlen, hFi, -⟩ := compute_reprojection_errors_loop lm none cameras points
    observations _ hlen hres observations.length le_rfl
  refine ⟨F, hF, by omega, ?_⟩
  intro i hi
  obtain ⟨o, r, ho, hr, h1, h2⟩ := hFi i hi
  obtain ⟨hc, hp⟩ := hin o (List.getElem?_mem ho)
  refine ⟨o, cameras[o.camera_id], points[o.point_id], ho, List.getElem?_eq_getElem hc,
    List.getElem?_eq_getElem hp, ?_⟩
  rw [observation_residual_none lm cameras points o cameras[o.camera_id] points[o.point_id]
      (List.getElem?_eq_getElem hc) (List.getElem?_eq_getElem hp)] at hr
  rw [mul_comm 2 i, h1, h2, ← Option.some.inj hr, predicted_pixel_eq]
  simp only [pixel_of, camera_x, camera_y, camera_depth, Option.some.injEq]
  generalize cameras[o.camera_id].rotation 0 * points[o.point_id].pos 0
    + cameras[o.camera_id].rotation 1 * points[o.point_id].pos 1
    + cameras[o.camera_id].rotation 2 * points[o.point_id].pos 2
    + cameras[o.camera_id].translation 0 = xc
  generalize cameras[o.camera_id].rotation 3 * points[o.point_id].pos 0
    + cameras[o.camera_id].rotation 4 * points[o.point_id].pos 1
    + cameras[o.camera_id].rotation 5 * points[o.point_id].pos 2
    + cameras[o.camera_id].translation 1 = yc
  generalize cameras[o.camera_id].rotation 6 * points[o.point_id].pos 0
    + cameras[o.camera_id].rotation 7 * points[o.point_id].pos 1
    + cameras[o.camera_id].rotation 8 * points[o.point_id].pos 2
    + cameras[o.camera_id].translation 2 = zc
  constructor <;> ring

/-- What `update_point` writes when the output object is a different object
than the input point. -/
theorem update_point_eq (pt : Point3D K) (update : ℕ → K) (out : Point3D K) :
    update_point false pt update out
      = { pos := ![pt.pos 0 + update 0, pt.pos 1 + update 1, pt.pos 2 + update 2] } := by
  simp [update_point, update_update_fin3]

/-- What `update_point` writes when the output object is the input point. -/
theorem update_point_eq_aliased (pt : Point3D K) (update : ℕ → K) :
    update_point true pt update pt
      = { pos := ![pt.pos 0 + update 0, pt.pos 1 + update 1, pt.pos 2 + update 2] } := by
  simp [update_point, update_update_fin3]

/-- The camera loop of `update_parameters` after `n` rounds. -/
theorem update_parameters_cam_loop (lm : Libm K) (delta_x : List K) (cameras : List (Camera K))
    (hd : 9 * cameras.length ≤ delta_x.length) (n : ℕ) (hn : n ≤ cameras.length) :
    ∃ res, (List.range n).foldlM (update_parameters_cam_step lm delta_x) (cameras, 0) = some res
      ∧ res.1.length = cameras.length
      ∧ (∀ i c, i < n → cameras[i]? = some c →
          res.1[i]? = some (update_camera lm true c (ptr delta_x (9 * i)) c))
      ∧ (∀ i, n ≤ i → res.1[i]? = cameras[i]?)
      ∧ res.2 = if n = 0 then 0 else cameras.length * 9 := by
  induction n with
  | zero => exact ⟨(cameras, 0), by simp, rfl, by simp, by simp, by simp⟩
  | succ n ih =>
    obtain ⟨res, hres, hlen, hlt, hge, _⟩ := ih (by omega)
    have hn' : n < cameras.length := by omega
    have hc : res.1[n]? = some cameras[n] := by
      rw [hge n le_rfl, List.getElem?_eq_getElem hn']
    have hp : ptr? delta_x (num_cam_params * n) 9 = some (ptr delta_x (9 * n)) := by
      simp only [ptr?, num_cam_params]
      rw [if_pos (by omega)]
    have hstep : update_parameters_cam_step lm delta_x res n
        = some (res.1.set n (update_camera lm true cameras[n] (ptr delta_x (9 * n)) cameras[n]),
            res.1.length * num_cam_params) := by
      simp only [update_parameters_cam_step, hc, hp]
    refine ⟨(res.1.set n (update_camera lm true cameras[n] (ptr delta_x (9 * n)) cameras[n]),
      res.1.length * num_cam_params), ?_, ?_, ?_, ?_, ?_⟩
    · rw [List.range_succ, List.foldlM_append, hres]
      simp only [List.foldlM_cons, List.foldlM_nil, Option.bind_eq_bind, Option.some_bind, hstep,
        Option.pure_def, Option.bind_some]
    · simpa using hlen
    · intro i c hi hci
      by_cases hin : i = n
      · subst hin
        rw [List.getElem?_eq_getElem hn'] at hci
        rw [Option.some.inj hci]
        exact List.getElem?_set_self (by omega)
      · show (res.1.set n _)[i]? = _
        rw [List.getElem?_set_ne (by omega)]
        exact hlt i c (by omega) hci
    · intro i hi
      show (res.1.set n _)[i]? = _
      rw [List.getElem?_set_ne (by omega)]
      exact hge i (by omega)
    · simp [hlen, num_cam_params]

/-- The point loop of `update_parameters` after `n` rounds. -/
theorem update_parameters_point_loop (delta_x : List K) (total : ℕ) (points : List (Point3D K))
    (hd : total + 3 * points.length ≤ delta_x.length) (n : ℕ) (hn : n ≤ points.length) :
    ∃ res, (List.range n).foldlM (update_parameters_point_step delta_x total) points = some res
      ∧ res.length = points.length
      ∧ (∀ i p, i < n → points[i]? = some p →
          res[i]? = some (update_point true p (ptr delta_x (total + i * 3)) p))
      ∧ (∀ i, n ≤ i → res[i]? = points[i]?) := by
  induction n with
  | zero => exact ⟨points, by simp, rfl, by simp, by simp⟩
  | succ n ih =>
    obtain ⟨res, hres, hlen, hlt, hge⟩ := ih (by omega)
    have hn' : n < points.length := by omega
    have hc : res[n]? = some points[n] := by
      rw [hge n le_rfl, List.getElem?_eq_getElem hn']
    have hp : ptr? delta_x (total + n * 3) 3 = some (ptr delta_x (total + n * 3)) := by
      simp only [ptr?]
      rw [if_pos (by omega)]
    have hstep : update_parameters_point_step delta_x total res n
        = some (res.set n (update_point true points[n] (ptr delta_x (total + n * 3)) points[n]))
        := by
      simp only [update_parameters_point_step, hc, hp]
    refine ⟨res.set n (update_point true points[n] (ptr delta_x (total + n * 3)) points[n]),
      ?_, ?_, ?_, ?_⟩
    · rw [List.range_succ, List.foldlM_append, hres]
      simp only [List.foldlM_cons, List.foldlM_nil, Option.bind_eq_bind, Option.some_bind, hstep,
        Option.pure_def, Option.bind_some]
    · simpa using hlen
    · intro i p hi hpi
      by_cases hin : i = n
      · subst hin
        rw [List.getElem?_eq_getElem hn'] at hpi
        rw [Option.some.inj hpi]
        exact List.getElem?_set_self (by omega)
      · rw [List.getElem?_set_ne (by omega)]
        exact hlt i p (by omega) hpi
    · intro i hi
      rw [List.getElem?_set_ne (by omega)]
      exact hge i (by omega)

/-- `update_parameters` with an update vector of the right length: camera `c`
is updated with `delta_x[9c .. 9c+8]`, point `p` with
`delta_x[9*|cameras| + 3p .. +2]`. -/
theorem update_parameters_eq (lm : Libm K) (delta_x : List K) (cameras : List (Camera K))
    (points : List (Point3D K))
    (hd : delta_x.length = 9 * cameras.length + 3 * points.length) :
    ∃ cameras1 points1, update_parameters lm delta_x cameras points = some (cameras1, points1)
      ∧ cameras1.length = cameras.length ∧ points1.length = points.length
      ∧ (∀ i c, cameras[i]? = some c →
          cameras1[i]? = some (update_camera lm true c (ptr delta_x (9 * i)) c))
      ∧ (∀ i p, points[i]? = some p →
          points1[i]? = some (update_point true p
            (ptr delta_x (9 * cameras.length + 3 * i)) p)) := by
  obtain ⟨rc, hrc, hlc, hc, -, ht⟩ := update_parameters_cam_loop lm delta_x cameras
    (by omega) cameras.length le_rfl
  have ht' : rc.2 = 9 * cameras.length := by
    rw [ht]
    split <;> omega
  obtain ⟨rp, hrp, hlp, hp, -⟩ := update_parameters_point_loop delta_x rc.2 points
    (by omega) points.length le_rfl
  refine ⟨rc.1, rp, ?_, hlc, hlp, ?_, ?_⟩
  · simp only [update_parameters, hrc, hrp]
  · intro i c hi
    exact hc i c (List.getElem?_eq_some.mp hi).1 hi
  · intro i p hi
    have := hp i p (List.getElem?_eq_some.mp hi).1 hi
    rw [this, ht', Nat.mul_comm i 3]

/-- The residual of one observation evaluated with an update vector on the
original lists is its residual evaluated without an update vector on the
updated lists. -/
theorem observation_residual_update (lm : Libm K) (delta_x : List K)
    (cameras cameras1 : List (Camera K)) (points points1 : List (Point3D K))
    (hd : delta_x.length = 9 * cameras.length + 3 * points.length)
    (hc : ∀ i c, cameras[i]? = some c →
      cameras1[i]? = some (update_camera lm true c (ptr delta_x (9 * i)) c))
    (hp : ∀ i p, points[i]? = some p →
      points1[i]? = some (update_point true p (ptr delta_x (9 * cameras.length + 3 * i)) p))
    (o : Observation K) (hoc : o.camera_id < cameras.length) (hop : o.point_id < points.length) :
    observation_residual lm (some delta_x) cameras points o
      = observation_residual lm none cameras1 points1 o := by
  have h1 := List.getElem?_eq_getElem hoc
  have h2 := List.getElem?_eq_getElem hop
  have e1 : ptr? delta_x (o.camera_id * num_cam_params) 9
      = some (ptr delta_x (9 * o.camera_id)) := by
    simp only [ptr?, num_cam_params]
    rw [if_pos (by omega), Nat.mul_comm]
  have e2 : ptr? delta_x (o.point_id * 3 + cameras.length * num_cam_params) 3
      = some (ptr delta_x (9 * cameras.length + 3 * o.point_id)) := by
    have e : o.point_id * 3 + cameras.length * num_cam_params
        = 9 * cameras.length + 3 * o.point_id := by
      simp only [num_cam_params]
      omega
    rw [e]
    simp only [ptr?]
    rw [if_pos (by omega)]
  rw [observation_residual_none lm cameras1 points1 o _ _ (hc _ _ h1) (hp _ _ h2)]
  simp only [observation_residual, reprojection_operands, h1, h2, e1, e2]
  rw [update_camera_eq, update_camera_eq_aliased, update_point_eq, update_point_eq_aliased]

/-- C7: for in-range observations and an update vector `delta` of length
`9*|cameras| + 3*|points|`, `update_parameters(delta)` returns the lists in
which camera `c` has `delta[9c .. 9c+5]` added to its focal length, distortion
coefficients and translation and its rotation multiplied from the left by
`rodrigues_to_matrix` of `delta[9c+6 .. 9c+8]`, and point `p` has
`delta[9*|cameras| + 3p .. +2]` added to its position; and the residual
evaluated with `delta` on the original lists is the residual evaluated without
it on those updated lists, whatever the output vectors held at entry: a vector
of two entries per observation, the predicted pixel of the updated camera and
point of the observation minus the observed pixel.  (Where an observation is
projected with the depth zero the two entries stand for values that are not
finite, in both evaluations alike.) -/
theorem trial_residual_eq_committed_residual (lm : Libm K) (vector_f vector_g delta_x : List K)
    (cameras : List (Camera K)) (points : List (Point3D K))
    (observations : List (Observation K))
    (hin : ∀ o ∈ observations, o.camera_id < cameras.length ∧ o.point_id < points.length)
    (hd : delta_x.length = 9 * cameras.length + 3 * points.length) :
    ∃ cameras1 points1 F,
      update_parameters lm delta_x cameras points = some (cameras1, points1)
      ∧ compute_reprojection_errors lm vector_f (some delta_x) cameras points observations
          = some F
      ∧ compute_reprojection_errors lm vector_g none cameras1 points1 observations = some F
      ∧ cameras1.length = cameras.length ∧ points1.length = points.length
      ∧ F.length = 2 * observations.length
      ∧ (∀ (c : ℕ) (cam : Camera K), cameras[c]? = some cam →
          cameras1[c]? = some
            { focal_length := cam.focal_length + delta_x.getD (9 * c) 0
              distortion := ![cam.distortion 0 + delta_x.getD (9 * c + 1) 0,
                cam.distortion 1 + delta_x.getD (9 * c + 2) 0]
              translation := ![cam.translation 0 + delta_x.getD (9 * c + 3) 0,
                cam.translation 1 + delta_x.getD (9 * c + 4) 0,
                cam.translation 2 + delta_x.getD (9 * c + 5) 0]
              rotation := matrix_multiply
                (rodrigues_to_matrix lm (fun j => delta_x.getD (9 * c + (6 + j)) 0))
                cam.rotation })
      ∧ (∀ (p : ℕ) (pt : Point3D K), points[p]? = some pt →
          points1[p]? = some
            { pos := ![pt.pos 0 + delta_x.getD (9 * cameras.length + 3 * p) 0,
                pt.pos 1 + delta_x.getD (9 * cameras.length + 3 * p + 1) 0,
                pt.pos 2 + delta_x.getD (9 * cameras.length + 3 * p + 2) 0] })
      ∧ (∀ (i : ℕ) (o : Observation K), observations[i]? = some o →
          ∃ cam1 pt1, cameras1[o.camera_id]? = some cam1 ∧ points1[o.point_id]? = some pt1
            ∧ F[2 * i]? = some ((predicted_pixel cam1 pt1).1 - o.pos 0)
            ∧ F[2 * i + 1]? = some ((predicted_pixel cam1 pt1).2 - o.pos 1)) := by
  obtain ⟨cameras1, points1, hup, hlc, hlp, hc, hp⟩ :=
    update_parameters_eq lm delta_x cameras points hd
  have hres1 : ∀ o ∈ observations,
      (observation_residual lm none cameras1 points1 o).isSome := by
    intro o ho
    obtain ⟨h1, h2⟩ := hin o ho
    rw [observation_residual_none lm cameras1 points1 o cameras1[o.camera_id]
      points1[o.point_id] (List.getElem?_eq_getElem (by omega))
      (List.getElem?_eq_getElem (by omega))]
    rfl
  have heq : ∀ o ∈ observations, observation_residual lm (some delta_x) cameras points o
      = observation_residual lm none cameras1 points1 o := fun o ho =>
    observation_residual_update lm delta_x cameras cameras1 points points1 hd hc hp o
      (hin o ho).1 (hin o ho).2
  have hres : ∀ o ∈ observations,
      (observation_residual lm (some delta_x) cameras points o).isSome := by
    intro o ho
    rw [heq o ho]
    exact hres1 o ho
  have hlen : ∀ v : List K, (if v.length ≠ observations.length * 2
      then resize v (observations.length * 2) else v).length = observations.length * 2 := by
    intro v
    split
    · exact resize_length _ _
    · rename_i h
      exact not_not.mp h
  obtain ⟨F, hF, hFlen, hFi, -⟩ := compute_reprojection_errors_loop lm (some delta_x) cameras
    points observations _ (hlen vector_f) hres observations.length le_rfl
  obtain ⟨G, hG, hGlen, hGi, -⟩ := compute_reprojection_errors_loop lm none cameras1
    points1 observations _ (hlen vector_g) hres1 observations.length le_rfl
  have hFG : G = F := by
    apply List.ext_getElem?
    intro k
    by_cases hk : k < observations.length * 2
    · obtain ⟨o, r, ho, hr, h1, h2⟩ := hFi (k / 2) (by omega)
      obtain ⟨o', r', ho', hr', h1', h2'⟩ := hGi (k / 2) (by omega)
      have hoo : o' = o := Option.some.inj (ho'.symm.trans ho)
      subst hoo
      have hrr : r' = r := by
        rw [heq o' (List.getElem?_mem ho)] at hr
        exact Option.some.inj (hr'.symm.trans hr)
      subst hrr
      rcases Nat.mod_two_eq_zero_or_one k with hm | hm
      · have : k = k / 2 * 2 := by omega
        rw [this, h1, h1']
      · have : k = k / 2 * 2 + 1 := by omega
        rw [this, h2, h2']
    · rw [List.getElem?_eq_none (by omega), List.getElem?_eq_none (by omega)]
  subst hFG
  refine ⟨cameras1, points1, G, hup, hF, hG, hlc, hlp, ?_, ?_, ?_, ?_⟩
  · omega
  · intro c cam hcam
    rw [hc c cam hcam, update_camera_eq_aliased]
    rfl
  · intro p pt hpt
    rw [hp p pt hpt, update_point_eq_aliased]
    rfl
  · intro i o ho
    have hi : i < observations.length := (List.getElem?_eq_some.mp ho).1
    obtain ⟨o', r', ho', hr', h1', h2'⟩ := hGi i hi
    have hoo : o' = o := Option.some.inj (ho'.symm.trans ho)
    subst hoo
    obtain ⟨hoc, hop⟩ := hin o' (List.getElem?_mem ho)
    have hc1 : cameras1[o'.camera_id]? = some cameras1[o'.camera_id] :=
      List.getElem?_eq_getElem (by omega)
    have hp1 : points1[o'.point_id]? = some points1[o'.point_id] :=
      List.getElem?_eq_getElem (by omega)
    rw [observation_residual_none lm cameras1 points1 o' _ _ hc1 hp1] at hr'
    refine ⟨_, _, hc1, hp1, ?_, ?_⟩
    · rw [Nat.mul_comm 2 i, h1', ← Option.some.inj hr']
    · rw [Nat.mul_comm 2 i, h2', ← Option.some.inj hr']

end Loops
section Assembly

variable {K : Type} [LinearOrderedField K]

/-- Membership in the triplets of one observation. -/
theorem mem_jacobian_triplets {n : ℕ} (row_x row_y col : ℕ) (x_ptr y_ptr : Fin n → K)
    (t : Triplet K) :
    t ∈ jacobian_triplets row_x row_y col x_ptr y_ptr
      ↔ ∃ j : Fin n, t = ⟨row_x, col + j.val, x_ptr j⟩ ∨ t = ⟨row_y, col + j.val, y_ptr j⟩ := by
  simp [jacobian_triplets, List.mem_flatMap, List.mem_finRange]

/-- Number of triplets of one observation. -/
theorem length_jacobian_triplets {n : ℕ} (row_x row_y col : ℕ) (x_ptr y_ptr : Fin n → K) :
    (jacobian_triplets row_x row_y col x_ptr y_ptr).length = 2 * n := by
  simp [jacobian_triplets, List.length_flatMap, Function.comp_def, List.map_const',
    List.sum_replicate, mul_comm]

/-- The positions of the triplets of one observation are pairwise different. -/
theorem nodup_jacobian_triplets {n : ℕ} (row_x row_y col : ℕ) (x_ptr y_ptr : Fin n → K)
    (h : row_x ≠ row_y) :
    ((jacobian_triplets row_x row_y col x_ptr y_ptr).map Triplet.pos).Nodup := by
  simp only [jacobian_triplets, List.map_flatMap, List.map_cons, List.map_nil, Triplet.pos]
  rw [List.nodup_flatMap]
  constructor
  · intro j _
    simp [h]
  · refine (List.nodup_finRange n).pairwise_of_forall_ne ?_
    intro a _ b _ hab
    have hv : a.val ≠ b.val := fun e => hab (Fin.ext e)
    simp [Function.onFun, List.disjoint_left]
    omega

/-- The shape and the stored positions of an assembled matrix. -/
theorem set_from_triplets_ok (A M : SparseMatrix K) (ts : List (Triplet K))
    (h : A.set_from_triplets ts = .ok M) :
    M.rows = A.rows ∧ M.cols = A.cols
      ∧ (∀ t ∈ ts, t.row < A.rows ∧ t.col < A.cols)
      ∧ (∀ r c, M.stored r c = ts.any (fun t => decide (t.row = r ∧ t.col = c)))
      ∧ (∀ r c, M.value r c
          = ((ts.filter (fun t => decide (t.row = r ∧ t.col = c))).map Triplet.value).sum) := by
  unfold SparseMatrix.set_from_triplets at h
  split at h
  · rename_i hall
    cases h
    refine ⟨rfl, rfl, ?_, fun _ _ => rfl, fun _ _ => rfl⟩
    intro t ht
    simpa using List.all_eq_true.mp hall t ht
  · cases h

/-- Assembly succeeds if every triplet lies inside the allocated shape. -/
theorem set_from_triplets_isOk (A : SparseMatrix K) (ts : List (Triplet K))
    (h : ∀ t ∈ ts, t.row < A.rows ∧ t.col < A.cols) :
    ∃ M, A.set_from_triplets ts = .ok M := by
  unfold SparseMatrix.set_from_triplets
  rw [if_pos]
  · exact ⟨_, rfl⟩
  · rw [List.all_eq_true]
    intro t ht
    simpa using h t ht

/-- In a list of triplets with pairwise different positions, the triplets at
the position of a member are that member alone. -/
theorem filter_pos_eq_singleton (ts : List (Triplet K)) (hn : (ts.map Triplet.pos).Nodup)
    (t : Triplet K) (ht : t ∈ ts) :
    ts.filter (fun s => decide (s.row = t.row ∧ s.col = t.col)) = [t] := by
  induction ts with
  | nil => cases ht
  | cons a l ih =>
    rw [List.map_cons, List.nodup_cons] at hn
    rcases List.mem_cons.mp ht with rfl | hl
    · have hnone : l.filter (fun s => decide (s.row = t.row ∧ s.col = t.col)) = [] := by
        rw [List.filter_eq_nil_iff]
        intro s hs hp
        have hp' : s.row = t.row ∧ s.col = t.col := by simpa using hp
        apply hn.1
        have : Triplet.pos t = Triplet.pos s := by
          simp [Triplet.pos, hp'.1, hp'.2]
        rw [this]
        exact List.mem_map_of_mem _ hs
      rw [List.filter_cons, if_pos (by simp), hnone]
    · have hne : ¬ (a.row = t.row ∧ a.col = t.col) := by
        intro hp
        apply hn.1
        have : Triplet.pos a = Triplet.pos t := by
          simp [Triplet.pos, hp.1, hp.2]
        rw [this]
        exact List.mem_map_of_mem _ hl
      rw [List.filter_cons, if_neg (by simpa using hne), ih hn.2 hl]

/-- The entries of a matrix assembled from triplets with pairwise different
positions: the value of the triplet at a position that occurs, zero
elsewhere. -/
theorem set_from_triplets_entry (A M : SparseMatrix K) (ts : List (Triplet K))
    (h : A.set_from_triplets ts = .ok M) (hn : (ts.map Triplet.pos).Nodup) :
    (∀ t ∈ ts, M.entry t.row t.col = t.value)
      ∧ (∀ r c, (∀ t ∈ ts, ¬ (t.row = r ∧ t.col = c)) → M.entry r c = 0) := by
  obtain ⟨hr, hc, hin, hs, hv⟩ := set_from_triplets_ok A M ts h
  constructor
  · intro t ht
    have hst : M.stored t.row t.col = true := by
      rw [hs, List.any_eq_true]
      exact ⟨t, ht, by simp⟩
    unfold SparseMatrix.entry
    rw [if_pos ⟨hr ▸ (hin t ht).1, hc ▸ (hin t ht).2, hst⟩, hv,
      filter_pos_eq_singleton ts hn t ht]
    simp
  · intro r c hno
    have hst : M.stored r c = false := by
      rw [hs, List.any_eq_false]
      intro t ht
      simpa using hno t ht
    unfold SparseMatrix.entry
    rw [if_neg]
    simp [hst]

/-- The observation loop of `analytic_jacobian` after `n` rounds: the triplets
pushed so far are those of the first `n` observations, 18 camera triplets and
6 point triplets each, at pairwise different positions. -/
theorem analytic_jacobian_triplets_loop (cameras : List (Camera K)) (points : List (Point3D K))
    (observations : List (Observation K))
    (hin : ∀ o ∈ observations, o.camera_id < cameras.length ∧ o.point_id < points.length)
    (n : ℕ) (hn : n ≤ observations.length) :
    ∃ ct pt, (List.range n).foldlM (analytic_jacobian_step cameras points observations) ([], [])
        = .ok (ct, pt)
      ∧ ct.length = 18 * n ∧ pt.length = 6 * n
      ∧ (∀ t, t ∈ ct ↔ ∃ i o cam p, i < n ∧ observations[i]? = some o
          ∧ cameras[o.camera_id]? = some cam ∧ points[o.point_id]? = some p
          ∧ ∃ j : Fin 9, t = ⟨i * 2, o.camera_id * 9 + j.val, (my_jacobian cam p).cam_x_ptr j⟩
              ∨ t = ⟨i * 2 + 1, o.camera_id * 9 + j.val, (my_jacobian cam p).cam_y_ptr j⟩)
      ∧ (∀ t, t ∈ pt ↔ ∃ i o cam p, i < n ∧ observations[i]? = some o
          ∧ cameras[o.camera_id]? = some cam ∧ points[o.point_id]? = some p
          ∧ ∃ j : Fin 3, t = ⟨i * 2, o.point_id * 3 + j.val, (my_jacobian cam p).point_x_ptr j⟩
              ∨ t = ⟨i * 2 + 1, o.point_id * 3 + j.val, (my_jacobian cam p).point_y_ptr j⟩)
      ∧ (ct.map Triplet.pos).Nodup ∧ (pt.map Triplet.pos).Nodup := by
  induction n with
  | zero => exact ⟨[], [], rfl, rfl, rfl, by simp, by simp, by simp, by simp⟩
  | succ n ih =>
    obtain ⟨ct, pt, hF, hcl, hpl, hcm, hpm, hcn, hpn⟩ := ih (by omega)
    have hn' : n < observations.length := by omega
    have ho := List.getElem?_eq_getElem hn'
    obtain ⟨h1, h2⟩ := hin observations[n] (List.getElem_mem _)
    have hc := List.getElem?_eq_getElem h1
    have hp := List.getElem?_eq_getElem h2
    obtain ⟨cb, pb, hcb, hpb, hstep⟩ : ∃ cb pb,
        cb = jacobian_triplets (n * 2 + 0) (n * 2 + 1)
                (observations[n].camera_id * num_cam_params)
                (my_jacobian cameras[observations[n].camera_id]
                  points[observations[n].point_id]).cam_x_ptr
                (my_jacobian cameras[observations[n].camera_id]
                  points[observations[n].point_id]).cam_y_ptr
        ∧ pb = jacobian_triplets (n * 2 + 0) (n * 2 + 1)
                (observations[n].point_id * 3)
                (my_jacobian cameras[observations[n].camera_id]
                  points[observations[n].point_id]).point_x_ptr
                (my_jacobian cameras[observations[n].camera_id]
                  points[observations[n].point_id]).point_y_ptr
        ∧ analytic_jacobian_step cameras points observations (ct, pt) n
            = .ok (ct ++ cb, pt ++ pb) := by
      refine ⟨_, _, rfl, rfl, ?_⟩
      simp only [analytic_jacobian_step, ho, hc, hp]
    refine ⟨ct ++ cb, pt ++ pb, ?_, ?_, ?_, ?_, ?_, ?_, ?_⟩
    all_goals try subst hcb hpb
    · rw [List.range_succ, List.foldlM_append, hF]
      simp only [List.foldlM_cons, List.foldlM_nil, bind, Except.bind, hstep, pure, Except.pure]
    · rw [List.length_append, length_jacobian_triplets, hcl]
      omega
    · rw [List.length_append, length_jacobian_triplets, hpl]
      omega
    · intro t
      rw [List.mem_append, hcm, mem_jacobian_triplets]
      constructor
      · rintro (⟨i, o, cam, p, hi, h⟩ | ⟨j, h⟩)
        · exact ⟨i, o, cam, p, by omega, h⟩
        · exact ⟨n, _, _, _, by omega, ho, hc, hp, j, by simpa [num_cam_params] using h⟩
      · rintro ⟨i, o, cam, p, hi, hoi, hci, hpi, j, h⟩
        by_cases hlt : i < n
        · exact Or.inl ⟨i, o, cam, p, hlt, hoi, hci, hpi, j, h⟩
        · have hie : i = n := by omega
          subst hie
          rw [ho] at hoi
          cases hoi
          rw [hc] at hci
          cases hci
          rw [hp] at hpi
          cases hpi
          exact Or.inr ⟨j, by simpa [num_cam_params] using h⟩
    · intro t
      rw [List.mem_append, hpm, mem_jacobian_triplets]
      constructor
      · rintro (⟨i, o, cam, p, hi, h⟩ | ⟨j, h⟩)
        · exact ⟨i, o, cam, p, by omega, h⟩
        · exact ⟨n, _, _, _, by omega, ho, hc, hp, j, by simpa using h⟩
      · rintro ⟨i, o, cam, p, hi, hoi, hci, hpi, j, h⟩
        by_cases hlt : i < n
        · exact Or.inl ⟨i, o, cam, p, hlt, hoi, hci, hpi, j, h⟩
        · have hie : i = n := by omega
          subst hie
          rw [ho] at hoi
          cases hoi
          rw [hc] at hci
          cases hci
          rw [hp] at hpi
          cases hpi
          exact Or.inr ⟨j, by simpa using h⟩
    · rw [List.map_append, List.nodup_append]
      refine ⟨hcn, nodup_jacobian_triplets _ _ _ _ _ (by omega), ?_⟩
      rw [List.disjoint_left]
      intro q hq1 hq2
      obtain ⟨t, ht, rfl⟩ := List.mem_map.mp hq1
      obtain ⟨t', ht', he⟩ := List.mem_map.mp hq2
      obtain ⟨i, o, cam, p, hi, -, -, -, j, h⟩ := (hcm t).mp ht
      obtain ⟨j', h'⟩ := (mem_jacobian_triplets _ _ _ _ _ t').mp ht'
      have hrow : t'.row = t.row := congrArg Prod.fst he
      rcases h with rfl | rfl <;> rcases h' with rfl | rfl <;> simp at hrow <;> omega
    · rw [List.map_append, List.nodup_append]
      refine ⟨hpn, nodup_jacobian_triplets _ _ _ _ _ (by omega), ?_⟩
      rw [List.disjoint_left]
      intro q hq1 hq2
      obtain ⟨t, ht, rfl⟩ := List.mem_map.mp hq1
      obtain ⟨t', ht', he⟩ := List.mem_map.mp hq2
      obtain ⟨i, o, cam, p, hi, -, -, -, j, h⟩ := (hpm t).mp ht
      obtain ⟨j', h'⟩ := (mem_jacobian_triplets _ _ _ _ _ t').mp ht'
      have hrow : t'.row = t.row := congrArg Prod.fst he
      rcases h with rfl | rfl <;> rcases h' with rfl | rfl <;> simp at hrow <;> omega

/-- What `analytic_jacobian` returns for in-range observations: the shapes,
the pushed triplets, and the entries of the assembled matrices. -/
theorem analytic_jacobian_ok (cameras : List (Camera K)) (points : List (Point3D K))
    (observations : List (Observation K))
    (hin : ∀ o ∈ observations, o.camera_id < cameras.length ∧ o.point_id < points.length) :
    ∃ ct pt Jc Jp,
      (∀ r c, Jc.stored r c = ct.any (fun t => decide (t.row = r ∧ t.col = c)))
      ∧ (∀ r c, Jp.stored r c = pt.any (fun t => decide (t.row = r ∧ t.col = c)))
      ∧ analytic_jacobian_triplets cameras points observations = .ok (ct, pt)
      ∧ analytic_jacobian cameras points observations = .ok (Jc, Jp)
      ∧ Jc.rows = 2 * observations.length ∧ Jc.cols = 9 * cameras.length
      ∧ Jp.rows = 2 * observations.length ∧ Jp.cols = 3 * points.length
      ∧ ct.length = 18 * observations.length ∧ pt.length = 6 * observations.length
      ∧ (∀ t, t ∈ ct ↔ ∃ i o cam p, i < observations.length ∧ observations[i]? = some o
          ∧ cameras[o.camera_id]? = some cam ∧ points[o.point_id]? = some p
          ∧ ∃ j : Fin 9, t = ⟨i * 2, o.camera_id * 9 + j.val, (my_jacobian cam p).cam_x_ptr j⟩
              ∨ t = ⟨i * 2 + 1, o.camera_id * 9 + j.val, (my_jacobian cam p).cam_y_ptr j⟩)
      ∧ (∀ t, t ∈ pt ↔ ∃ i o cam p, i < observations.length ∧ observations[i]? = some o
          ∧ cameras[o.camera_id]? = some cam ∧ points[o.point_id]? = some p
          ∧ ∃ j : Fin 3, t = ⟨i * 2, o.point_id * 3 + j.val, (my_jacobian cam p).point_x_ptr j⟩
              ∨ t = ⟨i * 2 + 1, o.point_id * 3 + j.val, (my_jacobian cam p).point_y_ptr j⟩)
      ∧ (ct.map Triplet.pos).Nodup ∧ (pt.map Triplet.pos).Nodup
      ∧ (∀ t ∈ ct, Jc.entry t.row t.col = t.value)
      ∧ (∀ r c, (∀ t ∈ ct, ¬ (t.row = r ∧ t.col = c)) → Jc.entry r c = 0)
      ∧ (∀ t ∈ pt, Jp.entry t.row t.col = t.value)
      ∧ (∀ r c, (∀ t ∈ pt, ¬ (t.row = r ∧ t.col = c)) → Jp.entry r c = 0) := by
  obtain ⟨ct, pt, hF, hcl, hpl, hcm, hpm, hcn, hpn⟩ :=
    analytic_jacobian_triplets_loop cameras points observations hin observations.length le_rfl
  have hcin : ∀ t ∈ ct, t.row < observations.length * 2
      ∧ t.col < cameras.length * num_cam_params := by
    intro t ht
    obtain ⟨i, o, cam, p, hi, -, hc, -, j, h⟩ := (hcm t).mp ht
    have hlt := (List.getElem?_eq_some.mp hc).1
    have hj := j.isLt
    rcases h with rfl | rfl <;> simp only [num_cam_params] <;> constructor <;> omega
  have hpin : ∀ t ∈ pt, t.row < observations.length * 2 ∧ t.col < points.length * 3 := by
    intro t ht
    obtain ⟨i, o, cam, p, hi, -, -, hp, j, h⟩ := (hpm t).mp ht
    have hlt := (List.getElem?_eq_some.mp hp).1
    have hj := j.isLt
    rcases h with rfl | rfl <;> dsimp only <;> constructor <;> omega
  obtain ⟨Jc, hJc⟩ := set_from_triplets_isOk
    (SparseMatrix.allocate (observations.length * 2) (cameras.length * num_cam_params)) ct hcin
  obtain ⟨Jp, hJp⟩ := set_from_triplets_isOk
    (SparseMatrix.allocate (observations.length * 2) (points.length * 3)) pt hpin
  obtain ⟨hr1, hc1, -, hs1, -⟩ := set_from_triplets_ok _ _ _ hJc
  obtain ⟨hr2, hc2, -, hs2, -⟩ := set_from_triplets_ok _ _ _ hJp
  obtain ⟨he1, hz1⟩ := set_from_triplets_entry _ _ _ hJc hcn
  obtain ⟨he2, hz2⟩ := set_from_triplets_entry _ _ _ hJp hpn
  refine ⟨ct, pt, Jc, Jp, hs1, hs2, hF, ?_, ?_, ?_, ?_, ?_, hcl, hpl, hcm, hpm, hcn, hpn, he1, hz1, he2, hz2⟩
  · have hF' : analytic_jacobian_triplets cameras points observations = .ok (ct, pt) := hF
    simp only [analytic_jacobian, hF', bind, Except.bind, hJc, hJp, pure, Except.pure]
  · rw [hr1]
    simp only [SparseMatrix.allocate]
    omega
  · rw [hc1]
    simp only [SparseMatrix.allocate, num_cam_params]
    omega
  · rw [hr2]
    simp only [SparseMatrix.allocate]
    omega
  · rw [hc2]
    simp only [SparseMatrix.allocate]
    omega

/-- C5: for in-range observations `analytic_jacobian` returns `Jc` with
`2*|observations|` rows and `9*|cameras|` columns and `Jp` with the same rows
and `3*|points|` columns.  It pushes, for every observation `i`, exactly the
18 camera triplets at rows `2i`, `2i+1` and columns `9*camera_id + j` and the
6 point triplets at rows `2i`, `2i+1` and columns `3*point_id + j`, with the
values of `my_jacobian`, and nothing else; no position occurs twice, the
matrices hold the pushed values at the pushed positions and zero elsewhere. -/
theorem analytic_jacobian_spec (cameras : List (Camera K)) (points : List (Point3D K))
    (observations : List (Observation K))
    (hin : ∀ o ∈ observations, o.camera_id < cameras.length ∧ o.point_id < points.length) :
    ∃ ct pt Jc Jp, analytic_jacobian_triplets cameras points observations = .ok (ct, pt)
      ∧ analytic_jacobian cameras points observations = .ok (Jc, Jp)
      ∧ Jc.rows = 2 * observations.length ∧ Jc.cols = 9 * cameras.length
      ∧ Jp.rows = 2 * observations.length ∧ Jp.cols = 3 * points.length
      ∧ ct.length = 18 * observations.length ∧ pt.length = 6 * observations.length
      ∧ (∀ t, t ∈ ct ↔ ∃ i o cam p, i < observations.length ∧ observations[i]? = some o
          ∧ cameras[o.camera_id]? = some cam ∧ points[o.point_id]? = some p
          ∧ ∃ j : Fin 9, t = ⟨i * 2, o.camera_id * 9 + j.val, (my_jacobian cam p).cam_x_ptr j⟩
              ∨ t = ⟨i * 2 + 1, o.camera_id * 9 + j.val, (my_jacobian cam p).cam_y_ptr j⟩)
      ∧ (∀ t, t ∈ pt ↔ ∃ i o cam p, i < observations.length ∧ observations[i]? = some o
          ∧ cameras[o.camera_id]? = some cam ∧ points[o.point_id]? = some p
          ∧ ∃ j : Fin 3, t = ⟨i * 2, o.point_id * 3 + j.val, (my_jacobian cam p).point_x_ptr j⟩
              ∨ t = ⟨i * 2 + 1, o.point_id * 3 + j.val, (my_jacobian cam p).point_y_ptr j⟩)
      ∧ (ct.map Triplet.pos).Nodup ∧ (pt.map Triplet.pos).Nodup
      ∧ (∀ t ∈ ct, Jc.entry t.row t.col = t.value)
      ∧ (∀ r c, (∀ t ∈ ct, ¬ (t.row = r ∧ t.col = c)) → Jc.entry r c = 0)
      ∧ (∀ t ∈ pt, Jp.entry t.row t.col = t.value)
      ∧ (∀ r c, (∀ t ∈ pt, ¬ (t.row = r ∧ t.col = c)) → Jp.entry r c = 0) :=
  let ⟨ct, pt, Jc, Jp, _, _, h⟩ := analytic_jacobian_ok cameras points observations hin
  ⟨ct, pt, Jc, Jp, h⟩

end Assembly
section BlockMultiply

variable {K : Type} [LinearOrderedField K]

/-- A monadic map all of whose calls return. -/
theorem mapM_ok {α β : Type} (f : α → Except Fault β) (g : α → β) (l : List α)
    (h : ∀ x ∈ l, f x = .ok (g x)) : l.mapM f = .ok (l.map g) := by
  induction l with
  | nil => rfl
  | cons a l ih =>
    rw [List.mapM_cons, h a (List.mem_cons_self _ _), ih (fun x hx => h x (List.mem_cons_of_mem _ hx))]
    rfl

/-- A sum over a list of consecutive numbers as a sum over a range. -/
theorem sum_map_range (f : ℕ → K) (n : ℕ) :
    ((List.range n).map f).sum = ∑ k ∈ Finset.range n, f k := by
  induction n with
  | zero => simp
  | succ n ih => rw [List.range_succ, List.map_append, List.sum_append, ih,
      Finset.sum_range_succ]; simp

/-- A sum over the members of a list that pass a test. -/
theorem sum_map_filter (l : List ℕ) (p : ℕ → Bool) (f : ℕ → K) :
    ((l.filter p).map f).sum = (l.map (fun k => if p k = true then f k else 0)).sum := by
  induction l with
  | nil => rfl
  | cons a l ih =>
    by_cases h : p a = true
    · rw [List.filter_cons, if_pos h, List.map_cons, List.sum_cons, ih, List.map_cons,
        List.sum_cons, if_pos h]
    · rw [List.filter_cons, if_neg h, ih, List.map_cons, List.sum_cons, if_neg h, zero_add]

/-- The dot product of the packed values of two columns with the same stored
rows is the dot product of the two columns. -/
theorem dot_column_nonzeros (A : SparseMatrix K) (c1 c2 : ℕ) (h1 : c1 < A.cols)
    (h2 : c2 < A.cols) (hp : ∀ r, r < A.rows → A.stored r c1 = A.stored r c2) :
    dot ((A.column_rows c1).map (fun r => A.value r c1))
        ((A.column_rows c2).map (fun r => A.value r c2))
      = .ok (∑ k ∈ Finset.range A.rows, A.entry k c1 * A.entry k c2) := by
  have hrows : A.column_rows c2 = A.column_rows c1 := by
    unfold SparseMatrix.column_rows
    apply List.filter_congr
    intro r hr
    exact (hp r (List.mem_range.mp hr)).symm
  rw [hrows]
  unfold dot
  rw [if_pos (by simp), List.zipWith_map, List.zipWith_same]
  congr 1
  unfold SparseMatrix.column_rows
  rw [sum_map_filter, sum_map_range]
  apply Finset.sum_congr rfl
  intro k hk
  have hk' := Finset.mem_range.mp hk
  unfold SparseMatrix.entry
  by_cases hs : A.stored k c1 = true
  · have hs2 : A.stored k c2 = true := by rw [← hp k hk']; exact hs
    rw [if_pos hs, if_pos ⟨hk', h1, hs⟩, if_pos ⟨hk', h2, hs2⟩]
  · rw [if_neg hs, if_neg (fun h => hs h.2.2)]
    simp

/-- Reading an entry of a list built over a range. -/
theorem getD_map_range {α : Type} (F : ℕ → α) (n i : ℕ) (d : α) (h : i < n) :
    ((List.range n).map F).getD i d = F i := by
  rw [List.getD_eq_getElem?_getD, List.getElem?_map, List.getElem?_range h]
  rfl

/-- The triplets pushed for one column of a block. -/
theorem block_column_triplets_ok (A : SparseMatrix K) (bs m b col : ℕ)
    (hcols : A.cols = m * bs) (hu : BlockUniform A bs m) (hb : b < m) (hcol : col < bs) :
    block_column_triplets (b * bs) bs
        ((List.range bs).map (fun c => (A.column_rows (b * bs + c)).map
          (fun r => A.value r (b * bs + c)))) col
      = .ok (block_column_list A.gram (b * bs) bs col) := by
  have hlt : ∀ i, i < bs → b * bs + i < A.cols := by
    intro i hi
    rw [hcols]
    calc b * bs + i < b * bs + bs := by omega
      _ = (b + 1) * bs := by ring
      _ ≤ m * bs := Nat.mul_le_mul_right _ hb
  have hdot : ∀ i j, i < bs → j < bs →
      dot (((List.range bs).map (fun c => (A.column_rows (b * bs + c)).map
            (fun r => A.value r (b * bs + c)))).getD i [])
          (((List.range bs).map (fun c => (A.column_rows (b * bs + c)).map
            (fun r => A.value r (b * bs + c)))).getD j [])
        = .ok (A.gram (b * bs + i) (b * bs + j)) := by
    intro i j hi hj
    rw [getD_map_range _ _ _ _ hi, getD_map_range _ _ _ _ hj]
    exact dot_column_nonzeros A _ _ (hlt i hi) (hlt j hj) (fun r hr => hu b i j r hb hi hj hr)
  unfold block_column_triplets
  rw [hdot col col hcol hcol]
  have hrest := mapM_ok
    (fun row => do
      let d ← dot (((List.range bs).map (fun c => (A.column_rows (b * bs + c)).map
            (fun r => A.value r (b * bs + c)))).getD col [])
          (((List.range bs).map (fun c => (A.column_rows (b * bs + c)).map
            (fun r => A.value r (b * bs + c)))).getD row [])
      pure [(⟨b * bs + row, b * bs + col, d⟩ : Triplet K), ⟨b * bs + col, b * bs + row, d⟩])
    (fun row => [(⟨b * bs + row, b * bs + col, A.gram (b * bs + col) (b * bs + row)⟩ : Triplet K),
      ⟨b * bs + col, b * bs + row, A.gram (b * bs + col) (b * bs + row)⟩])
    (List.range' (col + 1) (bs - (col + 1)))
    (by
      intro row hrow
      have hr : row < bs := by
        have := List.mem_range'_1.mp hrow
        omega
      simp only [hdot col row hcol hr]
      rfl)
  simp only [bind, Except.bind, pure, Except.pure] at hrest ⊢
  rw [hrest]
  rfl

/-- The triplets pushed for one block of columns. -/
theorem block_triplets_ok (A : SparseMatrix K) (bs m b : ℕ)
    (hcols : A.cols = m * bs) (hu : BlockUniform A bs m) (hb : b < m) :
    block_triplets A bs (b * bs)
      = .ok ((List.range bs).flatMap (block_column_list A.gram (b * bs) bs)) := by
  have hlt : ∀ i, i < bs → b * bs + i < A.cols := by
    intro i hi
    rw [hcols]
    calc b * bs + i < b * bs + bs := by omega
      _ = (b + 1) * bs := by ring
      _ ≤ m * bs := Nat.mul_le_mul_right _ hb
  have hcolumns := mapM_ok (fun col => A.column_nonzeros (b * bs + col))
    (fun c => (A.column_rows (b * bs + c)).map (fun r => A.value r (b * bs + c)))
    (List.range bs)
    (by
      intro c hc
      simp only [SparseMatrix.column_nonzeros]
      rw [if_pos (hlt c (List.mem_range.mp hc))])
  have hts := mapM_ok
    (block_column_triplets (b * bs) bs
      ((List.range bs).map (fun c => (A.column_rows (b * bs + c)).map
        (fun r => A.value r (b * bs + c)))))
    (block_column_list A.gram (b * bs) bs) (List.range bs)
    (fun col hcol => block_column_triplets_ok A bs m b col hcols hu hb (List.mem_range.mp hcol))
  unfold block_triplets
  simp only [bind, Except.bind, pure, Except.pure] at hcolumns hts ⊢
  rw [hcolumns]
  simp only []
  rw [hts]
  rfl

/-- The number of rounds of the block loop. -/
theorem block_count (bs m : ℕ) (hbs : 0 < bs) : (m * bs + bs - 1) / bs = m := by
  have h : m * bs + bs - 1 = (bs - 1) + m * bs := by omega
  rw [h, Nat.add_mul_div_right _ _ hbs, Nat.div_eq_of_lt (by omega), zero_add]

/-- `matrix_block_column_multiply` assembles the triplets of all blocks. -/
theorem matrix_block_column_multiply_eq (A : SparseMatrix K) (bs m : ℕ) (hbs : 0 < bs)
    (hcols : A.cols = m * bs) (hu : BlockUniform A bs m) :
    matrix_block_column_multiply A bs
      = (SparseMatrix.allocate A.cols A.cols).set_from_triplets (block_list A.gram bs m) := by
  have hts := mapM_ok (fun b => block_triplets A bs (b * bs))
    (fun b => (List.range bs).flatMap (block_column_list A.gram (b * bs) bs)) (List.range m)
    (fun b hb => block_triplets_ok A bs m b hcols hu (List.mem_range.mp hb))
  unfold matrix_block_column_multiply
  rw [if_neg (by omega), hcols, block_count bs m hbs]
  simp only [bind, Except.bind, pure, Except.pure] at hts ⊢
  rw [hts]
  rfl

/-- A concatenation of duplicate-free lists whose members carry a key that
tells the lists apart is duplicate-free. -/
theorem nodup_flatMap_of_key {α β γ : Type} (l : List α) (f : α → List β) (key : β → γ)
    (k : α → γ) (hl : l.Nodup) (hk : ∀ a ∈ l, ∀ x ∈ f a, key x = k a)
    (hinj : ∀ a ∈ l, ∀ a' ∈ l, k a = k a' → a = a') (hf : ∀ a ∈ l, (f a).Nodup) :
    (l.flatMap f).Nodup := by
  rw [List.nodup_flatMap]
  refine ⟨hf, hl.pairwise_of_forall_ne ?_⟩
  intro a ha a' ha' hne
  rw [Function.onFun, List.disjoint_left]
  intro x hx hx'
  exact hne (hinj a ha a' ha' ((hk a ha x hx).symm.trans (hk a' ha' x hx')))

/-- Membership in the triplets of one column of a block. -/
theorem mem_block_column_list (D : ℕ → ℕ → K) (block bs col : ℕ) (t : Triplet K) :
    t ∈ block_column_list D block bs col
      ↔ t = ⟨block + col, block + col, D (block + col) (block + col)⟩
        ∨ ∃ row, col < row ∧ row < bs
          ∧ (t = ⟨block + row, block + col, D (block + col) (block + row)⟩
            ∨ t = ⟨block + col, block + row, D (block + col) (block + row)⟩) := by
  simp only [block_column_list, List.mem_cons, List.mem_flatMap, List.mem_range'_1,
    List.mem_singleton, List.not_mem_nil, or_false]
  constructor
  · rintro (h | ⟨row, hrow, h⟩)
    · exact Or.inl h
    · exact Or.inr ⟨row, by omega, by omega, h⟩
  · rintro (h | ⟨row, h1, h2, h⟩)
    · exact Or.inl h
    · exact Or.inr ⟨row, by omega, h⟩

/-- Membership in the triplets of all blocks. -/
theorem mem_block_list (D : ℕ → ℕ → K) (bs m : ℕ) (t : Triplet K) :
    t ∈ block_list D bs m
      ↔ ∃ b col, b < m ∧ col < bs
        ∧ (t = ⟨b * bs + col, b * bs + col, D (b * bs + col) (b * bs + col)⟩
          ∨ ∃ row, col < row ∧ row < bs
            ∧ (t = ⟨b * bs + row, b * bs + col, D (b * bs + col) (b * bs + row)⟩
              ∨ t = ⟨b * bs + col, b * bs + row, D (b * bs + col) (b * bs + row)⟩)) := by
  simp only [block_list, List.mem_flatMap, List.mem_range, mem_block_column_list]
  constructor
  · rintro ⟨b, hb, col, hcol, h⟩
    exact ⟨b, col, hb, hcol, h⟩
  · rintro ⟨b, col, hb, hcol, h⟩
    exact ⟨b, hb, col, hcol, h⟩

/-- The quotient of a position inside a block is the block index. -/
theorem block_div (bs b i : ℕ) (hi : i < bs) : (b * bs + i) / bs = b := by
  have hbs : 0 < bs := by omega
  rw [Nat.add_comm, Nat.add_mul_div_right _ _ hbs, Nat.div_eq_of_lt hi, zero_add]

/-- The positions of the triplets of one column of a block are pairwise
different. -/
theorem nodup_block_column_list (D : ℕ → ℕ → K) (block bs col : ℕ) :
    ((block_column_list D block bs col).map Triplet.pos).Nodup := by
  simp only [block_column_list, List.map_cons, List.map_flatMap, List.map_nil, Triplet.pos]
  rw [List.nodup_cons]
  constructor
  · simp only [List.mem_flatMap, List.mem_range'_1, List.mem_cons, Prod.mk.injEq,
      List.not_mem_nil, or_false, not_exists, not_and]
    intro row hrow
    omega
  · refine nodup_flatMap_of_key _ _ (fun p => max p.1 p.2) (fun row => block + row)
      (List.nodup_range' _ _) ?_ ?_ ?_
    · intro row hrow x hx
      have := List.mem_range'_1.mp hrow
      simp only [List.mem_cons, List.not_mem_nil, or_false] at hx
      rcases hx with rfl | rfl <;> simp only <;> omega
    · intro a _ a' _ h
      simp only at h
      omega
    · intro row hrow
      have := List.mem_range'_1.mp hrow
      simp only [List.nodup_cons, List.mem_singleton, Prod.mk.injEq, List.not_mem_nil,
        not_false_eq_true, List.nodup_nil, and_true]
      omega

/-- The positions of the triplets of all blocks are pairwise different. -/
theorem nodup_block_list (D : ℕ → ℕ → K) (bs m : ℕ) :
    ((block_list D bs m).map Triplet.pos).Nodup := by
  simp only [block_list, List.map_flatMap]
  refine nodup_flatMap_of_key _ _ (fun p => p.1 / bs) (fun b => b) (List.nodup_range m)
    ?_ (fun _ _ _ _ h => h) ?_
  · intro b _ x hx
    simp only [List.mem_flatMap, List.mem_range, List.mem_map] at hx
    obtain ⟨col, hcol, t, ht, rfl⟩ := hx
    rcases (mem_block_column_list D _ _ _ t).mp ht with rfl | ⟨row, h1, h2, rfl | rfl⟩
    · exact block_div bs b col hcol
    · exact block_div bs b row h2
    · exact block_div bs b col hcol
  · intro b _
    refine nodup_flatMap_of_key _ _ (fun p => min p.1 p.2) (fun col => b * bs + col)
      (List.nodup_range bs) ?_ ?_ (fun col _ => nodup_block_column_list D _ _ col)
    · intro col _ x hx
      simp only [List.mem_map] at hx
      obtain ⟨t, ht, rfl⟩ := hx
      rcases (mem_block_column_list D _ _ _ t).mp ht with rfl | ⟨row, h1, h2, rfl | rfl⟩ <;>
        simp only [Triplet.pos] <;> omega
    · intro a _ a' _ h
      simp only at h
      omega

/-- The product `A^T * A` is symmetric. -/
theorem gram_comm (A : SparseMatrix K) (c1 c2 : ℕ) : A.gram c1 c2 = A.gram c2 c1 := by
  unfold SparseMatrix.gram
  exact Finset.sum_congr rfl (fun k _ => mul_comm _ _)

/-- An upper bound for a position inside a block. -/
theorem block_lt (bs m b i : ℕ) (hb : b < m) (hi : i < bs) : b * bs + i < m * bs :=
  calc b * bs + i < b * bs + bs := by omega
    _ = (b + 1) * bs := by ring
    _ ≤ m * bs := Nat.mul_le_mul_right _ hb

/-- What `matrix_block_column_multiply` returns for a matrix whose columns are
grouped in `m` blocks of `bs` columns with the same stored rows: a square
matrix that stores exactly the positions of the diagonal blocks and holds
there the entries of `A^T * A`. -/
theorem matrix_block_column_multiply_ok (A : SparseMatrix K) (bs m : ℕ) (hbs : 0 < bs)
    (hcols : A.cols = m * bs) (hu : BlockUniform A bs m) :
    ∃ B, matrix_block_column_multiply A bs = .ok B ∧ B.rows = A.cols ∧ B.cols = A.cols
      ∧ (∀ b i j, b < m → i < bs → j < bs →
          B.stored (b * bs + i) (b * bs + j) = true
            ∧ B.value (b * bs + i) (b * bs + j) = A.gram (b * bs + i) (b * bs + j))
      ∧ (∀ b1 b2 i j, b1 ≠ b2 → i < bs → j < bs →
          B.stored (b1 * bs + i) (b2 * bs + j) = false) := by
  rw [matrix_block_column_multiply_eq A bs m hbs hcols hu]
  have hin : ∀ t ∈ block_list A.gram bs m,
      t.row < (SparseMatrix.allocate A.cols A.cols : SparseMatrix K).rows
        ∧ t.col < (SparseMatrix.allocate A.cols A.cols : SparseMatrix K).cols := by
    intro t ht
    simp only [SparseMatrix.allocate, hcols]
    obtain ⟨b, col, hb, hcol, h⟩ := (mem_block_list _ _ _ t).mp ht
    rcases h with rfl | ⟨row, h1, h2, rfl | rfl⟩
    · exact ⟨block_lt bs m b col hb hcol, block_lt bs m b col hb hcol⟩
    · exact ⟨block_lt bs m b row hb h2, block_lt bs m b col hb hcol⟩
    · exact ⟨block_lt bs m b col hb hcol, block_lt bs m b row hb h2⟩
  obtain ⟨B, hB⟩ := set_from_triplets_isOk _ _ hin
  obtain ⟨hr, hc, -, hs, hv⟩ := set_from_triplets_ok _ _ _ hB
  refine ⟨B, hB, hr, hc, ?_, ?_⟩
  · intro b i j hb hi hj
    obtain ⟨t, ht, htr, htc, htv⟩ : ∃ t ∈ block_list A.gram bs m,
        t.row = b * bs + i ∧ t.col = b * bs + j ∧ t.value = A.gram (b * bs + i) (b * bs + j) := by
      rcases Nat.lt_trichotomy i j with h | h | h
      · exact ⟨⟨b * bs + i, b * bs + j, A.gram (b * bs + i) (b * bs + j)⟩,
          (mem_block_list _ _ _ _).mpr ⟨b, i, hb, hi, Or.inr ⟨j, h, hj, Or.inr rfl⟩⟩,
          rfl, rfl, rfl⟩
      · subst h
        exact ⟨⟨b * bs + i, b * bs + i, A.gram (b * bs + i) (b * bs + i)⟩,
          (mem_block_list _ _ _ _).mpr ⟨b, i, hb, hi, Or.inl rfl⟩, rfl, rfl, rfl⟩
      · exact ⟨⟨b * bs + i, b * bs + j, A.gram (b * bs + j) (b * bs + i)⟩,
          (mem_block_list _ _ _ _).mpr ⟨b, j, hb, hj, Or.inr ⟨i, h, hi, Or.inl rfl⟩⟩,
          rfl, rfl, gram_comm A _ _⟩
    constructor
    · rw [hs, List.any_eq_true]
      exact ⟨t, ht, by simp [htr, htc]⟩
    · rw [hv, ← htr, ← htc, filter_pos_eq_singleton _ (nodup_block_list _ _ _) t ht]
      simp [htv, htr, htc]
  · intro b1 b2 i j hne hi hj
    rw [hs, List.any_eq_false]
    intro t ht
    obtain ⟨b, col, hb, hcol, h⟩ := (mem_block_list _ _ _ t).mp ht
    have key : ∀ x y, x < bs → y < bs → ¬ (b * bs + x = b1 * bs + i ∧ b * bs + y = b2 * bs + j) := by
      intro x y hx hy hxy
      have e1 := congrArg (fun n => n / bs) hxy.1
      have e2 := congrArg (fun n => n / bs) hxy.2
      simp only [block_div bs _ _ hx, block_div bs _ _ hy, block_div bs _ _ hi,
        block_div bs _ _ hj] at e1 e2
      exact hne (e1.symm.trans e2)
    rcases h with rfl | ⟨row, h1, h2, rfl | rfl⟩
    · simpa using key col col hcol hcol
    · simpa using key row col h2 hcol
    · simpa using key col row hcol h2

/-- The entry of a matrix outside its shape or at a position that is not
stored is zero. -/
theorem entry_eq_zero_of_not_stored (A : SparseMatrix K) (r c : ℕ)
    (h : ¬ (r < A.rows ∧ c < A.cols ∧ A.stored r c = true)) : A.entry r c = 0 := by
  unfold SparseMatrix.entry
  rw [if_neg h]

/-- The entry of a matrix at a stored position inside its shape. -/
theorem entry_eq_value (A : SparseMatrix K) (r c : ℕ) (hr : r < A.rows) (hc : c < A.cols)
    (hs : A.stored r c = true) : A.entry r c = A.value r c := by
  unfold SparseMatrix.entry
  rw [if_pos ⟨hr, hc, hs⟩]

/-- A non-zero entry is stored, inside the shape. -/
theorem stored_of_entry_ne_zero (A : SparseMatrix K) (r c : ℕ) (h : A.entry r c ≠ 0) :
    r < A.rows ∧ c < A.cols ∧ A.stored r c = true := by
  by_contra hn
  exact h (entry_eq_zero_of_not_stored A r c hn)

/-- The entries of `A.transpose()`. -/
theorem transpose_entry (A : SparseMatrix K) (r c : ℕ) :
    A.transpose.entry r c = A.entry c r := by
  unfold SparseMatrix.entry SparseMatrix.transpose
  simp only []
  by_cases h : c < A.rows ∧ r < A.cols ∧ A.stored c r = true
  · rw [if_pos ⟨h.2.1, h.1, h.2.2⟩, if_pos h]
  · rw [if_neg (fun h' => h ⟨h'.2.1, h'.1, h'.2.2⟩), if_neg h]

/-- The entries of a product of sparse matrices. -/
theorem multiply_entry (A B P : SparseMatrix K) (h : A.multiply B = .ok P) :
    P.rows = A.rows ∧ P.cols = B.cols ∧ A.cols = B.rows
      ∧ ∀ r c, P.entry r c = ∑ k ∈ Finset.range A.cols, A.entry r k * B.entry k c := by
  unfold SparseMatrix.multiply at h
  split at h
  · rename_i hd
    cases h
    refine ⟨rfl, rfl, hd, ?_⟩
    intro r c
    by_cases hs : r < A.rows ∧ c < B.cols
        ∧ (List.range A.cols).any (fun k => A.stored r k && B.stored k c) = true
    · exact entry_eq_value _ r c hs.1 hs.2.1 hs.2.2
    · rw [entry_eq_zero_of_not_stored _ r c hs]
      symm
      apply Finset.sum_eq_zero
      intro k hk
      by_contra hne
      obtain ⟨h1, h2⟩ := mul_ne_zero_iff.mp hne
      obtain ⟨hr, hk1, hs1⟩ := stored_of_entry_ne_zero A r k h1
      obtain ⟨_, hc, hs2⟩ := stored_of_entry_ne_zero B k c h2
      apply hs
      refine ⟨hr, hc, ?_⟩
      rw [List.any_eq_true]
      exact ⟨k, List.mem_range.mpr hk1, by simp [hs1, hs2]⟩
  · cases h

/-- The product `A.transpose().multiply(A)` is defined and its entries are
those of `A^T * A`. -/
theorem transpose_multiply_self (A : SparseMatrix K) :
    ∃ P, A.transpose.multiply A = .ok P ∧ P.rows = A.cols ∧ P.cols = A.cols
      ∧ ∀ r c, P.entry r c = A.gram r c := by
  have hex : ∃ P, A.transpose.multiply A = .ok P := by
    unfold SparseMatrix.multiply
    rw [if_pos (show A.transpose.cols = A.rows from rfl)]
    exact ⟨_, rfl⟩
  obtain ⟨P, hP⟩ := hex
  obtain ⟨h1, h2, -, h4⟩ := multiply_entry _ _ _ hP
  refine ⟨P, hP, h1, h2, ?_⟩
  intro r c
  rw [h4]
  unfold SparseMatrix.gram
  exact Finset.sum_congr rfl (fun k _ => by rw [transpose_entry])

/-- The block structure of a Jacobian matrix: if the stored positions are, for
every observation `i`, the rows `2i`, `2i+1` and the `np` columns of the
parameter block `ident o` of that observation, then the columns of a block
have the same stored rows and columns of different blocks are orthogonal. -/
theorem jacobian_block_structure (observations : List (Observation K))
    (ident : Observation K → ℕ) (np m : ℕ) (M : SparseMatrix K)
    (hstored : ∀ r c, M.stored r c = true ↔ ∃ i o j, observations[i]? = some o
      ∧ (r = i * 2 ∨ r = i * 2 + 1) ∧ j < np ∧ c = ident o * np + j) :
    BlockUniform M np m
      ∧ ∀ b1 b2 i j, b1 ≠ b2 → i < np → j < np → M.gram (b1 * np + i) (b2 * np + j) = 0 := by
  have hblock : ∀ r b i, i < np →
      (M.stored r (b * np + i) = true ↔ ∃ i0 o, observations[i0]? = some o
        ∧ (r = i0 * 2 ∨ r = i0 * 2 + 1) ∧ ident o = b) := by
    intro r b i hi
    rw [hstored]
    constructor
    · rintro ⟨i0, o, j, ho, hr, hj, hc⟩
      refine ⟨i0, o, ho, hr, ?_⟩
      have e := congrArg (fun n => n / np) hc
      simp only [block_div np _ _ hi, block_div np _ _ hj] at e
      exact e.symm
    · rintro ⟨i0, o, ho, hr, hb⟩
      exact ⟨i0, o, i, ho, hr, hi, by rw [hb]⟩
  constructor
  · intro b i j r _ hi hj _
    rw [Bool.eq_iff_iff, hblock r b i hi, hblock r b j hj]
  · intro b1 b2 i j hne hi hj
    unfold SparseMatrix.gram
    apply Finset.sum_eq_zero
    intro k _
    by_contra hnz
    obtain ⟨h1, h2⟩ := mul_ne_zero_iff.mp hnz
    obtain ⟨i1, o1, ho1, hr1, hb1⟩ := (hblock k b1 i hi).mp (stored_of_entry_ne_zero M _ _ h1).2.2
    obtain ⟨i2, o2, ho2, hr2, hb2⟩ := (hblock k b2 j hj).mp (stored_of_entry_ne_zero M _ _ h2).2.2
    have hi12 : i1 = i2 := by omega
    subst hi12
    rw [ho1] at ho2
    cases ho2
    exact hne (hb1.symm.trans hb2)

/-- A matrix with the block structure of a Jacobian is multiplied with itself
correctly by `matrix_block_column_multiply`: the result is the full product
`M^T * M`. -/
theorem matrix_block_column_multiply_full (M : SparseMatrix K) (np m : ℕ) (hnp : 0 < np)
    (hcols : M.cols = m * np) (hu : BlockUniform M np m)
    (horth : ∀ b1 b2 i j, b1 ≠ b2 → i < np → j < np → M.gram (b1 * np + i) (b2 * np + j) = 0) :
    ∃ B, matrix_block_column_multiply M np = .ok B ∧ B.rows = M.cols ∧ B.cols = M.cols
      ∧ ∀ r c, B.entry r c = M.gram r c := by
  obtain ⟨B, hB, hr, hc, hsame, hdiff⟩ := matrix_block_column_multiply_ok M np m hnp hcols hu
  refine ⟨B, hB, hr, hc, ?_⟩
  intro r c
  have hdecomp : ∀ x, x = x / np * np + x % np := fun x => (Nat.div_add_mod' x np).symm
  have hmod : ∀ x, x % np < np := fun x => Nat.mod_lt x hnp
  have hdiv : ∀ x, x < M.cols → x / np < m := by
    intro x hx
    rw [hcols] at hx
    exact Nat.div_lt_of_lt_mul (by rwa [Nat.mul_comm] at hx)
  by_cases hin : r < M.cols ∧ c < M.cols
  · by_cases hb : r / np = c / np
    · obtain ⟨hs, hv⟩ := hsame (r / np) (r % np) (c % np) (hdiv r hin.1) (hmod r) (hmod c)
      have hc' : r / np * np + c % np = c := by rw [hb]; exact (hdecomp c).symm
      rw [← hdecomp r, hc'] at hs hv
      rw [entry_eq_value B r c (hr ▸ hin.1) (hc ▸ hin.2) hs, hv]
    · have hs := hdiff (r / np) (c / np) (r % np) (c % np) hb (hmod r) (hmod c)
      have hg := horth (r / np) (c / np) (r % np) (c % np) hb (hmod r) (hmod c)
      rw [← hdecomp r, ← hdecomp c] at hs hg
      rw [hg, entry_eq_zero_of_not_stored B r c (by simp [hs])]
  · rw [entry_eq_zero_of_not_stored B r c (by rw [hr, hc]; tauto)]
    symm
    unfold SparseMatrix.gram
    apply Finset.sum_eq_zero
    intro k _
    by_cases h1 : r < M.cols
    · rw [entry_eq_zero_of_not_stored M k c (by tauto), mul_zero]
    · rw [entry_eq_zero_of_not_stored M k r (by tauto), zero_mul]

/-- The stored positions of the camera Jacobian. -/
theorem jac_cam_stored (cameras : List (Camera K)) (points : List (Point3D K))
    (observations : List (Observation K))
    (hin : ∀ o ∈ observations, o.camera_id < cameras.length ∧ o.point_id < points.length)
    (M : SparseMatrix K) (ts : List (Triplet K))
    (hs : ∀ r c, M.stored r c = ts.any (fun t => decide (t.row = r ∧ t.col = c)))
    (hm : ∀ t, t ∈ ts ↔ ∃ i o cam p, i < observations.length ∧ observations[i]? = some o
          ∧ cameras[o.camera_id]? = some cam ∧ points[o.point_id]? = some p
          ∧ ∃ j : Fin 9, t = ⟨i * 2, o.camera_id * 9 + j.val, (my_jacobian cam p).cam_x_ptr j⟩
              ∨ t = ⟨i * 2 + 1, o.camera_id * 9 + j.val, (my_jacobian cam p).cam_y_ptr j⟩)
    (r c : ℕ) :
    M.stored r c = true ↔ ∃ i o j, observations[i]? = some o
      ∧ (r = i * 2 ∨ r = i * 2 + 1) ∧ j < 9 ∧ c = o.camera_id * 9 + j := by
  rw [hs, List.any_eq_true]
  constructor
  · rintro ⟨t, ht, hp⟩
    have hp' : t.row = r ∧ t.col = c := by simpa using hp
    obtain ⟨i, o, cam, p, -, ho, -, -, j, h⟩ := (hm t).mp ht
    refine ⟨i, o, j.val, ho, ?_, j.isLt, ?_⟩
    · rcases h with rfl | rfl
      · exact Or.inl hp'.1.symm
      · exact Or.inr hp'.1.symm
    · rcases h with rfl | rfl <;> exact hp'.2.symm
  · rintro ⟨i, o, j, ho, hr, hj, hc⟩
    obtain ⟨h1, h2⟩ := hin o (List.getElem?_mem ho)
    have hi := (List.getElem?_eq_some.mp ho).1
    rcases hr with rfl | rfl
    · exact ⟨⟨i * 2, o.camera_id * 9 + j,
          (my_jacobian cameras[o.camera_id] points[o.point_id]).cam_x_ptr ⟨j, hj⟩⟩,
        (hm _).mpr ⟨i, o, _, _, hi, ho, List.getElem?_eq_getElem h1,
          List.getElem?_eq_getElem h2, ⟨j, hj⟩, Or.inl rfl⟩, by simp [hc]⟩
    · exact ⟨⟨i * 2 + 1, o.camera_id * 9 + j,
          (my_jacobian cameras[o.camera_id] points[o.point_id]).cam_y_ptr ⟨j, hj⟩⟩,
        (hm _).mpr ⟨i, o, _, _, hi, ho, List.getElem?_eq_getElem h1,
          List.getElem?_eq_getElem h2, ⟨j, hj⟩, Or.inr rfl⟩, by simp [hc]⟩

/-- The stored positions of the point Jacobian. -/
theorem jac_points_stored (cameras : List (Camera K)) (points : List (Point3D K))
    (observations : List (Observation K))
    (hin : ∀ o ∈ observations, o.camera_id < cameras.length ∧ o.point_id < points.length)
    (M : SparseMatrix K) (ts : List (Triplet K))
    (hs : ∀ r c, M.stored r c = ts.any (fun t => decide (t.row = r ∧ t.col = c)))
    (hm : ∀ t, t ∈ ts ↔ ∃ i o cam p, i < observations.length ∧ observations[i]? = some o
          ∧ cameras[o.camera_id]? = some cam ∧ points[o.point_id]? = some p
          ∧ ∃ j : Fin 3, t = ⟨i * 2, o.point_id * 3 + j.val, (my_jacobian cam p).point_x_ptr j⟩
              ∨ t = ⟨i * 2 + 1, o.point_id * 3 + j.val, (my_jacobian cam p).point_y_ptr j⟩)
    (r c : ℕ) :
    M.stored r c = true ↔ ∃ i o j, observations[i]? = some o
      ∧ (r = i * 2 ∨ r = i * 2 + 1) ∧ j < 3 ∧ c = o.point_id * 3 + j := by
  rw [hs, List.any_eq_true]
  constructor
  · rintro ⟨t, ht, hp⟩
    have hp' : t.row = r ∧ t.col = c := by simpa using hp
    obtain ⟨i, o, cam, p, -, ho, -, -, j, h⟩ := (hm t).mp ht
    refine ⟨i, o, j.val, ho, ?_, j.isLt, ?_⟩
    · rcases h with rfl | rfl
      · exact Or.inl hp'.1.symm
      · exact Or.inr hp'.1.symm
    · rcases h with rfl | rfl <;> exact hp'.2.symm
  · rintro ⟨i, o, j, ho, hr, hj, hc⟩
    obtain ⟨h1, h2⟩ := hin o (List.getElem?_mem ho)
    have hi := (List.getElem?_eq_some.mp ho).1
    rcases hr with rfl | rfl
    · exact ⟨⟨i * 2, o.point_id * 3 + j,
          (my_jacobian cameras[o.camera_id] points[o.point_id]).point_x_ptr ⟨j, hj⟩⟩,
        (hm _).mpr ⟨i, o, _, _, hi, ho, List.getElem?_eq_getElem h1,
          List.getElem?_eq_getElem h2, ⟨j, hj⟩, Or.inl rfl⟩, by simp [hc]⟩
    · exact ⟨⟨i * 2 + 1, o.point_id * 3 + j,
          (my_jacobian cameras[o.camera_id] points[o.point_id]).point_y_ptr ⟨j, hj⟩⟩,
        (hm _).mpr ⟨i, o, _, _, hi, ho, List.getElem?_eq_getElem h1,
          List.getElem?_eq_getElem h2, ⟨j, hj⟩, Or.inr rfl⟩, by simp [hc]⟩

/-- The two products `my_solve_schur` takes of the Jacobians of
`analytic_jacobian` with themselves are the full products. -/
theorem jacobian_products (cameras : List (Camera K)) (points : List (Point3D K))
    (observations : List (Observation K))
    (hin : ∀ o ∈ observations, o.camera_id < cameras.length ∧ o.point_id < points.length) :
    ∃ Jc Jp B C, analytic_jacobian cameras points observations = .ok (Jc, Jp)
      ∧ Jc.rows = 2 * observations.length ∧ Jc.cols = 9 * cameras.length
      ∧ Jp.rows = 2 * observations.length ∧ Jp.cols = 3 * points.length
      ∧ BlockUniform Jc 9 cameras.length ∧ BlockUniform Jp 3 points.length
      ∧ matrix_block_column_multiply Jc 9 = .ok B
      ∧ matrix_block_column_multiply Jp 3 = .ok C
      ∧ B.rows = Jc.cols ∧ B.cols = Jc.cols ∧ C.rows = Jp.cols ∧ C.cols = Jp.cols
      ∧ (∀ r c, B.entry r c = Jc.gram r c) ∧ (∀ r c, C.entry r c = Jp.gram r c) := by
  obtain ⟨ct, pt, Jc, Jp, hs1, hs2, -, hJ, hr1, hc1, hr2, hc2, -, -, hcm, hpm, -⟩ :=
    analytic_jacobian_ok cameras points observations hin
  obtain ⟨hu1, ho1⟩ := jacobian_block_structure observations (fun o => o.camera_id) 9
    cameras.length Jc (jac_cam_stored cameras points observations hin Jc ct hs1 hcm)
  obtain ⟨hu2, ho2⟩ := jacobian_block_structure observations (fun o => o.point_id) 3
    points.length Jp (jac_points_stored cameras points observations hin Jp pt hs2 hpm)
  obtain ⟨B, hB, hBr, hBc, hBe⟩ := matrix_block_column_multiply_full Jc 9 cameras.length
    (by norm_num) (by omega) hu1 ho1
  obtain ⟨C, hC, hCr, hCc, hCe⟩ := matrix_block_column_multiply_full Jp 3 points.length
    (by norm_num) (by omega) hu2 ho2
  exact ⟨Jc, Jp, B, C, hJ, hr1, hc1, hr2, hc2, hu1, hu2, hB, hC, hBr, hBc, hCr, hCc, hBe, hCe⟩

/-- C10: for the Jacobian pair of `analytic_jacobian` on in-range observations,
`matrix_block_column_multiply(Jc, 9)` is the full product `Jc^T * Jc` and
`matrix_block_column_multiply(Jp, 3)` is the full product `Jp^T * Jp`: same
shape and same entries as `transpose().multiply()`. -/
theorem matrix_block_column_multiply_jacobian (cameras : List (Camera K))
    (points : List (Point3D K)) (observations : List (Observation K))
    (hin : ∀ o ∈ observations, o.camera_id < cameras.length ∧ o.point_id < points.length) :
    ∃ Jc Jp B C P Q, analytic_jacobian cameras points observations = .ok (Jc, Jp)
      ∧ matrix_block_column_multiply Jc 9 = .ok B
      ∧ matrix_block_column_multiply Jp 3 = .ok C
      ∧ Jc.transpose.multiply Jc = .ok P ∧ Jp.transpose.multiply Jp = .ok Q
      ∧ B.rows = P.rows ∧ B.cols = P.cols ∧ C.rows = Q.rows ∧ C.cols = Q.cols
      ∧ (∀ r c, B.entry r c = P.entry r c) ∧ (∀ r c, C.entry r c = Q.entry r c)
      ∧ (∀ r c, B.entry r c = ∑ k ∈ Finset.range Jc.rows, Jc.entry k r * Jc.entry k c)
      ∧ (∀ r c, C.entry r c = ∑ k ∈ Finset.range Jp.rows, Jp.entry k r * Jp.entry k c) := by
  obtain ⟨Jc, Jp, B, C, hJ, -, -, -, -, -, -, hB, hC, hBr, hBc, hCr, hCc, hBe, hCe⟩ :=
    jacobian_products cameras points observations hin
  obtain ⟨P, hP, hPr, hPc, hPe⟩ := transpose_multiply_self Jc
  obtain ⟨Q, hQ, hQr, hQc, hQe⟩ := transpose_multiply_self Jp
  exact ⟨Jc, Jp, B, C, P, Q, hJ, hB, hC, hP, hQ, hBr.trans hPr.symm, hBc.trans hPc.symm,
    hCr.trans hQr.symm, hCc.trans hQc.symm, fun r c => (hBe r c).trans (hPe r c).symm,
    fun r c => (hCe r c).trans (hQe r c).symm, hBe, hCe⟩

end BlockMultiply

section Storage

variable {K : Type} [LinearOrderedField K]

/-! ## The value array of a block diagonal matrix -/

/-- In a block diagonal matrix the rows stored in a column are those of its
block. -/
theorem stored_iff_block (M : SparseMatrix K) (bs m b j r : ℕ) (hM : BlockDiagonal M bs m)
    (hb : b < m) (hj : j < bs) (hr : r < m * bs) :
    M.stored r (b * bs + j) = true ↔ b * bs ≤ r ∧ r < b * bs + bs := by
  have hbs : 0 < bs := by omega
  have hd : r / bs < m := Nat.div_lt_of_lt_mul (by rwa [Nat.mul_comm] at hr)
  have hdec : r / bs * bs + r % bs = r := Nat.div_add_mod' r bs
  have hmod : r % bs < bs := Nat.mod_lt r hbs
  have h := hM.2.2 (r / bs) b (r % bs) j hd hb hmod hj
  rw [hdec] at h
  rw [h]
  constructor
  · intro e
    rw [← e]
    omega
  · rintro ⟨h1, h2⟩
    have : r = b * bs + (r - b * bs) := by omega
    rw [this]
    exact block_div bs b _ (by omega)

/-- The rows below `N` stored in a column of a block diagonal matrix. -/
theorem filter_range_stored (M : SparseMatrix K) (bs m b j : ℕ) (hM : BlockDiagonal M bs m)
    (hb : b < m) (hj : j < bs) (N : ℕ) (hN : N ≤ m * bs) :
    (List.range N).filter (fun r => M.stored r (b * bs + j))
      = List.range' (b * bs) (min N (b * bs + bs) - b * bs) := by
  induction N with
  | zero => simp
  | succ N ih =>
    rw [List.range_succ, List.filter_append, ih (by omega)]
    have hs := stored_iff_block M bs m b j N hM hb hj (by omega)
    by_cases h : M.stored N (b * bs + j) = true
    · obtain ⟨h1, h2⟩ := hs.mp h
      have e : min (N + 1) (b * bs + bs) - b * bs = (min N (b * bs + bs) - b * bs) + 1 := by
        omega
      rw [e, List.range'_1_concat, List.filter_cons, if_pos h, List.filter_nil]
      congr 2
      omega
    · have hn : ¬ (b * bs ≤ N ∧ N < b * bs + bs) := fun hh => h (hs.mpr hh)
      have e : min (N + 1) (b * bs + bs) - b * bs = min N (b * bs + bs) - b * bs := by
        omega
      rw [e, List.filter_cons, if_neg h, List.filter_nil, List.append_nil]

/-- The rows stored in a column of a block diagonal matrix. -/
theorem column_rows_block (M : SparseMatrix K) (bs m b j : ℕ) (hM : BlockDiagonal M bs m)
    (hb : b < m) (hj : j < bs) :
    M.column_rows (b * bs + j) = List.range' (b * bs) bs := by
  unfold SparseMatrix.column_rows
  rw [hM.1, filter_range_stored M bs m b j hM hb hj (m * bs) le_rfl]
  have := block_lt bs m b j hb hj
  have h2 : b * bs + bs ≤ m * bs := by
    calc b * bs + bs = (b + 1) * bs := by ring
      _ ≤ m * bs := Nat.mul_le_mul_right _ hb
  congr 1
  omega

/-- A list built over `m * bs` consecutive numbers, block by block. -/
theorem flatMap_range_mul {α : Type} (g : ℕ → List α) (bs m : ℕ) :
    (List.range (m * bs)).flatMap g
      = (List.range m).flatMap (fun b => (List.range bs).flatMap (fun j => g (b * bs + j))) := by
  induction m with
  | zero => simp
  | succ m ih =>
    have e : (m + 1) * bs = bs + m * bs := by ring
    rw [e, List.range_eq_range', ← List.range'_append_1 0 (m * bs) bs, List.flatMap_append,
      ← List.range_eq_range', ih, List.range_succ, List.flatMap_append, zero_add,
      List.range'_eq_map_range, List.flatMap_map]
    simp

/-- The value array of a block diagonal matrix, block by block. -/
theorem values_block (M : SparseMatrix K) (bs m : ℕ) (hM : BlockDiagonal M bs m) :
    M.values = (List.range m).flatMap (fun b => M.block_values bs b) := by
  unfold SparseMatrix.values SparseMatrix.block_values
  rw [hM.2.1, flatMap_range_mul]
  apply List.flatMap_congr
  intro b hb
  apply List.flatMap_congr
  intro j hj
  rw [column_rows_block M bs m b j hM (List.mem_range.mp hb) (List.mem_range.mp hj)]

/-- The number of values of a diagonal block. -/
theorem block_values_length (M : SparseMatrix K) (bs b : ℕ) :
    (M.block_values bs b).length = bs * bs := by
  simp [SparseMatrix.block_values, List.length_flatMap, Function.comp_def, List.map_const',
    List.sum_replicate]

/-- A sum of `n` equal numbers. -/
theorem sum_map_range_const (f : ℕ → ℕ) (n c : ℕ) (h : ∀ i, i < n → f i = c) :
    ((List.range n).map f).sum = n * c := by
  induction n with
  | zero => simp
  | succ n ih =>
    rw [List.range_succ, List.map_append, List.sum_append, ih (fun i hi => h i (by omega)),
      List.map_singleton, List.sum_singleton, h n (by omega)]
    ring

/-- Every column of a block diagonal matrix stores `bs` rows. -/
theorem column_rows_length (M : SparseMatrix K) (bs m c : ℕ) (hM : BlockDiagonal M bs m)
    (hc : c < m * bs) : (M.column_rows c).length = bs := by
  have hbs : 0 < bs := by
    rcases Nat.eq_zero_or_pos bs with h | h
    · subst h; simp at hc
    · exact h
  have hd : c / bs < m := Nat.div_lt_of_lt_mul (by rwa [Nat.mul_comm] at hc)
  have hdec : c / bs * bs + c % bs = c := Nat.div_add_mod' c bs
  rw [← hdec, column_rows_block M bs m _ _ hM hd (Nat.mod_lt c hbs), List.length_range']

/-- A block diagonal matrix passes the test on the number of stored entries
of the block inversions. -/
theorem num_non_zero_block (M : SparseMatrix K) (bs m : ℕ) (hM : BlockDiagonal M bs m) :
    M.num_non_zero = M.rows * bs := by
  unfold SparseMatrix.num_non_zero
  rw [hM.2.1, hM.1]
  exact sum_map_range_const _ _ _ (fun c hc => column_rows_length M bs m c hM hc)

/-- The block walk over a value array that consists of whole blocks writes
back the image of every block. -/
theorem block_walk_flatMap {α : Type} (len : ℕ) (f : List K → List K) (hlen : 0 < len)
    (L : List α) (blk : α → List K) (hb : ∀ a ∈ L, (blk a).length = len) (fuel : ℕ)
    (hfuel : L.length ≤ fuel) :
    block_walk len f fuel (L.flatMap blk) = some (L.flatMap (fun a => f (blk a))) := by
  induction L generalizing fuel with
  | nil => cases fuel <;> rfl
  | cons a L ih =>
    have ha := hb a (List.mem_cons_self _ _)
    obtain ⟨fuel', rfl⟩ : ∃ k, fuel = k + 1 := ⟨fuel - 1, by simp at hfuel; omega⟩
    rw [List.flatMap_cons, List.flatMap_cons]
    obtain ⟨v, vs, hv⟩ : ∃ v vs, blk a ++ L.flatMap blk = v :: vs := by
      cases h : blk a with
      | nil => rw [h] at ha; simp at ha; omega
      | cons v vs => exact ⟨v, vs ++ L.flatMap blk, rfl⟩
    rw [hv]
    unfold block_walk
    rw [← hv, if_neg (by rw [List.length_append]; omega), List.drop_left' ha,
      List.take_left' ha,
      ih (fun x hx => hb x (List.mem_cons_of_mem _ hx)) fuel' (by simp at hfuel; omega)]
    rfl

/-- Reading a concatenation of lists of the same length. -/
theorem getD_flatMap_uniform {α : Type} (len : ℕ) (L : List α) (g : α → List K)
    (hg : ∀ a ∈ L, (g a).length = len) (b k : ℕ) (hb : b < L.length) (hk : k < len) :
    (L.flatMap g).getD (b * len + k) 0 = (g L[b]).getD k 0 := by
  induction L generalizing b with
  | nil => simp at hb
  | cons a L ih =>
    have ha := hg a (List.mem_cons_self _ _)
    rw [List.flatMap_cons, List.getD_eq_getElem?_getD, List.getD_eq_getElem?_getD]
    cases b with
    | zero =>
      rw [Nat.zero_mul, Nat.zero_add, List.getElem?_append_left (by omega)]
      rfl
    | succ b =>
      rw [List.getElem?_append_right (by rw [ha]; nlinarith), ha]
      have e : (b + 1) * len + k - len = b * len + k := by
        have : (b + 1) * len = b * len + len := by ring
        omega
      rw [e, ← List.getD_eq_getElem?_getD,
        ih (fun x hx => hg x (List.mem_cons_of_mem _ hx)) b (by simpa using hb)]
      simp

/-- The index in the value array of a stored entry of a block diagonal matrix. -/
theorem offset_block (M : SparseMatrix K) (bs m b i j : ℕ) (hM : BlockDiagonal M bs m)
    (hb : b < m) (hi : i < bs) (hj : j < bs) :
    M.offset (b * bs + i) (b * bs + j) = b * (bs * bs) + (j * bs + i) := by
  unfold SparseMatrix.offset
  have hc := block_lt bs m b j hb hj
  have hr := block_lt bs m b i hb hi
  rw [sum_map_range_const _ _ bs (fun c hc' => column_rows_length M bs m c hM (by omega)),
    filter_range_stored M bs m b j hM hb hj (b * bs + i) (by omega), List.length_range']
  have e : min (b * bs + i) (b * bs + bs) - b * bs = i := by omega
  rw [e]
  ring

/-- The length of a concatenation of lists of the same length. -/
theorem length_flatMap_uniform {α : Type} (len : ℕ) (L : List α) (g : α → List K)
    (hg : ∀ a ∈ L, (g a).length = len) : (L.flatMap g).length = L.length * len := by
  induction L with
  | nil => simp
  | cons a L ih =>
    rw [List.flatMap_cons, List.length_append, hg a (List.mem_cons_self _ _),
      ih (fun x hx => hg x (List.mem_cons_of_mem _ hx)), List.length_cons]
    ring

/-- The entries of the part of the value array that holds a diagonal block. -/
theorem block_values_getD (M : SparseMatrix K) (bs b i j : ℕ) (hi : i < bs) (hj : j < bs) :
    (M.block_values bs b).getD (j * bs + i) 0 = M.value (b * bs + i) (b * bs + j) := by
  unfold SparseMatrix.block_values
  rw [getD_flatMap_uniform bs _ _ (fun a _ => by simp) j i (by simpa using hj) hi,
    List.getElem_range, List.getD_eq_getElem?_getD, List.getElem?_map,
    List.getElem?_range' _ _ hi]
  simp

/-- The block walk of the inversions over a block diagonal matrix succeeds
and writes back the image of every diagonal block. -/
theorem block_walk_values (M : SparseMatrix K) (bs m : ℕ) (hbs : 0 < bs)
    (hM : BlockDiagonal M bs m) (f : List K → List K) :
    block_walk (bs * bs) f M.values.length M.values
      = some ((List.range m).flatMap (fun b => f (M.block_values bs b))) := by
  have hlen : M.values.length = m * (bs * bs) := by
    rw [values_block M bs m hM,
      length_flatMap_uniform (bs * bs) _ _ (fun b _ => block_values_length M bs b),
      List.length_range]
  have hpos : 0 < bs * bs := Nat.mul_pos hbs hbs
  rw [hlen, values_block M bs m hM]
  exact block_walk_flatMap (bs * bs) f hpos _ _ (fun b _ => block_values_length M bs b) _
    (by rw [List.length_range]; nlinarith)

/-- The values of a block diagonal matrix after the block walk has written
back the image of every diagonal block. -/
theorem with_values_block (M : SparseMatrix K) (bs m : ℕ) (hM : BlockDiagonal M bs m)
    (f : List K → List K) (hf : ∀ b, b < m → (f (M.block_values bs b)).length = bs * bs)
    (b i j : ℕ) (hb : b < m) (hi : i < bs) (hj : j < bs) :
    (M.with_values ((List.range m).flatMap (fun b => f (M.block_values bs b)))).value
        (b * bs + i) (b * bs + j)
      = (f (M.block_values bs b)).getD (j * bs + i) 0 := by
  unfold SparseMatrix.with_values
  simp only []
  rw [offset_block M bs m b i j hM hb hi hj,
    getD_flatMap_uniform (bs * bs) _ _ (fun a ha => hf a (List.mem_range.mp ha)) b (j * bs + i)
      (by simpa using hb) (by nlinarith), List.getElem_range]

/-- Scaling the diagonal keeps a matrix block diagonal. -/
theorem mult_diagonal_block (M : SparseMatrix K) (bs m : ℕ) (factor : K)
    (hM : BlockDiagonal M bs m) : BlockDiagonal (M.mult_diagonal factor) bs m := hM

/-- Overwriting the values keeps a matrix block diagonal. -/
theorem with_values_block_diagonal (M : SparseMatrix K) (bs m : ℕ) (vals : List K)
    (hM : BlockDiagonal M bs m) : BlockDiagonal (M.with_values vals) bs m := hM

/-- The length of what a round of the 3x3 walk writes back. -/
theorem invert_block_3x3_length (eps : K) (block : List K) (h : block.length = 9) :
    (invert_block_3x3 eps block).length = 9 := by
  unfold invert_block_3x3
  simp only []
  split
  · exact h
  · simp

/-- `invert_block_matrix_3x3_inplace` on a matrix of 3x3 diagonal blocks: it
returns, the stored positions are unchanged, and each diagonal block holds
what the round of the walk for its nine values writes back. -/
theorem invert_block_matrix_3x3_inplace_ok (eps : K) (M : SparseMatrix K) (m : ℕ)
    (hM : BlockDiagonal M 3 m) :
    ∃ C, invert_block_matrix_3x3_inplace eps M = .ok C ∧ BlockDiagonal C 3 m
      ∧ ∀ b i j, b < m → i < 3 → j < 3 →
        C.value (b * 3 + i) (b * 3 + j)
          = (invert_block_3x3 eps (M.block_values 3 b)).getD (j * 3 + i) 0 := by
  refine ⟨M.with_values ((List.range m).flatMap
    (fun b => invert_block_3x3 eps (M.block_values 3 b))), ?_,
    with_values_block_diagonal M 3 m _ hM, ?_⟩
  · unfold invert_block_matrix_3x3_inplace
    rw [if_neg (by rw [hM.1, hM.2.1]; simp), if_neg (by rw [num_non_zero_block M 3 m hM]; simp),
      block_walk_values M 3 m (by norm_num) hM]
  · intro b i j hb hi hj
    exact with_values_block M 3 m hM _
      (fun b _ => invert_block_3x3_length eps _ (block_values_length M 3 b)) b i j hb hi hj

/-- `invert_block_matrix_NxN_inplace` returns on a matrix of diagonal blocks
of the given size. -/
theorem invert_block_matrix_NxN_inplace_ok (chol : List K → ℕ → List K) (isfinite : K → Bool)
    (M : SparseMatrix K) (bs m : ℕ) (hbs : 0 < bs) (hM : BlockDiagonal M bs m) :
    ∃ P, invert_block_matrix_NxN_inplace chol isfinite M bs = .ok P := by
  unfold invert_block_matrix_NxN_inplace
  rw [if_neg (by rw [hM.1, hM.2.1]; simp), if_neg (by rw [num_non_zero_block M bs m hM]; simp),
    block_walk_values M bs m hbs hM]
  exact ⟨_, rfl⟩

/-- What `matrix_block_column_multiply` returns is block diagonal. -/
theorem matrix_block_column_multiply_block_diagonal (A B : SparseMatrix K) (bs m : ℕ)
    (hbs : 0 < bs) (hcols : A.cols = m * bs) (hu : BlockUniform A bs m)
    (hB : matrix_block_column_multiply A bs = .ok B) :
    BlockDiagonal B bs m
      ∧ ∀ b i j, b < m → i < bs → j < bs →
          B.value (b * bs + i) (b * bs + j) = A.gram (b * bs + i) (b * bs + j) := by
  obtain ⟨B', hB', hr, hc, hsame, hdiff⟩ := matrix_block_column_multiply_ok A bs m hbs hcols hu
  rw [hB] at hB'
  cases hB'
  refine ⟨⟨hr.trans hcols, hc.trans hcols, ?_⟩, fun b i j hb hi hj => (hsame b i j hb hi hj).2⟩
  intro b1 b2 i j hb1 _ hi hj
  constructor
  · intro hs
    by_contra hne
    rw [hdiff b1 b2 i j hne hi hj] at hs
    cases hs
  · rintro rfl
    exact (hsame b1 i j hb1 hi hj).1

end Storage

section Matrices

variable {K : Type} [LinearOrderedField K]

/-! ## Sparse operations as matrix operations -/

/-- The determinant of a 3x3 matrix read column by column. -/
theorem matrix_determinant_transpose (a : Fin 9 → K) :
    matrix_determinant (fun k => a ⟨3 * (k.val % 3) + k.val / 3, by omega⟩)
      = matrix_determinant a := by
  simp only [matrix_determinant]
  have e0 : (⟨3 * ((0 : Fin 9).val % 3) + (0 : Fin 9).val / 3, by omega⟩ : Fin 9) = 0 := rfl
  have e1 : (⟨3 * ((1 : Fin 9).val % 3) + (1 : Fin 9).val / 3, by omega⟩ : Fin 9) = 3 := rfl
  have e2 : (⟨3 * ((2 : Fin 9).val % 3) + (2 : Fin 9).val / 3, by omega⟩ : Fin 9) = 6 := rfl
  have e3 : (⟨3 * ((3 : Fin 9).val % 3) + (3 : Fin 9).val / 3, by omega⟩ : Fin 9) = 1 := rfl
  have e4 : (⟨3 * ((4 : Fin 9).val % 3) + (4 : Fin 9).val / 3, by omega⟩ : Fin 9) = 4 := rfl
  have e5 : (⟨3 * ((5 : Fin 9).val % 3) + (5 : Fin 9).val / 3, by omega⟩ : Fin 9) = 7 := rfl
  have e6 : (⟨3 * ((6 : Fin 9).val % 3) + (6 : Fin 9).val / 3, by omega⟩ : Fin 9) = 2 := rfl
  have e7 : (⟨3 * ((7 : Fin 9).val % 3) + (7 : Fin 9).val / 3, by omega⟩ : Fin 9) = 5 := rfl
  have e8 : (⟨3 * ((8 : Fin 9).val % 3) + (8 : Fin 9).val / 3, by omega⟩ : Fin 9) = 8 := rfl
  rw [e0, e1, e2, e3, e4, e5, e6, e7, e8]
  ring

/-- A sum over `m * 3` consecutive numbers, block by block. -/
theorem sum_range_mul3 (g : ℕ → K) (m : ℕ) :
    ∑ k ∈ Finset.range (m * 3), g k
      = ∑ b ∈ Finset.range m, (g (b * 3) + g (b * 3 + 1) + g (b * 3 + 2)) := by
  induction m with
  | zero => simp
  | succ m ih =>
    have e : (m + 1) * 3 = m * 3 + 1 + 1 + 1 := by ring
    rw [e, Finset.sum_range_succ, Finset.sum_range_succ, Finset.sum_range_succ, ih,
      Finset.sum_range_succ]
    ring

/-- The entries of a difference of sparse matrices. -/
theorem subtract_entry (A B S : SparseMatrix K) (h : A.subtract B = .ok S) :
    S.rows = A.rows ∧ S.cols = A.cols ∧ A.rows = B.rows ∧ A.cols = B.cols
      ∧ ∀ r c, S.entry r c = A.entry r c - B.entry r c := by
  unfold SparseMatrix.subtract at h
  split at h
  · rename_i hd
    cases h
    refine ⟨rfl, rfl, hd.1, hd.2, ?_⟩
    intro r c
    by_cases hs : r < A.rows ∧ c < A.cols ∧ (A.stored r c || B.stored r c) = true
    · exact entry_eq_value _ r c hs.1 hs.2.1 hs.2.2
    · rw [entry_eq_zero_of_not_stored _ r c hs]
      have h1 : A.entry r c = 0 := by
        apply entry_eq_zero_of_not_stored
        intro h'
        exact hs ⟨h'.1, h'.2.1, by simp [h'.2.2]⟩
      have h2 : B.entry r c = 0 := by
        apply entry_eq_zero_of_not_stored
        intro h'
        exact hs ⟨hd.1 ▸ h'.1, hd.2 ▸ h'.2.1, by simp [h'.2.2]⟩
      rw [h1, h2, sub_zero]
  · cases h

/-- The entries of a matrix whose diagonal has been scaled. -/
theorem mult_diagonal_entry (A : SparseMatrix K) (factor : K) (r c : ℕ) :
    (A.mult_diagonal factor).entry r c
      = if r = c then A.entry r c * factor else A.entry r c := by
  unfold SparseMatrix.entry SparseMatrix.mult_diagonal
  simp only []
  by_cases h : r < A.rows ∧ c < A.cols ∧ A.stored r c = true
  · simp only [if_pos h]
  · simp only [if_neg h]
    split <;> simp

/-- The product of a sparse matrix and a dense vector. -/
theorem multiply_vector_ok (A : SparseMatrix K) (v u : List K)
    (h : A.multiply_vector v = .ok u) :
    A.cols = v.length ∧ u.length = A.rows
      ∧ ∀ n, toVector u n = fun i : Fin n =>
          if i.val < A.rows then ∑ k ∈ Finset.range A.cols, A.entry i.val k * v.getD k 0
          else 0 := by
  unfold SparseMatrix.multiply_vector at h
  split at h
  · rename_i hd
    cases h
    refine ⟨hd, by simp, ?_⟩
    intro n
    funext i
    unfold toVector
    rw [List.getD_eq_getElem?_getD, List.getElem?_map]
    by_cases hi : i.val < A.rows
    · rw [List.getElem?_range hi, if_pos hi]
      rfl
    · rw [List.getElem?_eq_none (by simpa using hi), if_neg hi]
      rfl
  · cases h

/-- The product of a sparse matrix and a dense vector is defined if the
sizes agree. -/
theorem multiply_vector_isOk (A : SparseMatrix K) (v : List K) (h : A.cols = v.length) :
    ∃ u, A.multiply_vector v = .ok u := by
  unfold SparseMatrix.multiply_vector
  rw [if_pos h]
  exact ⟨_, rfl⟩

/-- The product of a sparse matrix and a dense vector, as a product of a
matrix and a vector. -/
theorem multiply_vector_toVector (A : SparseMatrix K) (v u : List K)
    (h : A.multiply_vector v = .ok u) :
    toVector u A.rows = (A.toMatrix A.rows A.cols).mulVec (toVector v A.cols) := by
  obtain ⟨-, -, h3⟩ := multiply_vector_ok A v u h
  rw [h3]
  funext i
  rw [if_pos i.isLt]
  simp only [Matrix.mulVec, Matrix.dotProduct, SparseMatrix.toMatrix, Matrix.of_apply, toVector]
  rw [← Fin.sum_univ_eq_sum_range (fun k => A.entry i.val k * v.getD k 0)]

/-- The difference of two dense vectors. -/
theorem vector_subtract_ok (a b c : List K) (h : vector_subtract a b = .ok c) :
    a.length = b.length ∧ c.length = a.length
      ∧ ∀ n, toVector c n = toVector a n - toVector b n := by
  unfold vector_subtract at h
  split at h
  · rename_i hd
    cases h
    refine ⟨hd, by simp [hd], ?_⟩
    intro n
    funext i
    simp only [toVector, Pi.sub_apply, List.getD_eq_getElem?_getD, List.getElem?_zipWith]
    by_cases hi : i.val < a.length
    · rw [List.getElem?_eq_getElem hi, List.getElem?_eq_getElem (hd ▸ hi)]
      rfl
    · rw [List.getElem?_eq_none (by omega), List.getElem?_eq_none (by omega)]
      simp
  · cases h

/-- The difference of two dense vectors is defined if the sizes agree. -/
theorem vector_subtract_isOk (a b : List K) (h : a.length = b.length) :
    ∃ c, vector_subtract a b = .ok c := by
  unfold vector_subtract
  rw [if_pos h]
  exact ⟨_, rfl⟩

/-- The negation of a dense vector. -/
theorem negate_self_toVector (a : List K) (n : ℕ) :
    toVector (negate_self a) n = - toVector a n := by
  funext i
  simp only [toVector, negate_self, Pi.neg_apply, List.getD_eq_getElem?_getD, List.getElem?_map]
  cases a[i.val]? <;> simp

/-- The product of sparse matrices, as a product of matrices. -/
theorem multiply_toMatrix (A B P : SparseMatrix K) (h : A.multiply B = .ok P) (m n : ℕ) :
    P.toMatrix m n = A.toMatrix m A.cols * B.toMatrix A.cols n := by
  obtain ⟨-, -, -, h4⟩ := multiply_entry A B P h
  ext i j
  simp only [SparseMatrix.toMatrix, Matrix.of_apply, Matrix.mul_apply, h4]
  rw [← Fin.sum_univ_eq_sum_range (fun k => A.entry i.val k * B.entry k j.val)]

/-- The transpose of a sparse matrix, as a transpose of matrices. -/
theorem transpose_toMatrix (A : SparseMatrix K) (m n : ℕ) :
    A.transpose.toMatrix m n = (A.toMatrix n m).transpose := by
  ext i j
  simp only [SparseMatrix.toMatrix, Matrix.of_apply, Matrix.transpose_apply, transpose_entry]

/-- The difference of sparse matrices, as a difference of matrices. -/
theorem subtract_toMatrix (A B S : SparseMatrix K) (h : A.subtract B = .ok S) (m n : ℕ) :
    S.toMatrix m n = A.toMatrix m n - B.toMatrix m n := by
  obtain ⟨-, -, -, -, h5⟩ := subtract_entry A B S h
  ext i j
  simp only [SparseMatrix.toMatrix, Matrix.of_apply, Matrix.sub_apply, h5]

/-- What a round of the 3x3 walk writes back, when the determinant passes the
test of the walk: the closed form inverse. -/
theorem invert_block_3x3_getD (eps : K) (L : List K)
    (heq : MATH_DOUBLE_EQ eps (matrix_determinant (fun k : Fin 9 => L.getD k.val 0)) 0 = false)
    (k : ℕ) (hk : k < 9) :
    (invert_block_3x3 eps L).getD k 0
      = matrix_inverse (fun k : Fin 9 => L.getD k.val 0)
          (matrix_determinant (fun k : Fin 9 => L.getD k.val 0)) ⟨k, hk⟩ := by
  unfold invert_block_3x3
  simp only [heq, Bool.false_eq_true, if_false]
  rw [List.getD_eq_getElem?_getD, List.getElem?_ofFn]
  simp [List.ofFnNthVal, hk]

/-- What a round of the 3x3 walk writes back, when the determinant passes the
test of the walk and is not zero: nine values `n` with
`sum_k block[3k+i] * n[3j+k] = [i = j]`. -/
theorem invert_block_3x3_right (eps : K) (L : List K)
    (hdet : matrix_determinant (fun k : Fin 9 => L.getD k.val 0) ≠ 0)
    (heq : MATH_DOUBLE_EQ eps (matrix_determinant (fun k : Fin 9 => L.getD k.val 0)) 0 = false)
    (i j : ℕ) (hi : i < 3) (hj : j < 3) :
    L.getD i 0 * (invert_block_3x3 eps L).getD (j * 3) 0
      + L.getD (3 + i) 0 * (invert_block_3x3 eps L).getD (j * 3 + 1) 0
      + L.getD (6 + i) 0 * (invert_block_3x3 eps L).getD (j * 3 + 2) 0
      = if i = j then 1 else 0 := by
  have hd : L.getD 0 0 * L.getD 4 0 * L.getD 8 0 + L.getD 1 0 * L.getD 5 0 * L.getD 6 0
      + L.getD 2 0 * L.getD 3 0 * L.getD 7 0 - L.getD 2 0 * L.getD 4 0 * L.getD 6 0
      - L.getD 1 0 * L.getD 3 0 * L.getD 8 0 - L.getD 0 0 * L.getD 5 0 * L.getD 7 0 ≠ 0 := hdet
  have n0 : (invert_block_3x3 eps L).getD 0 0
      = (L.getD 4 0 * L.getD 8 0 - L.getD 5 0 * L.getD 7 0)
        / (L.getD 0 0 * L.getD 4 0 * L.getD 8 0 + L.getD 1 0 * L.getD 5 0 * L.getD 6 0
      + L.getD 2 0 * L.getD 3 0 * L.getD 7 0 - L.getD 2 0 * L.getD 4 0 * L.getD 6 0
      - L.getD 1 0 * L.getD 3 0 * L.getD 8 0 - L.getD 0 0 * L.getD 5 0 * L.getD 7 0) := by
    rw [invert_block_3x3_getD eps L heq 0 (by norm_num)]
    rfl
  have n1 : (invert_block_3x3 eps L).getD 1 0
      = (L.getD 2 0 * L.getD 7 0 - L.getD 1 0 * L.getD 8 0)
        / (L.getD 0 0 * L.getD 4 0 * L.getD 8 0 + L.getD 1 0 * L.getD 5 0 * L.getD 6 0
      + L.getD 2 0 * L.getD 3 0 * L.getD 7 0 - L.getD 2 0 * L.getD 4 0 * L.getD 6 0
      - L.getD 1 0 * L.getD 3 0 * L.getD 8 0 - L.getD 0 0 * L.getD 5 0 * L.getD 7 0) := by
    rw [invert_block_3x3_getD eps L heq 1 (by norm_num)]
    rfl
  have n2 : (invert_block_3x3 eps L).getD 2 0
      = (L.getD 1 0 * L.getD 5 0 - L.getD 2 0 * L.getD 4 0)
        / (L.getD 0 0 * L.getD 4 0 * L.getD 8 0 + L.getD 1 0 * L.getD 5 0 * L.getD 6 0
      + L.getD 2 0 * L.getD 3 0 * L.getD 7 0 - L.getD 2 0 * L.getD 4 0 * L.getD 6 0
      - L.getD 1 0 * L.getD 3 0 * L.getD 8 0 - L.getD 0 0 * L.getD 5 0 * L.getD 7 0) := by
    rw [invert_block_3x3_getD eps L heq 2 (by norm_num)]
    rfl
  have n3 : (invert_block_3x3 eps L).getD 3 0
      = (L.getD 5 0 * L.getD 6 0 - L.getD 3 0 * L.getD 8 0)
        / (L.getD 0 0 * L.getD 4 0 * L.getD 8 0 + L.getD 1 0 * L.getD 5 0 * L.getD 6 0
      + L.getD 2 0 * L.getD 3 0 * L.getD 7 0 - L.getD 2 0 * L.getD 4 0 * L.getD 6 0
      - L.getD 1 0 * L.getD 3 0 * L.getD 8 0 - L.getD 0 0 * L.getD 5 0 * L.getD 7 0) := by
    rw [invert_block_3x3_getD eps L heq 3 (by norm_num)]
    rfl
  have n4 : (invert_block_3x3 eps L).getD 4 0
      = (L.getD 0 0 * L.getD 8 0 - L.getD 2 0 * L.getD 6 0)
        / (L.getD 0 0 * L.getD 4 0 * L.getD 8 0 + L.getD 1 0 * L.getD 5 0 * L.getD 6 0
      + L.getD 2 0 * L.getD 3 0 * L.getD 7 0 - L.getD 2 0 * L.getD 4 0 * L.getD 6 0
      - L.getD 1 0 * L.getD 3 0 * L.getD 8 0 - L.getD 0 0 * L.getD 5 0 * L.getD 7 0) := by
    rw [invert_block_3x3_getD eps L heq 4 (by norm_num)]
    rfl
  have n5 : (invert_block_3x3 eps L).getD 5 0
      = (L.getD 2 0 * L.getD 3 0 - L.getD 0 0 * L.getD 5 0)
        / (L.getD 0 0 * L.getD 4 0 * L.getD 8 0 + L.getD 1 0 * L.getD 5 0 * L.getD 6 0
      + L.getD 2 0 * L.getD 3 0 * L.getD 7 0 - L.getD 2 0 * L.getD 4 0 * L.getD 6 0
      - L.getD 1 0 * L.getD 3 0 * L.getD 8 0 - L.getD 0 0 * L.getD 5 0 * L.getD 7 0) := by
    rw [invert_block_3x3_getD eps L heq 5 (by norm_num)]
    rfl
  have n6 : (invert_block_3x3 eps L).getD 6 0
      = (L.getD 3 0 * L.getD 7 0 - L.getD 4 0 * L.getD 6 0)
        / (L.getD 0 0 * L.getD 4 0 * L.getD 8 0 + L.getD 1 0 * L.getD 5 0 * L.getD 6 0
      + L.getD 2 0 * L.getD 3 0 * L.getD 7 0 - L.getD 2 0 * L.getD 4 0 * L.getD 6 0
      - L.getD 1 0 * L.getD 3 0 * L.getD 8 0 - L.getD 0 0 * L.getD 5 0 * L.getD 7 0) := by
    rw [invert_block_3x3_getD eps L heq 6 (by norm_num)]
    rfl
  have n7 : (invert_block_3x3 eps L).getD 7 0
      = (L.getD 1 0 * L.getD 6 0 - L.getD 0 0 * L.getD 7 0)
        / (L.getD 0 0 * L.getD 4 0 * L.getD 8 0 + L.getD 1 0 * L.getD 5 0 * L.getD 6 0
      + L.getD 2 0 * L.getD 3 0 * L.getD 7 0 - L.getD 2 0 * L.getD 4 0 * L.getD 6 0
      - L.getD 1 0 * L.getD 3 0 * L.getD 8 0 - L.getD 0 0 * L.getD 5 0 * L.getD 7 0) := by
    rw [invert_block_3x3_getD eps L heq 7 (by norm_num)]
    rfl
  have n8 : (invert_block_3x3 eps L).getD 8 0
      = (L.getD 0 0 * L.getD 4 0 - L.getD 1 0 * L.getD 3 0)
        / (L.getD 0 0 * L.getD 4 0 * L.getD 8 0 + L.getD 1 0 * L.getD 5 0 * L.getD 6 0
      + L.getD 2 0 * L.getD 3 0 * L.getD 7 0 - L.getD 2 0 * L.getD 4 0 * L.getD 6 0
      - L.getD 1 0 * L.getD 3 0 * L.getD 8 0 - L.getD 0 0 * L.getD 5 0 * L.getD 7 0) := by
    rw [invert_block_3x3_getD eps L heq 8 (by norm_num)]
    rfl
  interval_cases i <;> interval_cases j <;>
    (simp only [Nat.zero_mul, Nat.one_mul, Nat.zero_add, Nat.add_zero, Nat.reduceMul,
      Nat.reduceAdd, n0, n1, n2, n3, n4, n5, n6, n7, n8]
     try simp only [if_true, if_false, ↓reduceIte, OfNat.ofNat_ne_zero, OfNat.zero_ne_ofNat]
     generalize L.getD 0 0 = r0 at hd ⊢
     generalize L.getD 1 0 = r1 at hd ⊢
     generalize L.getD 2 0 = r2 at hd ⊢
     generalize L.getD 3 0 = r3 at hd ⊢
     generalize L.getD 4 0 = r4 at hd ⊢
     generalize L.getD 5 0 = r5 at hd ⊢
     generalize L.getD 6 0 = r6 at hd ⊢
     generalize L.getD 7 0 = r7 at hd ⊢
     generalize L.getD 8 0 = r8 at hd ⊢
     field_simp
     ring)

/-- For a matrix of 3x3 diagonal blocks the matrix read by the walk for block
`b` is the transpose of the block, with the same determinant. -/
theorem block_values_determinant (M : SparseMatrix K) (m b : ℕ) (hM : BlockDiagonal M 3 m)
    (hb : b < m) :
    matrix_determinant (fun k : Fin 9 => (M.block_values 3 b).getD k.val 0)
      = matrix_determinant (M.block3 b) := by
  rw [← matrix_determinant_transpose (M.block3 b)]
  congr 1
  funext k
  have hk := k.isLt
  have e : k.val = k.val / 3 * 3 + k.val % 3 := by omega
  have h1 : k.val % 3 < 3 := by omega
  have h2 : k.val / 3 < 3 := by omega
  conv_lhs => rw [e]
  rw [block_values_getD M 3 b (k.val % 3) (k.val / 3) h1 h2]
  unfold SparseMatrix.block3
  simp only []
  have e1 : (3 * (k.val % 3) + k.val / 3) / 3 = k.val % 3 := by omega
  have e2 : (3 * (k.val % 3) + k.val / 3) % 3 = k.val / 3 := by omega
  rw [e1, e2]
  symm
  apply entry_eq_value
  · rw [hM.1]
    omega
  · rw [hM.2.1]
    omega
  · exact (hM.2.2 b b _ _ hb hb h1 h2).mpr rfl

/-- An entry of a block diagonal matrix inside a diagonal block. -/
theorem entry_in_block (M : SparseMatrix K) (bs m b i j : ℕ) (hM : BlockDiagonal M bs m)
    (hb : b < m) (hi : i < bs) (hj : j < bs) :
    M.entry (b * bs + i) (b * bs + j) = M.value (b * bs + i) (b * bs + j) :=
  entry_eq_value M _ _ (hM.1 ▸ block_lt bs m b i hb hi) (hM.2.1 ▸ block_lt bs m b j hb hj)
    ((hM.2.2 b b i j hb hb hi hj).mpr rfl)

/-- An entry of a block diagonal matrix outside the diagonal blocks. -/
theorem entry_off_block (M : SparseMatrix K) (bs m b1 b2 i j : ℕ) (hM : BlockDiagonal M bs m)
    (hb1 : b1 < m) (hb2 : b2 < m) (hi : i < bs) (hj : j < bs) (hne : b1 ≠ b2) :
    M.entry (b1 * bs + i) (b2 * bs + j) = 0 := by
  apply entry_eq_zero_of_not_stored
  intro h
  exact hne ((hM.2.2 b1 b2 i j hb1 hb2 hi hj).mp h.2.2)

/-- The damped block `C'` times what `invert_block_matrix_3x3_inplace` makes of
it is the identity, provided every 3x3 diagonal block has a determinant
that is not zero and is not taken for zero by the test of the walk. -/
theorem block_inverse_product (eps : K) (M C : SparseMatrix K) (m : ℕ)
    (hM : BlockDiagonal M 3 m) (hC : invert_block_matrix_3x3_inplace eps M = .ok C)
    (hdet : ∀ b, b < m → matrix_determinant (M.block3 b) ≠ 0
      ∧ MATH_DOUBLE_EQ eps (matrix_determinant (M.block3 b)) 0 = false) :
    M.toMatrix (m * 3) (m * 3) * C.toMatrix (m * 3) (m * 3) = 1 := by
  obtain ⟨C', hC', hCd, hCv⟩ := invert_block_matrix_3x3_inplace_ok eps M m hM
  rw [hC] at hC'
  cases hC'
  ext r c
  simp only [Matrix.mul_apply, SparseMatrix.toMatrix, Matrix.of_apply, Matrix.one_apply]
  rw [Fin.sum_univ_eq_sum_range (fun k => M.entry r.val k * C.entry k c.val) (m * 3),
    sum_range_mul3]
  have hr := r.isLt
  have hc := c.isLt
  have hbr : r.val / 3 < m := by omega
  have hbc : c.val / 3 < m := by omega
  have hir : r.val % 3 < 3 := by omega
  have hjc : c.val % 3 < 3 := by omega
  have er : r.val = r.val / 3 * 3 + r.val % 3 := by omega
  have ec : c.val = c.val / 3 * 3 + c.val % 3 := by omega
  rw [Finset.sum_eq_single (r.val / 3)]
  · by_cases hb : r.val / 3 = c.val / 3
    · have key := invert_block_3x3_right eps (M.block_values 3 (r.val / 3))
        (by rw [block_values_determinant M m _ hM hbr]; exact (hdet _ hbr).1)
        (by rw [block_values_determinant M m _ hM hbr]; exact (hdet _ hbr).2)
        (r.val % 3) (c.val % 3) hir hjc
      have hrc : (r = c) ↔ (r.val % 3 = c.val % 3) := by
        rw [Fin.ext_iff]
        omega
      simp only [hrc]
      rw [← key]
      have hM0 := entry_in_block M 3 m (r.val / 3) (r.val % 3) 0 hM hbr hir (by norm_num)
      have hM1 := entry_in_block M 3 m (r.val / 3) (r.val % 3) 1 hM hbr hir (by norm_num)
      have hM2 := entry_in_block M 3 m (r.val / 3) (r.val % 3) 2 hM hbr hir (by norm_num)
      have hC0 := entry_in_block C 3 m (r.val / 3) 0 (c.val % 3) hCd hbr (by norm_num) hjc
      have hC1 := entry_in_block C 3 m (r.val / 3) 1 (c.val % 3) hCd hbr (by norm_num) hjc
      have hC2 := entry_in_block C 3 m (r.val / 3) 2 (c.val % 3) hCd hbr (by norm_num) hjc
      have hV0 := hCv (r.val / 3) 0 (c.val % 3) hbr (by norm_num) hjc
      have hV1 := hCv (r.val / 3) 1 (c.val % 3) hbr (by norm_num) hjc
      have hV2 := hCv (r.val / 3) 2 (c.val % 3) hbr (by norm_num) hjc
      have hL0 := block_values_getD M 3 (r.val / 3) (r.val % 3) 0 hir (by norm_num)
      have hL1 := block_values_getD M 3 (r.val / 3) (r.val % 3) 1 hir (by norm_num)
      have hL2 := block_values_getD M 3 (r.val / 3) (r.val % 3) 2 hir (by norm_num)
      simp only [Nat.add_zero, Nat.zero_mul, Nat.zero_add, Nat.one_mul] at hM0 hC0 hV0 hV1 hV2
      simp only [Nat.add_zero, Nat.zero_mul, Nat.zero_add, Nat.one_mul,
        Nat.reduceMul] at hL0 hL1 hL2
      have ec' : c.val = r.val / 3 * 3 + c.val % 3 := by omega
      rw [hL0, hL1, hL2, ← hV0, ← hV1, ← hV2, ← hM0, ← hM1, ← hM2,
        ← hC0, ← hC1, ← hC2, ← ec', ← er]
    · have hrc : r ≠ c := by
        intro e
        apply hb
        rw [e]
      rw [if_neg hrc]
      have h0 := entry_off_block C 3 m (r.val / 3) (c.val / 3) 0 (c.val % 3) hCd hbr hbc
        (by norm_num) hjc hb
      have h1 := entry_off_block C 3 m (r.val / 3) (c.val / 3) 1 (c.val % 3) hCd hbr hbc
        (by norm_num) hjc hb
      have h2 := entry_off_block C 3 m (r.val / 3) (c.val / 3) 2 (c.val % 3) hCd hbr hbc
        (by norm_num) hjc hb
      simp only [Nat.add_zero] at h0
      rw [← ec] at h0 h1 h2
      rw [h0, h1, h2]
      simp
  · intro b hb hne
    have hb' := Finset.mem_range.mp hb
    have h0 := entry_off_block M 3 m (r.val / 3) b (r.val % 3) 0 hM hbr hb' hir (by norm_num)
      (Ne.symm hne)
    have h1 := entry_off_block M 3 m (r.val / 3) b (r.val % 3) 1 hM hbr hb' hir (by norm_num)
      (Ne.symm hne)
    have h2 := entry_off_block M 3 m (r.val / 3) b (r.val % 3) 2 hM hbr hb' hir (by norm_num)
      (Ne.symm hne)
    simp only [Nat.add_zero] at h0
    rw [← er] at h0 h1 h2
    rw [h0, h1, h2]
    simp
  · intro hn
    exact absurd (Finset.mem_range.mpr hbr) hn

end Matrices

section Schur

variable {K : Type} [LinearOrderedField K]

/-! ## The Schur complement solver -/

/-- A product of sparse matrices is defined when the inner dimensions
agree. -/
theorem multiply_isOk (A B : SparseMatrix K) (h : A.cols = B.rows) :
    ∃ P, A.multiply B = .ok P := by
  unfold SparseMatrix.multiply
  rw [if_pos h]
  exact ⟨_, rfl⟩

/-- A difference of sparse matrices is defined when the shapes agree. -/
theorem subtract_isOk (A B : SparseMatrix K) (hr : A.rows = B.rows) (hc : A.cols = B.cols) :
    ∃ S, A.subtract B = .ok S := by
  unfold SparseMatrix.subtract
  rw [if_pos ⟨hr, hc⟩]
  exact ⟨_, rfl⟩

/-- The product of sparse matrices as a product of matrices, the inner
dimension named. -/
theorem multiply_toMatrix_of (A B P : SparseMatrix K) (h : A.multiply B = .ok P) (m k n : ℕ)
    (hk : A.cols = k) : P.toMatrix m n = A.toMatrix m k * B.toMatrix k n := by
  subst hk
  exact multiply_toMatrix A B P h m n

/-- The product of a sparse matrix and a dense vector as a product of a matrix
and a vector, the dimensions named. -/
theorem multiply_vector_toVector_of (A : SparseMatrix K) (v u : List K)
    (h : A.multiply_vector v = .ok u) (m k : ℕ) (hm : A.rows = m) (hk : A.cols = k) :
    toVector u m = (A.toMatrix m k).mulVec (toVector v k) := by
  subst hm hk
  exact multiply_vector_toVector A v u h

/-- The length of a negated vector. -/
theorem negate_self_length (a : List K) : (negate_self a).length = a.length := by
  simp [negate_self]

/-- One of the loops that fill the output vector: `n` rounds overwrite the
entries `off .. off + n - 1` with the first `n` entries of the source. -/
theorem fill_loop (src : List K) (off n : ℕ) (dx : List K) (hsrc : n ≤ src.length)
    (hdx : off + n ≤ dx.length) :
    ∃ r, (List.range n).foldlM (fill_step src off) dx = .ok r
      ∧ r.length = dx.length
      ∧ ∀ k, r[k]? = if off ≤ k ∧ k < off + n then src[k - off]? else dx[k]? := by
  induction n with
  | zero =>
    refine ⟨dx, rfl, rfl, ?_⟩
    intro k
    rw [if_neg (by omega)]
  | succ n ih =>
    obtain ⟨r, hr, hlen, hget⟩ := ih (by omega) (by omega)
    have hn : n < src.length := by omega
    refine ⟨r.set (off + n) src[n], ?_, ?_, ?_⟩
    · rw [List.range_succ, List.foldlM_append, hr]
      simp only [bind, Except.bind, List.foldlM_cons, List.foldlM_nil, fill_step,
        List.getElem?_eq_getElem hn, pure, Except.pure]
      rw [if_pos (by omega)]
    · rw [List.length_set, hlen]
    · intro k
      rw [List.getElem?_set]
      by_cases hk : off + n = k
      · subst hk
        rw [if_pos rfl, if_pos (by omega), if_pos (by omega)]
        simp only [Nat.add_sub_cancel_left]
        exact (List.getElem?_eq_getElem hn).symm
      · rw [if_neg hk, hget]
        by_cases h1 : off ≤ k ∧ k < off + n
        · rw [if_pos h1, if_pos (by omega)]
        · rw [if_neg h1, if_neg (by omega)]

/-- The two loops that fill the output vector leave the camera part followed by
the point part. -/
theorem fill_output_ok (dx dy dz : List K) (nc np : ℕ) (hdx : dx.length = nc + np)
    (hdy : dy.length = nc) (hdz : dz.length = np) :
    fill_output dx dy dz nc np = .ok (dy ++ dz) := by
  obtain ⟨r1, h1, hl1, hg1⟩ := fill_loop dy 0 nc dx (by omega) (by omega)
  obtain ⟨r2, h2, hl2, hg2⟩ := fill_loop dz nc np r1 (by omega) (by omega)
  simp only [fill_output, bind, Except.bind, h1, h2]
  congr 1
  apply List.ext_getElem?
  intro k
  rw [hg2, hg1]
  by_cases hk : k < nc
  · rw [if_neg (by omega), if_pos (by omega), List.getElem?_append_left (by omega)]
    rfl
  · rw [List.getElem?_append_right (by omega), hdy]
    by_cases hk2 : k < nc + np
    · rw [if_pos (by omega)]
    · rw [if_neg (by omega), if_neg (by omega), List.getElem?_eq_none (by omega),
        List.getElem?_eq_none (by omega)]

/-- The set-up of the reduced system returns for Jacobians with the block
structure `my_solve_schur` relies on, and these are the quantities it builds:
the block products with their diagonals scaled, the inverse walk over the
damped point block, the cross block, the negated products with the residual
vector, `S = B' - E * C * E^T` and `rhs = v - E * (C * w)`. -/
theorem schur_system_ok (env : SolverEnv K) (Jc Jp : SparseMatrix K) (F : List K) (mc mp : ℕ)
    (hc : Jc.cols = mc * 9) (hp : Jp.cols = mp * 3) (hrows : Jc.rows = Jp.rows)
    (hF : F.length = Jc.rows) (huc : BlockUniform Jc 9 mc) (hup : BlockUniform Jp 3 mp) :
    ∃ sys B0 C0 v0 w0, schur_system env Jc Jp F = .ok sys
      ∧ matrix_block_column_multiply Jc 9 = .ok B0
      ∧ matrix_block_column_multiply Jp 3 = .ok C0
      ∧ sys.B = B0.mult_diagonal (1 + 1 / env.trust_region_radius)
      ∧ sys.C_damped = C0.mult_diagonal (1 + 1 / env.trust_region_radius)
      ∧ BlockDiagonal sys.C_damped 3 mp
      ∧ invert_block_matrix_3x3_inplace env.eps sys.C_damped = .ok sys.C
      ∧ BlockDiagonal sys.C 3 mp
      ∧ Jc.transpose.multiply Jp = .ok sys.E
      ∧ sys.ET = sys.E.transpose
      ∧ sys.E.rows = Jc.cols ∧ sys.E.cols = Jp.cols
      ∧ Jc.transpose.multiply_vector F = .ok v0 ∧ sys.v = negate_self v0
      ∧ Jp.transpose.multiply_vector F = .ok w0 ∧ sys.w = negate_self w0
      ∧ sys.w.length = Jp.cols
      ∧ sys.S.toMatrix Jc.cols Jc.cols = sys.B.toMatrix Jc.cols Jc.cols
          - sys.E.toMatrix Jc.cols Jp.cols * sys.C.toMatrix Jp.cols Jp.cols
            * sys.ET.toMatrix Jp.cols Jc.cols
      ∧ toVector sys.rhs Jc.cols = toVector sys.v Jc.cols
          - (sys.E.toMatrix Jc.cols Jp.cols).mulVec
              ((sys.C.toMatrix Jp.cols Jp.cols).mulVec (toVector sys.w Jp.cols)) := by
  obtain ⟨B0, hB0, -⟩ := matrix_block_column_multiply_ok Jc 9 mc (by norm_num) hc huc
  obtain ⟨C0, hC0, -⟩ := matrix_block_column_multiply_ok Jp 3 mp (by norm_num) hp hup
  have hBd := (matrix_block_column_multiply_block_diagonal Jc B0 9 mc (by norm_num) hc huc hB0).1
  have hCd := (matrix_block_column_multiply_block_diagonal Jp C0 3 mp (by norm_num) hp hup hC0).1
  obtain ⟨E, hE⟩ := multiply_isOk Jc.transpose Jp hrows
  obtain ⟨hEr, hEc, -, -⟩ := multiply_entry _ _ _ hE
  have hEr' : E.rows = Jc.cols := hEr
  obtain ⟨v0, hv0⟩ := multiply_vector_isOk Jc.transpose F hF.symm
  obtain ⟨w0, hw0⟩ := multiply_vector_isOk Jp.transpose F (hF.trans hrows).symm
  obtain ⟨-, hv0l, -⟩ := multiply_vector_ok _ _ _ hv0
  obtain ⟨-, hw0l, -⟩ := multiply_vector_ok _ _ _ hw0
  have hv0l' : v0.length = Jc.cols := hv0l
  have hw0l' : w0.length = Jp.cols := hw0l
  have hCd' : BlockDiagonal (C0.mult_diagonal (1 + 1 / env.trust_region_radius)) 3 mp :=
    mult_diagonal_block C0 3 mp _ hCd
  have hBd' : BlockDiagonal (B0.mult_diagonal (1 + 1 / env.trust_region_radius)) 9 mc :=
    mult_diagonal_block B0 9 mc _ hBd
  obtain ⟨Ci, hCi, hCid, -⟩ := invert_block_matrix_3x3_inplace_ok env.eps _ mp hCd'
  have hCir : Ci.rows = Jp.cols := hCid.1.trans hp.symm
  have hCic : Ci.cols = Jp.cols := hCid.2.1.trans hp.symm
  obtain ⟨EC, hEC⟩ := multiply_isOk E Ci (hEc.trans hCir.symm)
  obtain ⟨hECr, hECc, -, -⟩ := multiply_entry _ _ _ hEC
  have hETr : E.transpose.rows = Jp.cols := hEc
  have hETc : E.transpose.cols = Jc.cols := hEr
  obtain ⟨ECET, hECET⟩ := multiply_isOk EC E.transpose ((hECc.trans hCic).trans hETr.symm)
  obtain ⟨hQr, hQc, -, -⟩ := multiply_entry _ _ _ hECET
  obtain ⟨S, hS⟩ := subtract_isOk (B0.mult_diagonal (1 + 1 / env.trust_region_radius)) ECET
    (by rw [hBd'.1, hQr, hECr, hEr', hc]) (by rw [hBd'.2.1, hQc, hETc, hc])
  have hwl : (negate_self w0).length = Jp.cols := (negate_self_length w0).trans hw0l'
  have hvl : (negate_self v0).length = Jc.cols := (negate_self_length v0).trans hv0l'
  obtain ⟨Cw, hCw⟩ := multiply_vector_isOk Ci (negate_self w0) (hCic.trans hwl.symm)
  obtain ⟨-, hCwl, -⟩ := multiply_vector_ok _ _ _ hCw
  obtain ⟨ECw, hECw⟩ := multiply_vector_isOk E Cw (hEc.trans (hCwl.trans hCir).symm)
  obtain ⟨-, hECwl, -⟩ := multiply_vector_ok _ _ _ hECw
  obtain ⟨rhs, hrhs⟩ := vector_subtract_isOk (negate_self v0) ECw
    (hvl.trans (hECwl.trans hEr').symm)
  obtain ⟨-, -, hrhsv⟩ := vector_subtract_ok _ _ _ hrhs
  obtain ⟨P, hP⟩ := invert_block_matrix_NxN_inplace_ok env.cholesky_invert_inplace env.isfinite
    (B0.mult_diagonal (1 + 1 / env.trust_region_radius)) 9 mc (by norm_num) hBd'
  refine ⟨⟨B0.mult_diagonal (1 + 1 / env.trust_region_radius),
      C0.mult_diagonal (1 + 1 / env.trust_region_radius), Ci, E, E.transpose, negate_self v0,
      negate_self w0, S, rhs, P⟩, B0, C0, v0, w0, ?_, hB0, hC0, rfl, rfl, hCd', hCi, hCid, hE,
    rfl, hEr', hEc, hv0, rfl, hw0, rfl, hwl, ?_, ?_⟩
  · simp only [schur_system, camera_block_dim, bind, Except.bind, pure, Except.pure, hB0, hC0,
      hE, hv0, hw0, hCi, hEC, hECET, hS, hCw, hECw, hrhs, hP]
  · show S.toMatrix Jc.cols Jc.cols = _
    rw [subtract_toMatrix _ _ _ hS, multiply_toMatrix_of _ _ _ hECET _ Jp.cols _ (hECc.trans hCic),
      multiply_toMatrix_of _ _ _ hEC _ Jp.cols _ hEc]
  · show toVector rhs Jc.cols = _
    rw [hrhsv, multiply_vector_toVector_of _ _ _ hECw _ Jp.cols hEr' hEc,
      multiply_vector_toVector_of _ _ _ hCw _ Jp.cols hCir hCic]

/-- The part of `my_solve_schur` after the conjugate gradient solve: if the
solver does not report invalid input and its vector has one entry per camera
parameter, the call succeeds and returns that vector followed by the
back-substituted point update `C * (w - E^T * delta_c)`. -/
theorem my_solve_schur_ok (env : SolverEnv K) (Jc Jp : SparseMatrix K) (F dx dc : List K)
    (sys : SchurSystem K) (st : CGStatus)
    (hsys : schur_system env Jc Jp F = .ok sys)
    (hETr : sys.ET.rows = Jp.cols) (hETc : sys.ET.cols = Jc.cols)
    (hCr : sys.C.rows = Jp.cols) (hCc : sys.C.cols = Jp.cols) (hw : sys.w.length = Jp.cols)
    (hcg : env.cg_solve sys.S sys.rhs (List.replicate Jc.cols 0) sys.precond = (st, dc))
    (hinfo : st.info ≠ CGInfo.CG_INVALID_INPUT) (hlen : dc.length = Jc.cols) :
    ∃ dp, my_solve_schur env Jc Jp F dx = .ok (⟨true, st.num_iterations⟩, dc ++ dp)
      ∧ dp.length = Jp.cols
      ∧ toVector dp Jp.cols = (sys.C.toMatrix Jp.cols Jp.cols).mulVec
          (toVector sys.w Jp.cols
            - (sys.ET.toMatrix Jp.cols Jc.cols).mulVec (toVector dc Jc.cols)) := by
  obtain ⟨a, ha⟩ := multiply_vector_isOk sys.ET dc (hETc.trans hlen.symm)
  obtain ⟨-, hal, -⟩ := multiply_vector_ok _ _ _ ha
  obtain ⟨b, hb⟩ := vector_subtract_isOk sys.w a (hw.trans (hal.trans hETr).symm)
  obtain ⟨-, hbl, hbv⟩ := vector_subtract_ok _ _ _ hb
  obtain ⟨dp, hdp⟩ := multiply_vector_isOk sys.C b (hCc.trans (hbl.trans hw).symm)
  obtain ⟨-, hdpl, -⟩ := multiply_vector_ok _ _ _ hdp
  have hdpl' : dp.length = Jp.cols := hdpl.trans hCr
  have hfill : fill_output
      (if dx.length ≠ Jc.cols + Jp.cols then resize dx (Jc.cols + Jp.cols) else dx) dc dp
      Jc.cols Jp.cols = .ok (dc ++ dp) := by
    apply fill_output_ok _ dc dp Jc.cols Jp.cols _ hlen hdpl'
    split
    · exact resize_length _ _
    · rename_i hne
      exact not_not.mp hne
  refine ⟨dp, ?_, hdpl', ?_⟩
  · simp only [my_solve_schur, bind, Except.bind, hsys, hcg]
    cases hi : st.info
    · simp only [ha, hb, hdp, hfill, pure, Except.pure]
    · simp only [ha, hb, hdp, hfill, pure, Except.pure]
    · exact absurd hi hinfo
  · rw [multiply_vector_toVector_of _ _ _ hdp _ Jp.cols hCr hCc, hbv,
      multiply_vector_toVector_of _ _ _ ha _ Jc.cols hETr hETc]

/-- C8 (amended): let `B'`, `C'`, `E`, `v`, `w`, `S`, `rhs` be the quantities
`my_solve_schur` builds from `Jc`, `Jp` and `F` (Jacobians of `mc` camera
blocks and `mp` point blocks).  If every 3x3 diagonal block of `C'` has a
determinant that is not zero and is not taken for zero by the tolerance test
`MATH_DOUBLE_EQ(det, 0.0)` of the block walk, the conjugate gradient solve
does not report invalid input and its vector `delta_c`, one entry per column
of `Jc`, satisfies `S * delta_c = rhs` exactly, then the call succeeds, the
returned `delta_x` is `delta_c` followed by `delta_p = C * (w - E^T * delta_c)`
of length `Jp.cols`, and it solves the full damped system:
`B' * delta_c + E * delta_p = v` and `E^T * delta_c + C' * delta_p = w`.  Where
`S` has a trivial kernel it is the only solution of that system, the one a
direct solve gives. -/
theorem my_solve_schur_solves_damped_system (env : SolverEnv K) (Jc Jp : SparseMatrix K)
    (F dx dc : List K) (mc mp : ℕ) (sys : SchurSystem K) (st : CGStatus)
    (hc : Jc.cols = mc * 9) (hp : Jp.cols = mp * 3) (hrows : Jc.rows = Jp.rows)
    (hF : F.length = Jc.rows) (huc : BlockUniform Jc 9 mc) (hup : BlockUniform Jp 3 mp)
    (hsys : schur_system env Jc Jp F = .ok sys)
    (hdet : ∀ b, b < mp → matrix_determinant (sys.C_damped.block3 b) ≠ 0
      ∧ MATH_DOUBLE_EQ env.eps (matrix_determinant (sys.C_damped.block3 b)) 0 = false)
    (hcg : env.cg_solve sys.S sys.rhs (List.replicate Jc.cols 0) sys.precond = (st, dc))
    (hinfo : st.info ≠ CGInfo.CG_INVALID_INPUT) (hlen : dc.length = Jc.cols)
    (hS : (sys.S.toMatrix Jc.cols Jc.cols).mulVec (toVector dc Jc.cols)
      = toVector sys.rhs Jc.cols) :
    ∃ dp, my_solve_schur env Jc Jp F dx = .ok (⟨true, st.num_iterations⟩, dc ++ dp)
      ∧ dp.length = Jp.cols
      ∧ (dc ++ dp).length = Jc.cols + Jp.cols
      ∧ toVector dp Jp.cols = (sys.C.toMatrix Jp.cols Jp.cols).mulVec
          (toVector sys.w Jp.cols
            - (sys.E.toMatrix Jc.cols Jp.cols).transpose.mulVec (toVector dc Jc.cols))
      ∧ (sys.B.toMatrix Jc.cols Jc.cols).mulVec (toVector dc Jc.cols)
          + (sys.E.toMatrix Jc.cols Jp.cols).mulVec (toVector dp Jp.cols)
          = toVector sys.v Jc.cols
      ∧ (sys.E.toMatrix Jc.cols Jp.cols).transpose.mulVec (toVector dc Jc.cols)
          + (sys.C_damped.toMatrix Jp.cols Jp.cols).mulVec (toVector dp Jp.cols)
          = toVector sys.w Jp.cols
      ∧ ((∀ z, (sys.S.toMatrix Jc.cols Jc.cols).mulVec z = 0 → z = 0) →
          ∀ x y, (sys.B.toMatrix Jc.cols Jc.cols).mulVec x
              + (sys.E.toMatrix Jc.cols Jp.cols).mulVec y = toVector sys.v Jc.cols →
            (sys.E.toMatrix Jc.cols Jp.cols).transpose.mulVec x
              + (sys.C_damped.toMatrix Jp.cols Jp.cols).mulVec y = toVector sys.w Jp.cols →
            x = toVector dc Jc.cols ∧ y = toVector dp Jp.cols) := by
  obtain ⟨sys1, B0, C0, v0, w0, hsys1, -, -, -, -, hCd, hCi, hCid, -, hET, hEr, hEc, -, -, -, -,
    hwl, hSm, hrhs⟩ := schur_system_ok env Jc Jp F mc mp hc hp hrows hF huc hup
  rw [hsys] at hsys1
  cases hsys1
  have hETr : sys.ET.rows = Jp.cols := by rw [hET]; exact hEc
  have hETc : sys.ET.cols = Jc.cols := by rw [hET]; exact hEr
  obtain ⟨dp, hres, hdpl, hdp⟩ := my_solve_schur_ok env Jc Jp F dx dc sys st hsys hETr hETc
    (hCid.1.trans hp.symm) (hCid.2.1.trans hp.symm) hwl hcg hinfo hlen
  have hETm : sys.ET.toMatrix Jp.cols Jc.cols = (sys.E.toMatrix Jc.cols Jp.cols).transpose := by
    rw [hET]
    exact transpose_toMatrix sys.E Jp.cols Jc.cols
  have hprod := block_inverse_product env.eps sys.C_damped sys.C mp hCd hCi hdet
  rw [← hp] at hprod
  have hprod2 := (Matrix.mul_eq_one_comm).mp hprod
  rw [hETm] at hdp hSm
  rw [hSm, hrhs] at hS
  refine ⟨dp, hres, hdpl, by rw [List.length_append, hlen, hdpl], hdp, ?_, ?_, ?_⟩
  · rw [Matrix.sub_mulVec, ← Matrix.mulVec_mulVec, ← Matrix.mulVec_mulVec] at hS
    rw [hdp, Matrix.mulVec_sub, Matrix.mulVec_sub]
    linear_combination hS
  · rw [hdp, Matrix.mulVec_mulVec, hprod, Matrix.one_mulVec]
    abel
  · intro hinj x y h1 h2
    have hy : y = (sys.C.toMatrix Jp.cols Jp.cols).mulVec
        (toVector sys.w Jp.cols - (sys.E.toMatrix Jc.cols Jp.cols).transpose.mulVec x) := by
      rw [← h2, add_sub_cancel_left, Matrix.mulVec_mulVec, hprod2, Matrix.one_mulVec]
    have hx : x = toVector dc Jc.cols := by
      have hz := hinj (x - toVector dc Jc.cols) (by
        rw [Matrix.mulVec_sub, hSm, hS]
        rw [hy] at h1
        rw [Matrix.sub_mulVec, ← Matrix.mulVec_mulVec, ← Matrix.mulVec_mulVec]
        rw [Matrix.mulVec_sub, Matrix.mulVec_sub] at h1
        linear_combination h1)
      exact sub_eq_zero.mp hz
    refine ⟨hx, ?_⟩
    rw [hy, hdp, hx]

/-- The entries of the matrix product `A^T * A`. -/
theorem gram_eq_mul (A : SparseMatrix K) (n : ℕ) (i j : Fin n) :
    ((A.toMatrix A.rows n).transpose * A.toMatrix A.rows n) i j = A.gram i.val j.val := by
  simp only [Matrix.mul_apply, Matrix.transpose_apply, SparseMatrix.toMatrix, Matrix.of_apply,
    SparseMatrix.gram]
  exact Fin.sum_univ_eq_sum_range (fun k => A.entry k i.val * A.entry k j.val) A.rows

/-- A block product with its diagonal multiplied by `1 + d` is the block
product plus `d` times its diagonal. -/
theorem mult_diagonal_toMatrix (A B0 : SparseMatrix K) (d : K) (n : ℕ)
    (hB : ∀ r c, B0.entry r c = A.gram r c) :
    (B0.mult_diagonal (1 + d)).toMatrix n n
      = (A.toMatrix A.rows n).transpose * A.toMatrix A.rows n
        + d • Matrix.diagonal
            (fun i => ((A.toMatrix A.rows n).transpose * A.toMatrix A.rows n) i i) := by
  ext i j
  simp only [Matrix.add_apply, Matrix.smul_apply, Matrix.diagonal_apply, gram_eq_mul,
    smul_eq_mul, Fin.ext_iff]
  simp only [SparseMatrix.toMatrix, Matrix.of_apply, mult_diagonal_entry, hB]
  by_cases hd : i.val = j.val
  · rw [if_pos hd, if_pos hd, hd]
    ring
  · rw [if_neg hd, if_neg hd, mul_zero, add_zero]

/-- The blocks and right-hand sides `my_solve_schur` builds from the Jacobians
of `analytic_jacobian`. -/
theorem schur_system_blocks (env : SolverEnv K) (cameras : List (Camera K))
    (points : List (Point3D K)) (observations : List (Observation K)) (F : List K)
    (hin : ∀ o ∈ observations, o.camera_id < cameras.length ∧ o.point_id < points.length)
    (hF : F.length = 2 * observations.length) :
    ∃ Jc Jp sys, analytic_jacobian cameras points observations = .ok (Jc, Jp)
      ∧ schur_system env Jc Jp F = .ok sys
      ∧ Jc.rows = 2 * observations.length ∧ Jc.cols = 9 * cameras.length
      ∧ Jp.rows = 2 * observations.length ∧ Jp.cols = 3 * points.length
      ∧ sys.B.toMatrix Jc.cols Jc.cols
          = (Jc.toMatrix Jc.rows Jc.cols).transpose * Jc.toMatrix Jc.rows Jc.cols
            + (1 / env.trust_region_radius) • Matrix.diagonal (fun i =>
                ((Jc.toMatrix Jc.rows Jc.cols).transpose * Jc.toMatrix Jc.rows Jc.cols) i i)
      ∧ sys.C_damped.toMatrix Jp.cols Jp.cols
          = (Jp.toMatrix Jp.rows Jp.cols).transpose * Jp.toMatrix Jp.rows Jp.cols
            + (1 / env.trust_region_radius) • Matrix.diagonal (fun i =>
                ((Jp.toMatrix Jp.rows Jp.cols).transpose * Jp.toMatrix Jp.rows Jp.cols) i i)
      ∧ sys.E.toMatrix Jc.cols Jp.cols
          = (Jc.toMatrix Jc.rows Jc.cols).transpose * Jp.toMatrix Jc.rows Jp.cols
      ∧ toVector sys.v Jc.cols
          = - (Jc.toMatrix Jc.rows Jc.cols).transpose.mulVec (toVector F Jc.rows)
      ∧ toVector sys.w Jp.cols
          = - (Jp.toMatrix Jc.rows Jp.cols).transpose.mulVec (toVector F Jc.rows) := by
  obtain ⟨Jc, Jp, B, C, hJ, hr1, hc1, hr2, hc2, hu1, hu2, hB, hC, -, -, -, -, hBe, hCe⟩ :=
    jacobian_products cameras points observations hin
  have hrows : Jc.rows = Jp.rows := hr1.trans hr2.symm
  obtain ⟨sys, B0, C0, v0, w0, hsys, hB0, hC0, hBs, hCs, -, -, -, hE, -, -, -, hv0, hv, hw0, hw,
    -, -, -⟩ := schur_system_ok env Jc Jp F cameras.length points.length
      (by rw [hc1, Nat.mul_comm]) (by rw [hc2, Nat.mul_comm]) hrows (hF.trans hr1.symm) hu1 hu2
  rw [hB] at hB0
  rw [hC] at hC0
  cases hB0
  cases hC0
  refine ⟨Jc, Jp, sys, hJ, hsys, hr1, hc1, hr2, hc2, ?_, ?_, ?_, ?_, ?_⟩
  · rw [hBs]
    exact mult_diagonal_toMatrix Jc B _ Jc.cols hBe
  · rw [hCs]
    exact mult_diagonal_toMatrix Jp C _ Jp.cols hCe
  · rw [multiply_toMatrix_of _ _ _ hE Jc.cols Jc.rows Jp.cols rfl, transpose_toMatrix]
  · rw [hv, negate_self_toVector, multiply_vector_toVector_of _ _ _ hv0 Jc.cols Jc.rows rfl rfl,
      transpose_toMatrix]
  · rw [hw, negate_self_toVector,
      multiply_vector_toVector_of _ _ _ hw0 Jp.cols Jc.rows rfl hrows.symm, transpose_toMatrix]

/-- C9 (amended): for the Jacobians `Jc`, `Jp` of `analytic_jacobian` on in-range
observations, a residual vector `F` with two entries per observation and a
non-zero trust region radius `lambda`, the linear system `my_solve_schur` sets
up has the damped blocks `B' = Jc^T Jc + (1/lambda) * diag(Jc^T Jc)` and
`C' = Jp^T Jp + (1/lambda) * diag(Jp^T Jp)`, the diagonal entries multiplied by
`1 + 1/lambda`, the undamped cross block `E = Jc^T Jp`, and the right-hand
sides `v = -Jc^T F` and `w = -Jp^T F`. -/
theorem schur_system_damped_normal_equations (env : SolverEnv K) (cameras : List (Camera K))
    (points : List (Point3D K)) (observations : List (Observation K)) (F : List K)
    (hin : ∀ o ∈ observations, o.camera_id < cameras.length ∧ o.point_id < points.length)
    (hF : F.length = 2 * observations.length) (_hlam : env.trust_region_radius ≠ 0) :
    ∃ Jc Jp sys, analytic_jacobian cameras points observations = .ok (Jc, Jp)
      ∧ schur_system env Jc Jp F = .ok sys
      ∧ sys.B.toMatrix Jc.cols Jc.cols
          = (Jc.toMatrix Jc.rows Jc.cols).transpose * Jc.toMatrix Jc.rows Jc.cols
            + (1 / env.trust_region_radius) • Matrix.diagonal (fun i =>
                ((Jc.toMatrix Jc.rows Jc.cols).transpose * Jc.toMatrix Jc.rows Jc.cols) i i)
      ∧ sys.C_damped.toMatrix Jp.cols Jp.cols
          = (Jp.toMatrix Jp.rows Jp.cols).transpose * Jp.toMatrix Jp.rows Jp.cols
            + (1 / env.trust_region_radius) • Matrix.diagonal (fun i =>
                ((Jp.toMatrix Jp.rows Jp.cols).transpose * Jp.toMatrix Jp.rows Jp.cols) i i)
      ∧ sys.E.toMatrix Jc.cols Jp.cols
          = (Jc.toMatrix Jc.rows Jc.cols).transpose * Jp.toMatrix Jc.rows Jp.cols
      ∧ toVector sys.v Jc.cols
          = - (Jc.toMatrix Jc.rows Jc.cols).transpose.mulVec (toVector F Jc.rows)
      ∧ toVector sys.w Jp.cols
          = - (Jp.toMatrix Jc.rows Jp.cols).transpose.mulVec (toVector F Jc.rows) :=
  let ⟨Jc, Jp, sys, h1, h2, _, _, _, _, h⟩ := schur_system_blocks env cameras points observations
    F hin hF
  ⟨Jc, Jp, sys, h1, h2, h⟩

/-- A block whose determinant the tolerance test takes for zero is left as it
is by `invert_block_matrix_3x3_inplace`. -/
theorem invert_block_matrix_3x3_inplace_skipped (eps : K) (M C : SparseMatrix K) (m : ℕ)
    (hM : BlockDiagonal M 3 m) (hC : invert_block_matrix_3x3_inplace eps M = .ok C)
    (b : ℕ) (hb : b < m)
    (hskip : MATH_DOUBLE_EQ eps (matrix_determinant (M.block3 b)) 0 = true)
    (i j : ℕ) (hi : i < 3) (hj : j < 3) :
    C.entry (b * 3 + i) (b * 3 + j) = M.entry (b * 3 + i) (b * 3 + j) := by
  obtain ⟨C', hC', hCd, hCv⟩ := invert_block_matrix_3x3_inplace_ok eps M m hM
  rw [hC] at hC'
  cases hC'
  rw [entry_in_block C 3 m b i j hCd hb hi hj, entry_in_block M 3 m b i j hM hb hi hj,
    hCv b i j hb hi hj]
  unfold invert_block_3x3
  simp only []
  rw [if_pos (by rw [block_values_determinant M m b hM hb]; exact hskip)]
  exact block_values_getD M 3 b i j hi hj

/-- The vector of zeros. -/
theorem toVector_replicate_zero (n m : ℕ) : toVector (List.replicate n (0 : K)) m = 0 := by
  funext i
  simp only [toVector, Pi.zero_apply, List.getD_eq_getElem?_getD]
  by_cases h : i.val < n
  · simp [List.getElem?_replicate, h]
  · simp [List.getElem?_replicate, h]

/-- The determinant of a 3x3 matrix that is `c` times the identity. -/
theorem matrix_determinant_scalar (m : Fin 9 → K) (c : K)
    (h : ∀ k : Fin 9, m k = if k.val / 3 = k.val % 3 then c else 0) :
    matrix_determinant m = c ^ 3 := by
  unfold matrix_determinant
  rw [h 0, h 1, h 2, h 3, h 4, h 5, h 6, h 7, h 8]
  have e0 : ((0 : Fin 9).val / 3 = (0 : Fin 9).val % 3) := by decide
  have e4 : ((4 : Fin 9).val / 3 = (4 : Fin 9).val % 3) := by decide
  have e8 : ((8 : Fin 9).val / 3 = (8 : Fin 9).val % 3) := by decide
  have e1 : ¬ ((1 : Fin 9).val / 3 = (1 : Fin 9).val % 3) := by decide
  have e2 : ¬ ((2 : Fin 9).val / 3 = (2 : Fin 9).val % 3) := by decide
  have e3 : ¬ ((3 : Fin 9).val / 3 = (3 : Fin 9).val % 3) := by decide
  have e5 : ¬ ((5 : Fin 9).val / 3 = (5 : Fin 9).val % 3) := by decide
  have e6 : ¬ ((6 : Fin 9).val / 3 = (6 : Fin 9).val % 3) := by decide
  have e7 : ¬ ((7 : Fin 9).val / 3 = (7 : Fin 9).val % 3) := by decide
  rw [if_pos e0, if_pos e4, if_pos e8, if_neg e1, if_neg e2, if_neg e3, if_neg e5, if_neg e6,
    if_neg e7]
  ring

/-- The entries of `Jp^T * Jp` for a diagonal matrix of four rows. -/
theorem diagonal_jacobian_gram (a : K) (i j : ℕ) (hi : i < 3) (hj : j < 3) :
    (diagonal_jacobian 4 3 a).gram i j = if i = j then a * a else 0 := by
  interval_cases i <;> interval_cases j <;>
    simp [SparseMatrix.gram, Finset.sum_range_succ, SparseMatrix.entry, diagonal_jacobian]

/-- The reduced system of the example: a camera Jacobian of zeros, the point
Jacobian `a` times the identity, the residual vector `(1, 0, 0, 0)`, and a
conjugate gradient solve that stops at the zero vector. -/
theorem example_system (lam a : K) :
    ∃ sys dp, schur_system (example_env lam) (diagonal_jacobian 4 9 0) (diagonal_jacobian 4 3 a)
        [1, 0, 0, 0] = .ok sys
      ∧ BlockDiagonal sys.C_damped 3 1
      ∧ invert_block_matrix_3x3_inplace (1 / 2 ^ 52) sys.C_damped = .ok sys.C
      ∧ sys.C_damped.toMatrix 3 3 = (a * a * (1 + 1 / lam)) • (1 : Matrix (Fin 3) (Fin 3) K)
      ∧ (∀ k : Fin 9, sys.C_damped.block3 0 k
          = if k.val / 3 = k.val % 3 then a * a * (1 + 1 / lam) else 0)
      ∧ sys.E.toMatrix 9 3 = 0
      ∧ toVector sys.rhs 9 = 0
      ∧ toVector sys.w 3 = (fun i => if i.val = 0 then -a else 0)
      ∧ my_solve_schur (example_env lam) (diagonal_jacobian 4 9 0) (diagonal_jacobian 4 3 a)
          [1, 0, 0, 0] [] = .ok (⟨true, 0⟩, List.replicate 9 0 ++ dp)
      ∧ toVector dp 3 = (sys.C.toMatrix 3 3).mulVec (toVector sys.w 3) := by
  have hu1 : BlockUniform (diagonal_jacobian 4 9 (0 : K)) 9 1 := fun _ _ _ _ _ _ _ _ => rfl
  have hu2 : BlockUniform (diagonal_jacobian 4 3 a) 3 1 := fun _ _ _ _ _ _ _ _ => rfl
  obtain ⟨sys, B0, C0, v0, w0, hsys, -, hC0, -, hCd, hCdd, hCi, hCid, hE, hET, hEr, hEc, hv0, hv,
    hw0, hw, hwl, -, hrhs⟩ := schur_system_ok (example_env lam) (diagonal_jacobian 4 9 0)
      (diagonal_jacobian 4 3 a) [1, 0, 0, 0] 1 1 rfl rfl rfl rfl hu1 hu2
  have hJc : (diagonal_jacobian 4 9 (0 : K)).transpose.toMatrix 9 4 = 0 := by
    ext i j
    simp [SparseMatrix.toMatrix, SparseMatrix.transpose, SparseMatrix.entry, diagonal_jacobian]
  have hEm : sys.E.toMatrix 9 3 = 0 := by
    rw [multiply_toMatrix_of _ _ _ hE 9 4 3 rfl, hJc, Matrix.zero_mul]
  have hvv : toVector sys.v 9 = 0 := by
    rw [hv, negate_self_toVector, multiply_vector_toVector_of _ _ _ hv0 9 4 rfl rfl, hJc,
      Matrix.zero_mulVec, neg_zero]
  have hCv := (matrix_block_column_multiply_block_diagonal _ C0 3 1 (by norm_num) rfl hu2 hC0).2
  have hent : ∀ i j, i < 3 → j < 3 →
      sys.C_damped.entry i j = if i = j then a * a * (1 + 1 / lam) else 0 := by
    intro i j h1 h2
    have e := entry_in_block sys.C_damped 3 1 0 i j hCdd (by norm_num) h1 h2
    have hval : ∀ r c, (C0.mult_diagonal (1 + 1 / (example_env lam).trust_region_radius)).value
        r c = if r = c then C0.value r c * (1 + 1 / lam) else C0.value r c := fun _ _ => rfl
    rw [hCd, hval, hCv 0 _ _ (by norm_num) h1 h2] at e
    simp only [Nat.zero_mul, Nat.zero_add] at e
    rw [← hCd] at e
    rw [e, diagonal_jacobian_gram a _ _ h1 h2]
    by_cases hd : i = j
    · rw [if_pos hd, if_pos hd, if_pos hd]
    · rw [if_neg hd, if_neg hd, if_neg hd]
  obtain ⟨dp, hres, -, hdp⟩ := my_solve_schur_ok (example_env lam) (diagonal_jacobian 4 9 0)
    (diagonal_jacobian 4 3 a) [1, 0, 0, 0] [] (List.replicate 9 0) sys
    ⟨0, CGInfo.CG_CONVERGENCE⟩ hsys (by rw [hET]; exact hEc) (by rw [hET]; exact hEr)
    hCid.1 hCid.2.1 hwl rfl (by decide) (by simp [diagonal_jacobian])
  refine ⟨sys, dp, hsys, hCdd, hCi, ?_, ?_, hEm, ?_, ?_, hres, ?_⟩
  · ext i j
    simp only [SparseMatrix.toMatrix, Matrix.of_apply, Matrix.smul_apply, Matrix.one_apply,
      smul_eq_mul, hent i.val j.val i.isLt j.isLt, Fin.ext_iff]
    by_cases hd : i.val = j.val
    · rw [if_pos hd, if_pos hd, mul_one]
    · rw [if_neg hd, if_neg hd, mul_zero]
  · intro k
    have hk := k.isLt
    have e := hent (k.val / 3) (k.val % 3) (by omega) (by omega)
    unfold SparseMatrix.block3
    simp only [Nat.zero_mul, Nat.zero_add]
    exact e
  · have hrhs9 : toVector sys.rhs 9 = toVector sys.v 9
        - (sys.E.toMatrix 9 3).mulVec ((sys.C.toMatrix 3 3).mulVec (toVector sys.w 3)) := hrhs
    rw [hrhs9, hvv, hEm, Matrix.zero_mulVec, sub_zero]
  · rw [hw, negate_self_toVector, multiply_vector_toVector_of _ _ _ hw0 3 4 rfl rfl]
    funext i
    fin_cases i <;>
      simp [Matrix.mulVec, Matrix.dotProduct, Fin.sum_univ_succ, SparseMatrix.toMatrix,
        SparseMatrix.transpose, SparseMatrix.entry, diagonal_jacobian, toVector]
  · have hdp3 : toVector dp 3 = (sys.C.toMatrix 3 3).mulVec
        (toVector sys.w 3 - (sys.ET.toMatrix 3 9).mulVec (toVector (List.replicate 9 0) 9)) :=
      hdp
    rw [hdp3, toVector_replicate_zero, Matrix.mulVec_zero, sub_zero]

end Schur

/-! ## The Levenberg-Marquardt loop, the rotation update and the block inversions -/

section Controller

variable {K : Type} [LinearOrderedField K]

/-- A lifted result is a value exactly if the lifted call returned it. -/
theorem of_access_ok {α : Type} (o : Option α) (a : α) : of_access o = .ok a ↔ o = some a := by
  cases o with
  | none => simp [of_access]
  | some b => simp [of_access]

/-- The accumulation of `compute_mse` never falls below its start value. -/
theorem foldl_squares_ge (F : List K) (a : K) :
    a ≤ F.foldl (fun mse x => mse + x * x) a := by
  induction F generalizing a with
  | nil => exact le_rfl
  | cons x xs ih =>
    rw [List.foldl_cons]
    exact le_trans (le_add_of_nonneg_right (mul_self_nonneg x)) (ih _)

/-- The accumulation of `compute_mse` over a vector of zeros. -/
theorem foldl_squares_zero (F : List K) (h : ∀ x ∈ F, x = 0) :
    F.foldl (fun mse x => mse + x * x) 0 = 0 := by
  induction F with
  | nil => rfl
  | cons x xs ih =>
    rw [List.foldl_cons, h x (List.mem_cons_self x xs), mul_zero, add_zero]
    exact ih (fun y hy => h y (List.mem_cons_of_mem x hy))

/-- `compute_mse` is a finite number on a vector of at least two values. -/
theorem compute_mse_ok (F : List K) (h : F.length / 2 ≠ 0) :
    compute_mse F
      = .finite (F.foldl (fun mse x => mse + x * x) 0 / ((F.length / 2 : ℕ) : K)) := by
  unfold compute_mse
  simp only [Extended.div]
  rw [if_neg (Nat.cast_ne_zero.mpr h)]

/-- `compute_mse` of the empty vector is `0.0 / 0`, NaN. -/
theorem compute_mse_nil : compute_mse ([] : List K) = Extended.nan := by
  simp [compute_mse, Extended.div]

/-- A mean squared error is a finite number that is not negative, `+inf`, or
NaN. -/
theorem compute_mse_cases (F : List K) :
    (∃ m, compute_mse F = .finite m ∧ 0 ≤ m ∧ F.length / 2 ≠ 0)
      ∨ compute_mse F = .pos_inf ∨ compute_mse F = .nan := by
  by_cases h : F.length / 2 = 0
  · right
    have hs := foldl_squares_ge F 0
    unfold compute_mse
    simp only [Extended.div, h, Nat.cast_zero, if_true]
    by_cases h0 : F.foldl (fun mse x => mse + x * x) 0 = 0
    · right
      rw [if_pos h0]
    · left
      rw [if_neg h0, if_pos (lt_of_le_of_ne hs (Ne.symm h0))]
  · left
    exact ⟨_, compute_mse_ok F h, div_nonneg (foldl_squares_ge F 0) (Nat.cast_nonneg _), h⟩

/-- The mean squared error of a vector of zeros with at least two entries. -/
theorem compute_mse_zero (F : List K) (hz : ∀ x ∈ F, x = 0) (h : F.length / 2 ≠ 0) :
    compute_mse F = .finite 0 := by
  rw [compute_mse_ok F h, foldl_squares_zero F hz, zero_div]

/-- The error of a residual vector is a finite number that is not negative,
`+inf`, or NaN. -/
theorem residual_mse_cases (kind : Kind) (F : List K) :
    (∃ m, residual_mse kind F = .finite m ∧ 0 ≤ m)
      ∨ residual_mse kind F = .pos_inf ∨ residual_mse kind F = .nan := by
  cases kind with
  | finite =>
    rcases compute_mse_cases F with ⟨m, h1, h2, -⟩ | h | h
    · exact Or.inl ⟨m, h1, h2⟩
    · exact Or.inr (Or.inl h)
    · exact Or.inr (Or.inr h)
  | infinite => exact Or.inr (Or.inl rfl)
  | nan => exact Or.inr (Or.inr rfl)

/-- The error of a residual vector is a finite number only if its values are
finite and there are at least two of them. -/
theorem residual_mse_finite (kind : Kind) (F : List K) (m : K)
    (h : residual_mse kind F = .finite m) :
    kind = Kind.finite ∧ compute_mse F = .finite m ∧ 0 ≤ m ∧ F.length / 2 ≠ 0 := by
  cases kind with
  | finite =>
    have h1 : compute_mse F = .finite m := h
    rcases compute_mse_cases F with ⟨m1, e1, e2, e3⟩ | e | e
    · rw [h1] at e1
      cases e1
      exact ⟨rfl, h1, e2, e3⟩
    · rw [h1] at e
      cases e
    · rw [h1] at e
      cases e
  | infinite => cases h
  | nan => cases h

/-- The comparison `a < b` of two errors: `a` is a finite number and `b` is a
greater finite number or `+inf`. -/
theorem lt_mse_iff (a b : Extended K)
    (ha : (∃ m, a = .finite m ∧ 0 ≤ m) ∨ a = .pos_inf ∨ a = .nan) :
    Extended.lt a b = true
      ↔ ∃ x, a = .finite x ∧ 0 ≤ x ∧ ((∃ y, b = .finite y ∧ x < y) ∨ b = .pos_inf) := by
  rcases ha with ⟨m, rfl, hm⟩ | rfl | rfl
  · cases b with
    | finite y => simp [Extended.lt, hm]
    | pos_inf => simp [Extended.lt, hm]
    | neg_inf => simp [Extended.lt]
    | nan => simp [Extended.lt]
  · cases b <;> simp [Extended.lt]
  · cases b <;> simp [Extended.lt]

/-- No comparison `<` holds with NaN on the left. -/
theorem lt_nan_left (b : Extended K) : Extended.lt .nan b = false := by
  cases b <;> rfl

/-- No comparison `<` holds with NaN on the right. -/
theorem lt_nan_right (a : Extended K) : Extended.lt a .nan = false := by
  cases a <;> rfl

/-- No comparison `<=` holds with NaN on the left. -/
theorem le_nan_left (b : Extended K) : Extended.le .nan b = false := by
  cases b <;> rfl

/-- No comparison `<=` holds with NaN on the right. -/
theorem le_nan_right (a : Extended K) : Extended.le a .nan = false := by
  cases a <;> rfl

/-- A value is not NaN exactly if it is at most itself. -/
theorem le_self_iff (a : Extended K) : Extended.le a a = true ↔ a ≠ .nan := by
  cases a <;> simp [Extended.le]

/-- The comparison `<` implies the comparison `<=`. -/
theorem le_of_lt_extended (a b : Extended K) (h : Extended.lt a b = true) :
    Extended.le a b = true := by
  cases a <;> cases b <;> simp_all [Extended.lt, Extended.le, le_of_lt]

/-- The comparison `<=` is transitive. -/
theorem le_trans_extended (a b c : Extended K) (h1 : Extended.le a b = true)
    (h2 : Extended.le b c = true) : Extended.le a c = true := by
  cases a <;> cases b <;> cases c <;> simp_all [Extended.le]
  exact le_trans h1 h2

/-- The test `delta_mse > 0.0` of line 803 on `delta_mse = current_mse - new_mse`
is the test `new_mse < current_mse`. -/
theorem lt_zero_sub (a b : Extended K) :
    Extended.lt (.finite 0) (Extended.sub a b) = Extended.lt b a := by
  cases a <;> cases b <;> simp [Extended.sub, Extended.lt]

/-- The relative improvement `1 - new_mse / current_mse` of line 794 where the
trial error is below the current one: for a finite current error it is
`1 - n / c` with `0 <= n < c`, for the current error `+inf` it is one. -/
theorem ratio_of_lt (nm cur : Extended K)
    (hm : (∃ m, nm = .finite m ∧ 0 ≤ m) ∨ nm = .pos_inf ∨ nm = .nan)
    (hlt : Extended.lt nm cur = true) :
    ∃ n, nm = .finite n ∧ 0 ≤ n
      ∧ ((∃ c, cur = .finite c ∧ n < c
            ∧ Extended.sub (.finite 1) (Extended.div nm cur) = .finite (1 - n / c))
        ∨ (cur = .pos_inf
            ∧ Extended.sub (.finite 1) (Extended.div nm cur) = .finite 1)) := by
  obtain ⟨n, rfl, hn, hc⟩ := (lt_mse_iff nm cur hm).mp hlt
  refine ⟨n, rfl, hn, ?_⟩
  rcases hc with ⟨c, rfl, hnc⟩ | rfl
  · left
    have hc0 : c ≠ 0 := ne_of_gt (lt_of_le_of_lt hn hnc)
    exact ⟨c, rfl, hnc, by simp [Extended.sub, Extended.div, hc0]⟩
  · right
    exact ⟨rfl, by simp [Extended.sub, Extended.div]⟩

/-- What the trial evaluation of an iteration returns. -/
theorem lm_trial_inv (lm : Libm K) (observations : List (Observation K)) (st : LMState K)
    (success : Bool) (delta_x Fn : List K) (nm dm dr : Extended K)
    (h : lm_trial lm observations st success delta_x = .ok (Fn, nm, dm, dr)) :
    (success = true →
        compute_reprojection_errors lm st.F_new (some delta_x) st.cameras st.points observations
          = some Fn
        ∧ nm = residual_mse
            (residual_kind lm (some delta_x) st.cameras st.points observations) Fn
        ∧ dm = Extended.sub st.current_mse nm
        ∧ dr = Extended.sub (.finite 1) (Extended.div nm st.current_mse))
      ∧ (success = false → Fn = st.F_new ∧ nm = st.current_mse ∧ dm = .finite 0 ∧ dr = .finite 1) := by
  unfold lm_trial at h
  cases success with
  | false =>
    simp only [Bool.false_eq_true, if_false, pure, Except.pure] at h
    cases h
    constructor
    · intro hf
      cases hf
    · intro _
      exact ⟨rfl, rfl, rfl, rfl⟩
  | true =>
    simp only [if_true, bind, Except.bind, pure, Except.pure] at h
    constructor
    swap
    · intro hf
      cases hf
    intro _
    split at h
    · cases h
    · rename_i F1 hF1
      cases h
      exact ⟨(of_access_ok _ _).mp hF1, rfl, rfl, rfl⟩

/-- What the second half of an iteration does on a decrease of the error. -/
theorem lm_update_success (lm : Libm K) (st : LMState K) (delta_x Fn : List K)
    (nm dm dr : Extended K)
    (r : LMState K × Bool × Bool) (h : lm_update lm st delta_x Fn nm dm dr = .ok r)
    (hd : Extended.lt (.finite 0) dm = true) :
    ∃ cams pts, update_parameters lm delta_x st.cameras st.points = some (cams, pts)
      ∧ r.2.1 = true ∧ r.2.2 = Extended.lt dr (.finite lm_delta_threshold)
      ∧ r.1.cameras = cams ∧ r.1.points = pts ∧ r.1.F = Fn ∧ r.1.F_new = st.F
      ∧ r.1.current_mse = nm
      ∧ r.1.trust_region_radius
          = (if Extended.lt dr (.finite lm_delta_threshold) = true then st.trust_region_radius
             else st.trust_region_radius * TRUST_REGION_RADIUS_GAIN)
      ∧ r.1.num_lm_iterations = st.num_lm_iterations + 1
      ∧ r.1.num_lm_successful_iterations = st.num_lm_successful_iterations + 1
      ∧ r.1.num_lm_unsuccessful_iterations = st.num_lm_unsuccessful_iterations := by
  unfold lm_update at h
  simp only [hd, if_true, bind, Except.bind, pure, Except.pure] at h
  split at h
  · cases h
  · rename_i cp hcp
    obtain ⟨cams, pts⟩ := cp
    refine ⟨cams, pts, (of_access_ok _ _).mp hcp, ?_⟩
    simp only [] at h
    cases hr : Extended.lt dr (.finite lm_delta_threshold) with
    | true =>
      rw [hr] at h
      simp only [if_true] at h
      cases h
      simp
    | false =>
      rw [hr] at h
      simp only [Bool.false_eq_true, if_false] at h
      cases h
      simp

/-- What the second half of an iteration does without a decrease of the
error. -/
theorem lm_update_failure (lm : Libm K) (st : LMState K) (delta_x Fn : List K)
    (nm dm dr : Extended K) (hd : Extended.lt (.finite 0) dm = false) :
    lm_update lm st delta_x Fn nm dm dr
      = .ok ({ st with
                F_new := Fn
                num_lm_iterations := st.num_lm_iterations + 1
                num_lm_unsuccessful_iterations := st.num_lm_unsuccessful_iterations + 1
                trust_region_radius :=
                  st.trust_region_radius * TRUST_REGION_RADIUS_DECREMENT },
        false, false) := by
  unfold lm_update
  simp only [hd, Bool.false_eq_true, if_false, pure, Except.pure]

/-- The steps of an iteration that returned. -/
theorem lm_iteration_inv (env : LMEnv K) (g : LMGlobals K)
    (observations : List (Observation K)) (st : LMState K) (it : LMIteration K)
    (h : lm_iteration env g observations st = .ok it) :
    ∃ Jc Jp status Fn dm dr,
      analytic_jacobian (g.cameras.getD st.cameras) (g.points.getD st.points)
          (g.observations.getD observations) = .ok (Jc, Jp)
      ∧ my_solve_schur { env.solver with trust_region_radius := st.trust_region_radius } Jc Jp
          st.F [] = .ok (status, it.delta_x)
      ∧ lm_trial env.lm observations st status.success it.delta_x = .ok (Fn, it.new_mse, dm, dr)
      ∧ lm_update env.lm st it.delta_x Fn it.new_mse dm dr
          = .ok (it.after, it.successful, it.stop)
      ∧ it.before = st ∧ it.solve_success = status.success := by
  unfold lm_iteration at h
  simp only [bind, Except.bind, pure, Except.pure] at h
  split at h
  · cases h
  · rename_i J hJ
    obtain ⟨Jc, Jp⟩ := J
    simp only [] at h
    split at h
    · cases h
    · rename_i sd hsd
      obtain ⟨status, delta⟩ := sd
      simp only [] at h
      split at h
      · cases h
      · rename_i tr htr
        obtain ⟨Fn, nm, dm, dr⟩ := tr
        simp only [] at h
        split at h
        · cases h
        · rename_i up hup
          obtain ⟨after, succ, stop⟩ := up
          simp only [] at h
          cases h
          exact ⟨Jc, Jp, status, Fn, dm, dr, hJ, hsd, htr, hup, rfl, rfl⟩

/-- The ways a run of the loop that returned can be composed. -/
theorem lm_loop_inv (env : LMEnv K) (g : LMGlobals K) (observations : List (Observation K))
    (fuel lm_iter : ℕ) (st : LMState K) (run : LMRun K)
    (h : lm_loop env g observations fuel lm_iter st = .ok run) :
    (Extended.lt st.current_mse (.finite lm_mse_threshold) = true
        ∧ run = ⟨[], st, LMExit.mse_threshold⟩)
    ∨ (Extended.lt st.current_mse (.finite lm_mse_threshold) = false
        ∧ ∃ it, lm_iteration env g observations st = .ok it
          ∧ ((it.stop = true ∧ run = ⟨[it], it.after, LMExit.delta_threshold⟩)
            ∨ (it.stop = false ∧ lm_iter + 1 ≥ lm_max_iterations
                ∧ run = ⟨[it], it.after, LMExit.max_iterations⟩)
            ∨ (it.stop = false ∧ ¬ lm_iter + 1 ≥ lm_max_iterations
                ∧ ∃ fuel1 run1, fuel = fuel1 + 1
                  ∧ lm_loop env g observations fuel1 (lm_iter + 1) it.after = .ok run1
                  ∧ run = { run1 with iterations := it :: run1.iterations }))) := by
  cases ht : Extended.lt st.current_mse (.finite lm_mse_threshold) with
  | true =>
    left
    rw [lm_loop, if_pos ht] at h
    cases h
    exact ⟨rfl, rfl⟩
  | false =>
    right
    refine ⟨rfl, ?_⟩
    rw [lm_loop, if_neg (by rw [ht]; simp)] at h
    cases hit : lm_iteration env g observations st with
    | error e =>
      rw [hit] at h
      cases h
    | ok it =>
      rw [hit] at h
      simp only [] at h
      refine ⟨it, rfl, ?_⟩
      by_cases hs : it.stop = true
      · rw [if_pos hs] at h
        cases h
        exact Or.inl ⟨hs, rfl⟩
      · rw [if_neg hs] at h
        have hs' : it.stop = false := by simpa using hs
        by_cases hm : lm_iter + 1 ≥ lm_max_iterations
        · rw [if_pos hm] at h
          cases h
          exact Or.inr (Or.inl ⟨hs', hm, rfl⟩)
        · rw [if_neg hm] at h
          cases fuel with
          | zero =>
            simp only [] at h
            cases h
          | succ fuel1 =>
            simp only [] at h
            cases hr : lm_loop env g observations fuel1 (lm_iter + 1) it.after with
            | error e =>
              rw [hr] at h
              cases h
            | ok run1 =>
              rw [hr] at h
              cases h
              exact Or.inr (Or.inr ⟨hs', hm, fuel1, run1, rfl, hr, rfl⟩)

/-- The test of line 803 in an iteration that returned: `delta_mse > 0.0`
holds exactly if the solve reported success and the trial error is below the
current one. -/
theorem lm_iteration_delta (env : LMEnv K) (observations : List (Observation K))
    (st : LMState K) (status : Status) (delta_x Fn : List K) (nm dm dr : Extended K)
    (htr : lm_trial env.lm observations st status.success delta_x = .ok (Fn, nm, dm, dr)) :
    Extended.lt (.finite 0) dm = (status.success && Extended.lt nm st.current_mse) := by
  obtain ⟨ht1, ht2⟩ := lm_trial_inv _ _ _ _ _ _ _ _ _ htr
  cases hs : status.success with
  | true =>
    obtain ⟨-, -, hdm, -⟩ := ht1 hs
    rw [hdm, lt_zero_sub]
    rfl
  | false =>
    obtain ⟨-, -, hdm, -⟩ := ht2 hs
    rw [hdm]
    simp [Extended.lt]

/-- An iteration is successful exactly if the solve reported success and the
trial evaluation gave a smaller error; the committed error is the trial error
then and the current error otherwise. -/
theorem lm_iteration_outcome (env : LMEnv K) (g : LMGlobals K)
    (observations : List (Observation K)) (st : LMState K) (it : LMIteration K)
    (h : lm_iteration env g observations st = .ok it) :
    (it.successful = true ↔
        it.solve_success = true ∧ Extended.lt it.new_mse st.current_mse = true)
      ∧ (it.successful = true → it.after.current_mse = it.new_mse)
      ∧ (it.successful = false → it.after.current_mse = st.current_mse) := by
  obtain ⟨Jc, Jp, status, Fn, dm, dr, -, -, htr, hup, -, hss⟩ :=
    lm_iteration_inv env g observations st it h
  have hdelta := lm_iteration_delta env observations st status it.delta_x Fn it.new_mse dm dr htr
  cases hd : Extended.lt (.finite 0) dm with
  | true =>
    obtain ⟨cams, pts, -, hs, -, -, -, -, -, hcur, -⟩ :=
      lm_update_success _ _ _ _ _ _ _ _ hup hd
    have hs' : it.successful = true := hs
    have hcur' : it.after.current_mse = it.new_mse := hcur
    rw [hd] at hdelta
    have hboth : status.success = true ∧ Extended.lt it.new_mse st.current_mse = true := by
      simpa using hdelta.symm
    refine ⟨⟨fun _ => ⟨hss.trans hboth.1, hboth.2⟩, fun _ => hs'⟩, fun _ => hcur', ?_⟩
    intro hf
    rw [hs'] at hf
    cases hf
  | false =>
    rw [lm_update_failure _ _ _ _ _ _ _ hd] at hup
    have e := Except.ok.inj hup
    have e1 : it.after.current_mse = st.current_mse := (congrArg (fun r => r.1.current_mse) e).symm
    have e2 : it.successful = false := (congrArg (fun r => r.2.1) e).symm
    rw [hd] at hdelta
    refine ⟨⟨?_, ?_⟩, ?_, fun _ => e1⟩
    · intro hf
      rw [e2] at hf
      cases hf
    · rintro ⟨hs, hlt⟩
      exfalso
      rw [← hss, hs, hlt] at hdelta
      cases hdelta
    · intro hf
      rw [e2] at hf
      cases hf

/-- The committed error over one iteration: from an error that is not NaN it
does not grow and does not become NaN; from NaN the iteration is unsuccessful
and the error stays NaN. -/
theorem lm_iteration_committed (env : LMEnv K) (g : LMGlobals K)
    (observations : List (Observation K)) (st : LMState K) (it : LMIteration K)
    (h : lm_iteration env g observations st = .ok it) :
    (st.current_mse ≠ .nan →
        it.after.current_mse ≠ .nan
          ∧ Extended.le it.after.current_mse st.current_mse = true)
      ∧ (st.current_mse = .nan → it.successful = false ∧ it.after.current_mse = .nan) := by
  obtain ⟨hiff, hs1, hs0⟩ := lm_iteration_outcome env g observations st it h
  constructor
  · intro hc
    cases hs : it.successful with
    | true =>
      obtain ⟨-, hlt⟩ := hiff.mp hs
      rw [hs1 hs]
      refine ⟨?_, le_of_lt_extended _ _ hlt⟩
      intro hn
      rw [hn, lt_nan_left] at hlt
      cases hlt
    | false =>
      rw [hs0 hs]
      exact ⟨hc, (le_self_iff _).mpr hc⟩
  · intro hn
    have hf : it.successful = false := by
      cases hs : it.successful with
      | false => rfl
      | true =>
        obtain ⟨-, hlt⟩ := hiff.mp hs
        rw [hn, lt_nan_right] at hlt
        cases hlt
    exact ⟨hf, (hs0 hf).trans hn⟩

/-- The committed errors of a run of the loop that starts from an error that
is not NaN: none is NaN, the first is the error at the head of the loop, the
last is the error at the exit, and they never grow. -/
theorem lm_loop_committed (env : LMEnv K) (g : LMGlobals K)
    (observations : List (Observation K)) (fuel : ℕ) :
    ∀ (lm_iter : ℕ) (st : LMState K) (run : LMRun K),
      lm_loop env g observations fuel lm_iter st = .ok run → st.current_mse ≠ .nan →
      run.committed.head? = some st.current_mse
        ∧ List.Chain' (fun a b => Extended.le b a = true) run.committed
        ∧ run.committed.getLast? = some run.final.current_mse
        ∧ (∀ m ∈ run.committed, m ≠ Extended.nan)
        ∧ Extended.le run.final.current_mse st.current_mse = true := by
  have single : ∀ (st : LMState K) (it : LMIteration K) (e : LMExit),
      lm_iteration env g observations st = .ok it → st.current_mse ≠ .nan →
      (LMRun.committed ⟨[it], it.after, e⟩).head? = some st.current_mse
        ∧ List.Chain' (fun a b => Extended.le b a = true) (LMRun.committed ⟨[it], it.after, e⟩)
        ∧ (LMRun.committed ⟨[it], it.after, e⟩).getLast? = some it.after.current_mse
        ∧ (∀ m ∈ LMRun.committed ⟨[it], it.after, e⟩, m ≠ Extended.nan)
        ∧ Extended.le it.after.current_mse st.current_mse = true := by
    intro st it e hit hc
    obtain ⟨Jc, Jp, status, Fn, dm, dr, -, -, -, -, hb, -⟩ := lm_iteration_inv _ _ _ _ _ hit
    obtain ⟨hc1, hle⟩ := (lm_iteration_committed env g observations st it hit).1 hc
    have hcm : LMRun.committed ⟨[it], it.after, e⟩ = [st.current_mse, it.after.current_mse] := by
      simp [LMRun.committed, hb]
    rw [hcm]
    refine ⟨rfl, by simp [hle], rfl, ?_, hle⟩
    intro m hm
    simp only [List.mem_cons, List.mem_singleton, List.not_mem_nil, or_false] at hm
    rcases hm with rfl | rfl
    · exact hc
    · exact hc1
  have base : ∀ (st : LMState K), st.current_mse ≠ .nan →
      (LMRun.committed ⟨[], st, LMExit.mse_threshold⟩).head? = some st.current_mse
        ∧ List.Chain' (fun a b => Extended.le b a = true)
            (LMRun.committed ⟨[], st, LMExit.mse_threshold⟩)
        ∧ (LMRun.committed ⟨[], st, LMExit.mse_threshold⟩).getLast? = some st.current_mse
        ∧ (∀ m ∈ LMRun.committed ⟨[], st, LMExit.mse_threshold⟩, m ≠ Extended.nan)
        ∧ Extended.le st.current_mse st.current_mse = true := by
    intro st hc
    have hcm : LMRun.committed ⟨[], st, LMExit.mse_threshold⟩ = [st.current_mse] := by
      simp [LMRun.committed]
    rw [hcm]
    refine ⟨rfl, by simp, rfl, ?_, (le_self_iff _).mpr hc⟩
    intro m hm
    simp only [List.mem_singleton] at hm
    rw [hm]
    exact hc
  induction fuel with
  | zero =>
    intro lm_iter st run h hc
    rcases lm_loop_inv env g observations 0 lm_iter st run h with
      ⟨-, rfl⟩ | ⟨-, it, hit, ⟨-, rfl⟩ | ⟨-, -, rfl⟩ | ⟨-, -, fuel1, run1, hf, -, -⟩⟩
    · exact base st hc
    · exact single st it _ hit hc
    · exact single st it _ hit hc
    · cases hf
  | succ fuel ih =>
    intro lm_iter st run h hc
    rcases lm_loop_inv env g observations (fuel + 1) lm_iter st run h with
      ⟨-, rfl⟩ | ⟨-, it, hit, ⟨-, rfl⟩ | ⟨-, -, rfl⟩ | ⟨-, -, fuel1, run1, hf, hr, rfl⟩⟩
    · exact base st hc
    · exact single st it _ hit hc
    · exact single st it _ hit hc
    · obtain rfl : fuel1 = fuel := by omega
      obtain ⟨Jc, Jp, status, Fn, dm, dr, -, -, -, -, hb, -⟩ := lm_iteration_inv _ _ _ _ _ hit
      obtain ⟨hc1, hle⟩ := (lm_iteration_committed env g observations st it hit).1 hc
      obtain ⟨h1, h2, h3, h4, h5⟩ := ih (lm_iter + 1) it.after run1 hr hc1
      have hcm : LMRun.committed { run1 with iterations := it :: run1.iterations }
          = st.current_mse :: run1.committed := by
        simp [LMRun.committed, hb]
      rw [hcm]
      refine ⟨rfl, ?_, ?_, ?_, le_trans_extended _ _ _ h5 hle⟩
      · rw [List.chain'_cons']
        refine ⟨?_, h2⟩
        intro y hy
        rw [h1] at hy
        cases hy
        exact hle
      · cases hrc : run1.committed with
        | nil =>
          rw [hrc] at h1
          cases h1
        | cons a l =>
          rw [List.getLast?_cons_cons, ← hrc]
          exact h3
      · intro m hm
        rcases List.mem_cons.mp hm with rfl | hm
        · exact hc
        · exact h4 m hm

/-- The steps of a call of `lm_optimization` that returned. -/
theorem lm_optimization_inv (env : LMEnv K) (g : LMGlobals K) (cameras : List (Camera K))
    (points : List (Point3D K)) (observations : List (Observation K)) (res : LMResult K)
    (h : lm_optimization env g cameras points observations = .ok res) :
    ∃ F, compute_reprojection_errors env.lm [] none cameras points observations = some F
      ∧ lm_loop env g observations (lm_max_iterations - 1) 0
          { cameras := cameras
            points := points
            F := F
            F_new := []
            current_mse :=
              residual_mse (residual_kind env.lm none cameras points observations) F
            trust_region_radius := TRUST_REGION_RADIUS_INIT
            num_lm_iterations := g.num_lm_iterations
            num_lm_successful_iterations := g.num_lm_successful_iterations
            num_lm_unsuccessful_iterations := g.num_lm_unsuccessful_iterations } = .ok res.run
      ∧ res.initial_mse
          = residual_mse (residual_kind env.lm none cameras points observations) F
      ∧ res.final_mse = res.run.final.current_mse := by
  unfold lm_optimization at h
  simp only [bind, Except.bind, pure, Except.pure] at h
  split at h
  · cases h
  · rename_i F hF
    split at h
    · cases h
    · rename_i run hrun
      cases h
      exact ⟨F, (of_access_ok _ _).mp hF, hrun, rfl, rfl⟩

/-- A round of the loop of the residual evaluator keeps the length of the
output vector. -/
theorem compute_reprojection_errors_step_length (lm : Libm K) (delta : Option (List K))
    (cameras : List (Camera K)) (points : List (Point3D K))
    (observations : List (Observation K)) (v F : List K) (i : ℕ)
    (h : compute_reprojection_errors_step lm delta cameras points observations v i = some F) :
    F.length = v.length := by
  unfold compute_reprojection_errors_step at h
  split at h
  · cases h
  · split at h
    · cases h
    · split at h
      · cases h
        simp
      · cases h

/-- The loop of the residual evaluator keeps the length of the output
vector. -/
theorem compute_reprojection_errors_fold_length (lm : Libm K) (delta : Option (List K))
    (cameras : List (Camera K)) (points : List (Point3D K))
    (observations : List (Observation K)) (l : List ℕ) :
    ∀ (v F : List K),
      l.foldlM (compute_reprojection_errors_step lm delta cameras points observations) v
        = some F → F.length = v.length := by
  induction l with
  | nil =>
    intro v F h
    cases h
    rfl
  | cons i l ih =>
    intro v F h
    rw [List.foldlM_cons] at h
    cases hs : compute_reprojection_errors_step lm delta cameras points observations v i with
    | none =>
      rw [hs] at h
      cases h
    | some v1 =>
      rw [hs] at h
      exact (ih v1 F h).trans
        (compute_reprojection_errors_step_length lm delta cameras points observations v v1 i hs)

/-- A residual vector has two entries per observation. -/
theorem compute_reprojection_errors_length (lm : Libm K) (v : List K) (delta : Option (List K))
    (cameras : List (Camera K)) (points : List (Point3D K))
    (observations : List (Observation K)) (F : List K)
    (h : compute_reprojection_errors lm v delta cameras points observations = some F) :
    F.length = observations.length * 2 := by
  unfold compute_reprojection_errors at h
  rw [compute_reprojection_errors_fold_length lm delta cameras points observations _ _ F h]
  split
  · exact resize_length _ _
  · rename_i hn
    exact not_not.mp hn

/-- The error of a residual vector is NaN exactly if there is no observation
or the values of some observation are NaN. -/
theorem residual_mse_nan_iff (lm : Libm K) (v : List K) (delta : Option (List K))
    (cameras : List (Camera K)) (points : List (Point3D K))
    (observations : List (Observation K)) (F : List K)
    (h : compute_reprojection_errors lm v delta cameras points observations = some F) :
    residual_mse (residual_kind lm delta cameras points observations) F = Extended.nan
      ↔ observations = [] ∨ residual_kind lm delta cameras points observations = Kind.nan := by
  have hlen := compute_reprojection_errors_length lm v delta cameras points observations F h
  cases hk : residual_kind lm delta cameras points observations with
  | nan => simp [residual_mse]
  | infinite =>
    have hne : observations ≠ [] := by
      intro he
      rw [he] at hk
      simp [residual_kind] at hk
    simp [residual_mse, hne]
  | finite =>
    by_cases hobs : observations = []
    · have hF : F = [] := by
        apply List.eq_nil_of_length_eq_zero
        rw [hlen, hobs]
        rfl
      simp [residual_mse, hobs, hF, compute_mse_nil]
    · have hobs1 : observations.length ≠ 0 := fun h0 => hobs (List.length_eq_zero.mp h0)
      have hF : F.length / 2 ≠ 0 := by
        rw [hlen]
        omega
      simp [residual_mse, hobs, compute_mse_ok F hF]

/-- The error of a residual vector is a finite number exactly if there is an
observation and no observation is projected with the depth zero. -/
theorem residual_mse_finite_iff (lm : Libm K) (v : List K) (delta : Option (List K))
    (cameras : List (Camera K)) (points : List (Point3D K))
    (observations : List (Observation K)) (F : List K)
    (h : compute_reprojection_errors lm v delta cameras points observations = some F) :
    (∃ m, residual_mse (residual_kind lm delta cameras points observations) F = .finite m)
      ↔ observations ≠ [] ∧ residual_kind lm delta cameras points observations = Kind.finite := by
  have hlen := compute_reprojection_errors_length lm v delta cameras points observations F h
  constructor
  · rintro ⟨m, hm⟩
    obtain ⟨hfin, -, -, hn⟩ := residual_mse_finite _ F m hm
    refine ⟨?_, hfin⟩
    intro he
    apply hn
    rw [hlen, he]
    simp
  · rintro ⟨hobs, hfin⟩
    have hobs1 : observations.length ≠ 0 := fun h0 => hobs (List.length_eq_zero.mp h0)
    rw [hfin]
    exact ⟨_, compute_mse_ok F (by rw [hlen]; omega)⟩

/-- C11 (amended): in every run of `lm_optimization` whose initial mean squared
error is not NaN, the committed values of the error (`current_mse` at the
start of each iteration and at the exit of the loop) never increase from one
to the next in the order `<=` of `double`, and none of them is NaN; the first
is `initial_mse`, the last is `final_mse`, hence `final_mse <= initial_mse`.
The initial error is NaN if there is no observation or if an observation is
projected to NaN (`residual_mse_nan_iff`). -/
theorem lm_optimization_mse_nonincreasing (env : LMEnv K) (g : LMGlobals K)
    (cameras : List (Camera K)) (points : List (Point3D K))
    (observations : List (Observation K)) (res : LMResult K)
    (h : lm_optimization env g cameras points observations = .ok res)
    (hnan : res.initial_mse ≠ Extended.nan) :
    List.Chain' (fun a b => Extended.le b a = true) res.run.committed
      ∧ res.run.committed.head? = some res.initial_mse
      ∧ res.run.committed.getLast? = some res.final_mse
      ∧ (∀ m ∈ res.run.committed, m ≠ Extended.nan)
      ∧ Extended.le res.final_mse res.initial_mse = true := by
  obtain ⟨F, hF, hrun, hi, hf⟩ := lm_optimization_inv env g cameras points observations res h
  rw [hi] at hnan
  obtain ⟨h1, h2, h3, h4, h5⟩ := lm_loop_committed env g observations _ _ _ _ hrun hnan
  rw [hi, hf]
  exact ⟨h2, h1, h3, h4, h5⟩

/-- C12: an iteration of `lm_optimization` is successful if and only if the
solve reported success and the trial mean squared error, the error of the
residual evaluated with `delta_x` applied, is strictly less than the current
one (the comparison `<` of `double`, which does not hold with NaN); on a
successful iteration the cameras and points become
`update_parameters(delta_x)` of their previous values, `F` becomes the trial
residual and `current_mse` the trial error. -/
theorem lm_iteration_successful_iff (env : LMEnv K) (g : LMGlobals K)
    (observations : List (Observation K)) (st : LMState K) (it : LMIteration K)
    (h : lm_iteration env g observations st = .ok it) :
    ∃ Jc Jp status,
      analytic_jacobian (g.cameras.getD st.cameras) (g.points.getD st.points)
          (g.observations.getD observations) = .ok (Jc, Jp)
      ∧ my_solve_schur { env.solver with trust_region_radius := st.trust_region_radius } Jc Jp
          st.F [] = .ok (status, it.delta_x)
      ∧ (it.successful = true ↔
          status.success = true
            ∧ ∃ Ft, compute_reprojection_errors env.lm st.F_new (some it.delta_x)
                  st.cameras st.points observations = some Ft
                ∧ Extended.lt
                    (residual_mse (residual_kind env.lm (some it.delta_x) st.cameras st.points
                      observations) Ft) st.current_mse = true)
      ∧ (it.successful = true →
          ∃ Ft cams pts,
            compute_reprojection_errors env.lm st.F_new (some it.delta_x) st.cameras st.points
                observations = some Ft
            ∧ update_parameters env.lm it.delta_x st.cameras st.points = some (cams, pts)
            ∧ it.after.cameras = cams ∧ it.after.points = pts ∧ it.after.F = Ft
            ∧ it.after.current_mse
                = residual_mse (residual_kind env.lm (some it.delta_x) st.cameras st.points
                    observations) Ft) := by
  obtain ⟨Jc, Jp, status, Fn, dm, dr, hJ, hS, htr, hup, -, hss⟩ :=
    lm_iteration_inv env g observations st it h
  obtain ⟨ht1, ht2⟩ := lm_trial_inv _ _ _ _ _ _ _ _ _ htr
  obtain ⟨hiff, -, -⟩ := lm_iteration_outcome env g observations st it h
  refine ⟨Jc, Jp, status, hJ, hS, ?_, ?_⟩
  · constructor
    · intro hs
      obtain ⟨hsol, hlt⟩ := hiff.mp hs
      have hsucc : status.success = true := hss.symm.trans hsol
      obtain ⟨hFn, hnm, -, -⟩ := ht1 hsucc
      rw [hnm] at hlt
      exact ⟨hsucc, Fn, hFn, hlt⟩
    · rintro ⟨hs, Ft, hFt, hlt⟩
      apply hiff.mpr
      refine ⟨hss.trans hs, ?_⟩
      obtain ⟨hFn, hnm, -, -⟩ := ht1 hs
      rw [hFt] at hFn
      cases hFn
      rw [hnm]
      exact hlt
  · intro hs
    obtain ⟨hsol, hlt⟩ := hiff.mp hs
    have hsucc : status.success = true := hss.symm.trans hsol
    obtain ⟨hFn, hnm, hdm, -⟩ := ht1 hsucc
    have hd : Extended.lt (.finite 0) dm = true := by
      rw [hdm, lt_zero_sub]
      exact hlt
    obtain ⟨cams, pts, hupd, -, -, hc, hp, hF, -, hcur, -⟩ :=
      lm_update_success _ _ _ _ _ _ _ _ hup hd
    exact ⟨Fn, cams, pts, hFn, hupd, hc, hp, hF, hcur.trans hnm⟩

/-- C13: on every unsuccessful iteration of `lm_optimization`, and every
iteration whose solve reports failure is one, the camera list, the point
list, the residual vector `F` and `current_mse` are what they were before
the iteration, and `trust_region_radius` is multiplied by `1/10`. -/
theorem lm_iteration_unsuccessful_frame (env : LMEnv K) (g : LMGlobals K)
    (observations : List (Observation K)) (st : LMState K) (it : LMIteration K)
    (h : lm_iteration env g observations st = .ok it) :
    (it.solve_success = false → it.successful = false)
      ∧ (it.successful = false →
          it.after.cameras = st.cameras ∧ it.after.points = st.points ∧ it.after.F = st.F
            ∧ it.after.current_mse = st.current_mse
            ∧ it.after.trust_region_radius = st.trust_region_radius * (1 / 10)) := by
  obtain ⟨Jc, Jp, status, Fn, dm, dr, -, -, htr, hup, -, hss⟩ :=
    lm_iteration_inv env g observations st it h
  obtain ⟨hiff, -, -⟩ := lm_iteration_outcome env g observations st it h
  have hdelta := lm_iteration_delta env observations st status it.delta_x Fn it.new_mse dm dr htr
  constructor
  · intro hf
    cases hs : it.successful with
    | false => rfl
    | true =>
      obtain ⟨hsol, -⟩ := hiff.mp hs
      rw [hf] at hsol
      cases hsol
  · intro hf
    cases hd : Extended.lt (.finite 0) dm with
    | true =>
      obtain ⟨cams, pts, -, hs, -⟩ := lm_update_success _ _ _ _ _ _ _ _ hup hd
      have hs' : it.successful = true := hs
      rw [hs'] at hf
      cases hf
    | false =>
      rw [lm_update_failure _ _ _ _ _ _ _ hd] at hup
      have e := Except.ok.inj hup
      have e1 : it.after = _ := (congrArg (fun r => r.1) e).symm
      rw [e1]
      exact ⟨rfl, rfl, rfl, rfl, rfl⟩

/-- The trust region radius over one iteration that starts with a positive
radius. -/
theorem lm_iteration_radius (env : LMEnv K) (g : LMGlobals K)
    (observations : List (Observation K)) (st : LMState K) (it : LMIteration K)
    (h : lm_iteration env g observations st = .ok it) (hpos : 0 < st.trust_region_radius) :
    it.before = st ∧ 0 < it.after.trust_region_radius
      ∧ (it.stop = true → it.successful = true)
      ∧ (it.successful = true → it.stop = false →
          it.after.trust_region_radius = it.before.trust_region_radius * 10
            ∧ it.before.trust_region_radius < it.after.trust_region_radius)
      ∧ (it.successful = true → it.stop = true →
          it.after.trust_region_radius = it.before.trust_region_radius)
      ∧ (it.successful = false →
          it.after.trust_region_radius = it.before.trust_region_radius * (1 / 10)
            ∧ it.after.trust_region_radius < it.before.trust_region_radius) := by
  obtain ⟨Jc, Jp, status, Fn, dm, dr, -, -, -, hup, hb, -⟩ :=
    lm_iteration_inv env g observations st it h
  rw [hb]
  refine ⟨rfl, ?_⟩
  cases hd : Extended.lt (.finite 0) dm with
  | true =>
    obtain ⟨cams, pts, -, hs, hstop, -, -, -, -, -, hrad, -⟩ :=
      lm_update_success _ _ _ _ _ _ _ _ hup hd
    have hs' : it.successful = true := hs
    have hstop' : it.stop = Extended.lt dr (.finite lm_delta_threshold) := hstop
    have hrad' : it.after.trust_region_radius
        = (if Extended.lt dr (.finite lm_delta_threshold) = true then st.trust_region_radius
           else st.trust_region_radius * TRUST_REGION_RADIUS_GAIN) := hrad
    cases hr : Extended.lt dr (.finite lm_delta_threshold) with
    | true =>
      rw [hr] at hrad' hstop'
      simp only [if_true] at hrad'
      refine ⟨by rw [hrad']; exact hpos, fun _ => hs', ?_, fun _ _ => hrad', ?_⟩
      · intro _ hf
        rw [hstop'] at hf
        cases hf
      · intro hf
        rw [hs'] at hf
        cases hf
    | false =>
      rw [hr] at hrad' hstop'
      simp only [Bool.false_eq_true, if_false] at hrad'
      have h10 : st.trust_region_radius * TRUST_REGION_RADIUS_GAIN
          = st.trust_region_radius * 10 := rfl
      rw [h10] at hrad'
      refine ⟨by rw [hrad']; linarith, fun _ => hs', fun _ _ => ⟨hrad', ?_⟩, ?_, ?_⟩
      · rw [hrad']
        linarith
      · intro _ hf
        rw [hstop'] at hf
        cases hf
      · intro hf
        rw [hs'] at hf
        cases hf
  | false =>
    rw [lm_update_failure _ _ _ _ _ _ _ hd] at hup
    have e := Except.ok.inj hup
    have e1 : it.after.trust_region_radius = st.trust_region_radius * (1 / 10) :=
      (congrArg (fun r => r.1.trust_region_radius) e).symm
    have e2 : it.successful = false := (congrArg (fun r => r.2.1) e).symm
    have e3 : it.stop = false := (congrArg (fun r => r.2.2) e).symm
    refine ⟨by rw [e1]; linarith, ?_, ?_, ?_, fun _ => ⟨e1, by rw [e1]; linarith⟩⟩
    · intro hf
      rw [e3] at hf
      cases hf
    · intro hf
      rw [e2] at hf
      cases hf
    · intro hf
      rw [e2] at hf
      cases hf

/-- The loop is left through the `break` of line 831 exactly after a successful
iteration whose relative improvement is below the threshold. -/
theorem lm_iteration_stop (env : LMEnv K) (g : LMGlobals K)
    (observations : List (Observation K)) (st : LMState K) (it : LMIteration K)
    (h : lm_iteration env g observations st = .ok it) :
    it.stop = true ↔
      it.successful = true
        ∧ Extended.lt (Extended.sub (.finite 1) (Extended.div it.new_mse it.before.current_mse))
            (.finite lm_delta_threshold) = true := by
  obtain ⟨Jc, Jp, status, Fn, dm, dr, -, -, htr, hup, hb, hss⟩ :=
    lm_iteration_inv env g observations st it h
  obtain ⟨ht1, ht2⟩ := lm_trial_inv _ _ _ _ _ _ _ _ _ htr
  obtain ⟨hiff, -, -⟩ := lm_iteration_outcome env g observations st it h
  rw [hb]
  cases hd : Extended.lt (.finite 0) dm with
  | true =>
    obtain ⟨cams, pts, -, hs, hstop, -⟩ := lm_update_success _ _ _ _ _ _ _ _ hup hd
    have hs' : it.successful = true := hs
    have hstop' : it.stop = Extended.lt dr (.finite lm_delta_threshold) := hstop
    have hsucc : status.success = true := hss.symm.trans (hiff.mp hs').1
    obtain ⟨-, -, -, hdr⟩ := ht1 hsucc
    rw [hstop', hdr]
    exact ⟨fun hr => ⟨hs', hr⟩, fun hr => hr.2⟩
  | false =>
    rw [lm_update_failure _ _ _ _ _ _ _ hd] at hup
    have e := Except.ok.inj hup
    have e2 : it.successful = false := (congrArg (fun r => r.2.1) e).symm
    have e3 : it.stop = false := (congrArg (fun r => r.2.2) e).symm
    rw [e2, e3]
    simp

/-- The shape of a run of one iteration. -/
theorem lm_loop_single (env : LMEnv K) (g : LMGlobals K)
    (observations : List (Observation K)) (fuel lm_iter : ℕ) (st : LMState K)
    (it : LMIteration K) (e : LMExit) (hit : lm_iteration env g observations st = .ok it)
    (hb : it.before = st) (hpos : 0 < st.trust_region_radius)
    (ht : Extended.lt st.current_mse (.finite lm_mse_threshold) = false)
    (he : (e = LMExit.delta_threshold ∧ it.stop = true)
      ∨ (e = LMExit.max_iterations ∧ it.stop = false ∧ lm_iter + 1 ≥ lm_max_iterations)) :
    List.Chain' (fun a b : LMIteration K => b.before = a.after) [it]
      ∧ (([it].head?.map (fun it => it.before)).getD it.after) = st
      ∧ it.after = (([it].getLast?).map (fun it => it.after)).getD st
      ∧ (∀ it1 ∈ [it], lm_iteration env g observations it1.before = .ok it1
          ∧ 0 < it1.before.trust_region_radius
          ∧ Extended.lt it1.before.current_mse (.finite lm_mse_threshold) = false)
      ∧ (∀ it1 ∈ [it], it1.stop = true →
          e = LMExit.delta_threshold ∧ [it].getLast? = some it1)
      ∧ [it].length ≤ fuel + 1
      ∧ (e = LMExit.mse_threshold →
          Extended.lt it.after.current_mse (.finite lm_mse_threshold) = true)
      ∧ (e = LMExit.delta_threshold → ∃ it1, [it].getLast? = some it1 ∧ it1.stop = true)
      ∧ (e = LMExit.max_iterations →
          lm_max_iterations ≤ lm_iter + [it].length ∧ ∀ it1 ∈ [it], it1.stop = false) := by
  refine ⟨List.chain'_singleton it, ?_, rfl, ?_, ?_, ?_, ?_, ?_, ?_⟩
  · show it.before = st
    exact hb
  · intro it1 h1
    rw [List.mem_singleton] at h1
    subst h1
    rw [hb]
    exact ⟨hit, hpos, ht⟩
  · intro it1 h1 hst
    rw [List.mem_singleton] at h1
    subst h1
    rcases he with ⟨he, -⟩ | ⟨-, hs, -⟩
    · exact ⟨he, rfl⟩
    · rw [hs] at hst
      cases hst
  · show 1 ≤ fuel + 1
    omega
  · intro h1
    rcases he with ⟨he, -⟩ | ⟨he, -⟩ <;> rw [he] at h1 <;> cases h1
  · intro _
    rcases he with ⟨-, hs⟩ | ⟨he, -⟩
    · exact ⟨it, rfl, hs⟩
    · rename_i h1
      rw [he] at h1
      cases h1
  · intro h1
    rcases he with ⟨he, -⟩ | ⟨-, hs, hm⟩
    · rw [he] at h1
      cases h1
    · constructor
      · show lm_max_iterations ≤ lm_iter + 1
        exact hm
      · intro it1 h2
        rw [List.mem_singleton] at h2
        subst h2
        exact hs

/-- The shape of a run of the loop that starts with a positive radius: the
iterations are linked state to state, each one was entered with an error that
is not below the absolute threshold, only the last one can take the `break` of
line 831, and the exit taken is the one recorded. -/
theorem lm_loop_structure (env : LMEnv K) (g : LMGlobals K)
    (observations : List (Observation K)) (fuel : ℕ) :
    ∀ (lm_iter : ℕ) (st : LMState K) (run : LMRun K),
      lm_loop env g observations fuel lm_iter st = .ok run → 0 < st.trust_region_radius →
      List.Chain' (fun a b => b.before = a.after) run.iterations
        ∧ (run.iterations.head?.map (fun it => it.before)).getD run.final = st
        ∧ run.final = (run.iterations.getLast?.map (fun it => it.after)).getD st
        ∧ (∀ it ∈ run.iterations, lm_iteration env g observations it.before = .ok it
            ∧ 0 < it.before.trust_region_radius
            ∧ Extended.lt it.before.current_mse (.finite lm_mse_threshold) = false)
        ∧ (∀ it ∈ run.iterations, it.stop = true →
            run.exit = LMExit.delta_threshold ∧ run.iterations.getLast? = some it)
        ∧ run.iterations.length ≤ fuel + 1
        ∧ (run.exit = LMExit.mse_threshold →
            Extended.lt run.final.current_mse (.finite lm_mse_threshold) = true)
        ∧ (run.exit = LMExit.delta_threshold →
            ∃ it, run.iterations.getLast? = some it ∧ it.stop = true)
        ∧ (run.exit = LMExit.max_iterations →
            lm_max_iterations ≤ lm_iter + run.iterations.length
              ∧ ∀ it ∈ run.iterations, it.stop = false) := by
  induction fuel with
  | zero =>
    intro lm_iter st run h hpos
    rcases lm_loop_inv env g observations 0 lm_iter st run h with
      ⟨ht, rfl⟩ | ⟨ht, it, hit, ⟨hs, rfl⟩ | ⟨hs, hm, rfl⟩ | ⟨-, -, fuel1, run1, hf, -, -⟩⟩
    · simp [ht]
    · obtain ⟨hb, -⟩ := lm_iteration_radius env g observations st it hit hpos
      exact lm_loop_single env g observations _ lm_iter st it _ hit hb hpos ht
        (Or.inl ⟨rfl, hs⟩)
    · obtain ⟨hb, -⟩ := lm_iteration_radius env g observations st it hit hpos
      exact lm_loop_single env g observations _ lm_iter st it _ hit hb hpos ht
        (Or.inr ⟨rfl, hs, hm⟩)
    · cases hf
  | succ fuel ih =>
    intro lm_iter st run h hpos
    rcases lm_loop_inv env g observations (fuel + 1) lm_iter st run h with
      ⟨ht, rfl⟩ | ⟨ht, it, hit, ⟨hs, rfl⟩ | ⟨hs, hm, rfl⟩ | ⟨hs, hm, fuel1, run1, hf, hr, rfl⟩⟩
    · simp [ht]
    · obtain ⟨hb, -⟩ := lm_iteration_radius env g observations st it hit hpos
      exact lm_loop_single env g observations _ lm_iter st it _ hit hb hpos ht
        (Or.inl ⟨rfl, hs⟩)
    · obtain ⟨hb, -⟩ := lm_iteration_radius env g observations st it hit hpos
      exact lm_loop_single env g observations _ lm_iter st it _ hit hb hpos ht
        (Or.inr ⟨rfl, hs, hm⟩)
    · have hf1 : fuel = fuel1 := by omega
      subst hf1
      obtain ⟨hb, hpos1, -⟩ := lm_iteration_radius env g observations st it hit hpos
      obtain ⟨h1, h2, h3, h4, h5, h6, h7, h8, h9⟩ := ih (lm_iter + 1) it.after run1 hr hpos1
      refine ⟨?_, ?_, ?_, ?_, ?_, ?_, h7, ?_, ?_⟩
      · show List.Chain' _ (it :: run1.iterations)
        rw [List.chain'_cons']
        refine ⟨?_, h1⟩
        intro y hy
        cases hl : run1.iterations with
        | nil =>
          rw [hl] at hy
          cases hy
        | cons z zs =>
          rw [hl] at hy h2
          simp only [List.head?_cons, Option.mem_def, Option.some.injEq] at hy
          subst hy
          simpa using h2
      · show ((it :: run1.iterations).head?.map (fun it => it.before)).getD run1.final = st
        simp [hb]
      · show run1.final = (((it :: run1.iterations).getLast?).map (fun it => it.after)).getD st
        cases hl : run1.iterations with
        | nil =>
          rw [hl] at h3
          simpa using h3
        | cons z zs =>
          rw [hl] at h3
          rw [List.getLast?_cons_cons]
          simpa using h3
      · intro it1 hit1
        have hit1' : it1 = it ∨ it1 ∈ run1.iterations := List.mem_cons.mp hit1
        rcases hit1' with rfl | hmem
        · rw [hb]
          exact ⟨hit, hpos, ht⟩
        · exact h4 it1 hmem
      · intro it1 hit1 hst
        have hit1' : it1 = it ∨ it1 ∈ run1.iterations := List.mem_cons.mp hit1
        rcases hit1' with rfl | hmem
        · rw [hs] at hst
          cases hst
        · obtain ⟨he, hl⟩ := h5 it1 hmem hst
          refine ⟨he, ?_⟩
          show (it :: run1.iterations).getLast? = some it1
          cases hl2 : run1.iterations with
          | nil =>
            rw [hl2] at hmem
            cases hmem
          | cons z zs =>
            rw [hl2] at hl
            rw [List.getLast?_cons_cons]
            exact hl
      · show (it :: run1.iterations).length ≤ fuel + 1 + 1
        rw [List.length_cons]
        omega
      · intro he
        obtain ⟨it1, hl, hst⟩ := h8 he
        refine ⟨it1, ?_, hst⟩
        show (it :: run1.iterations).getLast? = some it1
        cases hl2 : run1.iterations with
        | nil =>
          rw [hl2] at hl
          cases hl
        | cons z zs =>
          rw [hl2] at hl
          rw [List.getLast?_cons_cons]
          exact hl
      · intro he
        obtain ⟨hlen, hall⟩ := h9 he
        constructor
        · show lm_max_iterations ≤ lm_iter + (it :: run1.iterations).length
          rw [List.length_cons]
          omega
        · intro it1 hit1
          have hit1' : it1 = it ∨ it1 ∈ run1.iterations := List.mem_cons.mp hit1
          rcases hit1' with rfl | hmem
          · exact hs
          · exact hall it1 hmem

/-- With all indices in range, and an update vector of the right length if one
is given, the residual evaluator returns a vector of two entries per
observation. -/
theorem compute_reprojection_errors_returns (lm : Libm K) (v : List K)
    (delta : Option (List K)) (cameras : List (Camera K)) (points : List (Point3D K))
    (observations : List (Observation K))
    (hin : ∀ o ∈ observations, o.camera_id < cameras.length ∧ o.point_id < points.length)
    (hd : ∀ d, delta = some d → d.length = 9 * cameras.length + 3 * points.length) :
    ∃ F, compute_reprojection_errors lm v delta cameras points observations = some F
      ∧ F.length = observations.length * 2 := by
  have hres : ∀ o ∈ observations,
      (observation_residual lm delta cameras points o).isSome := by
    intro o ho
    obtain ⟨hoc, hop⟩ := hin o ho
    have h1 := List.getElem?_eq_getElem hoc
    have h2 := List.getElem?_eq_getElem hop
    cases delta with
    | none =>
      rw [observation_residual_none lm cameras points o _ _ h1 h2]
      rfl
    | some d =>
      have hdl := hd d rfl
      have e1 : ptr? d (o.camera_id * num_cam_params) 9
          = some (ptr d (o.camera_id * num_cam_params)) := by
        simp only [ptr?, num_cam_params]
        rw [if_pos (by omega)]
      have e2 : ptr? d (o.point_id * 3 + cameras.length * num_cam_params) 3
          = some (ptr d (o.point_id * 3 + cameras.length * num_cam_params)) := by
        simp only [ptr?, num_cam_params]
        rw [if_pos (by omega)]
      simp only [observation_residual, reprojection_operands, h1, h2, e1, e2]
      rfl
  have hlen : (if v.length ≠ observations.length * 2
      then resize v (observations.length * 2) else v).length = observations.length * 2 := by
    split
    · exact resize_length _ _
    · rename_i h
      exact not_not.mp h
  obtain ⟨F, hF, hFlen, -⟩ := compute_reprojection_errors_loop lm delta cameras
    points observations _ hlen hres observations.length le_rfl
  exact ⟨F, hF, hFlen⟩

/-- If the conjugate gradient solver reports invalid input, `my_solve_schur`
returns failure and leaves the output vector as it was. -/
theorem my_solve_schur_invalid (env : SolverEnv K) (Jc Jp : SparseMatrix K) (F dx dc : List K)
    (sys : SchurSystem K) (st : CGStatus) (hsys : schur_system env Jc Jp F = .ok sys)
    (hcg : env.cg_solve sys.S sys.rhs (List.replicate Jc.cols 0) sys.precond = (st, dc))
    (hinfo : st.info = CGInfo.CG_INVALID_INPUT) :
    my_solve_schur env Jc Jp F dx = .ok (⟨false, st.num_iterations⟩, dx) := by
  simp only [my_solve_schur, bind, Except.bind, hsys, hcg, hinfo, pure, Except.pure]

/-- An iteration returns when the arguments are the global lists, every
observation index is in range, the residual vector has two entries per
observation and the conjugate gradient solver keeps the size of its vector.
The lengths are kept. -/
theorem lm_iteration_returns (env : LMEnv K) (g : LMGlobals K)
    (observations : List (Observation K)) (st : LMState K)
    (hg : g.cameras = none ∧ g.points = none ∧ g.observations = none)
    (hin : ∀ o ∈ observations,
      o.camera_id < st.cameras.length ∧ o.point_id < st.points.length)
    (hF : st.F.length = 2 * observations.length)
    (hcg : ∀ S rhs x P, (env.solver.cg_solve S rhs x P).2.length = x.length) :
    ∃ it, lm_iteration env g observations st = .ok it
      ∧ it.after.cameras.length = st.cameras.length
      ∧ it.after.points.length = st.points.length
      ∧ it.after.F.length = 2 * observations.length := by
  obtain ⟨Jc, Jp, B, C, hJ, hr1, hc1, hr2, hc2, hu1, hu2, -⟩ :=
    jacobian_products st.cameras st.points observations hin
  have hrows : Jc.rows = Jp.rows := hr1.trans hr2.symm
  obtain ⟨sys, B0, C0, v0, w0, hsys, -, -, -, -, -, -, hCid, -, hET, hEr, hEc, -, -, -, -, hwl,
    -, -⟩ := schur_system_ok { env.solver with trust_region_radius := st.trust_region_radius }
      Jc Jp st.F st.cameras.length st.points.length
      (by rw [hc1, Nat.mul_comm]) (by rw [hc2, Nat.mul_comm]) hrows (hF.trans hr1.symm) hu1 hu2
  have hJ' : analytic_jacobian (g.cameras.getD st.cameras) (g.points.getD st.points)
      (g.observations.getD observations) = .ok (Jc, Jp) := by
    rw [hg.1, hg.2.1, hg.2.2]
    exact hJ
  have hsolve : ∃ status delta, my_solve_schur
      { env.solver with trust_region_radius := st.trust_region_radius } Jc Jp st.F []
        = .ok (status, delta)
      ∧ (status.success = true →
          delta.length = 9 * st.cameras.length + 3 * st.points.length) := by
    cases hres : env.solver.cg_solve sys.S sys.rhs (List.replicate Jc.cols 0) sys.precond with
    | mk cst dc =>
      have hlen : dc.length = Jc.cols := by
        have := hcg sys.S sys.rhs (List.replicate Jc.cols 0) sys.precond
        rw [hres] at this
        simpa using this
      by_cases hinfo : cst.info = CGInfo.CG_INVALID_INPUT
      · refine ⟨_, _, my_solve_schur_invalid _ Jc Jp st.F [] dc sys cst hsys hres hinfo, ?_⟩
        intro hf
        cases hf
      · obtain ⟨dp, hok, hdpl, -⟩ := my_solve_schur_ok
          { env.solver with trust_region_radius := st.trust_region_radius } Jc Jp st.F [] dc sys
          cst hsys (by rw [hET]; exact hEc) (by rw [hET]; exact hEr)
          (hCid.1.trans (by rw [hc2, Nat.mul_comm])) (hCid.2.1.trans (by rw [hc2, Nat.mul_comm]))
          hwl hres hinfo hlen
        refine ⟨_, _, hok, fun _ => ?_⟩
        rw [List.length_append, hlen, hdpl, hc1, hc2]
  obtain ⟨status, delta, hS, hdl⟩ := hsolve
  have htrial : ∃ Fn nm dm dr, lm_trial env.lm observations st status.success delta
        = .ok (Fn, nm, dm, dr)
      ∧ (status.success = true → Fn.length = 2 * observations.length)
      ∧ (status.success = false → dm = .finite 0) := by
    cases hs : status.success with
    | false =>
      refine ⟨st.F_new, st.current_mse, .finite 0, .finite 1, ?_, ?_, fun _ => rfl⟩
      · simp [lm_trial, pure, Except.pure]
      · intro hf
        cases hf
    | true =>
      obtain ⟨Fn, hFn, hFnl⟩ := compute_reprojection_errors_returns env.lm st.F_new
        (some delta) st.cameras st.points observations hin
        (fun d hd => by cases hd; exact hdl hs)
      refine ⟨Fn,
        residual_mse (residual_kind env.lm (some delta) st.cameras st.points observations) Fn,
        Extended.sub st.current_mse (residual_mse
          (residual_kind env.lm (some delta) st.cameras st.points observations) Fn),
        Extended.sub (.finite 1) (Extended.div (residual_mse
          (residual_kind env.lm (some delta) st.cameras st.points observations) Fn)
          st.current_mse),
        ?_, fun _ => by rw [hFnl, Nat.mul_comm], ?_⟩
      · simp only [lm_trial, if_true, bind, Except.bind, hFn, of_access, pure, Except.pure]
      · intro hf
        cases hf
  obtain ⟨Fn, nm, dm, dr, htr, hFnl, hdm0⟩ := htrial
  have hupd : ∃ r, lm_update env.lm st delta Fn nm dm dr = .ok r
      ∧ r.1.cameras.length = st.cameras.length ∧ r.1.points.length = st.points.length
      ∧ r.1.F.length = 2 * observations.length := by
    cases hd : Extended.lt (.finite 0) dm with
    | true =>
      have hs : status.success = true := by
        by_contra hf
        have hf' : status.success = false := by simpa using hf
        rw [hdm0 hf'] at hd
        simp [Extended.lt] at hd
      obtain ⟨cams, pts, hup, hlc, hlp, -⟩ :=
        update_parameters_eq env.lm delta st.cameras st.points (hdl hs)
      have hex : ∃ r, lm_update env.lm st delta Fn nm dm dr = .ok r := by
        unfold lm_update
        simp only [hd, if_true, bind, Except.bind, hup, of_access, pure, Except.pure]
        split
        · exact ⟨_, rfl⟩
        · exact ⟨_, rfl⟩
      obtain ⟨r, hr⟩ := hex
      obtain ⟨cams', pts', hup', -, -, hc', hp', hF', -⟩ :=
        lm_update_success _ _ _ _ _ _ _ _ hr hd
      rw [hup] at hup'
      cases hup'
      exact ⟨r, hr, by rw [hc', hlc], by rw [hp', hlp], by rw [hF', hFnl hs]⟩
    | false => exact ⟨_, lm_update_failure _ _ _ _ _ _ _ hd, rfl, rfl, hF⟩
  obtain ⟨r, hr, h1, h2, h3⟩ := hupd
  obtain ⟨after, succ, stop⟩ := r
  refine ⟨{ before := st, solve_success := status.success, delta_x := delta, new_mse := nm,
            successful := succ, stop := stop, after := after }, ?_, h1, h2, h3⟩
  simp only [lm_iteration, bind, Except.bind, hJ', hS, htr, hr, pure, Except.pure]

/-- The loop returns under the conditions of `lm_iteration_returns`, whatever
the iteration counter, provided the fuel covers the iterations up to the cap. -/
theorem lm_loop_returns (env : LMEnv K) (g : LMGlobals K)
    (observations : List (Observation K))
    (hg : g.cameras = none ∧ g.points = none ∧ g.observations = none)
    (hcg : ∀ S rhs x P, (env.solver.cg_solve S rhs x P).2.length = x.length) (fuel : ℕ) :
    ∀ (lm_iter : ℕ) (st : LMState K), lm_max_iterations ≤ lm_iter + fuel + 1 →
      (∀ o ∈ observations,
        o.camera_id < st.cameras.length ∧ o.point_id < st.points.length) →
      st.F.length = 2 * observations.length →
      ∃ run, lm_loop env g observations fuel lm_iter st = .ok run := by
  induction fuel with
  | zero =>
    intro lm_iter st hfuel hin hF
    obtain ⟨it, hit, -⟩ := lm_iteration_returns env g observations st hg hin hF hcg
    rw [lm_loop]
    by_cases ht : Extended.lt st.current_mse (.finite lm_mse_threshold) = true
    · rw [if_pos ht]
      exact ⟨_, rfl⟩
    · rw [if_neg ht, hit]
      simp only []
      by_cases hs : it.stop = true
      · rw [if_pos hs]
        exact ⟨_, rfl⟩
      · rw [if_neg hs, if_pos (by omega)]
        exact ⟨_, rfl⟩
  | succ fuel ih =>
    intro lm_iter st hfuel hin hF
    obtain ⟨it, hit, h1, h2, h3⟩ :=
      lm_iteration_returns env g observations st hg hin hF hcg
    rw [lm_loop]
    by_cases ht : Extended.lt st.current_mse (.finite lm_mse_threshold) = true
    · rw [if_pos ht]
      exact ⟨_, rfl⟩
    · rw [if_neg ht, hit]
      simp only []
      by_cases hs : it.stop = true
      · rw [if_pos hs]
        exact ⟨_, rfl⟩
      · rw [if_neg hs]
        by_cases hm : lm_iter + 1 ≥ lm_max_iterations
        · rw [if_pos hm]
          exact ⟨_, rfl⟩
        · rw [if_neg hm]
          obtain ⟨run, hrun⟩ := ih (lm_iter + 1) it.after (by omega)
            (fun o ho => by rw [h1, h2]; exact hin o ho) h3
          simp only [hrun]
          exact ⟨_, rfl⟩

/-- `lm_optimization` returns on a list of in-range observations, empty or
not, when its arguments are the global lists and the conjugate gradient
solver keeps the size of its vector. -/
theorem lm_optimization_returns (env : LMEnv K) (g : LMGlobals K) (cameras : List (Camera K))
    (points : List (Point3D K)) (observations : List (Observation K))
    (hg : g.cameras = none ∧ g.points = none ∧ g.observations = none)
    (hin : ∀ o ∈ observations, o.camera_id < cameras.length ∧ o.point_id < points.length)
    (hcg : ∀ S rhs x P, (env.solver.cg_solve S rhs x P).2.length = x.length) :
    ∃ res, lm_optimization env g cameras points observations = .ok res := by
  obtain ⟨F, hF, hFl⟩ := compute_reprojection_errors_returns env.lm [] none cameras points
    observations hin (fun d hd => by cases hd)
  obtain ⟨run, hrun⟩ := lm_loop_returns env g observations hg hcg (lm_max_iterations - 1) 0
    { cameras := cameras
      points := points
      F := F
      F_new := []
      current_mse := residual_mse (residual_kind env.lm none cameras points observations) F
      trust_region_radius := TRUST_REGION_RADIUS_INIT
      num_lm_iterations := g.num_lm_iterations
      num_lm_successful_iterations := g.num_lm_successful_iterations
      num_lm_unsuccessful_iterations := g.num_lm_unsuccessful_iterations }
    (by simp [lm_max_iterations]) hin (by rw [hFl, Nat.mul_comm])
  refine ⟨⟨run, residual_mse (residual_kind env.lm none cameras points observations) F,
    run.final.current_mse⟩, ?_⟩
  simp only [lm_optimization, bind, Except.bind, hF, of_access, hrun, pure, Except.pure]

/-- The absolute threshold is positive. -/
theorem lm_mse_threshold_pos : (0 : K) < lm_mse_threshold := by
  unfold lm_mse_threshold
  positivity

/-- C14 (amended): for every configuration with at least one observation
whose residual vector is all zero (its values are finite numbers, and they are
zero), `lm_optimization` stops at iteration 0 through the test of the absolute
threshold: no iteration is executed (no Jacobian is evaluated, no solve
attempted), every camera and point and the three iteration counters are what
they were, and `initial_mse = final_mse = 0`. -/
theorem lm_optimization_zero_residual (env : LMEnv K) (g : LMGlobals K)
    (cameras : List (Camera K)) (points : List (Point3D K))
    (observations : List (Observation K)) (F : List K) (hobs : observations ≠ [])
    (hF : compute_reprojection_errors env.lm [] none cameras points observations = some F)
    (hfin : residual_kind env.lm none cameras points observations = Kind.finite)
    (hz : ∀ x ∈ F, x = 0) :
    lm_optimization env g cameras points observations
      = .ok { run :=
                { iterations := []
                  final :=
                    { cameras := cameras
                      points := points
                      F := F
                      F_new := []
                      current_mse := .finite 0
                      trust_region_radius := 1000
                      num_lm_iterations := g.num_lm_iterations
                      num_lm_successful_iterations := g.num_lm_successful_iterations
                      num_lm_unsuccessful_iterations := g.num_lm_unsuccessful_iterations }
                  exit := LMExit.mse_threshold }
              initial_mse := .finite 0
              final_mse := .finite 0 } := by
  have hlen := compute_reprojection_errors_length _ _ _ _ _ _ _ hF
  have hobs1 : observations.length ≠ 0 := fun h => hobs (List.length_eq_zero.mp h)
  have hmse := compute_mse_zero F hz (by rw [hlen]; omega)
  simp only [lm_optimization, bind, Except.bind, hF, of_access, hfin, residual_mse, hmse,
    pure, Except.pure]
  have hlt : Extended.lt (.finite (0 : K)) (.finite lm_mse_threshold) = true := by
    simp only [Extended.lt]
    exact decide_eq_true lm_mse_threshold_pos
  rw [lm_loop, if_pos hlt]
  rfl

/-- The current error at the head of every iteration of a run of the loop and
at its exit is a finite number that is not negative, `+inf`, or NaN, if the
error at the first head is. -/
theorem lm_loop_errors (env : LMEnv K) (g : LMGlobals K)
    (observations : List (Observation K)) (fuel : ℕ) :
    ∀ (lm_iter : ℕ) (st : LMState K) (run : LMRun K),
      lm_loop env g observations fuel lm_iter st = .ok run →
      ((∃ m, st.current_mse = .finite m ∧ 0 ≤ m) ∨ st.current_mse = .pos_inf
        ∨ st.current_mse = .nan) →
      (∀ it ∈ run.iterations,
          (∃ m, it.before.current_mse = .finite m ∧ 0 ≤ m) ∨ it.before.current_mse = .pos_inf
            ∨ it.before.current_mse = .nan)
        ∧ ((∃ m, run.final.current_mse = .finite m ∧ 0 ≤ m) ∨ run.final.current_mse = .pos_inf
            ∨ run.final.current_mse = .nan) := by
  have step : ∀ (st : LMState K) (it : LMIteration K),
      lm_iteration env g observations st = .ok it →
      ((∃ m, st.current_mse = .finite m ∧ 0 ≤ m) ∨ st.current_mse = .pos_inf
        ∨ st.current_mse = .nan) →
      it.before = st
        ∧ ((∃ m, it.after.current_mse = .finite m ∧ 0 ≤ m) ∨ it.after.current_mse = .pos_inf
            ∨ it.after.current_mse = .nan) := by
    intro st it hit hst
    obtain ⟨Jc, Jp, status, Fn, dm, dr, -, -, htr, -, hb, hss⟩ :=
      lm_iteration_inv env g observations st it hit
    obtain ⟨hiff, hs1, hs0⟩ := lm_iteration_outcome env g observations st it hit
    refine ⟨hb, ?_⟩
    cases hs : it.successful with
    | true =>
      have hsol : status.success = true := hss.symm.trans (hiff.mp hs).1
      obtain ⟨-, hnm, -, -⟩ := (lm_trial_inv _ _ _ _ _ _ _ _ _ htr).1 hsol
      rw [hs1 hs, hnm]
      exact residual_mse_cases _ _
    | false =>
      rw [hs0 hs]
      exact hst
  induction fuel with
  | zero =>
    intro lm_iter st run h hst
    rcases lm_loop_inv env g observations 0 lm_iter st run h with
      ⟨-, rfl⟩ | ⟨-, it, hit, ⟨-, rfl⟩ | ⟨-, -, rfl⟩ | ⟨-, -, fuel1, run1, hf, -, -⟩⟩
    · exact ⟨fun it hit => absurd hit (List.not_mem_nil it), hst⟩
    · obtain ⟨hb, ha⟩ := step st it hit hst
      refine ⟨fun it1 h1 => ?_, ha⟩
      rw [List.mem_singleton.mp h1, hb]
      exact hst
    · obtain ⟨hb, ha⟩ := step st it hit hst
      refine ⟨fun it1 h1 => ?_, ha⟩
      rw [List.mem_singleton.mp h1, hb]
      exact hst
    · cases hf
  | succ fuel ih =>
    intro lm_iter st run h hst
    rcases lm_loop_inv env g observations (fuel + 1) lm_iter st run h with
      ⟨-, rfl⟩ | ⟨-, it, hit, ⟨-, rfl⟩ | ⟨-, -, rfl⟩ | ⟨-, -, fuel1, run1, hf, hr, rfl⟩⟩
    · exact ⟨fun it hit => absurd hit (List.not_mem_nil it), hst⟩
    · obtain ⟨hb, ha⟩ := step st it hit hst
      refine ⟨fun it1 h1 => ?_, ha⟩
      rw [List.mem_singleton.mp h1, hb]
      exact hst
    · obtain ⟨hb, ha⟩ := step st it hit hst
      refine ⟨fun it1 h1 => ?_, ha⟩
      rw [List.mem_singleton.mp h1, hb]
      exact hst
    · obtain rfl : fuel1 = fuel := by omega
      obtain ⟨hb, ha⟩ := step st it hit hst
      obtain ⟨k1, k2⟩ := ih (lm_iter + 1) it.after run1 hr ha
      refine ⟨fun it1 h1 => ?_, k2⟩
      rcases List.mem_cons.mp h1 with rfl | hm1
      · rw [hb]
        exact hst
      · exact k1 it1 hm1

/-- The current error at the head of every iteration of a run of
`lm_optimization` and at its exit is a finite number that is not negative,
`+inf`, or NaN. -/
theorem lm_optimization_errors (env : LMEnv K) (g : LMGlobals K) (cameras : List (Camera K))
    (points : List (Point3D K)) (observations : List (Observation K)) (res : LMResult K)
    (h : lm_optimization env g cameras points observations = .ok res) :
    (∀ it ∈ res.run.iterations,
        (∃ m, it.before.current_mse = .finite m ∧ 0 ≤ m) ∨ it.before.current_mse = .pos_inf
          ∨ it.before.current_mse = .nan)
      ∧ ((∃ m, res.run.final.current_mse = .finite m ∧ 0 ≤ m)
          ∨ res.run.final.current_mse = .pos_inf ∨ res.run.final.current_mse = .nan) := by
  obtain ⟨F, -, hrun, -, -⟩ := lm_optimization_inv env g cameras points observations res h
  exact lm_loop_errors env g observations _ _ _ _ hrun (residual_mse_cases _ _)

/-- C15 (amended): on every list of in-range observations, empty or not, with
the global lists as arguments and a conjugate gradient solver that keeps the
size of its vector (whatever else it returns), `lm_optimization` returns after
at most `lm_max_iterations = 100` iterations, one solve attempt each, and it
leaves its loop through one of three exits: the current error below
`lm_mse_threshold`, the relative improvement `1 - new_mse/current_mse` below
`lm_delta_threshold` directly after a successful step, or the iteration cap
after exactly 100 iterations; `final_mse` is the current error then. -/
theorem lm_optimization_terminates (env : LMEnv K) (g : LMGlobals K)
    (cameras : List (Camera K)) (points : List (Point3D K))
    (observations : List (Observation K))
    (hg : g.cameras = none ∧ g.points = none ∧ g.observations = none)
    (hin : ∀ o ∈ observations, o.camera_id < cameras.length ∧ o.point_id < points.length)
    (hcg : ∀ S rhs x P, (env.solver.cg_solve S rhs x P).2.length = x.length) :
    ∃ res, lm_optimization env g cameras points observations = .ok res
      ∧ res.run.iterations.length ≤ lm_max_iterations
      ∧ (∀ it ∈ res.run.iterations, lm_iteration env g observations it.before = .ok it)
      ∧ (res.run.exit = LMExit.mse_threshold →
          ∃ m, res.run.final.current_mse = .finite m ∧ m < lm_mse_threshold)
      ∧ (res.run.exit = LMExit.delta_threshold →
          ∃ it new_mse current_mse, res.run.iterations.getLast? = some it
            ∧ res.run.final = it.after
            ∧ it.successful = true
            ∧ it.new_mse = .finite new_mse ∧ it.before.current_mse = .finite current_mse
            ∧ current_mse ≠ 0
            ∧ 1 - new_mse / current_mse < lm_delta_threshold)
      ∧ (res.run.exit = LMExit.max_iterations →
          res.run.iterations.length = lm_max_iterations)
      ∧ res.final_mse = res.run.final.current_mse := by
  obtain ⟨res, hres⟩ := lm_optimization_returns env g cameras points observations hg hin hcg
  obtain ⟨F, -, hrun, -, hf⟩ :=
    lm_optimization_inv env g cameras points observations res hres
  have hpos : (0 : K) < TRUST_REGION_RADIUS_INIT := by
    unfold TRUST_REGION_RADIUS_INIT
    norm_num
  obtain ⟨-, -, h3, h4, -, h6, h7, h8, h9⟩ :=
    lm_loop_structure env g observations _ _ _ _ hrun hpos
  obtain ⟨-, herr⟩ := lm_optimization_errors env g cameras points observations res hres
  have h6a : res.run.iterations.length ≤ lm_max_iterations := by
    have e : lm_max_iterations - 1 + 1 = lm_max_iterations := rfl
    rw [← e]
    exact h6
  refine ⟨res, hres, h6a, fun it hit => (h4 it hit).1, ?_, ?_, ?_, hf⟩
  · intro he
    obtain ⟨x, hx, -, hc⟩ := (lt_mse_iff _ _ herr).mp (h7 he)
    rcases hc with ⟨y, hy, hxy⟩ | hc
    · cases hy
      exact ⟨x, hx, hxy⟩
    · cases hc
  · intro he
    obtain ⟨it, hl, hst⟩ := h8 he
    have hmem : it ∈ res.run.iterations := List.mem_of_mem_getLast? hl
    have hit := (h4 it hmem).1
    have hs := (lm_iteration_stop env g observations it.before it hit).mp hst
    obtain ⟨Jc, Jp, status, Fn, dm, dr, -, -, htr, -, -, hss⟩ :=
      lm_iteration_inv env g observations it.before it hit
    obtain ⟨hiff, -, -⟩ := lm_iteration_outcome env g observations it.before it hit
    obtain ⟨hsol, hlt⟩ := hiff.mp hs.1
    obtain ⟨-, hnm, -, -⟩ := (lm_trial_inv _ _ _ _ _ _ _ _ _ htr).1 (hss.symm.trans hsol)
    have hm : (∃ m, it.new_mse = .finite m ∧ 0 ≤ m) ∨ it.new_mse = .pos_inf
        ∨ it.new_mse = .nan := by
      rw [hnm]
      exact residual_mse_cases _ _
    obtain ⟨n, hn, hn0, hc⟩ := ratio_of_lt _ _ hm hlt
    have hr := hs.2
    rcases hc with ⟨c, hc, hnc, hratio⟩ | ⟨hc, hratio⟩
    · rw [hratio] at hr
      have hr1 : 1 - n / c < lm_delta_threshold := by simpa [Extended.lt] using hr
      refine ⟨it, n, c, hl, ?_, hs.1, hn, hc, ne_of_gt (lt_of_le_of_lt hn0 hnc), hr1⟩
      rw [h3, hl]
      rfl
    · exfalso
      rw [hratio] at hr
      have hr1 : (1 : K) < lm_delta_threshold := by simpa [Extended.lt] using hr
      unfold lm_delta_threshold at hr1
      norm_num at hr1
  · intro he
    have h := (h9 he).1
    omega

/-- C16 (amended): in every run of `lm_optimization` that returns, the trust
region radius is 1000 at the first head of the loop and positive throughout;
an unsuccessful iteration multiplies it by `1/10`, a successful iteration
multiplies it by 10 unless it leaves the loop through the relative
improvement exit, in which case the radius stays as it is; such an iteration
is the last of the run.  Each iteration starts from the state the previous
one left, so the radius strictly increases over consecutive successful
iterations that continue the loop and strictly decreases over consecutive
unsuccessful ones. -/
theorem lm_optimization_trust_region_radius (env : LMEnv K) (g : LMGlobals K)
    (cameras : List (Camera K)) (points : List (Point3D K))
    (observations : List (Observation K)) (res : LMResult K)
    (h : lm_optimization env g cameras points observations = .ok res) :
    ((res.run.iterations.head?.map (fun it => it.before)).getD
        res.run.final).trust_region_radius = 1000
      ∧ List.Chain' (fun a b => b.before = a.after) res.run.iterations
      ∧ res.run.final = (res.run.iterations.getLast?.map (fun it => it.after)).getD
          ((res.run.iterations.head?.map (fun it => it.before)).getD res.run.final)
      ∧ (∀ it ∈ res.run.iterations,
          0 < it.before.trust_region_radius
          ∧ (it.successful = true → it.stop = false →
              it.after.trust_region_radius = it.before.trust_region_radius * 10
                ∧ it.before.trust_region_radius < it.after.trust_region_radius)
          ∧ (it.successful = true → it.stop = true →
              it.after.trust_region_radius = it.before.trust_region_radius
                ∧ res.run.exit = LMExit.delta_threshold
                ∧ res.run.iterations.getLast? = some it)
          ∧ (it.successful = false →
              it.after.trust_region_radius = it.before.trust_region_radius * (1 / 10)
                ∧ it.after.trust_region_radius < it.before.trust_region_radius)) := by
  obtain ⟨F, -, hrun, -, -⟩ :=
    lm_optimization_inv env g cameras points observations res h
  have hpos : (0 : K) < TRUST_REGION_RADIUS_INIT := by
    unfold TRUST_REGION_RADIUS_INIT
    norm_num
  obtain ⟨h1, h2, h3, h4, h5, -⟩ := lm_loop_structure env g observations _ _ _ _ hrun hpos
  refine ⟨?_, h1, ?_, ?_⟩
  · rw [h2]
    rfl
  · rw [h2]
    exact h3
  · intro it hit
    obtain ⟨hi, hp, -⟩ := h4 it hit
    obtain ⟨-, -, -, r1, r2, r3⟩ := lm_iteration_radius env g observations it.before it hi hp
    exact ⟨hp, r1, fun hs hst => ⟨r2 hs hst, h5 it hit hst⟩, r3⟩

/-- A run of the loop that starts from an error that is NaN: no iteration is
successful, the error stays NaN, and the loop is left through the iteration
cap. -/
theorem lm_loop_nan (env : LMEnv K) (g : LMGlobals K)
    (observations : List (Observation K)) (fuel : ℕ) :
    ∀ (lm_iter : ℕ) (st : LMState K) (run : LMRun K),
      lm_loop env g observations fuel lm_iter st = .ok run → st.current_mse = .nan →
      lm_iter < lm_max_iterations →
      run.exit = LMExit.max_iterations
        ∧ run.iterations.length = lm_max_iterations - lm_iter
        ∧ (∀ it ∈ run.iterations, it.successful = false ∧ it.before.current_mse = .nan)
        ∧ run.final.current_mse = .nan
        ∧ run.final.cameras = st.cameras ∧ run.final.points = st.points := by
  have step : ∀ (st : LMState K) (it : LMIteration K),
      lm_iteration env g observations st = .ok it → st.current_mse = .nan →
      it.successful = false ∧ it.stop = false ∧ it.before.current_mse = .nan
        ∧ it.after.current_mse = .nan
        ∧ it.after.cameras = st.cameras ∧ it.after.points = st.points := by
    intro st it hit hn
    obtain ⟨hf, ha⟩ := (lm_iteration_committed env g observations st it hit).2 hn
    obtain ⟨-, -, -, -, -, -, -, -, -, -, hb, -⟩ := lm_iteration_inv env g observations st it hit
    have hstop : it.stop = false := by
      cases hs : it.stop with
      | false => rfl
      | true =>
        have := ((lm_iteration_stop env g observations st it hit).mp hs).1
        rw [hf] at this
        cases this
    obtain ⟨hc, hp, -⟩ := (lm_iteration_unsuccessful_frame env g observations st it hit).2 hf
    exact ⟨hf, hstop, by rw [hb]; exact hn, ha, hc, hp⟩
  induction fuel with
  | zero =>
    intro lm_iter st run h hn hlt
    rcases lm_loop_inv env g observations 0 lm_iter st run h with
      ⟨ht, -⟩ | ⟨-, it, hit, ⟨hs, -⟩ | ⟨-, hm, rfl⟩ | ⟨-, -, fuel1, run1, hf, -, -⟩⟩
    · rw [hn, lt_nan_left] at ht
      cases ht
    · obtain ⟨-, h2, -⟩ := step st it hit hn
      rw [h2] at hs
      cases hs
    · obtain ⟨h1, -, h3, h4, h5, h6⟩ := step st it hit hn
      refine ⟨rfl, ?_, ?_, h4, h5, h6⟩
      · show 1 = lm_max_iterations - lm_iter
        omega
      · intro it1 hit1
        rw [List.mem_singleton.mp hit1]
        exact ⟨h1, h3⟩
    · cases hf
  | succ fuel ih =>
    intro lm_iter st run h hn hlt
    rcases lm_loop_inv env g observations (fuel + 1) lm_iter st run h with
      ⟨ht, -⟩ | ⟨-, it, hit, ⟨hs, -⟩ | ⟨-, hm, rfl⟩ | ⟨-, hm, fuel1, run1, hf, hr, rfl⟩⟩
    · rw [hn, lt_nan_left] at ht
      cases ht
    · obtain ⟨-, h2, -⟩ := step st it hit hn
      rw [h2] at hs
      cases hs
    · obtain ⟨h1, -, h3, h4, h5, h6⟩ := step st it hit hn
      refine ⟨rfl, ?_, ?_, h4, h5, h6⟩
      · show 1 = lm_max_iterations - lm_iter
        omega
      · intro it1 hit1
        rw [List.mem_singleton.mp hit1]
        exact ⟨h1, h3⟩
    · obtain rfl : fuel1 = fuel := by omega
      obtain ⟨h1, -, h3, h4, h5, h6⟩ := step st it hit hn
      obtain ⟨k1, k2, k3, k4, k5, k6⟩ := ih (lm_iter + 1) it.after run1 hr h4 (by omega)
      refine ⟨k1, ?_, ?_, k4, k5.trans h5, k6.trans h6⟩
      · show (it :: run1.iterations).length = lm_max_iterations - lm_iter
        rw [List.length_cons, k2]
        omega
      · intro it1 hit1
        rcases List.mem_cons.mp hit1 with rfl | hm1
        · exact ⟨h1, h3⟩
        · exact k3 it1 hm1

/-- C17, the code at a failing input: with the real square root, cosine and
sine, `rodrigues_to_matrix` of the axis-angle vector `(1, 0, 0)` is not
orthonormal, and neither is the rotation `update_camera` writes for the
scenario camera (identity rotation) and the update vector whose only non-zero
entry is `update[6] = 1`.  The second row of the matrix is
`(0, 1 - (1 - cos 1) / 2, -sin 1)`, of squared length `1 + (1 - cos 1)(1 + 3 cos 1)/4`. -/
theorem rodrigues_to_matrix_not_orthonormal :
    ¬ orthonormal (rodrigues_to_matrix ⟨Real.sqrt, Real.cos, Real.sin⟩
        (fun j => if j = 0 then (1 : ℝ) else 0))
      ∧ orthonormal (scenario_camera : Camera ℝ).rotation
      ∧ ¬ orthonormal (update_camera ⟨Real.sqrt, Real.cos, Real.sin⟩ false
          (scenario_camera : Camera ℝ) (fun j => if j = 6 then (1 : ℝ) else 0)
          Camera.fresh).rotation := by
  have hc1 := Real.cos_one_pos
  have hc2 := Real.cos_one_le
  have hsc := Real.sin_sq_add_cos_sq 1
  have hrow : (1 - (1 - Real.cos 1) / 2) * (1 - (1 - Real.cos 1) / 2)
      + (- Real.sin 1) * (- Real.sin 1) ≠ 1 := by
    intro h
    nlinarith
  have hR : rodrigues_to_matrix ⟨Real.sqrt, Real.cos, Real.sin⟩
      (fun j => if j = 0 then (1 : ℝ) else 0)
      = ![1, 0, 0, 0, 1 - (1 - Real.cos 1) / 2, - Real.sin 1, 0, Real.sin 1,
          1 - (1 - Real.cos 1) / 2] := by
    simp only [rodrigues_to_matrix]
    norm_num
  refine ⟨?_, ?_, ?_⟩
  · rw [hR]
    intro h
    apply hrow
    have h2 := h.2.1
    simpa [vec9_3, vec9_4, vec9_5] using h2
  · simp [orthonormal, scenario_camera, vec9_0, vec9_1, vec9_2, vec9_3, vec9_4, vec9_5, vec9_6,
      vec9_7, vec9_8]
  · rw [update_camera_eq]
    have hj : (fun j => (fun j => if j = 6 then (1 : ℝ) else 0) (6 + j))
        = (fun j => if j = 0 then (1 : ℝ) else 0) := by
      funext j
      simp
    simp only [hj, hR]
    intro h
    apply hrow
    have h2 := h.2.1
    simpa [matrix_multiply, scenario_camera, vec9_0, vec9_1, vec9_2, vec9_3, vec9_4, vec9_5,
      vec9_6, vec9_7, vec9_8] using h2

/-- C18: on Jacobians with the block structure `my_solve_schur` relies on, and
with a conjugate gradient solver that keeps the size of its vector, the call
returns; the status holds the iteration count of the solver in every case;
`success` is true exactly when the solver reports `CG_CONVERGENCE` or
`CG_MAX_ITERATIONS` and false exactly when it reports `CG_INVALID_INPUT`, and
in that case the output vector is what it was at entry, size and entries. -/
theorem my_solve_schur_status (env : SolverEnv K) (Jc Jp : SparseMatrix K) (F dx : List K)
    (mc mp : ℕ) (hc : Jc.cols = mc * 9) (hp : Jp.cols = mp * 3) (hrows : Jc.rows = Jp.rows)
    (hF : F.length = Jc.rows) (huc : BlockUniform Jc 9 mc) (hup : BlockUniform Jp 3 mp)
    (hcg : ∀ S rhs x P, (env.cg_solve S rhs x P).2.length = x.length) :
    ∃ sys st dc status dx1,
      schur_system env Jc Jp F = .ok sys
      ∧ env.cg_solve sys.S sys.rhs (List.replicate Jc.cols 0) sys.precond = (st, dc)
      ∧ my_solve_schur env Jc Jp F dx = .ok (status, dx1)
      ∧ status.num_cg_iterations = st.num_iterations
      ∧ (status.success = true ↔
          st.info = CGInfo.CG_CONVERGENCE ∨ st.info = CGInfo.CG_MAX_ITERATIONS)
      ∧ (status.success = false ↔ st.info = CGInfo.CG_INVALID_INPUT)
      ∧ (st.info = CGInfo.CG_INVALID_INPUT → dx1 = dx) := by
  obtain ⟨sys, B0, C0, v0, w0, hsys, -, -, -, -, -, -, hCid, -, hET, hEr, hEc, -, -, -, -, hwl,
    -, -⟩ := schur_system_ok env Jc Jp F mc mp hc hp hrows hF huc hup
  cases hres : env.cg_solve sys.S sys.rhs (List.replicate Jc.cols 0) sys.precond with
  | mk st dc =>
    have hlen : dc.length = Jc.cols := by
      have := hcg sys.S sys.rhs (List.replicate Jc.cols 0) sys.precond
      rw [hres] at this
      simpa using this
    by_cases hinfo : st.info = CGInfo.CG_INVALID_INPUT
    · refine ⟨sys, st, dc, ⟨false, st.num_iterations⟩, dx, hsys, hres,
        my_solve_schur_invalid env Jc Jp F dx dc sys st hsys hres hinfo, rfl, ?_, ?_,
        fun _ => rfl⟩
      · rw [hinfo]
        simp
      · rw [hinfo]
        simp
    · obtain ⟨dp, hok, -⟩ := my_solve_schur_ok env Jc Jp F dx dc sys st hsys
        (by rw [hET]; exact hEc) (by rw [hET]; exact hEr) (hCid.1.trans hp.symm)
        (hCid.2.1.trans hp.symm) hwl hres hinfo hlen
      refine ⟨sys, st, dc, ⟨true, st.num_iterations⟩, dc ++ dp, hsys, hres, hok, rfl, ?_, ?_,
        fun h => absurd h hinfo⟩
      · cases hi : st.info with
        | CG_CONVERGENCE => simp
        | CG_MAX_ITERATIONS => simp
        | CG_INVALID_INPUT => exact absurd hi hinfo
      · constructor
        · intro hf
          cases hf
        · intro hf
          exact absurd hf hinfo

/-- C19: `invert_block_matrix_3x3_inplace` and
`invert_block_matrix_NxN_inplace` fail with an invalid-argument error if and
only if the matrix is not square or its number of stored entries differs
from `rows * 3`, respectively `rows * blocksize`, and in that case the matrix
is left as it was. -/
theorem invert_block_matrix_inplace_precondition (eps : K)
    (cholesky_invert_inplace : List K → ℕ → List K) (isfinite : K → Bool)
    (A : SparseMatrix K) (blocksize : ℕ) :
    ((∃ what, invert_block_matrix_3x3_inplace eps A = .error (Fault.invalid_argument what))
        ↔ (A.rows ≠ A.cols ∨ A.num_non_zero ≠ A.rows * 3))
      ∧ ((A.rows ≠ A.cols ∨ A.num_non_zero ≠ A.rows * 3) →
          invert_block_matrix_3x3_inplace_leaves eps A = some A)
      ∧ ((∃ what, invert_block_matrix_NxN_inplace cholesky_invert_inplace isfinite A blocksize
            = .error (Fault.invalid_argument what))
        ↔ (A.rows ≠ A.cols ∨ A.num_non_zero ≠ A.rows * blocksize))
      ∧ ((A.rows ≠ A.cols ∨ A.num_non_zero ≠ A.rows * blocksize) →
          invert_block_matrix_NxN_inplace_leaves cholesky_invert_inplace isfinite A blocksize
            = some A) := by
  refine ⟨?_, ?_, ?_, ?_⟩
  · unfold invert_block_matrix_3x3_inplace
    by_cases h1 : A.rows ≠ A.cols
    · rw [if_pos h1]
      exact ⟨fun _ => Or.inl h1, fun _ => ⟨_, rfl⟩⟩
    · rw [if_neg h1]
      by_cases h2 : A.num_non_zero ≠ A.rows * 3
      · rw [if_pos h2]
        exact ⟨fun _ => Or.inr h2, fun _ => ⟨_, rfl⟩⟩
      · rw [if_neg h2]
        constructor
        · rintro ⟨what, hw⟩
          split at hw <;> cases hw
        · rintro (h | h)
          · exact absurd h h1
          · exact absurd h h2
  · intro h
    unfold invert_block_matrix_3x3_inplace_leaves
    by_cases h1 : A.rows ≠ A.cols
    · rw [if_pos h1]
    · rw [if_neg h1, if_pos (h.resolve_left h1)]
  · unfold invert_block_matrix_NxN_inplace
    by_cases h1 : A.rows ≠ A.cols
    · rw [if_pos h1]
      exact ⟨fun _ => Or.inl h1, fun _ => ⟨_, rfl⟩⟩
    · rw [if_neg h1]
      by_cases h2 : A.num_non_zero ≠ A.rows * blocksize
      · rw [if_pos h2]
        exact ⟨fun _ => Or.inr h2, fun _ => ⟨_, rfl⟩⟩
      · rw [if_neg h2]
        constructor
        · rintro ⟨what, hw⟩
          split at hw <;> cases hw
        · rintro (h | h)
          · exact absurd h h1
          · exact absurd h h2
  · intro h
    unfold invert_block_matrix_NxN_inplace_leaves
    by_cases h1 : A.rows ≠ A.cols
    · rw [if_pos h1]
    · rw [if_neg h1, if_pos (h.resolve_left h1)]

/-- A value that a round of the NxN walk writes back: the value of the
Cholesky inversion if it is finite, zero otherwise. -/
theorem invert_block_NxN_getD (chol : List K → ℕ → List K) (isfinite : K → Bool)
    (bs : ℕ) (L : List K) (k : ℕ) (hk : k < bs * bs) :
    (invert_block_NxN chol isfinite bs L).getD k 0
      = if isfinite ((chol L bs).getD k 0) then (chol L bs).getD k 0 else 0 := by
  unfold invert_block_NxN
  rw [getD_map_range _ _ _ _ hk]

/-- A round of the NxN walk writes back `blocksize * blocksize` values. -/
theorem invert_block_NxN_length (chol : List K → ℕ → List K) (isfinite : K → Bool)
    (bs : ℕ) (L : List K) : (invert_block_NxN chol isfinite bs L).length = bs * bs := by
  simp [invert_block_NxN]

/-- The values of the matrix that `invert_block_matrix_NxN_inplace` returns on
a matrix of diagonal blocks. -/
theorem invert_block_matrix_NxN_inplace_values (chol : List K → ℕ → List K)
    (isfinite : K → Bool) (M : SparseMatrix K) (bs m : ℕ) (hbs : 0 < bs)
    (hM : BlockDiagonal M bs m) :
    ∃ P, invert_block_matrix_NxN_inplace chol isfinite M bs = .ok P ∧ BlockDiagonal P bs m
      ∧ ∀ b i j, b < m → i < bs → j < bs →
        P.value (b * bs + i) (b * bs + j)
          = (invert_block_NxN chol isfinite bs (M.block_values bs b)).getD (j * bs + i) 0 := by
  refine ⟨M.with_values ((List.range m).flatMap
    (fun b => invert_block_NxN chol isfinite bs (M.block_values bs b))), ?_,
    with_values_block_diagonal M bs m _ hM, ?_⟩
  · unfold invert_block_matrix_NxN_inplace
    rw [if_neg (by rw [hM.1, hM.2.1]; simp), if_neg (by rw [num_non_zero_block M bs m hM]; simp),
      block_walk_values M bs m hbs hM]
  · intro b i j hb hi hj
    exact with_values_block M bs m hM _
      (fun b _ => invert_block_NxN_length chol isfinite bs _) b i j hb hi hj

/-- With a tolerance that is not negative, a determinant that fails the
tolerance test is not zero. -/
theorem MATH_DOUBLE_EQ_false_ne_zero (eps det : K) (heps : 0 ≤ eps)
    (h : MATH_DOUBLE_EQ eps det 0 = false) : det ≠ 0 := by
  intro hd
  rw [hd] at h
  simp only [MATH_DOUBLE_EQ, decide_eq_false_iff_not, not_and, not_le] at h
  have := h (by linarith)
  linarith

/-- A block whose determinant fails the tolerance test and is not zero holds
its inverse after `invert_block_matrix_3x3_inplace`. -/
theorem invert_block_matrix_3x3_inplace_inverted (eps : K) (M C : SparseMatrix K) (m : ℕ)
    (hM : BlockDiagonal M 3 m) (hC : invert_block_matrix_3x3_inplace eps M = .ok C)
    (b : ℕ) (hb : b < m)
    (hdet : matrix_determinant (M.block3 b) ≠ 0)
    (heq : MATH_DOUBLE_EQ eps (matrix_determinant (M.block3 b)) 0 = false)
    (i j : ℕ) (hi : i < 3) (hj : j < 3) :
    M.entry (b * 3 + i) (b * 3 + 0) * C.entry (b * 3 + 0) (b * 3 + j)
      + M.entry (b * 3 + i) (b * 3 + 1) * C.entry (b * 3 + 1) (b * 3 + j)
      + M.entry (b * 3 + i) (b * 3 + 2) * C.entry (b * 3 + 2) (b * 3 + j)
      = if i = j then 1 else 0 := by
  obtain ⟨C', hC', hCd, hCv⟩ := invert_block_matrix_3x3_inplace_ok eps M m hM
  rw [hC] at hC'
  cases hC'
  have key := invert_block_3x3_right eps (M.block_values 3 b)
    (by rw [block_values_determinant M m _ hM hb]; exact hdet)
    (by rw [block_values_determinant M m _ hM hb]; exact heq) i j hi hj
  rw [entry_in_block C 3 m b 0 j hCd hb (by norm_num) hj,
    entry_in_block C 3 m b 1 j hCd hb (by norm_num) hj,
    entry_in_block C 3 m b 2 j hCd hb (by norm_num) hj,
    entry_in_block M 3 m b i 0 hM hb hi (by norm_num),
    entry_in_block M 3 m b i 1 hM hb hi (by norm_num),
    entry_in_block M 3 m b i 2 hM hb hi (by norm_num),
    hCv b 0 j hb (by norm_num) hj, hCv b 1 j hb (by norm_num) hj,
    hCv b 2 j hb (by norm_num) hj,
    ← block_values_getD M 3 b i 0 hi (by norm_num),
    ← block_values_getD M 3 b i 1 hi (by norm_num),
    ← block_values_getD M 3 b i 2 hi (by norm_num), ← key]
  simp only [Nat.zero_mul, Nat.zero_add, Nat.one_mul, Nat.reduceMul, Nat.add_zero]

/-- A square matrix with every position stored is one diagonal block. -/
theorem full_block_diagonal (M : SparseMatrix K) (n : ℕ) (hr : M.rows = n) (hc : M.cols = n)
    (hs : ∀ i j, M.stored i j = true) : BlockDiagonal M n 1 := by
  refine ⟨by rw [hr, Nat.one_mul], by rw [hc, Nat.one_mul], ?_⟩
  intro b1 b2 i j hb1 hb2 _ _
  obtain rfl : b1 = 0 := by omega
  obtain rfl : b2 = 0 := by omega
  simp [hs]

/-- C20 (amended): on a matrix of diagonal 3x3 blocks, with a tolerance that is
not negative, `invert_block_matrix_3x3_inplace` returns a matrix of diagonal
blocks in which every block whose determinant is zero within the tolerance
is the block it was, and every other block is the inverse of the block it
was.  On a matrix of diagonal blocks of size `blocksize`,
`invert_block_matrix_NxN_inplace` returns a matrix of diagonal blocks in
which every value is the value of the Cholesky inversion of its block where
that value is finite, and zero where it is not. -/
theorem invert_block_matrix_inplace_blocks (eps : K)
    (cholesky_invert_inplace : List K → ℕ → List K) (isfinite : K → Bool)
    (M N : SparseMatrix K) (m blocksize n : ℕ) (heps : 0 ≤ eps)
    (hM : BlockDiagonal M 3 m) (hbs : 0 < blocksize) (hN : BlockDiagonal N blocksize n) :
    (∃ C, invert_block_matrix_3x3_inplace eps M = .ok C ∧ BlockDiagonal C 3 m
      ∧ ∀ b, b < m →
        (MATH_DOUBLE_EQ eps (matrix_determinant (M.block3 b)) 0 = true →
          ∀ i j, i < 3 → j < 3 → C.entry (b * 3 + i) (b * 3 + j) = M.entry (b * 3 + i) (b * 3 + j))
        ∧ (MATH_DOUBLE_EQ eps (matrix_determinant (M.block3 b)) 0 = false →
          ∀ i j, i < 3 → j < 3 →
            M.entry (b * 3 + i) (b * 3 + 0) * C.entry (b * 3 + 0) (b * 3 + j)
              + M.entry (b * 3 + i) (b * 3 + 1) * C.entry (b * 3 + 1) (b * 3 + j)
              + M.entry (b * 3 + i) (b * 3 + 2) * C.entry (b * 3 + 2) (b * 3 + j)
              = if i = j then 1 else 0))
    ∧ (∃ P, invert_block_matrix_NxN_inplace cholesky_invert_inplace isfinite N blocksize = .ok P
      ∧ BlockDiagonal P blocksize n
      ∧ ∀ b i j, b < n → i < blocksize → j < blocksize →
        P.entry (b * blocksize + i) (b * blocksize + j)
          = if isfinite ((cholesky_invert_inplace (N.block_values blocksize b) blocksize).getD
                (j * blocksize + i) 0)
            then (cholesky_invert_inplace (N.block_values blocksize b) blocksize).getD
                (j * blocksize + i) 0
            else 0) := by
  constructor
  · obtain ⟨C, hC, hCd, -⟩ := invert_block_matrix_3x3_inplace_ok eps M m hM
    refine ⟨C, hC, hCd, ?_⟩
    intro b hb
    constructor
    · intro hskip i j hi hj
      exact invert_block_matrix_3x3_inplace_skipped eps M C m hM hC b hb hskip i j hi hj
    · intro heq i j hi hj
      exact invert_block_matrix_3x3_inplace_inverted eps M C m hM hC b hb
        (MATH_DOUBLE_EQ_false_ne_zero eps _ heps heq) heq i j hi hj
  · obtain ⟨P, hP, hPd, hPv⟩ := invert_block_matrix_NxN_inplace_values cholesky_invert_inplace
      isfinite N blocksize n hbs hN
    refine ⟨P, hP, hPd, ?_⟩
    intro b i j hb hi hj
    rw [entry_in_block P blocksize n b i j hPd hb hi hj, hPv b i j hb hi hj,
      invert_block_NxN_getD _ _ _ _ _ (by nlinarith)]

/-- A call whose mapped result is known has returned. -/
theorem toOption_map_some {α β : Type} (r : Except Fault α) (f : α → β) (b : β)
    (h : r.toOption.map f = some b) : ∃ a, r = .ok a ∧ f a = b := by
  cases r with
  | error e => cases h
  | ok a => exact ⟨a, rfl, Option.some.inj h⟩

/-- A call with a known fault has ended with it. -/
theorem thrown_some {α : Type} (r : Except Fault α) (e : Fault) (h : thrown r = some e) :
    r = .error e := by
  cases r with
  | error e1 => exact congrArg Except.error (Option.some.inj h)
  | ok a => cases h

/-- The run of `lm_optimization` on the scenario camera, the point
`(0, 0, 200)` and the pixel `(1, 0)`, with a conjugate gradient solver that
stops at its start vector: one successful iteration, from a mean squared
error of 1 to one of about `1 - 1.25e-9`, left through the test of the
relative improvement with the radius still 1000. -/
theorem axis_run :
    (lm_optimization (example_lm_env cg_at_start) main_globals [scenario_camera]
        [axis_point (200 : ℚ)] [axis_observation 1]).toOption.map
      (fun res => (res.run.exit, res.run.iterations.map (fun it => (it.successful, it.stop)),
        res.run.final.trust_region_radius, res.initial_mse, res.final_mse))
      = some (LMExit.delta_threshold, [(true, true)], 1000, Extended.finite 1,
          Extended.finite (2559999996796800001002001 / 2560000000000000000000000)) := by
  decide!

/-- The radius before and after the one iteration of that run. -/
theorem axis_run_radius :
    (lm_optimization (example_lm_env cg_at_start) main_globals [scenario_camera]
        [axis_point (200 : ℚ)] [axis_observation 1]).toOption.map
      (fun res => res.run.iterations.map
        (fun it => (it.before.trust_region_radius, it.after.trust_region_radius)))
      = some [(1000, 1000)] := by
  decide!

/-- The first iteration of that run. -/
theorem axis_iteration :
    (lm_iteration (example_lm_env cg_at_start) main_globals [axis_observation 1]
        (axis_state : LMState ℚ)).toOption.map
      (fun it => (it.solve_success, it.successful, it.stop, it.new_mse))
      = some (true, true, true,
          Extended.finite (2559999996796800001002001 / 2560000000000000000000000)) := by
  decide!

/-- An iteration from the same state with a conjugate gradient solver that
reports invalid input. -/
theorem axis_iteration_invalid :
    (lm_iteration (example_lm_env cg_invalid_input) main_globals [axis_observation 1]
        (axis_state : LMState ℚ)).toOption.map
      (fun it => (it.solve_success, it.successful, it.stop, it.after.trust_region_radius))
      = some (false, false, false, 100) := by
  decide!

/-- An observation of camera 1 where there is one camera: the first residual
evaluation leaves through `at()`. -/
theorem out_of_range_run :
    thrown (lm_optimization (example_lm_env cg_at_start) main_globals [scenario_camera]
        [(scenario_point : Point3D ℚ)] [⟨![0, 0], 1, 0⟩]) = some Fault.access := by
  decide!

end Controller

/-! ## Updates, evaluation order, index ranges, the block walk and the run of the loop -/

section Composition

variable {K : Type} [Field K] [DecidableEq K]

/-- Known values of the rounding: 1 and `2^53` are `double` values, `2^53 + 1`
lies halfway between two of them and goes to the even one, and `0.1`, `1/3`
and `0.1 + 0.2` round to the bit patterns `0x3FB999999999999A`,
`0x3FD5555555555555` and `0x3FD3333333333334`. -/
theorem round_double_values :
    round_double 1 = 1 ∧ round_double (2 ^ 53) = 2 ^ 53
      ∧ round_double (2 ^ 53 + 1) = 2 ^ 53
      ∧ round_double (2 ^ 53 + 3) = 2 ^ 53 + 4
      ∧ round_double (-(2 ^ 53 + 1)) = -2 ^ 53
      ∧ round_double (1 / 10) = 3602879701896397 / 2 ^ 55
      ∧ round_double (1 / 3) = 6004799503160661 / 2 ^ 54
      ∧ double_add (3602879701896397 / 2 ^ 55) (3602879701896397 / 2 ^ 54)
          = 5404319552844596 / 2 ^ 54 := by
  refine ⟨?_, ?_, ?_, ?_, ?_, ?_, ?_, ?_⟩ <;> decide!

/-- A vector of three entries is the vector of its entries. -/
theorem vec3_eta {α : Type} (v : Fin 3 → α) : ![v 0, v 1, v 2] = v := by
  funext i
  fin_cases i <;> rfl

/-- A vector of two entries is the vector of its entries. -/
theorem vec2_eta {α : Type} (v : Fin 2 → α) : ![v 0, v 1] = v := by
  funext i
  fin_cases i <;> rfl

/-- C22 (amended): in exact arithmetic `update_point` with `d` and then with
`-d` gives back the point, and `update_camera` with `u` and then with `-u`
gives back the focal length, the distortion coefficients and the
translation, whether or not the output object is the input object.  With the
additions computed in `double` the same holds whenever the first addition
of every coordinate is exact and the original value is a `double`. -/
theorem update_negation_restores (lm : Libm K) (p o1 o2 : Point3D K) (d : ℕ → K)
    (cam c1 c2 : Camera K) (u : ℕ → K) :
    update_point false (update_point false p d o1) (fun j => - d j) o2 = p
      ∧ update_point true (update_point true p d p) (fun j => - d j)
          (update_point true p d p) = p
      ∧ (update_camera lm false (update_camera lm false cam u c1) (fun j => - u j)
            c2).focal_length = cam.focal_length
      ∧ (update_camera lm false (update_camera lm false cam u c1) (fun j => - u j)
            c2).distortion = cam.distortion
      ∧ (update_camera lm false (update_camera lm false cam u c1) (fun j => - u j)
            c2).translation = cam.translation
      ∧ (update_camera lm true (update_camera lm true cam u cam) (fun j => - u j)
            (update_camera lm true cam u cam)).focal_length = cam.focal_length
      ∧ (update_camera lm true (update_camera lm true cam u cam) (fun j => - u j)
            (update_camera lm true cam u cam)).distortion = cam.distortion
      ∧ (update_camera lm true (update_camera lm true cam u cam) (fun j => - u j)
            (update_camera lm true cam u cam)).translation = cam.translation
      ∧ (∀ (q : Point3D ℚ) (e : ℕ → ℚ),
          (∀ i : Fin 3, round_double (q.pos i) = q.pos i) →
          (∀ i : Fin 3, round_double (q.pos i + e i.val) = q.pos i + e i.val) →
          update_point_double (update_point_double q e) (fun j => - e j) = q)
      ∧ (∀ (c : Camera ℚ) (e : ℕ → ℚ),
          round_double c.focal_length = c.focal_length →
          (∀ i : Fin 2, round_double (c.distortion i) = c.distortion i) →
          (∀ i : Fin 3, round_double (c.translation i) = c.translation i) →
          round_double (c.focal_length + e 0) = c.focal_length + e 0 →
          (∀ i : Fin 2, round_double (c.distortion i + e (1 + i.val))
            = c.distortion i + e (1 + i.val)) →
          (∀ i : Fin 3, round_double (c.translation i + e (3 + i.val))
            = c.translation i + e (3 + i.val)) →
          update_camera_double (update_camera_double c e) (fun j => - e j) = c) := by
  refine ⟨?_, ?_, ?_, ?_, ?_, ?_, ?_, ?_, ?_, ?_⟩
  · rw [update_point_eq, update_point_eq]
    simp only [Matrix.cons_val_zero, Matrix.cons_val_one, Matrix.head_cons, Matrix.cons_val_two,
      Matrix.tail_cons, add_neg_cancel_right]
    rw [vec3_eta]
  · rw [update_point_eq_aliased, update_point_eq_aliased]
    simp only [Matrix.cons_val_zero, Matrix.cons_val_one, Matrix.head_cons, Matrix.cons_val_two,
      Matrix.tail_cons, add_neg_cancel_right]
    rw [vec3_eta]
  · rw [update_camera_eq, update_camera_eq]
    simp
  · rw [update_camera_eq, update_camera_eq]
    simp only [Matrix.cons_val_zero, Matrix.cons_val_one, Matrix.head_cons,
      add_neg_cancel_right]
    rw [vec2_eta]
  · rw [update_camera_eq, update_camera_eq]
    simp only [Matrix.cons_val_zero, Matrix.cons_val_one, Matrix.head_cons, Matrix.cons_val_two,
      Matrix.tail_cons, add_neg_cancel_right]
    rw [vec3_eta]
  · rw [update_camera_eq_aliased, update_camera_eq_aliased]
    simp
  · rw [update_camera_eq_aliased, update_camera_eq_aliased]
    simp only [Matrix.cons_val_zero, Matrix.cons_val_one, Matrix.head_cons,
      add_neg_cancel_right]
    rw [vec2_eta]
  · rw [update_camera_eq_aliased, update_camera_eq_aliased]
    simp only [Matrix.cons_val_zero, Matrix.cons_val_one, Matrix.head_cons, Matrix.cons_val_two,
      Matrix.tail_cons, add_neg_cancel_right]
    rw [vec3_eta]
  · intro q e hq he
    have h0 := he 0
    have h1 := he 1
    have h2 := he 2
    have q0 := hq 0
    have q1 := hq 1
    have q2 := hq 2
    simp only [Fin.val_zero, Fin.val_one, Fin.val_two] at h0 h1 h2
    simp only [update_point_double, double_add, Matrix.cons_val_zero, Matrix.cons_val_one,
      Matrix.head_cons, Matrix.cons_val_two, Matrix.tail_cons, h0, h1, h2, add_neg_cancel_right,
      q0, q1, q2]
    rw [vec3_eta]
  · intro c e hf hd ht ef ed et
    have d0 := hd 0
    have d1 := hd 1
    have t0 := ht 0
    have t1 := ht 1
    have t2 := ht 2
    have ed0 := ed 0
    have ed1 := ed 1
    have et0 := et 0
    have et1 := et 1
    have et2 := et 2
    simp only [Fin.val_zero, Fin.val_one, Fin.val_two, Nat.add_zero, Nat.reduceAdd] at ed0 ed1 et0 et1 et2
    simp only [update_camera_double, double_add, Matrix.cons_val_zero, Matrix.cons_val_one,
      Matrix.head_cons, Matrix.cons_val_two, Matrix.tail_cons, ef, ed0, ed1, et0, et1, et2,
      add_neg_cancel_right, hf, d0, d1, t0, t1, t2]
    rw [vec2_eta, vec3_eta]

end Composition

section ZeroUpdate

variable {K : Type} [Field K] [DecidableEq K]

/-- A vector of nine entries is the vector of its entries. -/
theorem vec9_eta {α : Type} (v : Fin 9 → α) :
    ![v 0, v 1, v 2, v 3, v 4, v 5, v 6, v 7, v 8] = v := by
  funext i
  fin_cases i <;> rfl

/-- The matrix `rodrigues_to_matrix` writes for the zero vector. -/
theorem rodrigues_to_matrix_zero (lm : Libm K) :
    rodrigues_to_matrix lm (fun _ => 0) = ![1, 0, 0, 0, 1, 0, 0, 0, 1] := by
  simp [rodrigues_to_matrix]

/-- The product of the identity with a matrix, as `matrix_multiply` computes
it. -/
theorem matrix_multiply_identity (b : Fin 9 → K) :
    matrix_multiply ![1, 0, 0, 0, 1, 0, 0, 0, 1] b = b := by
  simp only [matrix_multiply, vec9_0, vec9_1, vec9_2, vec9_3, vec9_4, vec9_5, vec9_6, vec9_7,
    vec9_8, one_mul, zero_mul, add_zero, zero_add]
  exact vec9_eta b

/-- A read through a pointer into a vector of zeros. -/
theorem ptr_replicate_zero (n off : ℕ) : ptr (List.replicate n (0 : K)) off = fun _ => 0 := by
  funext j
  simp only [ptr, List.getD_eq_getElem?_getD, List.getElem?_replicate]
  split <;> rfl

/-- What `update_camera` returns for an update of zeros. -/
theorem update_camera_zero (lm : Libm K) (cam out : Camera K) :
    update_camera lm false cam (fun _ => 0) out = cam
      ∧ update_camera lm true cam (fun _ => 0) cam = cam := by
  have h : ({ focal_length := cam.focal_length + 0
              distortion := ![cam.distortion 0 + 0, cam.distortion 1 + 0]
              translation := ![cam.translation 0 + 0, cam.translation 1 + 0,
                cam.translation 2 + 0]
              rotation := matrix_multiply (rodrigues_to_matrix lm (fun _ => 0)) cam.rotation }
            : Camera K) = cam := by
    simp only [add_zero, rodrigues_to_matrix_zero, matrix_multiply_identity, vec2_eta, vec3_eta]
  constructor
  · rw [update_camera_eq]
    exact h
  · rw [update_camera_eq_aliased]
    exact h

/-- What `update_point` returns for an update of zeros. -/
theorem update_point_zero (p out : Point3D K) :
    update_point false p (fun _ => 0) out = p ∧ update_point true p (fun _ => 0) p = p := by
  constructor
  · rw [update_point_eq]
    simp only [add_zero, vec3_eta]
  · rw [update_point_eq_aliased]
    simp only [add_zero, vec3_eta]

/-- C23: `rodrigues_to_matrix` of the zero vector is the identity matrix,
`update_camera` with an update of zeros returns the input camera, whether or
not the output object is the input object, and `update_parameters` with a
vector of `9*|cameras| + 3*|points|` zeros leaves every camera and point as
it was. -/
theorem zero_update_identity (lm : Libm K) (cam out : Camera K) (cameras : List (Camera K))
    (points : List (Point3D K)) :
    rodrigues_to_matrix lm (fun _ => 0) = ![1, 0, 0, 0, 1, 0, 0, 0, 1]
      ∧ update_camera lm false cam (fun _ => 0) out = cam
      ∧ update_camera lm true cam (fun _ => 0) cam = cam
      ∧ update_parameters lm (List.replicate (9 * cameras.length + 3 * points.length) 0)
          cameras points = some (cameras, points) := by
  refine ⟨rodrigues_to_matrix_zero lm, (update_camera_zero lm cam out).1,
    (update_camera_zero lm cam out).2, ?_⟩
  obtain ⟨cameras1, points1, hup, hlc, hlp, hc, hp⟩ := update_parameters_eq lm
    (List.replicate (9 * cameras.length + 3 * points.length) 0) cameras points (by simp)
  have e1 : cameras1 = cameras := by
    apply List.ext_getElem?
    intro i
    by_cases hi : i < cameras.length
    · rw [hc i cameras[i] (List.getElem?_eq_getElem hi), ptr_replicate_zero,
        (update_camera_zero lm cameras[i] cameras[i]).2, List.getElem?_eq_getElem hi]
    · rw [List.getElem?_eq_none (by omega), List.getElem?_eq_none (by omega)]
  have e2 : points1 = points := by
    apply List.ext_getElem?
    intro i
    by_cases hi : i < points.length
    · rw [hp i points[i] (List.getElem?_eq_getElem hi), ptr_replicate_zero,
        (update_point_zero points[i] points[i]).2, List.getElem?_eq_getElem hi]
    · rw [List.getElem?_eq_none (by omega), List.getElem?_eq_none (by omega)]
  rw [hup, e1, e2]

end ZeroUpdate

section Order

variable {K : Type} [Field K] [DecidableEq K]

/-- A monadic fold over an `Option` is a plain fold over the lifted step. -/
theorem foldlM_option_eq_foldl {σ ι : Type} (f : σ → ι → Option σ) (l : List ι) :
    ∀ s : Option σ,
      s.bind (fun s0 => l.foldlM f s0) = l.foldl (fun acc i => acc.bind (fun s0 => f s0 i)) s := by
  induction l with
  | nil =>
    intro s
    cases s <;> rfl
  | cons i l ih =>
    intro s
    cases s with
    | none =>
      rw [List.foldl_cons, ← ih]
      rfl
    | some s0 =>
      rw [List.foldl_cons, ← ih]
      simp only [Option.bind_eq_bind, Option.some_bind, List.foldlM_cons]

/-- A round of the loop of the residual evaluator fails or not whatever the
output vector holds: only its length is looked at. -/
theorem compute_reprojection_errors_step_eq (lm : Libm K) (delta : Option (List K))
    (cameras : List (Camera K)) (points : List (Point3D K))
    (observations : List (Observation K)) (v : List K) (i : ℕ) :
    compute_reprojection_errors_step lm delta cameras points observations v i
      = (observations[i]?.bind (observation_residual lm delta cameras points)).bind
          (fun r => if i * 2 + 1 < v.length
            then some ((v.set (i * 2 + 0) r.1).set (i * 2 + 1) r.2) else none) := by
  unfold compute_reprojection_errors_step
  cases observations[i]? with
  | none => rfl
  | some o =>
    simp only [Option.some_bind, Option.bind_eq_bind]
    cases observation_residual lm delta cameras points o <;> rfl

/-- Two rounds of the loop of the residual evaluator can be exchanged. -/
theorem compute_reprojection_errors_step_comm (lm : Libm K) (delta : Option (List K))
    (cameras : List (Camera K)) (points : List (Point3D K))
    (observations : List (Observation K)) (s : Option (List K)) (i j : ℕ) :
    (s.bind (fun v => compute_reprojection_errors_step lm delta cameras points observations v i)).bind
        (fun v => compute_reprojection_errors_step lm delta cameras points observations v j)
      = (s.bind
          (fun v => compute_reprojection_errors_step lm delta cameras points observations v j)).bind
        (fun v => compute_reprojection_errors_step lm delta cameras points observations v i) := by
  by_cases hij : i = j
  · rw [hij]
  cases s with
  | none => rfl
  | some v =>
    simp only [Option.some_bind, Option.bind_eq_bind, compute_reprojection_errors_step_eq]
    cases hi : observations[i]?.bind (observation_residual lm delta cameras points) with
    | none =>
      cases hj : observations[j]?.bind (observation_residual lm delta cameras points) with
      | none => rfl
      | some rj =>
        simp only [Option.some_bind, Option.none_bind]
        split <;> simp [hi]
    | some ri =>
      cases hj : observations[j]?.bind (observation_residual lm delta cameras points) with
      | none =>
        simp only [Option.some_bind, Option.none_bind]
        split <;> simp [hj]
      | some rj =>
        simp only [Option.some_bind]
        by_cases h1 : i * 2 + 1 < v.length
        · by_cases h2 : j * 2 + 1 < v.length
          · simp only [h1, h2, if_true, Option.some_bind, hi, hj, List.length_set]
            congr 1
            rw [List.set_comm _ _ _ (show i * 2 + 1 ≠ j * 2 + 0 by omega),
              List.set_comm _ _ _ (show i * 2 + 0 ≠ j * 2 + 0 by omega),
              List.set_comm _ _ _ (show i * 2 + 1 ≠ j * 2 + 1 by omega),
              List.set_comm _ _ _ (show i * 2 + 0 ≠ j * 2 + 1 by omega)]
          · simp [h1, h2, hi, hj]
        · by_cases h2 : j * 2 + 1 < v.length
          · simp [h1, h2, hi, hj]
          · simp [h1, h2]

/-- The loop of the residual evaluator over a rearranged list of indices. -/
theorem compute_reprojection_errors_fold_perm (lm : Libm K) (delta : Option (List K))
    (cameras : List (Camera K)) (points : List (Point3D K))
    (observations : List (Observation K)) (l1 l2 : List ℕ) (h : l1.Perm l2) (v : List K) :
    l1.foldlM (compute_reprojection_errors_step lm delta cameras points observations) v
      = l2.foldlM (compute_reprojection_errors_step lm delta cameras points observations) v := by
  have e1 := foldlM_option_eq_foldl
    (compute_reprojection_errors_step lm delta cameras points observations) l1 (some v)
  have e2 := foldlM_option_eq_foldl
    (compute_reprojection_errors_step lm delta cameras points observations) l2 (some v)
  simp only [Option.some_bind, Option.bind_eq_bind] at e1 e2
  rw [e1, e2]
  exact List.Perm.foldl_eq' h
    (fun i _ j _ s => compute_reprojection_errors_step_comm lm delta cameras points
      observations s i j) (some v)

end Order

section Order2

variable {K : Type} [Field K] [DecidableEq K]

/-- A fold in `Option` has no result if one of its rounds fails whatever the
state. -/
theorem foldlM_none_of_mem {σ ι : Type} (f : σ → ι → Option σ) (i : ι)
    (hf : ∀ s, f s i = none) (l : List ι) (hi : i ∈ l) : ∀ s, l.foldlM f s = none := by
  induction l with
  | nil => cases hi
  | cons a l ih =>
    intro s
    rw [List.foldlM_cons]
    cases hfa : f s a with
    | none => rfl
    | some s1 =>
      rcases List.mem_cons.mp hi with rfl | hl
      · rw [hf s] at hfa
        cases hfa
      · exact ih hl s1

/-- If the loop of the residual evaluator returns, every observation it went
through has a residual. -/
theorem compute_reprojection_errors_fold_some (lm : Libm K) (delta : Option (List K))
    (cameras : List (Camera K)) (points : List (Point3D K))
    (observations : List (Observation K)) (l : List ℕ) (v F : List K)
    (h : l.foldlM (compute_reprojection_errors_step lm delta cameras points observations) v
      = some F) (i : ℕ) (hi : i ∈ l) :
    ∃ o r, observations[i]? = some o
      ∧ observation_residual lm delta cameras points o = some r := by
  by_contra hne
  have hf : ∀ s, compute_reprojection_errors_step lm delta cameras points observations s i
      = none := by
    intro s
    rw [compute_reprojection_errors_step_eq]
    cases ho : observations[i]? with
    | none => rfl
    | some o =>
      cases hr : observation_residual lm delta cameras points o with
      | none => simp [hr]
      | some r => exact absurd ⟨o, r, ho, hr⟩ hne
  rw [foldlM_none_of_mem _ i hf l hi v] at h
  cases h

/-- If the residual evaluator returns, every observation has a residual. -/
theorem compute_reprojection_errors_some (lm : Libm K) (vector_f : List K)
    (delta : Option (List K)) (cameras : List (Camera K)) (points : List (Point3D K))
    (observations : List (Observation K)) (F : List K)
    (h : compute_reprojection_errors lm vector_f delta cameras points observations = some F) :
    ∀ o ∈ observations, (observation_residual lm delta cameras points o).isSome := by
  intro o ho
  obtain ⟨i, hi, hio⟩ := List.getElem_of_mem ho
  obtain ⟨o', r, ho', hr⟩ := compute_reprojection_errors_fold_some lm delta cameras points
    observations _ _ F h i (List.mem_range.mpr hi)
  rw [List.getElem?_eq_getElem hi, hio] at ho'
  rw [Option.some.inj ho', hr]
  rfl

/-- What the residual evaluator returns, entry by entry. -/
theorem compute_reprojection_errors_entries (lm : Libm K) (vector_f : List K)
    (delta : Option (List K)) (cameras : List (Camera K)) (points : List (Point3D K))
    (observations : List (Observation K)) (F : List K)
    (h : compute_reprojection_errors lm vector_f delta cameras points observations = some F) :
    F.length = observations.length * 2
      ∧ ∀ i o, observations[i]? = some o →
        ∃ r, observation_residual lm delta cameras points o = some r
          ∧ F[i * 2]? = some r.1 ∧ F[i * 2 + 1]? = some r.2 := by
  have hres := compute_reprojection_errors_some lm vector_f delta cameras points observations F h
  have hlen : (if vector_f.length ≠ observations.length * 2
      then resize vector_f (observations.length * 2) else vector_f).length
      = observations.length * 2 := by
    split
    · exact resize_length _ _
    · rename_i hh
      exact not_not.mp hh
  obtain ⟨G, hG, hGlen, hGi, -⟩ := compute_reprojection_errors_loop lm delta cameras points
    observations _ hlen hres observations.length le_rfl
  have hFG : G = F := by
    have h' : (List.range observations.length).foldlM
        (compute_reprojection_errors_step lm delta cameras points observations)
        (if vector_f.length ≠ observations.length * 2
          then resize vector_f (observations.length * 2) else vector_f) = some F := h
    rw [hG] at h'
    exact Option.some.inj h'
  subst hFG
  refine ⟨hGlen, ?_⟩
  intro i o hio
  obtain ⟨o', r, ho', hr, h1, h2⟩ := hGi i (List.getElem?_eq_some.mp hio).1
  rw [hio] at ho'
  rw [← Option.some.inj ho'] at hr
  exact ⟨r, hr, h1, h2⟩

/-- `rodrigues_to_matrix` reads the first three values behind its pointer. -/
theorem rodrigues_to_matrix_congr (lm : Libm K) (r r1 : ℕ → K) (h : ∀ j, j < 3 → r j = r1 j) :
    rodrigues_to_matrix lm r = rodrigues_to_matrix lm r1 := by
  simp only [rodrigues_to_matrix, h 0 (by norm_num), h 1 (by norm_num), h 2 (by norm_num)]

/-- `update_camera` reads the first nine values behind its pointer. -/
theorem update_camera_congr (lm : Libm K) (cam out : Camera K) (u u1 : ℕ → K)
    (h : ∀ j, j < 9 → u j = u1 j) :
    update_camera lm false cam u out = update_camera lm false cam u1 out := by
  rw [update_camera_eq, update_camera_eq, h 0 (by norm_num), h 1 (by norm_num),
    h 2 (by norm_num), h 3 (by norm_num), h 4 (by norm_num), h 5 (by norm_num),
    rodrigues_to_matrix_congr lm (fun j => u (6 + j)) (fun j => u1 (6 + j))
      (fun j hj => h (6 + j) (by omega))]

/-- `update_point` reads the first three values behind its pointer. -/
theorem update_point_congr (p out : Point3D K) (u u1 : ℕ → K) (h : ∀ j, j < 3 → u j = u1 j) :
    update_point false p u out = update_point false p u1 out := by
  rw [update_point_eq, update_point_eq, h 0 (by norm_num), h 1 (by norm_num), h 2 (by norm_num)]

/-- C24: the result of `compute_reprojection_errors` does not depend on the
order in which the observation indices are processed.  Every arrangement of
the indices `0 .. n-1` gives the vector of the sequential loop (and fails
exactly if the sequential loop fails); a round leaves every position but its
own two as it is; the entries `2i`, `2i+1` of the result are the residual of
observation `i`; and that residual is the same for two inputs that agree on
the observation, on the camera and the point it names, and on the slices
`[9c, 9c+8]` and `[9*|cameras| + 3p, 9*|cameras| + 3p + 2]` of the update
vector. -/
theorem compute_reprojection_errors_order_independent (lm : Libm K) (vector_f : List K)
    (delta : Option (List K)) (cameras : List (Camera K)) (points : List (Point3D K))
    (observations : List (Observation K)) :
    (∀ order : List ℕ, order.Perm (List.range observations.length) →
        order.foldlM (compute_reprojection_errors_step lm delta cameras points observations)
            (if vector_f.length ≠ observations.length * 2
              then resize vector_f (observations.length * 2) else vector_f)
          = compute_reprojection_errors lm vector_f delta cameras points observations)
      ∧ (∀ (v w : List K) (j k : ℕ),
          compute_reprojection_errors_step lm delta cameras points observations v j = some w →
          k ≠ j * 2 → k ≠ j * 2 + 1 → w[k]? = v[k]?)
      ∧ (∀ F, compute_reprojection_errors lm vector_f delta cameras points observations = some F →
          F.length = observations.length * 2
            ∧ ∀ i o, observations[i]? = some o →
              ∃ r, observation_residual lm delta cameras points o = some r
                ∧ F[i * 2]? = some r.1 ∧ F[i * 2 + 1]? = some r.2)
      ∧ (∀ (o : Observation K) (cameras1 : List (Camera K)) (points1 : List (Point3D K)),
          cameras[o.camera_id]? = cameras1[o.camera_id]? →
          points[o.point_id]? = points1[o.point_id]? →
          observation_residual lm none cameras points o
            = observation_residual lm none cameras1 points1 o)
      ∧ (∀ (o : Observation K) (cameras1 : List (Camera K)) (points1 : List (Point3D K))
          (d d1 : List K),
          cameras[o.camera_id]? = cameras1[o.camera_id]? →
          points[o.point_id]? = points1[o.point_id]? →
          9 * o.camera_id + 9 ≤ d.length → 9 * o.camera_id + 9 ≤ d1.length →
          9 * cameras.length + 3 * o.point_id + 3 ≤ d.length →
          9 * cameras1.length + 3 * o.point_id + 3 ≤ d1.length →
          (∀ j, j < 9 → d.getD (9 * o.camera_id + j) 0 = d1.getD (9 * o.camera_id + j) 0) →
          (∀ j, j < 3 → d.getD (9 * cameras.length + 3 * o.point_id + j) 0
            = d1.getD (9 * cameras1.length + 3 * o.point_id + j) 0) →
          observation_residual lm (some d) cameras points o
            = observation_residual lm (some d1) cameras1 points1 o) := by
  refine ⟨?_, ?_, ?_, ?_, ?_⟩
  · intro order hperm
    exact compute_reprojection_errors_fold_perm lm delta cameras points observations _ _ hperm _
  · intro v w j k h hk1 hk2
    rw [compute_reprojection_errors_step_eq] at h
    cases hr : observations[j]?.bind (observation_residual lm delta cameras points) with
    | none =>
      rw [hr] at h
      cases h
    | some r =>
      rw [hr, Option.some_bind] at h
      split at h
      · rw [← Option.some.inj h, List.getElem?_set_ne (by omega),
          List.getElem?_set_ne (by omega)]
      · cases h
  · intro F hF
    exact compute_reprojection_errors_entries lm vector_f delta cameras points observations F hF
  · intro o cameras1 points1 hc hp
    simp only [observation_residual, reprojection_operands, hc, hp]
  · intro o cameras1 points1 d d1 hc hp h1 h2 h3 h4 hd9 hd3
    have e1 : ptr? d (o.camera_id * num_cam_params) 9 = some (ptr d (9 * o.camera_id)) := by
      simp only [ptr?, num_cam_params]
      rw [if_pos (by omega), Nat.mul_comm]
    have e2 : ptr? d1 (o.camera_id * num_cam_params) 9 = some (ptr d1 (9 * o.camera_id)) := by
      simp only [ptr?, num_cam_params]
      rw [if_pos (by omega), Nat.mul_comm]
    have e3 : ptr? d (o.point_id * 3 + cameras.length * num_cam_params) 3
        = some (ptr d (9 * cameras.length + 3 * o.point_id)) := by
      have e : o.point_id * 3 + cameras.length * num_cam_params
          = 9 * cameras.length + 3 * o.point_id := by
        simp only [num_cam_params]
        omega
      rw [e]
      simp only [ptr?]
      rw [if_pos (by omega)]
    have e4 : ptr? d1 (o.point_id * 3 + cameras1.length * num_cam_params) 3
        = some (ptr d1 (9 * cameras1.length + 3 * o.point_id)) := by
      have e : o.point_id * 3 + cameras1.length * num_cam_params
          = 9 * cameras1.length + 3 * o.point_id := by
        simp only [num_cam_params]
        omega
      rw [e]
      simp only [ptr?]
      rw [if_pos (by omega)]
    simp only [observation_residual, reprojection_operands, ← hc, ← hp, e1, e2, e3, e4]
    cases points[o.point_id]? with
    | none => rfl
    | some p =>
      cases cameras[o.camera_id]? with
      | none => rfl
      | some cam =>
        simp only []
        rw [update_camera_congr lm cam Camera.fresh (ptr d (9 * o.camera_id))
            (ptr d1 (9 * o.camera_id)) (fun j hj => hd9 j hj),
          update_point_congr p Point3D.fresh (ptr d (9 * cameras.length + 3 * o.point_id))
            (ptr d1 (9 * cameras1.length + 3 * o.point_id)) (fun j hj => hd3 j hj)]

end Order2

section Ranges

variable {K : Type} [LinearOrderedField K]

/-- C28: if every observation names an existing camera and an existing point
and the update vector has `9*|cameras| + 3*|points|` entries, then
`compute_reprojection_errors` (with and without the update vector),
`update_parameters` and `analytic_jacobian` return, which they do only if no
access left its range, and the indices they use are in range: the cameras and
points looked up exist, the positions `2i` and `2i+1` lie in the residual
vector, the slices `[9c, 9c+8]` and `[9*|cameras| + 3p, 9*|cameras| + 3p + 2]`
lie in the update vector, and every triplet pushed lies inside the shape the
Jacobian is allocated with. -/
theorem indices_in_range (lm : Libm K) (vector_f delta_x : List K) (cameras : List (Camera K))
    (points : List (Point3D K)) (observations : List (Observation K))
    (hin : ∀ o ∈ observations, o.camera_id < cameras.length ∧ o.point_id < points.length)
    (hd : delta_x.length = 9 * cameras.length + 3 * points.length) :
    (∃ F, compute_reprojection_errors lm vector_f (some delta_x) cameras points observations
        = some F ∧ F.length = observations.length * 2)
      ∧ (∃ F, compute_reprojection_errors lm vector_f none cameras points observations = some F
          ∧ F.length = observations.length * 2)
      ∧ (∃ cameras1 points1, update_parameters lm delta_x cameras points = some (cameras1, points1)
          ∧ cameras1.length = cameras.length ∧ points1.length = points.length)
      ∧ (∃ ct pt Jc Jp, analytic_jacobian_triplets cameras points observations = .ok (ct, pt)
          ∧ analytic_jacobian cameras points observations = .ok (Jc, Jp)
          ∧ Jc.rows = 2 * observations.length ∧ Jc.cols = 9 * cameras.length
          ∧ Jp.rows = 2 * observations.length ∧ Jp.cols = 3 * points.length
          ∧ (∀ t ∈ ct, t.row < Jc.rows ∧ t.col < Jc.cols)
          ∧ (∀ t ∈ pt, t.row < Jp.rows ∧ t.col < Jp.cols))
      ∧ (∀ i o, observations[i]? = some o →
          (∃ cam, cameras[o.camera_id]? = some cam) ∧ (∃ p, points[o.point_id]? = some p)
            ∧ i * 2 + 1 < observations.length * 2
            ∧ ptr? delta_x (o.camera_id * num_cam_params) 9
                = some (ptr delta_x (o.camera_id * num_cam_params))
            ∧ ptr? delta_x (o.point_id * 3 + cameras.length * num_cam_params) 3
                = some (ptr delta_x (o.point_id * 3 + cameras.length * num_cam_params)))
      ∧ (∀ i, i < cameras.length →
          ptr? delta_x (num_cam_params * i) 9 = some (ptr delta_x (num_cam_params * i)))
      ∧ (∀ i, i < points.length →
          ptr? delta_x (cameras.length * num_cam_params + i * 3) 3
            = some (ptr delta_x (cameras.length * num_cam_params + i * 3))) := by
  refine ⟨?_, ?_, ?_, ?_, ?_, ?_, ?_⟩
  · exact compute_reprojection_errors_returns lm vector_f (some delta_x) cameras points
      observations hin (fun d hdd => by rw [← Option.some.inj hdd]; exact hd)
  · exact compute_reprojection_errors_returns lm vector_f none cameras points observations hin
      (fun d hdd => by cases hdd)
  · obtain ⟨c1, p1, h, hl1, hl2, -⟩ := update_parameters_eq lm delta_x cameras points hd
    exact ⟨c1, p1, h, hl1, hl2⟩
  · obtain ⟨ct, pt, Jc, Jp, -, -, ht, hJ, hr1, hc1, hr2, hc2, -, -, hcm, hpm, -⟩ :=
      analytic_jacobian_ok cameras points observations hin
    refine ⟨ct, pt, Jc, Jp, ht, hJ, hr1, hc1, hr2, hc2, ?_, ?_⟩
    · intro t htm
      obtain ⟨i, o, cam, p, hi, -, hc, -, j, h⟩ := (hcm t).mp htm
      have hlt := (List.getElem?_eq_some.mp hc).1
      have hj := j.isLt
      rcases h with rfl | rfl
      · exact ⟨by show i * 2 < Jc.rows; omega, by show o.camera_id * 9 + j.val < Jc.cols; omega⟩
      · exact ⟨by show i * 2 + 1 < Jc.rows; omega,
          by show o.camera_id * 9 + j.val < Jc.cols; omega⟩
    · intro t htm
      obtain ⟨i, o, cam, p, hi, -, -, hp, j, h⟩ := (hpm t).mp htm
      have hlt := (List.getElem?_eq_some.mp hp).1
      have hj := j.isLt
      rcases h with rfl | rfl
      · exact ⟨by show i * 2 < Jp.rows; omega, by show o.point_id * 3 + j.val < Jp.cols; omega⟩
      · exact ⟨by show i * 2 + 1 < Jp.rows; omega,
          by show o.point_id * 3 + j.val < Jp.cols; omega⟩
  · intro i o hio
    obtain ⟨h1, h2⟩ := hin o (List.getElem?_mem hio)
    have hi := (List.getElem?_eq_some.mp hio).1
    refine ⟨⟨_, List.getElem?_eq_getElem h1⟩, ⟨_, List.getElem?_eq_getElem h2⟩, by omega, ?_, ?_⟩
    · simp only [ptr?, num_cam_params]
      rw [if_pos (by omega)]
    · simp only [ptr?, num_cam_params]
      rw [if_pos (by omega)]
  · intro i hi
    simp only [ptr?, num_cam_params]
    rw [if_pos (by omega)]
  · intro i hi
    simp only [ptr?, num_cam_params]
    rw [if_pos (by omega)]

end Ranges

section Walk

variable {K : Type} [LinearOrderedField K]

/-- The value array holds one value per stored entry. -/
theorem values_length (A : SparseMatrix K) : A.values.length = A.num_non_zero := by
  unfold SparseMatrix.values SparseMatrix.num_non_zero
  rw [List.length_flatMap]
  congr 1
  apply List.map_congr_left
  intro c _
  simp only [Function.comp_apply, List.length_map]

/-- A list of `m * len` values is the sequence of its `m` blocks of `len`
values. -/
theorem eq_flatMap_blocks {α : Type} (len : ℕ) :
    ∀ (m : ℕ) (v : List α), v.length = m * len →
      v = (List.range m).flatMap (fun b => (v.drop (b * len)).take len) := by
  intro m
  induction m with
  | zero =>
    intro v hv
    have : v.length = 0 := by simpa using hv
    rw [List.length_eq_zero.mp this]
    rfl
  | succ m ih =>
    intro v hv
    have hd : (v.drop len).length = m * len := by
      rw [List.length_drop, hv]
      have : (m + 1) * len = m * len + len := by ring
      omega
    have h := ih (v.drop len) hd
    rw [List.range_succ_eq_map, List.flatMap_cons, List.flatMap_map]
    simp only [Nat.zero_mul, List.drop_zero]
    have e : (fun b => (v.drop (Nat.succ b * len)).take len)
        = (fun b => ((v.drop len).drop (b * len)).take len) := by
      funext b
      rw [List.drop_drop]
      congr 2
      rw [Nat.succ_mul]
      omega
    rw [e, ← h, List.take_append_drop]

/-- The block walk over an array of whole blocks visits every block once and
ends at the end of the array. -/
theorem block_walk_whole (len : ℕ) (hlen : 0 < len) (f : List K → List K) (m : ℕ) (v : List K)
    (hv : v.length = m * len) :
    block_walk len f v.length v
      = some ((List.range m).flatMap (fun b => f ((v.drop (b * len)).take len))) := by
  have h := block_walk_flatMap len f hlen (List.range m)
    (fun b => (v.drop (b * len)).take len)
    (fun b hb => by
      have hb' := List.mem_range.mp hb
      rw [List.length_take, List.length_drop, hv]
      have : (b + 1) * len ≤ m * len := Nat.mul_le_mul_right len hb'
      have : (b + 1) * len = b * len + len := by ring
      omega)
    v.length (by rw [List.length_range, hv]; nlinarith)
  rw [← eq_flatMap_blocks len m v hv] at h
  exact h

/-- The block walk over an array that does not consist of whole blocks leaves
the array. -/
theorem block_walk_overrun (len : ℕ) (f : List K → List K) :
    ∀ (fuel : ℕ) (v : List K), ¬ len ∣ v.length → block_walk len f fuel v = none := by
  intro fuel
  induction fuel with
  | zero =>
    intro v hv
    cases v with
    | nil => exact absurd (dvd_zero len) hv
    | cons a v => rfl
  | succ fuel ih =>
    intro v hv
    cases v with
    | nil => exact absurd (dvd_zero len) hv
    | cons a v =>
      unfold block_walk
      by_cases hc : (a :: v).length < len ∨ len = 0
      · rw [if_pos hc]
      · rw [if_neg hc]
        have hle : len ≤ (a :: v).length := by omega
        have hnd : ¬ len ∣ ((a :: v).drop len).length := by
          rw [List.length_drop]
          intro hdvd
          apply hv
          have := Nat.dvd_add hdvd (dvd_refl len)
          rwa [Nat.sub_add_cancel hle] at this
        rw [ih _ hnd]
        rfl

/-- The array of `rows * blocksize` values consists of whole blocks of
`blocksize * blocksize` values exactly if `blocksize` divides `rows`. -/
theorem block_dvd_iff (rows bs : ℕ) (hbs : 0 < bs) : bs * bs ∣ rows * bs ↔ bs ∣ rows :=
  Nat.mul_dvd_mul_iff_right hbs

/-- C29 (amended): for a matrix that passes the two structural checks (square,
number of stored entries `rows * blocksize`) and whose number of rows is a
multiple of the block size, the array holds `rows / blocksize` whole blocks of
`blocksize * blocksize` values, the walk visits each of them once, in order,
and ends at the end of the array, so both inversions return.  If the number
of rows is not a multiple of the block size the walk leaves the array and
neither function returns. -/
theorem block_walk_whole_blocks (eps : K) (cholesky_invert_inplace : List K → ℕ → List K)
    (isfinite : K → Bool) (A : SparseMatrix K) (blocksize : ℕ) (hbs : 0 < blocksize)
    (hsq : A.rows = A.cols) (hnz : A.num_non_zero = A.rows * blocksize) :
    (blocksize ∣ A.rows →
        A.values.length = A.rows / blocksize * (blocksize * blocksize)
        ∧ ∀ f : List K → List K,
          block_walk (blocksize * blocksize) f A.values.length A.values
            = some ((List.range (A.rows / blocksize)).flatMap
                (fun b => f ((A.values.drop (b * (blocksize * blocksize))).take
                  (blocksize * blocksize)))))
      ∧ (¬ blocksize ∣ A.rows →
          ∀ (f : List K → List K) (fuel : ℕ),
            block_walk (blocksize * blocksize) f fuel A.values = none)
      ∧ ((∃ P, invert_block_matrix_NxN_inplace cholesky_invert_inplace isfinite A blocksize
            = .ok P) ↔ blocksize ∣ A.rows)
      ∧ (blocksize = 3 →
          ((∃ C, invert_block_matrix_3x3_inplace eps A = .ok C) ↔ 3 ∣ A.rows)) := by
  have hlen : A.values.length = A.rows * blocksize := by rw [values_length, hnz]
  have hwhole : blocksize ∣ A.rows →
      A.values.length = A.rows / blocksize * (blocksize * blocksize) := by
    intro hd
    obtain ⟨k, hk⟩ := hd
    rw [hlen, hk, Nat.mul_div_cancel_left k hbs]
    ring
  have hover : ¬ blocksize ∣ A.rows → ¬ blocksize * blocksize ∣ A.values.length := by
    intro hd
    rw [hlen, block_dvd_iff A.rows blocksize hbs]
    exact hd
  have hpos : 0 < blocksize * blocksize := Nat.mul_pos hbs hbs
  refine ⟨?_, ?_, ?_, ?_⟩
  · intro hd
    exact ⟨hwhole hd, fun f => block_walk_whole _ hpos f _ _ (hwhole hd)⟩
  · intro hd f fuel
    exact block_walk_overrun _ f fuel _ (hover hd)
  · unfold invert_block_matrix_NxN_inplace
    rw [if_neg (by rw [hsq]; simp), if_neg (by rw [hnz]; simp)]
    by_cases hd : blocksize ∣ A.rows
    · rw [block_walk_whole _ hpos _ _ _ (hwhole hd)]
      exact ⟨fun _ => hd, fun _ => ⟨_, rfl⟩⟩
    · rw [block_walk_overrun _ _ _ _ (hover hd)]
      constructor
      · rintro ⟨P, hP⟩
        cases hP
      · intro h
        exact absurd h hd
  · intro h3
    subst h3
    unfold invert_block_matrix_3x3_inplace
    rw [if_neg (by rw [hsq]; simp), if_neg (by rw [hnz]; simp)]
    by_cases hd : 3 ∣ A.rows
    · rw [block_walk_whole 9 (by norm_num) _ _ _ (hwhole hd)]
      exact ⟨fun _ => hd, fun _ => ⟨_, rfl⟩⟩
    · rw [block_walk_overrun 9 _ _ _ (hover hd)]
      constructor
      · rintro ⟨P, hP⟩
        cases hP
      · intro h
        exact absurd h hd

end Walk

section Commit

variable {K : Type} [Field K] [DecidableEq K]

/-- The pointer checks of `update_parameters` read back from a call that
returned: the update vector covers the slices of all cameras and points. -/
theorem update_parameters_bound (lm : Libm K) (delta_x : List K) (cameras : List (Camera K))
    (points : List (Point3D K)) (r : List (Camera K) × List (Point3D K))
    (h : update_parameters lm delta_x cameras points = some r) :
    9 * cameras.length + 3 * points.length ≤ delta_x.length := by
  have hA : 9 * cameras.length ≤ delta_x.length := by
    by_contra hlt
    have hn : 0 < cameras.length := by omega
    have hf : ∀ s, update_parameters_cam_step lm delta_x s (cameras.length - 1) = none := by
      intro s
      have hp : ptr? delta_x (num_cam_params * (cameras.length - 1)) 9 = none := by
        simp only [ptr?, num_cam_params]
        rw [if_neg (by omega)]
      simp only [update_parameters_cam_step, hp]
      cases s.1[cameras.length - 1]? <;> rfl
    have hnone := foldlM_none_of_mem (update_parameters_cam_step lm delta_x)
      (cameras.length - 1) hf (List.range cameras.length) (List.mem_range.mpr (by omega))
      (cameras, 0)
    simp only [update_parameters, hnone] at h
    cases h
  obtain ⟨rc, hrc, -, -, -, ht⟩ := update_parameters_cam_loop lm delta_x cameras hA
    cameras.length le_rfl
  have ht' : rc.2 = 9 * cameras.length := by
    rw [ht]
    split <;> omega
  by_contra hlt
  have hm : 0 < points.length := by omega
  have hf : ∀ s, update_parameters_point_step delta_x rc.2 s (points.length - 1) = none := by
    intro s
    have hp : ptr? delta_x (rc.2 + (points.length - 1) * 3) 3 = none := by
      simp only [ptr?]
      rw [if_neg (by omega)]
    simp only [update_parameters_point_step, hp]
    cases s[points.length - 1]? <;> rfl
  have hnone := foldlM_none_of_mem (update_parameters_point_step delta_x rc.2)
    (points.length - 1) hf (List.range points.length) (List.mem_range.mpr (by omega)) points
  simp only [update_parameters, hrc, hnone] at h
  cases h

/-- `update_parameters` with an update vector that covers all slices: camera
`c` is updated with `delta_x[9c .. 9c+8]`, point `p` with
`delta_x[9*|cameras| + 3p .. +2]`. -/
theorem update_parameters_eq_of_le (lm : Libm K) (delta_x : List K) (cameras : List (Camera K))
    (points : List (Point3D K))
    (hd : 9 * cameras.length + 3 * points.length ≤ delta_x.length) :
    ∃ cameras1 points1, update_parameters lm delta_x cameras points = some (cameras1, points1)
      ∧ cameras1.length = cameras.length ∧ points1.length = points.length
      ∧ (∀ i c, cameras[i]? = some c →
          cameras1[i]? = some (update_camera lm true c (ptr delta_x (9 * i)) c))
      ∧ (∀ i p, points[i]? = some p →
          points1[i]? = some (update_point true p
            (ptr delta_x (9 * cameras.length + 3 * i)) p)) := by
  obtain ⟨rc, hrc, hlc, hc, -, ht⟩ := update_parameters_cam_loop lm delta_x cameras
    (by omega) cameras.length le_rfl
  have ht' : rc.2 = 9 * cameras.length := by
    rw [ht]
    split <;> omega
  obtain ⟨rp, hrp, hlp, hp, -⟩ := update_parameters_point_loop delta_x rc.2 points
    (by omega) points.length le_rfl
  refine ⟨rc.1, rp, ?_, hlc, hlp, ?_, ?_⟩
  · simp only [update_parameters, hrc, hrp]
  · intro i c hi
    exact hc i c (List.getElem?_eq_some.mp hi).1 hi
  · intro i p hi
    have := hp i p (List.getElem?_eq_some.mp hi).1 hi
    rw [this, ht', Nat.mul_comm i 3]

/-- The residual of one observation evaluated with an update vector on the
original lists is its residual evaluated without one on the updated lists,
for an update vector that covers all slices. -/
theorem observation_residual_update_of_le (lm : Libm K) (delta_x : List K)
    (cameras cameras1 : List (Camera K)) (points points1 : List (Point3D K))
    (hd : 9 * cameras.length + 3 * points.length ≤ delta_x.length)
    (hc : ∀ i c, cameras[i]? = some c →
      cameras1[i]? = some (update_camera lm true c (ptr delta_x (9 * i)) c))
    (hp : ∀ i p, points[i]? = some p →
      points1[i]? = some (update_point true p (ptr delta_x (9 * cameras.length + 3 * i)) p))
    (o : Observation K) (hoc : o.camera_id < cameras.length) (hop : o.point_id < points.length) :
    observation_residual lm (some delta_x) cameras points o
      = observation_residual lm none cameras1 points1 o := by
  have h1 := List.getElem?_eq_getElem hoc
  have h2 := List.getElem?_eq_getElem hop
  have e1 : ptr? delta_x (o.camera_id * num_cam_params) 9
      = some (ptr delta_x (9 * o.camera_id)) := by
    simp only [ptr?, num_cam_params]
    rw [if_pos (by omega), Nat.mul_comm]
  have e2 : ptr? delta_x (o.point_id * 3 + cameras.length * num_cam_params) 3
      = some (ptr delta_x (9 * cameras.length + 3 * o.point_id)) := by
    have e : o.point_id * 3 + cameras.length * num_cam_params
        = 9 * cameras.length + 3 * o.point_id := by
      simp only [num_cam_params]
      omega
    rw [e]
    simp only [ptr?]
    rw [if_pos (by omega)]
  rw [observation_residual_none lm cameras1 points1 o _ _ (hc _ _ h1) (hp _ _ h2)]
  simp only [observation_residual, reprojection_operands, h1, h2, e1, e2]
  rw [update_camera_eq, update_camera_eq_aliased, update_point_eq, update_point_eq_aliased]

/-- An observation that has a residual names an existing camera and an
existing point. -/
theorem observation_residual_in_range (lm : Libm K) (delta : Option (List K))
    (cameras : List (Camera K)) (points : List (Point3D K)) (o : Observation K)
    (h : (observation_residual lm delta cameras points o).isSome) :
    o.camera_id < cameras.length ∧ o.point_id < points.length := by
  unfold observation_residual reprojection_operands at h
  by_cases hc : o.camera_id < cameras.length
  · by_cases hp : o.point_id < points.length
    · exact ⟨hc, hp⟩
    · rw [List.getElem?_eq_none (by omega)] at h
      simp at h
  · rw [List.getElem?_eq_none (show cameras.length ≤ o.camera_id by omega)] at h
    cases hpo : points[o.point_id]? with
    | none =>
      rw [hpo] at h
      simp at h
    | some p =>
      rw [hpo] at h
      simp at h

/-- The residual vector is determined by the residuals of the observations:
two calls whose observations have the same residuals return the same, whatever
their output vectors held at entry. -/
theorem compute_reprojection_errors_congr (lm : Libm K) (v w : List K)
    (delta delta1 : Option (List K)) (cameras cameras1 : List (Camera K))
    (points points1 : List (Point3D K)) (observations : List (Observation K)) (F : List K)
    (heq : ∀ o ∈ observations, observation_residual lm delta cameras points o
      = observation_residual lm delta1 cameras1 points1 o)
    (h : compute_reprojection_errors lm v delta cameras points observations = some F) :
    compute_reprojection_errors lm w delta1 cameras1 points1 observations = some F := by
  have hres := compute_reprojection_errors_some lm v delta cameras points observations F h
  have hres1 : ∀ o ∈ observations,
      (observation_residual lm delta1 cameras1 points1 o).isSome := by
    intro o ho
    rw [← heq o ho]
    exact hres o ho
  obtain ⟨hFlen, hFi⟩ := compute_reprojection_errors_entries lm v delta cameras points
    observations F h
  have hlen : (if w.length ≠ observations.length * 2
      then resize w (observations.length * 2) else w).length = observations.length * 2 := by
    split
    · exact resize_length _ _
    · rename_i hh
      exact not_not.mp hh
  obtain ⟨G, hG, hGlen, hGi, -⟩ := compute_reprojection_errors_loop lm delta1 cameras1 points1
    observations _ hlen hres1 observations.length le_rfl
  have hFG : G = F := by
    apply List.ext_getElem?
    intro k
    by_cases hk : k < observations.length * 2
    · obtain ⟨o', r', ho', hr', h1', h2'⟩ := hGi (k / 2) (by omega)
      obtain ⟨r, hr, h1, h2⟩ := hFi (k / 2) o' ho'
      have hrr : r' = r := by
        rw [heq o' (List.getElem?_mem ho')] at hr
        exact Option.some.inj (hr'.symm.trans hr)
      subst hrr
      rcases Nat.mod_two_eq_zero_or_one k with hm | hm
      · have : k = k / 2 * 2 := by omega
        rw [this, h1, h1']
      · have : k = k / 2 * 2 + 1 := by omega
        rw [this, h2, h2']
    · rw [List.getElem?_eq_none (by omega), List.getElem?_eq_none (by omega)]
  rw [← hFG]
  exact hG

/-- The trial residual is the residual of the committed parameters: if
`update_parameters` returns the updated lists and the evaluation with the
update vector on the original lists returns `F`, the evaluation without an
update vector on the updated lists returns `F` too. -/
theorem trial_residual_committed (lm : Libm K) (v w delta_x : List K)
    (cameras cameras1 : List (Camera K)) (points points1 : List (Point3D K))
    (observations : List (Observation K)) (F : List K)
    (hup : update_parameters lm delta_x cameras points = some (cameras1, points1))
    (h : compute_reprojection_errors lm v (some delta_x) cameras points observations = some F) :
    compute_reprojection_errors lm w none cameras1 points1 observations = some F
      ∧ cameras1.length = cameras.length ∧ points1.length = points.length := by
  have hd := update_parameters_bound lm delta_x cameras points _ hup
  obtain ⟨c1, p1, hup1, hlc, hlp, hc, hp⟩ :=
    update_parameters_eq_of_le lm delta_x cameras points hd
  rw [hup] at hup1
  have e := Option.some.inj hup1
  have ec : cameras1 = c1 := congrArg Prod.fst e
  have ep : points1 = p1 := congrArg Prod.snd e
  subst ec
  subst ep
  have hres := compute_reprojection_errors_some lm v (some delta_x) cameras points observations
    F h
  refine ⟨compute_reprojection_errors_congr lm v w (some delta_x) none cameras cameras1 points
    points1 observations F ?_ h, hlc, hlp⟩
  intro o ho
  obtain ⟨h1, h2⟩ := observation_residual_in_range lm _ cameras points o (hres o ho)
  exact observation_residual_update_of_le lm delta_x cameras cameras1 points points1 hd hc hp o
    h1 h2

end Commit

section Controller2

variable {K : Type} [LinearOrderedField K]

/-- A property of the loop state that every iteration keeps holds at the head
of every iteration of a run, after it and when the loop is left. -/
theorem lm_loop_invariant (env : LMEnv K) (g : LMGlobals K)
    (observations : List (Observation K)) (P : LMState K → Prop)
    (hstep : ∀ st it, P st → lm_iteration env g observations st = .ok it → P it.after)
    (fuel : ℕ) :
    ∀ (lm_iter : ℕ) (st : LMState K) (run : LMRun K),
      lm_loop env g observations fuel lm_iter st = .ok run → P st →
      (∀ it ∈ run.iterations, P it.before ∧ P it.after) ∧ P run.final := by
  induction fuel with
  | zero =>
    intro lm_iter st run h hP
    rcases lm_loop_inv env g observations 0 lm_iter st run h with
      ⟨-, rfl⟩ | ⟨-, it, hit, ⟨-, rfl⟩ | ⟨-, -, rfl⟩ | ⟨-, -, fuel1, run1, hf, -, -⟩⟩
    · exact ⟨fun it hit => (by cases hit), hP⟩
    · obtain ⟨-, -, -, -, -, -, -, -, -, -, hb, -⟩ := lm_iteration_inv env g observations st it hit
      refine ⟨fun it1 h1 => ?_, hstep st it hP hit⟩
      rw [List.mem_singleton.mp h1, hb]
      exact ⟨hP, hstep st it hP hit⟩
    · obtain ⟨-, -, -, -, -, -, -, -, -, -, hb, -⟩ := lm_iteration_inv env g observations st it hit
      refine ⟨fun it1 h1 => ?_, hstep st it hP hit⟩
      rw [List.mem_singleton.mp h1, hb]
      exact ⟨hP, hstep st it hP hit⟩
    · omega
  | succ fuel ih =>
    intro lm_iter st run h hP
    rcases lm_loop_inv env g observations (fuel + 1) lm_iter st run h with
      ⟨-, rfl⟩ | ⟨-, it, hit, ⟨-, rfl⟩ | ⟨-, -, rfl⟩ | ⟨-, -, fuel1, run1, hf, hrun1, rfl⟩⟩
    · exact ⟨fun it hit => (by cases hit), hP⟩
    · obtain ⟨-, -, -, -, -, -, -, -, -, -, hb, -⟩ := lm_iteration_inv env g observations st it hit
      refine ⟨fun it1 h1 => ?_, hstep st it hP hit⟩
      rw [List.mem_singleton.mp h1, hb]
      exact ⟨hP, hstep st it hP hit⟩
    · obtain ⟨-, -, -, -, -, -, -, -, -, -, hb, -⟩ := lm_iteration_inv env g observations st it hit
      refine ⟨fun it1 h1 => ?_, hstep st it hP hit⟩
      rw [List.mem_singleton.mp h1, hb]
      exact ⟨hP, hstep st it hP hit⟩
    · have hf1 : fuel = fuel1 := by omega
      subst hf1
      obtain ⟨-, -, -, -, -, -, -, -, -, -, hb, -⟩ := lm_iteration_inv env g observations st it hit
      obtain ⟨h1, h2⟩ := ih (lm_iter + 1) it.after run1 hrun1 (hstep st it hP hit)
      refine ⟨fun it1 hm => ?_, h2⟩
      rcases List.mem_cons.mp hm with rfl | hm'
      · rw [hb]
        exact ⟨hP, hstep st it1 hP hit⟩
      · exact h1 it1 hm'

/-- What an iteration does to the three counters: `num_lm_iterations` and
exactly one of the two others grow by one. -/
theorem lm_iteration_counters (env : LMEnv K) (g : LMGlobals K)
    (observations : List (Observation K)) (st : LMState K) (it : LMIteration K)
    (h : lm_iteration env g observations st = .ok it) :
    it.after.num_lm_iterations = st.num_lm_iterations + 1
      ∧ it.after.num_lm_successful_iterations
          = st.num_lm_successful_iterations + (if it.successful then 1 else 0)
      ∧ it.after.num_lm_unsuccessful_iterations
          = st.num_lm_unsuccessful_iterations + (if it.successful then 0 else 1) := by
  obtain ⟨Jc, Jp, status, Fn, dm, dr, -, -, -, hup, -, -⟩ :=
    lm_iteration_inv env g observations st it h
  cases hd : Extended.lt (.finite 0) dm with
  | true =>
    obtain ⟨cams, pts, -, hs, -, -, -, -, -, -, -, h1, h2, h3⟩ :=
      lm_update_success _ _ _ _ _ _ _ _ hup hd
    have hs' : it.successful = true := hs
    rw [hs']
    refine ⟨h1, ?_, ?_⟩
    · rw [h2]
      rfl
    · rw [h3]
      simp
  | false =>
    rw [lm_update_failure _ _ _ _ _ _ _ hd] at hup
    have e := Except.ok.inj hup
    have e1 : it.after = _ := (congrArg (fun r => r.1) e).symm
    have e2 : it.successful = false := (congrArg (fun r => r.2.1) e).symm
    rw [e2, e1]
    simp

/-- The counters at the end of a run of the loop: the values at its start plus
the number of iterations, of successful and of unsuccessful iterations. -/
theorem lm_loop_counters (env : LMEnv K) (g : LMGlobals K)
    (observations : List (Observation K)) (fuel : ℕ) :
    ∀ (lm_iter : ℕ) (st : LMState K) (run : LMRun K),
      lm_loop env g observations fuel lm_iter st = .ok run →
      run.final.num_lm_iterations = st.num_lm_iterations + run.iterations.length
        ∧ run.final.num_lm_successful_iterations = st.num_lm_successful_iterations
            + (run.iterations.filter (fun it => it.successful)).length
        ∧ run.final.num_lm_unsuccessful_iterations = st.num_lm_unsuccessful_iterations
            + (run.iterations.filter (fun it => !it.successful)).length := by
  have single : ∀ (st : LMState K) (it : LMIteration K),
      lm_iteration env g observations st = .ok it →
      it.after.num_lm_iterations = st.num_lm_iterations + ([it] : List (LMIteration K)).length
        ∧ it.after.num_lm_successful_iterations = st.num_lm_successful_iterations
            + (([it] : List (LMIteration K)).filter (fun it => it.successful)).length
        ∧ it.after.num_lm_unsuccessful_iterations = st.num_lm_unsuccessful_iterations
            + (([it] : List (LMIteration K)).filter (fun it => !it.successful)).length := by
    intro st it hit
    obtain ⟨h1, h2, h3⟩ := lm_iteration_counters env g observations st it hit
    refine ⟨by rw [h1]; rfl, ?_, ?_⟩
    · rw [h2]
      cases hs : it.successful <;> simp [hs]
    · rw [h3]
      cases hs : it.successful <;> simp [hs]
  induction fuel with
  | zero =>
    intro lm_iter st run h
    rcases lm_loop_inv env g observations 0 lm_iter st run h with
      ⟨-, rfl⟩ | ⟨-, it, hit, ⟨-, rfl⟩ | ⟨-, -, rfl⟩ | ⟨-, -, fuel1, run1, hf, -, -⟩⟩
    · simp
    · exact single st it hit
    · exact single st it hit
    · omega
  | succ fuel ih =>
    intro lm_iter st run h
    rcases lm_loop_inv env g observations (fuel + 1) lm_iter st run h with
      ⟨-, rfl⟩ | ⟨-, it, hit, ⟨-, rfl⟩ | ⟨-, -, rfl⟩ | ⟨-, -, fuel1, run1, hf, hrun1, rfl⟩⟩
    · simp
    · exact single st it hit
    · exact single st it hit
    · have hf1 : fuel = fuel1 := by omega
      subst hf1
      obtain ⟨h1, h2, h3⟩ := lm_iteration_counters env g observations st it hit
      obtain ⟨k1, k2, k3⟩ := ih (lm_iter + 1) it.after run1 hrun1
      refine ⟨?_, ?_, ?_⟩
      · show run1.final.num_lm_iterations = _
        rw [k1, h1, List.length_cons]
        push_cast
        ring
      · show run1.final.num_lm_successful_iterations = _
        rw [k2, h2]
        cases hs : it.successful <;> simp [hs] <;> ring
      · show run1.final.num_lm_unsuccessful_iterations = _
        rw [k3, h3]
        cases hs : it.successful <;> simp [hs] <;> ring

/-- The camera and the point an observation is projected with, with an update
vector on the original lists, are those it is projected with on the updated
lists without one, for an update vector that covers all slices. -/
theorem reprojection_operands_update_of_le (lm : Libm K) (delta_x : List K)
    (cameras cameras1 : List (Camera K)) (points points1 : List (Point3D K))
    (hd : 9 * cameras.length + 3 * points.length ≤ delta_x.length)
    (hc : ∀ i c, cameras[i]? = some c →
      cameras1[i]? = some (update_camera lm true c (ptr delta_x (9 * i)) c))
    (hp : ∀ i p, points[i]? = some p →
      points1[i]? = some (update_point true p (ptr delta_x (9 * cameras.length + 3 * i)) p))
    (o : Observation K) (hoc : o.camera_id < cameras.length) (hop : o.point_id < points.length) :
    reprojection_operands lm (some delta_x) cameras points o
      = reprojection_operands lm none cameras1 points1 o := by
  have h1 := List.getElem?_eq_getElem hoc
  have h2 := List.getElem?_eq_getElem hop
  have e1 : ptr? delta_x (o.camera_id * num_cam_params) 9
      = some (ptr delta_x (9 * o.camera_id)) := by
    simp only [ptr?, num_cam_params]
    rw [if_pos (by omega), Nat.mul_comm]
  have e2 : ptr? delta_x (o.point_id * 3 + cameras.length * num_cam_params) 3
      = some (ptr delta_x (9 * cameras.length + 3 * o.point_id)) := by
    have e : o.point_id * 3 + cameras.length * num_cam_params
        = 9 * cameras.length + 3 * o.point_id := by
      simp only [num_cam_params]
      omega
    rw [e]
    simp only [ptr?]
    rw [if_pos (by omega)]
  simp only [reprojection_operands, h1, h2, e1, e2, hc _ _ h1, hp _ _ h2]
  rw [update_camera_eq, update_camera_eq_aliased, update_point_eq, update_point_eq_aliased]

/-- Two tests that agree on the elements of a list hold for one of them
together or not. -/
theorem any_congr_mem {α : Type} (l : List α) (p q : α → Bool) (h : ∀ a ∈ l, p a = q a) :
    l.any p = l.any q := by
  induction l with
  | nil => rfl
  | cons a l ih =>
    simp only [List.any_cons]
    rw [h a (List.mem_cons_self a l), ih (fun b hb => h b (List.mem_cons_of_mem a hb))]

/-- The kind of the values of the trial residual is the kind of the values of
the residual of the committed parameters. -/
theorem residual_kind_committed (lm : Libm K) (v delta_x : List K)
    (cameras cameras1 : List (Camera K)) (points points1 : List (Point3D K))
    (observations : List (Observation K)) (F : List K)
    (hup : update_parameters lm delta_x cameras points = some (cameras1, points1))
    (h : compute_reprojection_errors lm v (some delta_x) cameras points observations = some F) :
    residual_kind lm (some delta_x) cameras points observations
      = residual_kind lm none cameras1 points1 observations := by
  have hd := update_parameters_bound lm delta_x cameras points _ hup
  obtain ⟨c1, p1, hup1, -, -, hc, hp⟩ :=
    update_parameters_eq_of_le lm delta_x cameras points hd
  rw [hup] at hup1
  have e := Option.some.inj hup1
  have ec : cameras1 = c1 := congrArg Prod.fst e
  have ep : points1 = p1 := congrArg Prod.snd e
  subst ec
  subst ep
  have hres := compute_reprojection_errors_some lm v (some delta_x) cameras points observations
    F h
  have hk : ∀ o ∈ observations,
      observation_kind lm (some delta_x) cameras points o
        = observation_kind lm none cameras1 points1 o := by
    intro o ho
    obtain ⟨h1, h2⟩ := observation_residual_in_range lm _ cameras points o (hres o ho)
    simp only [observation_kind, reprojection_operands_update_of_le lm delta_x cameras cameras1
      points points1 hd hc hp o h1 h2]
  unfold residual_kind
  rw [any_congr_mem observations
      (fun obs => decide (observation_kind lm (some delta_x) cameras points obs = Kind.nan))
      (fun obs => decide (observation_kind lm none cameras1 points1 obs = Kind.nan))
      (fun o ho => congrArg (fun k => decide (k = Kind.nan)) (hk o ho)),
    any_congr_mem observations
      (fun obs => decide (observation_kind lm (some delta_x) cameras points obs = Kind.infinite))
      (fun obs => decide (observation_kind lm none cameras1 points1 obs = Kind.infinite))
      (fun o ho => congrArg (fun k => decide (k = Kind.infinite)) (hk o ho))]

/-- An iteration keeps the residual vector and the error those of the cameras
and points, and keeps the lengths of the two lists. -/
theorem lm_iteration_consistent (env : LMEnv K) (g : LMGlobals K)
    (observations : List (Observation K)) (st : LMState K) (it : LMIteration K)
    (hst : st.consistent env.lm observations)
    (h : lm_iteration env g observations st = .ok it) :
    it.after.consistent env.lm observations
      ∧ it.after.cameras.length = st.cameras.length
      ∧ it.after.points.length = st.points.length := by
  obtain ⟨Jc, Jp, status, Fn, dm, dr, -, -, htr, hup, -, -⟩ :=
    lm_iteration_inv env g observations st it h
  obtain ⟨ht1, ht2⟩ := lm_trial_inv _ _ _ _ _ _ _ _ _ htr
  cases hd : Extended.lt (.finite 0) dm with
  | true =>
    obtain ⟨cams, pts, hupd, -, -, hc, hp, hF, -, hcur, -⟩ :=
      lm_update_success _ _ _ _ _ _ _ _ hup hd
    have hsucc : status.success = true := by
      by_contra hf
      have hf' : status.success = false := by simpa using hf
      obtain ⟨-, -, hdm, -⟩ := ht2 hf'
      rw [hdm] at hd
      simp [Extended.lt] at hd
    obtain ⟨hFn, hmse, -, -⟩ := ht1 hsucc
    obtain ⟨hcommit, hl1, hl2⟩ := trial_residual_committed env.lm st.F_new [] it.delta_x
      st.cameras cams st.points pts observations Fn hupd hFn
    have hfinite := residual_kind_committed env.lm st.F_new it.delta_x st.cameras cams
      st.points pts observations Fn hupd hFn
    have hc' : it.after.cameras = cams := hc
    have hp' : it.after.points = pts := hp
    have hF' : it.after.F = Fn := hF
    have hcur' : it.after.current_mse = it.new_mse := hcur
    refine ⟨⟨?_, ?_⟩, ?_, ?_⟩
    · rw [hc', hp', hF']
      exact hcommit
    · rw [hc', hp', hF', hcur', ← hfinite]
      exact hmse.symm
    · rw [hc']
      exact hl1
    · rw [hp']
      exact hl2
  | false =>
    rw [lm_update_failure _ _ _ _ _ _ _ hd] at hup
    have e := Except.ok.inj hup
    have e1 : it.after = _ := (congrArg (fun r => r.1) e).symm
    rw [e1]
    exact ⟨hst, rfl, rfl⟩

end Controller2

section Statistics

variable {K : Type} [LinearOrderedField K]

/-- The state at the first head of the loop of `lm_optimization` is
consistent. -/
theorem lm_optimization_run (env : LMEnv K) (g : LMGlobals K) (cameras : List (Camera K))
    (points : List (Point3D K)) (observations : List (Observation K)) (res : LMResult K)
    (h : lm_optimization env g cameras points observations = .ok res) :
    ∃ st : LMState K,
      lm_loop env g observations (lm_max_iterations - 1) 0 st = .ok res.run
        ∧ st.cameras = cameras ∧ st.points = points
        ∧ st.consistent env.lm observations
        ∧ st.current_mse = res.initial_mse
        ∧ st.trust_region_radius = TRUST_REGION_RADIUS_INIT
        ∧ st.num_lm_iterations = g.num_lm_iterations
        ∧ st.num_lm_successful_iterations = g.num_lm_successful_iterations
        ∧ st.num_lm_unsuccessful_iterations = g.num_lm_unsuccessful_iterations
        ∧ res.final_mse = res.run.final.current_mse := by
  obtain ⟨F, hF, hrun, hi, hf⟩ :=
    lm_optimization_inv env g cameras points observations res h
  exact ⟨_, hrun, rfl, rfl, ⟨hF, rfl⟩, hi.symm, rfl, rfl, rfl, rfl, hf⟩

/-- The successful and the unsuccessful iterations of a run are all its
iterations. -/
theorem filter_successful_length (l : List (LMIteration K)) :
    (l.filter (fun it => it.successful)).length + (l.filter (fun it => !it.successful)).length
      = l.length := by
  induction l with
  | nil => rfl
  | cons it l ih =>
    cases hs : it.successful <;> simp [hs] <;> omega

/-- C25 (amended): when `lm_optimization` returns, `initial_mse` is the mean
squared error of the configuration it was given and `final_mse` that of the
configuration it returns; every iteration has incremented
`num_lm_iterations` and exactly one of the two outcome counters, so the three
counters have grown by the number of iterations of the run, of its successful
and of its unsuccessful ones.  If the counters were zero at entry, as at the
call in `main`, `num_lm_iterations` is the number of iterations of the run and
equals the sum of the two outcome counters. -/
theorem lm_optimization_statistics (env : LMEnv K) (g : LMGlobals K)
    (cameras : List (Camera K)) (points : List (Point3D K))
    (observations : List (Observation K)) (res : LMResult K)
    (h : lm_optimization env g cameras points observations = .ok res) :
    (∃ F, compute_reprojection_errors env.lm [] none cameras points observations = some F
        ∧ residual_mse (residual_kind env.lm none cameras points observations) F
            = res.initial_mse)
      ∧ (∃ F, compute_reprojection_errors env.lm [] none res.run.final.cameras
            res.run.final.points observations = some F
          ∧ residual_mse (residual_kind env.lm none res.run.final.cameras
              res.run.final.points observations) F = res.final_mse)
      ∧ (∀ it ∈ res.run.iterations,
          it.after.num_lm_iterations = it.before.num_lm_iterations + 1
          ∧ it.after.num_lm_successful_iterations
              = it.before.num_lm_successful_iterations + (if it.successful then 1 else 0)
          ∧ it.after.num_lm_unsuccessful_iterations
              = it.before.num_lm_unsuccessful_iterations + (if it.successful then 0 else 1))
      ∧ res.run.final.num_lm_iterations = g.num_lm_iterations + res.run.iterations.length
      ∧ res.run.final.num_lm_successful_iterations = g.num_lm_successful_iterations
          + (res.run.iterations.filter (fun it => it.successful)).length
      ∧ res.run.final.num_lm_unsuccessful_iterations = g.num_lm_unsuccessful_iterations
          + (res.run.iterations.filter (fun it => !it.successful)).length
      ∧ (g.num_lm_iterations = 0 → g.num_lm_successful_iterations = 0 →
          g.num_lm_unsuccessful_iterations = 0 →
          res.run.final.num_lm_iterations = res.run.iterations.length
            ∧ res.run.final.num_lm_iterations = res.run.final.num_lm_successful_iterations
                + res.run.final.num_lm_unsuccessful_iterations) := by
  obtain ⟨st, hrun, hc, hp, hcons, hi, hr, hn, hs, hu, hf⟩ :=
    lm_optimization_run env g cameras points observations res h
  have hpos : (0 : K) < st.trust_region_radius := by
    rw [hr]
    unfold TRUST_REGION_RADIUS_INIT
    norm_num
  obtain ⟨-, -, -, h4, -⟩ := lm_loop_structure env g observations _ _ _ _ hrun hpos
  obtain ⟨-, hfin⟩ := lm_loop_invariant env g observations
    (fun s => s.consistent env.lm observations)
    (fun s it hs hit => (lm_iteration_consistent env g observations s it hs hit).1)
    _ _ _ _ hrun hcons
  obtain ⟨k1, k2, k3⟩ := lm_loop_counters env g observations _ _ _ _ hrun
  rw [hn] at k1
  rw [hs] at k2
  rw [hu] at k3
  refine ⟨⟨st.F, ?_, ?_⟩, ⟨res.run.final.F, hfin.1, ?_⟩, ?_, k1, k2, k3, ?_⟩
  · rw [← hc, ← hp]
    exact hcons.1
  · rw [← hi, ← hc, ← hp]
    exact hcons.2
  · rw [hf]
    exact hfin.2
  · intro it hit
    exact lm_iteration_counters env g observations it.before it (h4 it hit).1
  · intro g1 g2 g3
    rw [g1] at k1
    rw [g2] at k2
    rw [g3] at k3
    have hsum := filter_successful_length res.run.iterations
    refine ⟨by rw [k1]; simp, ?_⟩
    rw [k1, k2, k3]
    simp only [zero_add]
    rw [← hsum]
    push_cast
    ring

end Statistics

section Invariants

variable {K : Type} [LinearOrderedField K]

/-- The states of a run of `lm_optimization`: every iteration starts and ends
in a consistent state whose lists have the lengths of the given lists, and so
does the run. -/
theorem lm_optimization_states (env : LMEnv K) (g : LMGlobals K) (cameras : List (Camera K))
    (points : List (Point3D K)) (observations : List (Observation K)) (res : LMResult K)
    (h : lm_optimization env g cameras points observations = .ok res) :
    (∀ it ∈ res.run.iterations,
        (it.before.consistent env.lm observations
          ∧ it.before.cameras.length = cameras.length ∧ it.before.points.length = points.length)
        ∧ (it.after.consistent env.lm observations
          ∧ it.after.cameras.length = cameras.length ∧ it.after.points.length = points.length))
      ∧ (res.run.final.consistent env.lm observations
          ∧ res.run.final.cameras.length = cameras.length
          ∧ res.run.final.points.length = points.length) := by
  obtain ⟨st, hrun, hc, hp, hcons, -⟩ :=
    lm_optimization_run env g cameras points observations res h
  exact lm_loop_invariant env g observations
    (fun s => s.consistent env.lm observations
      ∧ s.cameras.length = cameras.length ∧ s.points.length = points.length)
    (fun s it hs hit => by
      obtain ⟨h1, h2, h3⟩ := lm_iteration_consistent env g observations s it hs.1 hit
      exact ⟨h1, h2.trans hs.2.1, h3.trans hs.2.2⟩)
    _ _ _ _ hrun ⟨hcons, by rw [hc], by rw [hp]⟩

/-- The shape of a run of `lm_optimization`: the iterations are linked state
to state, the first starts from the given lists with the radius 1000, the run
ends in the state the last one leaves, and each iteration is an iteration of
the loop entered with a positive radius and an error that is not below the
absolute threshold. -/
theorem lm_optimization_shape (env : LMEnv K) (g : LMGlobals K) (cameras : List (Camera K))
    (points : List (Point3D K)) (observations : List (Observation K)) (res : LMResult K)
    (h : lm_optimization env g cameras points observations = .ok res) :
    List.Chain' (fun a b => b.before = a.after) res.run.iterations
      ∧ ((res.run.iterations.head?.map (fun it => it.before)).getD res.run.final).cameras
          = cameras
      ∧ ((res.run.iterations.head?.map (fun it => it.before)).getD res.run.final).points
          = points
      ∧ res.run.final = (res.run.iterations.getLast?.map (fun it => it.after)).getD
          ((res.run.iterations.head?.map (fun it => it.before)).getD res.run.final)
      ∧ (∀ it ∈ res.run.iterations, lm_iteration env g observations it.before = .ok it
          ∧ 0 < it.before.trust_region_radius
          ∧ Extended.lt it.before.current_mse (.finite lm_mse_threshold) = false) := by
  obtain ⟨st, hrun, hc, hp, -, -, hr, -⟩ :=
    lm_optimization_run env g cameras points observations res h
  have hpos : (0 : K) < st.trust_region_radius := by
    rw [hr]
    unfold TRUST_REGION_RADIUS_INIT
    norm_num
  obtain ⟨h1, h2, h3, h4, -⟩ := lm_loop_structure env g observations _ _ _ _ hrun hpos
  refine ⟨h1, ?_, ?_, ?_, h4⟩
  · rw [h2, hc]
  · rw [h2, hp]
  · rw [h2]
    exact h3

/-- C27: the loop invariant of `lm_optimization`.  At the head of every
iteration, after it and when the loop is left, `F` is what
`compute_reprojection_errors` returns for the current cameras and points
without an update vector (whatever the output vector holds at entry) and
`current_mse` is `compute_mse` of `F`; after a successful iteration the trial
residual that was adopted is the residual of the committed parameters.  The
iterations are linked: each starts in the state the previous one left. -/
theorem lm_optimization_residual_invariant (env : LMEnv K) (g : LMGlobals K)
    (cameras : List (Camera K)) (points : List (Point3D K))
    (observations : List (Observation K)) (res : LMResult K)
    (h : lm_optimization env g cameras points observations = .ok res) :
    (∀ it ∈ res.run.iterations,
        (∀ v, compute_reprojection_errors env.lm v none it.before.cameras it.before.points
            observations = some it.before.F)
        ∧ residual_mse (residual_kind env.lm none it.before.cameras it.before.points
            observations) it.before.F = it.before.current_mse
        ∧ (∀ v, compute_reprojection_errors env.lm v none it.after.cameras it.after.points
            observations = some it.after.F)
        ∧ residual_mse (residual_kind env.lm none it.after.cameras it.after.points
            observations) it.after.F = it.after.current_mse
        ∧ (it.successful = true →
            compute_reprojection_errors env.lm it.before.F_new (some it.delta_x)
                it.before.cameras it.before.points observations = some it.after.F
            ∧ update_parameters env.lm it.delta_x it.before.cameras it.before.points
                = some (it.after.cameras, it.after.points)))
      ∧ (∀ v, compute_reprojection_errors env.lm v none res.run.final.cameras
          res.run.final.points observations = some res.run.final.F)
      ∧ residual_mse (residual_kind env.lm none res.run.final.cameras res.run.final.points
          observations) res.run.final.F = res.run.final.current_mse
      ∧ List.Chain' (fun a b => b.before = a.after) res.run.iterations
      ∧ res.run.final = (res.run.iterations.getLast?.map (fun it => it.after)).getD
          ((res.run.iterations.head?.map (fun it => it.before)).getD res.run.final) := by
  obtain ⟨hall, hfin, -⟩ := lm_optimization_states env g cameras points observations res h
  obtain ⟨hchain, -, -, hlast, hits⟩ :=
    lm_optimization_shape env g cameras points observations res h
  have hv : ∀ (s : LMState K), s.consistent env.lm observations →
      ∀ v, compute_reprojection_errors env.lm v none s.cameras s.points observations
        = some s.F := fun s hs v =>
    compute_reprojection_errors_congr env.lm [] v none none s.cameras s.cameras s.points
      s.points observations s.F (fun _ _ => rfl) hs.1
  refine ⟨?_, hv _ hfin, hfin.2, hchain, hlast⟩
  intro it hit
  obtain ⟨⟨hb, -⟩, ⟨ha, -⟩⟩ := hall it hit
  refine ⟨hv _ hb, hb.2, hv _ ha, ha.2, ?_⟩
  intro hs
  obtain ⟨Jc, Jp, status, Fn, dm, dr, -, -, htr, hup, -, -⟩ :=
    lm_iteration_inv env g observations it.before it (hits it hit).1
  obtain ⟨ht1, ht2⟩ := lm_trial_inv _ _ _ _ _ _ _ _ _ htr
  have hd : Extended.lt (.finite 0) dm = true := by
    cases hd : Extended.lt (.finite 0) dm with
    | true => rfl
    | false =>
      rw [lm_update_failure _ _ _ _ _ _ _ hd] at hup
      have e := Except.ok.inj hup
      have e2 : it.successful = false := (congrArg (fun r => r.2.1) e).symm
      rw [hs] at e2
      cases e2
  obtain ⟨cams, pts, hupd, -, -, hc, hp, hF, -⟩ := lm_update_success _ _ _ _ _ _ _ _ hup hd
  have hsucc : status.success = true := by
    by_contra hf
    have hf' : status.success = false := by simpa using hf
    obtain ⟨-, -, hdm, -⟩ := ht2 hf'
    rw [hdm] at hd
    simp [Extended.lt] at hd
  obtain ⟨hFn, -⟩ := ht1 hsucc
  have hc' : it.after.cameras = cams := hc
  have hp' : it.after.points = pts := hp
  have hF' : it.after.F = Fn := hF
  rw [hc', hp', hF']
  exact ⟨hFn, hupd⟩

end Invariants

section Divisors

variable {K : Type} [LinearOrderedField K]

/-- In a run of `lm_optimization` that starts from an error that is not NaN no
iteration starts from NaN or ends in it. -/
theorem lm_optimization_not_nan (env : LMEnv K) (g : LMGlobals K) (cameras : List (Camera K))
    (points : List (Point3D K)) (observations : List (Observation K)) (res : LMResult K)
    (h : lm_optimization env g cameras points observations = .ok res)
    (hnan : res.initial_mse ≠ Extended.nan) :
    (∀ it ∈ res.run.iterations,
        it.before.current_mse ≠ Extended.nan ∧ it.after.current_mse ≠ Extended.nan)
      ∧ res.run.final.current_mse ≠ Extended.nan := by
  obtain ⟨F, hF, hrun, hi, -⟩ := lm_optimization_inv env g cameras points observations res h
  rw [hi] at hnan
  exact lm_loop_invariant env g observations (fun s => s.current_mse ≠ Extended.nan)
    (fun s it hs hit => ((lm_iteration_committed env g observations s it hit).1 hs).1)
    _ _ _ _ hrun hnan

/-- C30 (amended): in a run of `lm_optimization` on a non-empty observation
list whose initial mean squared error is not NaN (no observation is projected
to NaN), no division of the controller or of the set-up of the solver has the
divisor zero.  `compute_mse` divides by `vector_f.size() / 2`, which is the
number of observations, at least 1, for the first residual and for every trial
residual; the trust region radius is positive at every solve, where
`1 / trust_region_radius` is computed; `current_mse >= lm_mse_threshold > 0`
holds at every iteration, where `new_mse / current_mse` is computed
(`current_mse` is a finite number or `+inf`); and on a successful iteration
the relative improvement `1 - new_mse / current_mse` is a finite number in
`(0, 1]`. -/
theorem lm_optimization_divisors (env : LMEnv K) (g : LMGlobals K)
    (cameras : List (Camera K)) (points : List (Point3D K))
    (observations : List (Observation K)) (res : LMResult K)
    (hobs : observations ≠ [])
    (hnan : res.initial_mse ≠ Extended.nan)
    (h : lm_optimization env g cameras points observations = .ok res) :
    1 ≤ observations.length
      ∧ (0 : K) < lm_mse_threshold
      ∧ (∃ F, compute_reprojection_errors env.lm [] none cameras points observations = some F
          ∧ F.length / 2 = observations.length)
      ∧ (∀ it ∈ res.run.iterations,
          it.before.F.length / 2 = observations.length
          ∧ 0 < it.before.trust_region_radius
          ∧ Extended.le (.finite lm_mse_threshold) it.before.current_mse = true
          ∧ ((∃ current_mse, it.before.current_mse = .finite current_mse
                ∧ lm_mse_threshold ≤ current_mse ∧ 0 < current_mse)
              ∨ it.before.current_mse = .pos_inf)
          ∧ (it.solve_success = true →
              ∃ Ft, compute_reprojection_errors env.lm it.before.F_new (some it.delta_x)
                  it.before.cameras it.before.points observations = some Ft
                ∧ Ft.length / 2 = observations.length
                ∧ it.new_mse = residual_mse (residual_kind env.lm (some it.delta_x)
                    it.before.cameras it.before.points observations) Ft)
          ∧ (it.successful = true →
              ∃ ratio, Extended.sub (.finite 1)
                    (Extended.div it.new_mse it.before.current_mse) = .finite ratio
                ∧ 0 < ratio ∧ ratio ≤ 1)) := by
  have hlen : 1 ≤ observations.length := by
    cases observations with
    | nil => exact absurd rfl hobs
    | cons o l => simp
  obtain ⟨F, hF, -⟩ := lm_optimization_inv env g cameras points observations res h
  obtain ⟨hall, -⟩ := lm_optimization_states env g cameras points observations res h
  obtain ⟨-, -, -, -, hits⟩ := lm_optimization_shape env g cameras points observations res h
  obtain ⟨hnn, -⟩ := lm_optimization_not_nan env g cameras points observations res h hnan
  obtain ⟨herr, -⟩ := lm_optimization_errors env g cameras points observations res h
  refine ⟨hlen, lm_mse_threshold_pos, ⟨F, hF, ?_⟩, ?_⟩
  · rw [compute_reprojection_errors_length _ _ _ _ _ _ _ hF]
    omega
  · intro it hit
    obtain ⟨hi, hpos, hth⟩ := hits it hit
    obtain ⟨⟨hb, -⟩, -⟩ := hall it hit
    have hcur : (∃ current_mse, it.before.current_mse = .finite current_mse
          ∧ lm_mse_threshold ≤ current_mse ∧ 0 < current_mse)
        ∨ it.before.current_mse = .pos_inf := by
      rcases herr it hit with ⟨m, hm, -⟩ | hp | hn
      · left
        rw [hm] at hth
        have hle : lm_mse_threshold ≤ m := by simpa [Extended.lt] using hth
        exact ⟨m, hm, hle, lt_of_lt_of_le lm_mse_threshold_pos hle⟩
      · exact Or.inr hp
      · exact absurd hn (hnn it hit).1
    have hle : Extended.le (.finite lm_mse_threshold) it.before.current_mse = true := by
      rcases hcur with ⟨m, hm, hle, -⟩ | hp
      · rw [hm]
        simpa [Extended.le] using hle
      · rw [hp]
        rfl
    obtain ⟨Jc, Jp, status, Fn, dm, dr, -, -, htr, -, -, hss⟩ :=
      lm_iteration_inv env g observations it.before it hi
    obtain ⟨ht1, -⟩ := lm_trial_inv _ _ _ _ _ _ _ _ _ htr
    have htrial : it.solve_success = true →
        ∃ Ft, compute_reprojection_errors env.lm it.before.F_new (some it.delta_x)
            it.before.cameras it.before.points observations = some Ft
          ∧ Ft.length / 2 = observations.length
          ∧ it.new_mse = residual_mse (residual_kind env.lm (some it.delta_x)
              it.before.cameras it.before.points observations) Ft := by
      intro hs
      rw [hss] at hs
      obtain ⟨hFn, hmse, -, -⟩ := ht1 hs
      refine ⟨Fn, hFn, ?_, hmse⟩
      rw [compute_reprojection_errors_length _ _ _ _ _ _ _ hFn]
      omega
    refine ⟨?_, hpos, hle, hcur, htrial, ?_⟩
    · rw [compute_reprojection_errors_length _ _ _ _ _ _ _ hb.1]
      omega
    · intro hs
      obtain ⟨ho, -⟩ := lm_iteration_outcome env g observations it.before it hi
      obtain ⟨hsolve, hlt⟩ := ho.mp hs
      obtain ⟨Ft, -, -, hnm⟩ := htrial hsolve
      have hm : (∃ m, it.new_mse = .finite m ∧ 0 ≤ m) ∨ it.new_mse = .pos_inf
          ∨ it.new_mse = .nan := by
        rw [hnm]
        exact residual_mse_cases _ _
      obtain ⟨n, -, hn0, hc⟩ := ratio_of_lt _ _ hm hlt
      rcases hc with ⟨c, -, hnc, hratio⟩ | ⟨-, hratio⟩
      · have hc0 : 0 < c := lt_of_le_of_lt hn0 hnc
        have hq1 : n / c < 1 := (div_lt_one hc0).mpr hnc
        have hq0 : 0 ≤ n / c := div_nonneg hn0 (le_of_lt hc0)
        exact ⟨1 - n / c, hratio, by linarith, by linarith⟩
      · exact ⟨1, hratio, by norm_num, le_rfl⟩

end Divisors

section GlobalLists

variable {K : Type} [LinearOrderedField K]

/-- C26 (amended): in every iteration of `lm_optimization` the Jacobian pair
handed to the solver is the Jacobian of the global camera, point and
observation lists, which `analytic_jacobian` reads.  If the lists passed to
`lm_optimization` are the global lists, as at the call in `main`, it is the
Jacobian of the passed lists at their current values, the last committed
ones, and `F` is the residual of those same lists. -/
theorem lm_optimization_jacobian (env : LMEnv K) (g : LMGlobals K)
    (cameras : List (Camera K)) (points : List (Point3D K))
    (observations : List (Observation K)) (res : LMResult K)
    (h : lm_optimization env g cameras points observations = .ok res) :
    (∀ it ∈ res.run.iterations, ∃ Jc Jp status,
        analytic_jacobian (g.cameras.getD it.before.cameras) (g.points.getD it.before.points)
            (g.observations.getD observations) = .ok (Jc, Jp)
        ∧ my_solve_schur
            { env.solver with trust_region_radius := it.before.trust_region_radius } Jc Jp
            it.before.F [] = .ok (status, it.delta_x)
        ∧ it.solve_success = status.success
        ∧ compute_reprojection_errors env.lm [] none it.before.cameras it.before.points
            observations = some it.before.F
        ∧ (g.cameras = none → g.points = none → g.observations = none →
            analytic_jacobian it.before.cameras it.before.points observations = .ok (Jc, Jp)))
      ∧ List.Chain' (fun a b => b.before = a.after) res.run.iterations
      ∧ ((res.run.iterations.head?.map (fun it => it.before)).getD res.run.final).cameras
          = cameras
      ∧ ((res.run.iterations.head?.map (fun it => it.before)).getD res.run.final).points
          = points := by
  obtain ⟨hall, -⟩ := lm_optimization_states env g cameras points observations res h
  obtain ⟨hchain, hc, hp, -, hits⟩ :=
    lm_optimization_shape env g cameras points observations res h
  refine ⟨?_, hchain, hc, hp⟩
  intro it hit
  obtain ⟨Jc, Jp, status, Fn, dm, dr, hJ, hS, -, -, -, hss⟩ :=
    lm_iteration_inv env g observations it.before it (hits it hit).1
  refine ⟨Jc, Jp, status, hJ, hS, hss, (hall it hit).1.1.1, ?_⟩
  intro g1 g2 g3
  rw [g1, g2, g3] at hJ
  exact hJ

end GlobalLists

section Preconditions

variable {K : Type} [LinearOrderedField K]

/-- For in-range observations the blocks `B` and `C` of `my_solve_schur` pass
the structural checks of the two block inversions, whatever the damping
factor, and both inversions return. -/
theorem jacobian_blocks_checked (env : LMEnv K) (cameras : List (Camera K))
    (points : List (Point3D K)) (observations : List (Observation K))
    (hin : ∀ o ∈ observations, o.camera_id < cameras.length ∧ o.point_id < points.length) :
    ∃ Jc Jp B C, analytic_jacobian cameras points observations = .ok (Jc, Jp)
      ∧ matrix_block_column_multiply Jc camera_block_dim = .ok B
      ∧ matrix_block_column_multiply Jp 3 = .ok C
      ∧ ∀ d : K,
        (C.mult_diagonal d).rows = (C.mult_diagonal d).cols
        ∧ (C.mult_diagonal d).num_non_zero = (C.mult_diagonal d).rows * 3
        ∧ (B.mult_diagonal d).rows = (B.mult_diagonal d).cols
        ∧ (B.mult_diagonal d).num_non_zero = (B.mult_diagonal d).rows * camera_block_dim
        ∧ (∃ Ci, invert_block_matrix_3x3_inplace env.solver.eps (C.mult_diagonal d) = .ok Ci)
        ∧ (∃ P, invert_block_matrix_NxN_inplace env.solver.cholesky_invert_inplace
            env.solver.isfinite (B.mult_diagonal d) camera_block_dim = .ok P) := by
  obtain ⟨Jc, Jp, B, C, hJ, -, hc1, -, hc2, hu1, hu2, hB, hC, -⟩ :=
    jacobian_products cameras points observations hin
  have hc1' : Jc.cols = cameras.length * 9 := by omega
  have hc2' : Jp.cols = points.length * 3 := by omega
  have hBd := (matrix_block_column_multiply_block_diagonal Jc B 9 cameras.length
    (by norm_num) hc1' hu1 hB).1
  have hCd := (matrix_block_column_multiply_block_diagonal Jp C 3 points.length
    (by norm_num) hc2' hu2 hC).1
  refine ⟨Jc, Jp, B, C, hJ, hB, hC, ?_⟩
  intro d
  have hBd' := mult_diagonal_block B 9 cameras.length d hBd
  have hCd' := mult_diagonal_block C 3 points.length d hCd
  refine ⟨hCd'.1.trans hCd'.2.1.symm, num_non_zero_block _ 3 _ hCd',
    hBd'.1.trans hBd'.2.1.symm, num_non_zero_block _ 9 _ hBd', ?_, ?_⟩
  · obtain ⟨Ci, hCi, -⟩ := invert_block_matrix_3x3_inplace_ok env.solver.eps _ _ hCd'
    exact ⟨Ci, hCi⟩
  · exact invert_block_matrix_NxN_inplace_ok _ _ _ 9 cameras.length (by norm_num) hBd'

/-- C21 (amended): for every camera list, point list and list of in-range
observations, empty or not, that are the global lists (as at the call in
`main`), and a conjugate gradient solver that keeps the size of its vector,
`lm_optimization` returns, no exception leaves it, and in every iteration the
matrices `my_solve_schur` hands to the block inversions satisfy the structural
checks, whatever the damping factor: `C`, from
`matrix_block_column_multiply(Jp, 3)`, is square with `rows * 3` stored
entries and `B`, from `matrix_block_column_multiply(Jc, 9)`, is square with
`rows * 9` stored entries, and both inversions return.  Every iteration starts
from lists of the given lengths, so from in-range observations again. -/
theorem block_inversion_preconditions (env : LMEnv K) (g : LMGlobals K)
    (cameras : List (Camera K)) (points : List (Point3D K))
    (observations : List (Observation K))
    (hg : g.cameras = none ∧ g.points = none ∧ g.observations = none)
    (hin : ∀ o ∈ observations, o.camera_id < cameras.length ∧ o.point_id < points.length)
    (hcg : ∀ S rhs x P, (env.solver.cg_solve S rhs x P).2.length = x.length) :
    ∃ res, lm_optimization env g cameras points observations = .ok res
      ∧ ∀ it ∈ res.run.iterations,
        it.before.cameras.length = cameras.length
        ∧ it.before.points.length = points.length
        ∧ (∀ o ∈ observations, o.camera_id < it.before.cameras.length
            ∧ o.point_id < it.before.points.length)
        ∧ ∃ Jc Jp B C,
          analytic_jacobian (g.cameras.getD it.before.cameras) (g.points.getD it.before.points)
              (g.observations.getD observations) = .ok (Jc, Jp)
          ∧ matrix_block_column_multiply Jc camera_block_dim = .ok B
          ∧ matrix_block_column_multiply Jp 3 = .ok C
          ∧ ∀ d : K,
            (C.mult_diagonal d).rows = (C.mult_diagonal d).cols
            ∧ (C.mult_diagonal d).num_non_zero = (C.mult_diagonal d).rows * 3
            ∧ (B.mult_diagonal d).rows = (B.mult_diagonal d).cols
            ∧ (B.mult_diagonal d).num_non_zero
                = (B.mult_diagonal d).rows * camera_block_dim
            ∧ (∃ Ci, invert_block_matrix_3x3_inplace env.solver.eps (C.mult_diagonal d)
                = .ok Ci)
            ∧ (∃ P, invert_block_matrix_NxN_inplace env.solver.cholesky_invert_inplace
                env.solver.isfinite (B.mult_diagonal d) camera_block_dim = .ok P) := by
  obtain ⟨res, hres⟩ :=
    lm_optimization_returns env g cameras points observations hg hin hcg
  obtain ⟨hall, -⟩ := lm_optimization_states env g cameras points observations res hres
  refine ⟨res, hres, ?_⟩
  intro it hit
  obtain ⟨⟨-, h1, h2⟩, -⟩ := hall it hit
  have hin' : ∀ o ∈ observations, o.camera_id < it.before.cameras.length
      ∧ o.point_id < it.before.points.length := by
    intro o ho
    rw [h1, h2]
    exact hin o ho
  refine ⟨h1, h2, hin', ?_⟩
  rw [hg.1, hg.2.1, hg.2.2]
  exact jacobian_blocks_checked env it.before.cameras it.before.points observations hin'

end Preconditions

section Runs

variable {K : Type} [LinearOrderedField K]

/-- A sequence of two calls that returned: both calls returned. -/
theorem bind_ok_inv {α β : Type} (r : Except Fault α) (f : α → Except Fault β) (b : β)
    (h : r.bind f = .ok b) : ∃ a, r = .ok a ∧ f a = .ok b := by
  cases r with
  | error e => cases h
  | ok a => exact ⟨a, rfl, h⟩

/-- The counters after the run on the scenario camera, the point
`(0, 0, 200)` and the pixel `(1, 0)`, entered with the counters at zero. -/
theorem axis_run_counters :
    (lm_optimization (example_lm_env cg_at_start) main_globals [scenario_camera]
        [axis_point (200 : ℚ)] [axis_observation 1]).toOption.map
      (fun res => (res.run.iterations.length, res.run.final.num_lm_iterations,
        res.run.final.num_lm_successful_iterations,
        res.run.final.num_lm_unsuccessful_iterations))
      = some (1, 1, 1, 0) := by
  decide!

/-- A second call of `lm_optimization`, on the lists and with the counters the
first call left: it runs one iteration and leaves the counters at 2, 2, 0. -/
theorem axis_second_run :
    ((lm_optimization (example_lm_env cg_at_start) main_globals [scenario_camera]
          [axis_point (200 : ℚ)] [axis_observation 1]).bind
        (fun res1 => lm_optimization (example_lm_env cg_at_start) res1.globals
          res1.run.final.cameras res1.run.final.points [axis_observation 1])).toOption.map
      (fun res => (res.run.iterations.length, res.run.final.num_lm_iterations,
        res.run.final.num_lm_successful_iterations,
        res.run.final.num_lm_unsuccessful_iterations))
      = some (1, 2, 2, 0) := by
  decide!

/-- The run on the scenario camera, the point `(0, 0, 200)` and the pixel
`(1, 0)` while the global point list holds the point `(0, 0, 400)`: one
iteration, with the step `1001 / 64000000000` for the first coordinate of the
point. -/
theorem other_point_run :
    (lm_optimization (example_lm_env cg_at_start) other_point_globals [scenario_camera]
        [axis_point (200 : ℚ)] [axis_observation 1]).toOption.map
      (fun res => res.run.iterations.map (fun it => it.delta_x))
      = some [[0, 0, 0, 0, 0, 0, 0, 0, 0, 1001 / 64000000000, 0, 0]] := by
  decide!

/-- The first entry of the point Jacobian for the point `(0, 0, 400)`. -/
theorem jacobian_entry_400 :
    (analytic_jacobian [(scenario_camera : Camera ℚ)] [axis_point 400]
        [axis_observation 1]).toOption.map (fun J => J.2.entry 0 0) = some (1 / 400) := by
  decide!

/-- The first entry of the point Jacobian for the point `(0, 0, 200)`, and the
step the solver returns for that Jacobian and the residual `(-1, 0)`. -/
theorem jacobian_entry_200 :
    (analytic_jacobian [(scenario_camera : Camera ℚ)] [axis_point 200]
        [axis_observation 1]).toOption.map (fun J => J.2.entry 0 0) = some (1 / 200)
      ∧ ((analytic_jacobian [(scenario_camera : Camera ℚ)] [axis_point 200]
            [axis_observation 1]).bind
          (fun J => my_solve_schur (example_lm_env cg_at_start).solver J.1 J.2 [-1, 0]
            [])).toOption.map (fun r => r.2)
        = some [0, 0, 0, 0, 0, 0, 0, 0, 0, 1001 / 8000000000, 0, 0] := by
  constructor <;> decide!

end Runs

section Runs2

variable {K : Type} [LinearOrderedField K]

/-- `my_solve_schur` reports success whenever it returns and the conjugate
gradient solver did not report invalid input. -/
theorem my_solve_schur_success (env : SolverEnv K) (Jc Jp : SparseMatrix K) (F dx : List K)
    (status : Status) (delta : List K)
    (hcg : ∀ S rhs x P, (env.cg_solve S rhs x P).1.info ≠ CGInfo.CG_INVALID_INPUT)
    (h : my_solve_schur env Jc Jp F dx = .ok (status, delta)) : status.success = true := by
  cases hsys : schur_system env Jc Jp F with
  | error e =>
    simp only [my_solve_schur, bind, Except.bind, hsys] at h
    cases h
  | ok sys =>
    cases hres : env.cg_solve sys.S sys.rhs (List.replicate Jc.cols 0) sys.precond with
    | mk cst dc =>
      have hne := hcg sys.S sys.rhs (List.replicate Jc.cols 0) sys.precond
      rw [hres] at hne
      simp only [my_solve_schur, bind, Except.bind, hsys, hres, pure, Except.pure] at h
      cases hi : cst.info with
      | CG_INVALID_INPUT => exact absurd hi hne
      | CG_CONVERGENCE =>
        split at h
        · cases h
        · split at h
          · cases h
          · split at h
            · cases h
            · split at h
              · cases h
              · cases h
                rfl
      | CG_MAX_ITERATIONS =>
        split at h
        · cases h
        · split at h
          · cases h
          · split at h
            · cases h
            · split at h
              · cases h
              · cases h
                rfl

/-- A run of `lm_optimization` that starts from an error that is NaN (there is
no observation, or an observation is projected to NaN): it executes
`lm_max_iterations` iterations, none of them successful, leaves the loop
through the iteration cap with the lists it was given, and the error is NaN
at the end; the counters have grown by 100, 0 and 100. -/
theorem lm_optimization_nan (env : LMEnv K) (g : LMGlobals K) (cameras : List (Camera K))
    (points : List (Point3D K)) (observations : List (Observation K)) (res : LMResult K)
    (h : lm_optimization env g cameras points observations = .ok res)
    (hn : observations = []
      ∨ residual_kind env.lm none cameras points observations = Kind.nan) :
    res.initial_mse = Extended.nan ∧ res.final_mse = Extended.nan
      ∧ res.run.exit = LMExit.max_iterations
      ∧ res.run.iterations.length = 100
      ∧ (∀ it ∈ res.run.iterations,
          it.successful = false ∧ it.before.current_mse = Extended.nan)
      ∧ res.run.final.cameras = cameras ∧ res.run.final.points = points
      ∧ res.run.final.num_lm_iterations = g.num_lm_iterations + 100
      ∧ res.run.final.num_lm_successful_iterations = g.num_lm_successful_iterations
      ∧ res.run.final.num_lm_unsuccessful_iterations
          = g.num_lm_unsuccessful_iterations + 100 := by
  obtain ⟨F, hF, hrun, hi, hf⟩ := lm_optimization_inv env g cameras points observations res h
  have hnone : residual_mse (residual_kind env.lm none cameras points observations) F
      = Extended.nan :=
    (residual_mse_nan_iff env.lm [] none cameras points observations F hF).mpr hn
  rw [hnone] at hrun hi
  obtain ⟨k1, k2, k3, k4, k5, k6⟩ := lm_loop_nan env g observations _ 0 _ res.run hrun
    rfl (by simp [lm_max_iterations])
  obtain ⟨c1, c2, c3⟩ := lm_loop_counters env g observations _ _ _ _ hrun
  have hlen : res.run.iterations.length = 100 := by
    rw [k2]
    rfl
  have hsucc : res.run.iterations.filter (fun it => it.successful) = [] := by
    rw [List.filter_eq_nil_iff]
    intro it hit
    rw [(k3 it hit).1]
    simp
  have hunsucc : res.run.iterations.filter (fun it => !it.successful) = res.run.iterations := by
    rw [List.filter_eq_self]
    intro it hit
    rw [(k3 it hit).1]
    rfl
  refine ⟨hi, hf.trans k4, k1, hlen, k3, k5, k6, ?_, ?_, ?_⟩
  · rw [c1, hlen]
    rfl
  · rw [c2, hsucc]
    simp
  · rw [c3, hunsucc, hlen]
    rfl

/-- With the conjugate gradient solver that stops at its start vector every
solve of a run reports success. -/
theorem cg_at_start_solves (lm : Libm K) (solver : SolverEnv K)
    (hs : solver.cg_solve = cg_at_start) (g : LMGlobals K)
    (cameras : List (Camera K)) (points : List (Point3D K))
    (observations : List (Observation K)) (res : LMResult K)
    (h : lm_optimization ⟨lm, solver⟩ g cameras points observations = .ok res) :
    ∀ it ∈ res.run.iterations, it.solve_success = true := by
  obtain ⟨-, -, -, -, hits⟩ := lm_optimization_shape _ _ _ _ _ res h
  intro it hit
  obtain ⟨Jc, Jp, status, Fn, dm, dr, -, hS, -, -, -, hss⟩ :=
    lm_iteration_inv _ _ _ it.before it (hits it hit).1
  rw [hss]
  refine my_solve_schur_success _ Jc Jp it.before.F [] status it.delta_x ?_ hS
  intro S rhs x P
  show (solver.cg_solve S rhs x P).1.info ≠ CGInfo.CG_INVALID_INPUT
  rw [hs]
  simp [cg_at_start]

/-- The call of `lm_optimization` on the scenario camera, the point
`(0, 0, 200)` and the pixel `(1, 0)` while the global observation list holds
two observations: the Jacobian has four rows, the residual two values, and the
product of line 666 throws. -/
theorem other_observations_run :
    thrown (lm_optimization (example_lm_env cg_at_start) other_observations_globals
        [scenario_camera] [axis_point (200 : ℚ)] [axis_observation 1])
      = some (Fault.invalid_argument "Incompatible dimensions") := by
  decide!

/-- The shapes of the Jacobian of the two observations of the global list and
the size of the residual of the one observation passed. -/
theorem other_observations_shapes :
    (analytic_jacobian [(scenario_camera : Camera ℚ)] [axis_point 200]
        [axis_observation 1, axis_observation 1]).toOption.map
      (fun J => (J.1.rows, J.1.cols, J.2.rows, J.2.cols)) = some (4, 9, 4, 3)
      ∧ (compute_reprojection_errors (libm_at_zero : Libm ℚ) [] none [scenario_camera]
          [axis_point 200] [axis_observation 1]).map List.length = some 2 := by
  constructor <;> decide!

/-- The number of iterations and the first error of the run on the scenario
camera, the point `(0, 0, 200)` and the pixel `(1, 0)`. -/
theorem axis_run_summary :
    (lm_optimization (example_lm_env cg_at_start) main_globals [scenario_camera]
        [axis_point (200 : ℚ)] [axis_observation 1]).toOption.map
      (fun res => (res.run.iterations.length, res.initial_mse))
      = some (1, Extended.finite 1) := by
  decide!

end Runs2

section Witnesses

/-- The depth of the scenario point in the scenario camera is 5. -/
theorem scenario_depth {K : Type} [Field K] [DecidableEq K] :
    camera_depth (scenario_camera : Camera K) scenario_point = 5 := by
  simp [camera_depth, scenario_camera, scenario_point, vec9_6, vec9_7, vec9_8]

/-- The scenario of the specification has a non-zero depth over the reals. -/
theorem scenario_depth_ne_zero_real :
    camera_depth (scenario_camera : Camera ℝ) scenario_point ≠ 0 := by
  rw [scenario_depth]
  norm_num

/-- The scenario of the specification has a non-zero depth over the rationals. -/
theorem scenario_depth_ne_zero_rat :
    camera_depth (scenario_camera : Camera ℚ) scenario_point ≠ 0 := by
  rw [scenario_depth]
  norm_num

/-- The observation of the scenario refers to the only camera and point. -/
theorem scenario_in_range {K : Type} [Field K] [DecidableEq K] :
    ∀ o ∈ [(scenario_observation : Observation K)],
      o.camera_id < [(scenario_camera : Camera K)].length
        ∧ o.point_id < [(scenario_point : Point3D K)].length := by
  intro o ho
  rw [List.mem_singleton] at ho
  subst ho
  simp [scenario_observation]

/-- Witness of C1: the scenario of the specification. -/
theorem compute_reprojection_errors_spec_witness :
    (∀ o ∈ [(scenario_observation : Observation ℚ)],
      o.camera_id < [(scenario_camera : Camera ℚ)].length
        ∧ o.point_id < [(scenario_point : Point3D ℚ)].length)
    ∧ (∀ o ∈ [(scenario_observation : Observation ℚ)], ∀ cam p,
        [(scenario_camera : Camera ℚ)][o.camera_id]? = some cam →
        [(scenario_point : Point3D ℚ)][o.point_id]? = some p → camera_depth cam p ≠ 0)
    ∧ ∃ F, compute_reprojection_errors libm_at_zero [] none [(scenario_camera : Camera ℚ)]
          [scenario_point] [scenario_observation] = some F
        ∧ F.length = 2 * 1 :=
  have h2 : ∀ o ∈ [(scenario_observation : Observation ℚ)], ∀ cam p,
      [(scenario_camera : Camera ℚ)][o.camera_id]? = some cam →
      [(scenario_point : Point3D ℚ)][o.point_id]? = some p → camera_depth cam p ≠ 0 := by
    intro o ho cam p hc hp
    rw [List.mem_singleton] at ho
    subst ho
    simp [scenario_observation] at hc hp
    subst hc hp
    exact scenario_depth_ne_zero_rat
  ⟨scenario_in_range, h2,
    (compute_reprojection_errors_spec libm_at_zero [] [scenario_camera] [scenario_point]
      [scenario_observation] scenario_in_range h2).imp fun _ h => ⟨h.1, h.2.1⟩⟩

/-- Witness of C2: the scenario of the specification, first translation
component. -/
theorem my_jacobian_translation_point_derivatives_witness :
    camera_depth (scenario_camera : Camera ℝ) scenario_point ≠ 0
    ∧ HasDerivAt (fun s => (predicted_pixel
          { (scenario_camera : Camera ℝ) with
            translation := Function.update (scenario_camera : Camera ℝ).translation 0 s }
          scenario_point).1)
        ((my_jacobian (scenario_camera : Camera ℝ) scenario_point).cam_x_ptr
          ⟨3 + (0 : Fin 3).val, by omega⟩)
        ((scenario_camera : Camera ℝ).translation 0) :=
  ⟨scenario_depth_ne_zero_real,
    (my_jacobian_translation_point_derivatives scenario_camera scenario_point
      scenario_depth_ne_zero_real 0).1⟩

/-- Witness of C3: the scenario of the specification, first rotation axis. -/
theorem my_jacobian_rotation_derivatives_witness :
    camera_depth (scenario_camera : Camera ℝ) scenario_point ≠ 0
    ∧ HasDerivAt (fun s => (predicted_pixel
          (update_camera ⟨Real.sqrt, Real.cos, Real.sin⟩ false (scenario_camera : Camera ℝ)
            (fun j => if j = 6 + (0 : Fin 3).val then s else 0) Camera.fresh) scenario_point).1)
        ((my_jacobian (scenario_camera : Camera ℝ) scenario_point).cam_x_ptr
          ⟨6 + (0 : Fin 3).val, by omega⟩) 0 :=
  ⟨scenario_depth_ne_zero_real,
    (my_jacobian_rotation_derivatives scenario_camera scenario_point
      scenario_depth_ne_zero_real 0 Camera.fresh).1⟩

/-- Witness of C4: the scenario of the specification with the focal length
increased by one. -/
theorem my_jacobian_intrinsics_affine_witness :
    camera_depth (scenario_camera : Camera ℚ) scenario_point ≠ 0
    ∧ predicted_pixel { (scenario_camera : Camera ℚ) with
          focal_length := (scenario_camera : Camera ℚ).focal_length + 1 } scenario_point
        = ((predicted_pixel (scenario_camera : Camera ℚ) scenario_point).1
              + 1 * (my_jacobian (scenario_camera : Camera ℚ) scenario_point).cam_x_ptr 0,
           (predicted_pixel (scenario_camera : Camera ℚ) scenario_point).2
              + 1 * (my_jacobian (scenario_camera : Camera ℚ) scenario_point).cam_y_ptr 0) :=
  ⟨scenario_depth_ne_zero_rat,
    (my_jacobian_intrinsics_affine scenario_camera scenario_point 1
      scenario_depth_ne_zero_rat).1⟩

/-- Witness of C5: the scenario of the specification. -/
theorem analytic_jacobian_spec_witness :
    (∀ o ∈ [(scenario_observation : Observation ℚ)],
      o.camera_id < [(scenario_camera : Camera ℚ)].length
        ∧ o.point_id < [(scenario_point : Point3D ℚ)].length)
    ∧ ∃ ct pt Jc Jp,
        analytic_jacobian_triplets [(scenario_camera : Camera ℚ)] [scenario_point]
          [scenario_observation] = .ok (ct, pt)
        ∧ analytic_jacobian [(scenario_camera : Camera ℚ)] [scenario_point]
          [scenario_observation] = .ok (Jc, Jp)
        ∧ Jc.rows = 2 * 1 ∧ Jc.cols = 9 * 1 ∧ Jp.rows = 2 * 1 ∧ Jp.cols = 3 * 1
        ∧ ct.length = 18 * 1 ∧ pt.length = 6 * 1 :=
  ⟨scenario_in_range,
    let ⟨ct, pt, Jc, Jp, h1, h2, h3, h4, h5, h6, h7, h8, _⟩ :=
      analytic_jacobian_spec [(scenario_camera : Camera ℚ)] [scenario_point]
        [scenario_observation] scenario_in_range
    ⟨ct, pt, Jc, Jp, h1, h2, h3, h4, h5, h6, h7, h8⟩⟩

/-- Witness of C7: the scenario of the specification with the update vector
whose only entry that is not zero is `delta[3] = 1`, the first translation
coordinate of the camera.  With it the residual is `(1/5, 0)`; without it, on
the original lists, it is `(0, 0)`. -/
theorem trial_residual_eq_committed_residual_witness :
    (∀ o ∈ [(scenario_observation : Observation ℚ)],
      o.camera_id < [(scenario_camera : Camera ℚ)].length
        ∧ o.point_id < [(scenario_point : Point3D ℚ)].length)
    ∧ ([0, 0, 0, 1, 0, 0, 0, 0, 0, 0, 0, 0] : List ℚ).length
        = 9 * [(scenario_camera : Camera ℚ)].length + 3 * [(scenario_point : Point3D ℚ)].length
    ∧ compute_reprojection_errors libm_at_zero [] (some [0, 0, 0, 1, 0, 0, 0, 0, 0, 0, 0, 0])
        [(scenario_camera : Camera ℚ)] [scenario_point] [scenario_observation]
        = some [1 / 5, 0]
    ∧ compute_reprojection_errors libm_at_zero [] none
        [(scenario_camera : Camera ℚ)] [scenario_point] [scenario_observation] = some [0, 0]
    ∧ ∃ cameras1 points1 F,
        update_parameters libm_at_zero ([0, 0, 0, 1, 0, 0, 0, 0, 0, 0, 0, 0] : List ℚ)
            [scenario_camera] [scenario_point] = some (cameras1, points1)
        ∧ compute_reprojection_errors libm_at_zero []
            (some ([0, 0, 0, 1, 0, 0, 0, 0, 0, 0, 0, 0] : List ℚ))
            [scenario_camera] [scenario_point] [scenario_observation] = some F
        ∧ compute_reprojection_errors libm_at_zero [] none cameras1 points1
            [scenario_observation] = some F
        ∧ F.length = 2 * [(scenario_observation : Observation ℚ)].length
        ∧ cameras1[0]? = some
            { focal_length := (scenario_camera : Camera ℚ).focal_length + 0
              distortion := ![(scenario_camera : Camera ℚ).distortion 0 + 0,
                (scenario_camera : Camera ℚ).distortion 1 + 0]
              translation := ![(scenario_camera : Camera ℚ).translation 0 + 1,
                (scenario_camera : Camera ℚ).translation 1 + 0,
                (scenario_camera : Camera ℚ).translation 2 + 0]
              rotation := matrix_multiply
                (rodrigues_to_matrix libm_at_zero
                  (fun j => ([0, 0, 0, 1, 0, 0, 0, 0, 0, 0, 0, 0] : List ℚ).getD
                    (9 * 0 + (6 + j)) 0))
                (scenario_camera : Camera ℚ).rotation } := by
  obtain ⟨cameras1, points1, F, h1, h2, h3, -, -, h6, h7, -, -⟩ :=
    trial_residual_eq_committed_residual libm_at_zero [] []
      ([0, 0, 0, 1, 0, 0, 0, 0, 0, 0, 0, 0] : List ℚ)
      [scenario_camera] [scenario_point] [scenario_observation] scenario_in_range (by simp)
  exact ⟨scenario_in_range, by simp, by decide!, by decide!, cameras1, points1, F, h1, h2, h3,
    h6, h7 0 scenario_camera rfl⟩

/-- Witness of C8: a point Jacobian that is the identity on three of four rows,
a camera Jacobian of zeros, trust region radius 1000 and a conjugate gradient
solve that stops at the zero vector, which solves the reduced system. -/
theorem my_solve_schur_solves_damped_system_witness :
    ∃ sys : SchurSystem ℚ,
      schur_system (example_env 1000) (diagonal_jacobian 4 9 0) (diagonal_jacobian 4 3 1)
          [1, 0, 0, 0] = .ok sys
      ∧ (∀ b, b < 1 → matrix_determinant (sys.C_damped.block3 b) ≠ 0
          ∧ MATH_DOUBLE_EQ (example_env (1000 : ℚ)).eps
              (matrix_determinant (sys.C_damped.block3 b)) 0 = false)
      ∧ (sys.S.toMatrix 9 9).mulVec (toVector (List.replicate 9 0) 9) = toVector sys.rhs 9
      ∧ ∃ dp, my_solve_schur (example_env 1000) (diagonal_jacobian 4 9 0)
            (diagonal_jacobian 4 3 1) [1, 0, 0, 0] [] = .ok (⟨true, 0⟩, List.replicate 9 0 ++ dp)
          ∧ dp.length = 3
          ∧ (sys.B.toMatrix 9 9).mulVec (toVector (List.replicate 9 0) 9)
              + (sys.E.toMatrix 9 3).mulVec (toVector dp 3) = toVector sys.v 9
          ∧ (sys.E.toMatrix 9 3).transpose.mulVec (toVector (List.replicate 9 0) 9)
              + (sys.C_damped.toMatrix 3 3).mulVec (toVector dp 3) = toVector sys.w 3 := by
  obtain ⟨sys, -, hsys, -, -, -, hblk, -, hrhs, -⟩ := example_system (1000 : ℚ) 1
  have hdetv := matrix_determinant_scalar _ _ hblk
  have hdet : ∀ b, b < 1 → matrix_determinant (sys.C_damped.block3 b) ≠ 0
      ∧ MATH_DOUBLE_EQ (example_env (1000 : ℚ)).eps
          (matrix_determinant (sys.C_damped.block3 b)) 0 = false := by
    intro b hb
    obtain rfl : b = 0 := by omega
    rw [hdetv]
    constructor
    · norm_num
    · simp only [MATH_DOUBLE_EQ, example_env]
      norm_num
  have hS : (sys.S.toMatrix 9 9).mulVec (toVector (List.replicate 9 0) 9)
      = toVector sys.rhs 9 := by
    rw [toVector_replicate_zero, Matrix.mulVec_zero, hrhs]
  obtain ⟨dp, h1, h2, -, -, h5, h6, -⟩ := my_solve_schur_solves_damped_system (example_env 1000)
    (diagonal_jacobian 4 9 0) (diagonal_jacobian 4 3 1) [1, 0, 0, 0] [] (List.replicate 9 0) 1 1
    sys ⟨0, CGInfo.CG_CONVERGENCE⟩ rfl rfl rfl rfl (fun _ _ _ _ _ _ _ _ => rfl)
    (fun _ _ _ _ _ _ _ _ => rfl) hsys hdet rfl (by decide) (by simp [diagonal_jacobian]) hS
  exact ⟨sys, hsys, hdet, hS, dp, h1, h2, h5, h6⟩

/-- Counterexample to C8 as stated: the point Jacobian is `2^-10` times the
identity on three of four rows and the trust region radius is 1000.  The
only 3x3 block of `C'` is `(2^-20 * 1.001)` times the identity, invertible with
a determinant below `2^-52`, so the block walk leaves it as it is.  The
conjugate gradient solve is exact, yet the returned vector does not solve
`E^T * delta_c + C' * delta_p = w`. -/
theorem my_solve_schur_small_determinant_counterexample :
    ∃ (sys : SchurSystem ℚ) (dp : List ℚ),
      schur_system (example_env 1000) (diagonal_jacobian 4 9 0)
          (diagonal_jacobian 4 3 (1 / 1024)) [1, 0, 0, 0] = .ok sys
      ∧ matrix_determinant (sys.C_damped.block3 0) ≠ 0
      ∧ (example_env (1000 : ℚ)).cg_solve sys.S sys.rhs (List.replicate 9 0) sys.precond
          = (⟨0, CGInfo.CG_CONVERGENCE⟩, List.replicate 9 0)
      ∧ (sys.S.toMatrix 9 9).mulVec (toVector (List.replicate 9 0) 9) = toVector sys.rhs 9
      ∧ my_solve_schur (example_env 1000) (diagonal_jacobian 4 9 0)
          (diagonal_jacobian 4 3 (1 / 1024)) [1, 0, 0, 0] []
          = .ok (⟨true, 0⟩, List.replicate 9 0 ++ dp)
      ∧ (sys.E.toMatrix 9 3).transpose.mulVec (toVector (List.replicate 9 0) 9)
          + (sys.C_damped.toMatrix 3 3).mulVec (toVector dp 3) ≠ toVector sys.w 3 := by
  obtain ⟨sys, dp, hsys, hCdd, hCi, hCdm, hblk, hEm, hrhs, hw, hres, hdp⟩ :=
    example_system (1000 : ℚ) (1 / 1024)
  have hdetv := matrix_determinant_scalar _ _ hblk
  have hskip : MATH_DOUBLE_EQ (1 / 2 ^ 52 : ℚ) (matrix_determinant (sys.C_damped.block3 0)) 0
      = true := by
    rw [hdetv]
    simp only [MATH_DOUBLE_EQ]
    norm_num
  have hCm : sys.C.toMatrix 3 3 = sys.C_damped.toMatrix 3 3 := by
    ext i j
    have e := invert_block_matrix_3x3_inplace_skipped (1 / 2 ^ 52 : ℚ) sys.C_damped sys.C 1 hCdd
      hCi 0 (by norm_num) hskip i.val j.val i.isLt j.isLt
    simp only [Nat.zero_mul, Nat.zero_add] at e
    simpa only [SparseMatrix.toMatrix, Matrix.of_apply] using e
  refine ⟨sys, dp, hsys, ?_, rfl, ?_, hres, ?_⟩
  · rw [hdetv]
    norm_num
  · rw [toVector_replicate_zero, Matrix.mulVec_zero, hrhs]
  · intro h
    have h0 := congrFun h 0
    rw [toVector_replicate_zero, Matrix.mulVec_zero, zero_add, hdp, hCm, hCdm,
      Matrix.smul_mulVec_assoc, Matrix.smul_mulVec_assoc, Matrix.one_mulVec, hw] at h0
    simp only [Pi.smul_apply, smul_eq_mul] at h0
    norm_num at h0

/-- In the scenario of the specification the pixel does not move with the
depth of the point: the third column of the point Jacobian is zero. -/
theorem scenario_point_column :
    (my_jacobian (scenario_camera : Camera ℚ) scenario_point).point_x_ptr 2 = 0
      ∧ (my_jacobian (scenario_camera : Camera ℚ) scenario_point).point_y_ptr 2 = 0 := by
  constructor <;>
    simp [my_jacobian, scenario_camera, scenario_point, vec9_0, vec9_1, vec9_2, vec9_3, vec9_4,
      vec9_5, vec9_6, vec9_7, vec9_8]

/-- Witness of C9: the scenario of the specification with a zero residual
vector and trust region radius 1000. -/
theorem schur_system_damped_normal_equations_witness :
    (∀ o ∈ [(scenario_observation : Observation ℚ)],
      o.camera_id < [(scenario_camera : Camera ℚ)].length
        ∧ o.point_id < [(scenario_point : Point3D ℚ)].length)
    ∧ [(0 : ℚ), 0].length = 2 * [(scenario_observation : Observation ℚ)].length
    ∧ (example_env (1000 : ℚ)).trust_region_radius ≠ 0
    ∧ ∃ Jc Jp sys, analytic_jacobian [(scenario_camera : Camera ℚ)] [scenario_point]
          [scenario_observation] = .ok (Jc, Jp)
        ∧ schur_system (example_env 1000) Jc Jp [0, 0] = .ok sys
        ∧ sys.E.toMatrix Jc.cols Jp.cols
            = (Jc.toMatrix Jc.rows Jc.cols).transpose * Jp.toMatrix Jc.rows Jp.cols :=
  have hlam : (example_env (1000 : ℚ)).trust_region_radius ≠ 0 := by
    simp [example_env]
  ⟨scenario_in_range, rfl, hlam,
    let ⟨Jc, Jp, sys, h1, h2, _, _, h5, _⟩ :=
      schur_system_damped_normal_equations (example_env (1000 : ℚ)) [scenario_camera]
        [scenario_point] [scenario_observation] [0, 0] scenario_in_range rfl hlam
    ⟨Jc, Jp, sys, h1, h2, h5⟩⟩

/-- Counterexample to C9 as stated: in the scenario of the specification with
trust region radius 1000 the entry `(2, 2)` of `Jp^T Jp` is zero, and so is
that entry of the damped block `C'` of `my_solve_schur`, where
`Jp^T Jp + (1/1000) * I` has `1/1000`. -/
theorem schur_system_identity_damping_counterexample :
    ∃ Jc Jp sys, analytic_jacobian [(scenario_camera : Camera ℚ)] [scenario_point]
          [scenario_observation] = .ok (Jc, Jp)
        ∧ schur_system (example_env 1000) Jc Jp [0, 0] = .ok sys
        ∧ Jp.rows = 2 ∧ Jp.cols = 3
        ∧ sys.C_damped.toMatrix 3 3
            ≠ (Jp.toMatrix 2 3).transpose * Jp.toMatrix 2 3
              + (1 / (1000 : ℚ)) • (1 : Matrix (Fin 3) (Fin 3) ℚ) := by
  obtain ⟨Jc, Jp, sys, hJ, hsys, -, -, hr2, hc2, -, hC, -⟩ :=
    schur_system_blocks (example_env (1000 : ℚ)) [scenario_camera] [scenario_point]
      [scenario_observation] [0, 0] scenario_in_range rfl
  obtain ⟨ct, pt, Jc1, Jp1, -, -, -, hJ1, -, -, -, -, -, -, -, hpm, -, -, -, -, he2, -⟩ :=
    analytic_jacobian_ok [(scenario_camera : Camera ℚ)] [scenario_point] [scenario_observation]
      scenario_in_range
  rw [hJ] at hJ1
  cases hJ1
  have hr : Jp.rows = 2 := hr2
  have hc : Jp.cols = 3 := hc2
  have hx := he2 ⟨0 * 2, scenario_observation.point_id * 3 + (2 : Fin 3).val,
      (my_jacobian scenario_camera scenario_point).point_x_ptr 2⟩
    ((hpm _).mpr ⟨0, scenario_observation, scenario_camera, scenario_point, by norm_num, rfl,
      rfl, rfl, 2, Or.inl rfl⟩)
  have hy := he2 ⟨0 * 2 + 1, scenario_observation.point_id * 3 + (2 : Fin 3).val,
      (my_jacobian scenario_camera scenario_point).point_y_ptr 2⟩
    ((hpm _).mpr ⟨0, scenario_observation, scenario_camera, scenario_point, by norm_num, rfl,
      rfl, rfl, 2, Or.inr rfl⟩)
  have hx0 : Jp.entry 0 2 = 0 := hx.trans scenario_point_column.1
  have hy0 : Jp.entry 1 2 = 0 := hy.trans scenario_point_column.2
  refine ⟨Jc, Jp, sys, hJ, hsys, hr, hc, ?_⟩
  intro h
  rw [hr, hc] at hC
  rw [hC] at h
  have h22 := congrFun (congrFun h 2) 2
  simp [Matrix.add_apply, Matrix.mul_apply, Fin.sum_univ_succ, SparseMatrix.toMatrix, hx0, hy0]
    at h22

/-- Witness of C10: the scenario of the specification. -/
theorem matrix_block_column_multiply_jacobian_witness :
    (∀ o ∈ [(scenario_observation : Observation ℚ)],
      o.camera_id < [(scenario_camera : Camera ℚ)].length
        ∧ o.point_id < [(scenario_point : Point3D ℚ)].length)
    ∧ ∃ Jc Jp B C, analytic_jacobian [(scenario_camera : Camera ℚ)] [scenario_point]
          [scenario_observation] = .ok (Jc, Jp)
        ∧ matrix_block_column_multiply Jc 9 = .ok B
        ∧ matrix_block_column_multiply Jp 3 = .ok C
        ∧ (∀ r c, B.entry r c = ∑ k ∈ Finset.range Jc.rows, Jc.entry k r * Jc.entry k c)
        ∧ (∀ r c, C.entry r c = ∑ k ∈ Finset.range Jp.rows, Jp.entry k r * Jp.entry k c) :=
  ⟨scenario_in_range,
    let ⟨Jc, Jp, B, C, _, _, h1, h2, h3, _, _, _, _, _, _, _, _, h12, h13⟩ :=
      matrix_block_column_multiply_jacobian [(scenario_camera : Camera ℚ)] [scenario_point]
        [scenario_observation] scenario_in_range
    ⟨Jc, Jp, B, C, h1, h2, h3, h12, h13⟩⟩

/-- Witness of C11: the run on the scenario camera, the point `(0, 0, 200)` and
the pixel `(1, 0)` commits the errors 1 and then about `1 - 1.25e-9`.  The
run on the camera with the distortion `(0, 1)`, the point `(1, 1, 0)` at depth
zero and the pixel `(0, 0)` starts from the error `+inf`, which is not NaN. -/
theorem lm_optimization_mse_nonincreasing_witness :
    (∃ res : LMResult ℚ,
        lm_optimization (example_lm_env cg_at_start) main_globals [scenario_camera]
            [axis_point 200] [axis_observation 1] = .ok res
        ∧ res.initial_mse = .finite 1
        ∧ res.final_mse = .finite (2559999996796800001002001 / 2560000000000000000000000)
        ∧ res.initial_mse ≠ Extended.nan
        ∧ List.Chain' (fun a b => Extended.le b a = true) res.run.committed
        ∧ res.run.committed.head? = some res.initial_mse
        ∧ res.run.committed.getLast? = some res.final_mse
        ∧ (∀ m ∈ res.run.committed, m ≠ Extended.nan)
        ∧ Extended.le res.final_mse res.initial_mse = true)
      ∧ (∃ res : LMResult ℚ,
        lm_optimization (example_lm_env cg_invalid_input) main_globals [distorted_camera]
            [diagonal_point] [scenario_observation] = .ok res
        ∧ res.initial_mse = .pos_inf
        ∧ res.initial_mse ≠ Extended.nan
        ∧ List.Chain' (fun a b => Extended.le b a = true) res.run.committed
        ∧ res.run.committed.head? = some res.initial_mse
        ∧ res.run.committed.getLast? = some res.final_mse
        ∧ (∀ m ∈ res.run.committed, m ≠ Extended.nan)
        ∧ Extended.le res.final_mse res.initial_mse = true) := by
  constructor
  · obtain ⟨res, hres, hs⟩ := toOption_map_some _ _ _ axis_run
    have hi : res.initial_mse = .finite 1 := congrArg (fun s => s.2.2.2.1) hs
    have hnan : res.initial_mse ≠ Extended.nan := by
      rw [hi]
      intro hn
      cases hn
    exact ⟨res, hres, hi, congrArg (fun s => s.2.2.2.2) hs, hnan,
      lm_optimization_mse_nonincreasing _ _ _ _ _ res hres hnan⟩
  · obtain ⟨res, hres⟩ := lm_optimization_returns (example_lm_env cg_invalid_input) main_globals
      [distorted_camera] [(diagonal_point : Point3D ℚ)] [scenario_observation] ⟨rfl, rfl, rfl⟩
      (by simp [scenario_observation]) (fun _ _ _ _ => rfl)
    obtain ⟨F, -, -, hi, -⟩ := lm_optimization_inv _ _ _ _ _ res hres
    have hk : residual_kind (example_lm_env cg_invalid_input : LMEnv ℚ).lm none
        [distorted_camera] [diagonal_point] [scenario_observation] = Kind.infinite := by
      decide!
    rw [hk] at hi
    have hi1 : res.initial_mse = .pos_inf := hi
    have hnan : res.initial_mse ≠ Extended.nan := by
      rw [hi1]
      intro hn
      cases hn
    exact ⟨res, hres, hi1, hnan, lm_optimization_mse_nonincreasing _ _ _ _ _ res hres hnan⟩

/-- Counterexample to C11 as stated: the scenario camera, the point
`(0, 0, 0)` at its optical centre and the pixel `(0, 0)`, all indices in
range.  The depth of the point is zero, the perspective division is `0.0 / 0`
and the first error is NaN.  The run executes 100 unsuccessful iterations;
`initial_mse` and `final_mse` are NaN and `final_mse <= initial_mse` does not
hold. -/
theorem lm_optimization_nan_counterexample :
    (∀ o ∈ [(scenario_observation : Observation ℚ)],
        o.camera_id < [(scenario_camera : Camera ℚ)].length
          ∧ o.point_id < [(plane_point 0 : Point3D ℚ)].length)
      ∧ camera_depth (scenario_camera : Camera ℚ) (plane_point 0) = 0
      ∧ camera_x (scenario_camera : Camera ℚ) (plane_point 0) = 0
      ∧ ∃ res : LMResult ℚ,
        lm_optimization (example_lm_env cg_at_start) main_globals [scenario_camera]
            [plane_point 0] [scenario_observation] = .ok res
        ∧ res.initial_mse = Extended.nan ∧ res.final_mse = Extended.nan
        ∧ Extended.le res.final_mse res.initial_mse = false
        ∧ res.run.iterations.length = 100
        ∧ (∀ m ∈ res.run.committed, m = Extended.nan) := by
  have hin : ∀ o ∈ [(scenario_observation : Observation ℚ)],
      o.camera_id < [(scenario_camera : Camera ℚ)].length
        ∧ o.point_id < [(plane_point 0 : Point3D ℚ)].length := by
    simp [scenario_observation]
  obtain ⟨res, hres⟩ := lm_optimization_returns (example_lm_env cg_at_start) main_globals
    [scenario_camera] [(plane_point 0 : Point3D ℚ)] [scenario_observation] ⟨rfl, rfl, rfl⟩ hin
    (fun _ _ _ _ => rfl)
  obtain ⟨h1, h2, -, h4, h5, -⟩ := lm_optimization_nan _ _ _ _ _ res hres
    (Or.inr (by decide!))
  obtain ⟨-, -, -, -, hf⟩ := lm_optimization_inv _ _ _ _ _ res hres
  refine ⟨hin, by decide!, by decide!, res, hres, h1, h2, by rw [h1, h2]; rfl, h4, ?_⟩
  intro m hm
  simp only [LMRun.committed, List.mem_append, List.mem_map, List.mem_singleton] at hm
  rcases hm with ⟨it, hit, rfl⟩ | rfl
  · exact (h5 it hit).2
  · rw [← hf]
    exact h2

/-- Witness of C12: the iteration from the first state of that run is
successful. -/
theorem lm_iteration_successful_iff_witness :
    ∃ it : LMIteration ℚ,
      lm_iteration (example_lm_env cg_at_start) main_globals [axis_observation 1] axis_state
        = .ok it
      ∧ it.successful = true
      ∧ it.new_mse = .finite (2559999996796800001002001 / 2560000000000000000000000)
      ∧ ∃ Jc Jp status,
        analytic_jacobian ((main_globals : LMGlobals ℚ).cameras.getD axis_state.cameras)
            ((main_globals : LMGlobals ℚ).points.getD axis_state.points)
            ((main_globals : LMGlobals ℚ).observations.getD [axis_observation 1]) = .ok (Jc, Jp)
        ∧ my_solve_schur
            { (example_lm_env cg_at_start : LMEnv ℚ).solver with
              trust_region_radius := (axis_state : LMState ℚ).trust_region_radius }
            Jc Jp (axis_state : LMState ℚ).F [] = .ok (status, it.delta_x)
        ∧ (it.successful = true ↔
            status.success = true
              ∧ ∃ Ft, compute_reprojection_errors (example_lm_env cg_at_start : LMEnv ℚ).lm
                    (axis_state : LMState ℚ).F_new (some it.delta_x)
                    (axis_state : LMState ℚ).cameras (axis_state : LMState ℚ).points
                    [axis_observation 1] = some Ft
                  ∧ Extended.lt
                      (residual_mse (residual_kind (example_lm_env cg_at_start : LMEnv ℚ).lm
                        (some it.delta_x) (axis_state : LMState ℚ).cameras
                        (axis_state : LMState ℚ).points [axis_observation 1]) Ft)
                      (axis_state : LMState ℚ).current_mse = true)
        ∧ (it.successful = true →
            ∃ Ft cams pts,
              compute_reprojection_errors (example_lm_env cg_at_start : LMEnv ℚ).lm
                  (axis_state : LMState ℚ).F_new (some it.delta_x)
                  (axis_state : LMState ℚ).cameras (axis_state : LMState ℚ).points
                  [axis_observation 1] = some Ft
              ∧ update_parameters (example_lm_env cg_at_start : LMEnv ℚ).lm it.delta_x
                  (axis_state : LMState ℚ).cameras (axis_state : LMState ℚ).points
                  = some (cams, pts)
              ∧ it.after.cameras = cams ∧ it.after.points = pts ∧ it.after.F = Ft
              ∧ it.after.current_mse
                  = residual_mse (residual_kind (example_lm_env cg_at_start : LMEnv ℚ).lm
                      (some it.delta_x) (axis_state : LMState ℚ).cameras
                      (axis_state : LMState ℚ).points [axis_observation 1]) Ft) := by
  obtain ⟨it, hit, hs⟩ := toOption_map_some _ _ _ axis_iteration
  exact ⟨it, hit, congrArg (fun s => s.2.1) hs, congrArg (fun s => s.2.2.2) hs,
    lm_iteration_successful_iff _ _ _ _ it hit⟩

/-- Witness of C13: an iteration whose solve reports invalid input. -/
theorem lm_iteration_unsuccessful_frame_witness :
    ∃ it : LMIteration ℚ,
      lm_iteration (example_lm_env cg_invalid_input) main_globals [axis_observation 1] axis_state
        = .ok it
      ∧ it.solve_success = false
      ∧ (it.solve_success = false → it.successful = false)
      ∧ (it.successful = false →
          it.after.cameras = (axis_state : LMState ℚ).cameras
            ∧ it.after.points = (axis_state : LMState ℚ).points
            ∧ it.after.F = (axis_state : LMState ℚ).F
            ∧ it.after.current_mse = (axis_state : LMState ℚ).current_mse
            ∧ it.after.trust_region_radius
                = (axis_state : LMState ℚ).trust_region_radius * (1 / 10)) := by
  obtain ⟨it, hit, hs⟩ := toOption_map_some _ _ _ axis_iteration_invalid
  exact ⟨it, hit, congrArg (fun s => s.1) hs,
    lm_iteration_unsuccessful_frame _ _ _ _ it hit⟩

/-- Witness of C14: the scenario of the specification, one camera with
identity rotation, zero translation, focal length 1 and zero distortion, the
point `(0, 0, 5)` and the pixel `(0, 0)`. -/
theorem lm_optimization_zero_residual_witness :
    [(scenario_observation : Observation ℚ)] ≠ []
      ∧ compute_reprojection_errors (example_lm_env cg_at_start : LMEnv ℚ).lm [] none
          [scenario_camera] [scenario_point] [scenario_observation] = some [0, 0]
      ∧ residual_kind (example_lm_env cg_at_start : LMEnv ℚ).lm none
          [scenario_camera] [scenario_point] [scenario_observation] = Kind.finite
      ∧ (∀ x ∈ [(0 : ℚ), 0], x = 0)
      ∧ lm_optimization (example_lm_env cg_at_start) main_globals [scenario_camera]
          [scenario_point] [(scenario_observation : Observation ℚ)]
        = .ok { run :=
                  { iterations := []
                    final :=
                      { cameras := [scenario_camera]
                        points := [scenario_point]
                        F := [0, 0]
                        F_new := []
                        current_mse := .finite 0
                        trust_region_radius := 1000
                        num_lm_iterations := (main_globals : LMGlobals ℚ).num_lm_iterations
                        num_lm_successful_iterations :=
                          (main_globals : LMGlobals ℚ).num_lm_successful_iterations
                        num_lm_unsuccessful_iterations :=
                          (main_globals : LMGlobals ℚ).num_lm_unsuccessful_iterations }
                    exit := LMExit.mse_threshold }
                initial_mse := .finite 0
                final_mse := .finite 0 } :=
  ⟨by simp, by decide!, by decide!, by simp,
    lm_optimization_zero_residual (example_lm_env cg_at_start) main_globals [scenario_camera]
      [scenario_point] [scenario_observation] [0, 0] (by simp) (by decide!) (by decide!)
      (by simp)⟩

/-- Counterexample to C14 as stated: with no observation the residual vector
is empty, so all of it is zero, but its mean squared error is `0.0 / 0`, NaN,
which is not below the absolute threshold.  The run does not stop at
iteration 0: it executes 100 iterations, all unsuccessful, and leaves through
the iteration cap with `num_lm_iterations` and
`num_lm_unsuccessful_iterations` grown to 100; `initial_mse` and `final_mse`
are NaN, not 0. -/
theorem lm_optimization_no_observation_counterexample :
    compute_reprojection_errors (example_lm_env cg_at_start : LMEnv ℚ).lm [] none
        [scenario_camera] [scenario_point] [] = some []
      ∧ (∀ x ∈ ([] : List ℚ), x = 0)
      ∧ compute_mse ([] : List ℚ) = Extended.nan
      ∧ ∃ res : LMResult ℚ,
        lm_optimization (example_lm_env cg_at_start) main_globals [scenario_camera]
          [(scenario_point : Point3D ℚ)] [] = .ok res
        ∧ res.run.exit = LMExit.max_iterations
        ∧ res.run.iterations.length = 100
        ∧ (∀ it ∈ res.run.iterations, it.successful = false)
        ∧ res.run.final.num_lm_iterations = 100
        ∧ res.run.final.num_lm_successful_iterations = 0
        ∧ res.run.final.num_lm_unsuccessful_iterations = 100
        ∧ res.initial_mse = Extended.nan ∧ res.final_mse = Extended.nan := by
  obtain ⟨res, hres⟩ := lm_optimization_returns (example_lm_env cg_at_start) main_globals
    [scenario_camera] [(scenario_point : Point3D ℚ)] [] ⟨rfl, rfl, rfl⟩ (by simp)
    (fun _ _ _ _ => rfl)
  obtain ⟨h1, h2, h3, h4, h5, -, -, h8, h9, h10⟩ := lm_optimization_nan _ _ _ _ _ res hres
    (Or.inl rfl)
  exact ⟨rfl, by simp, compute_mse_nil, res, hres, h3, h4, fun it hit => (h5 it hit).1, h8, h9,
    h10, h1, h2⟩

/-- Witness of C15: the scenario camera, the point `(0, 0, 200)` and the pixel
`(1, 0)`, with a conjugate gradient solver that stops at its start vector. -/
theorem lm_optimization_terminates_witness :
    ((main_globals : LMGlobals ℚ).cameras = none ∧ (main_globals : LMGlobals ℚ).points = none
        ∧ (main_globals : LMGlobals ℚ).observations = none)
      ∧ (∀ o ∈ [(axis_observation 1 : Observation ℚ)],
          o.camera_id < [(scenario_camera : Camera ℚ)].length
            ∧ o.point_id < [(axis_point 200 : Point3D ℚ)].length)
      ∧ (∀ S rhs x P,
          ((example_lm_env cg_at_start : LMEnv ℚ).solver.cg_solve S rhs x P).2.length = x.length)
      ∧ ∃ res, lm_optimization (example_lm_env cg_at_start) main_globals [scenario_camera]
            [axis_point (200 : ℚ)] [axis_observation 1] = .ok res
        ∧ res.run.iterations.length ≤ lm_max_iterations
        ∧ (∀ it ∈ res.run.iterations,
            lm_iteration (example_lm_env cg_at_start) main_globals [axis_observation 1] it.before
              = .ok it)
        ∧ (res.run.exit = LMExit.mse_threshold →
            ∃ m, res.run.final.current_mse = .finite m ∧ m < lm_mse_threshold)
        ∧ (res.run.exit = LMExit.delta_threshold →
            ∃ it new_mse current_mse, res.run.iterations.getLast? = some it
              ∧ res.run.final = it.after
              ∧ it.successful = true
              ∧ it.new_mse = .finite new_mse ∧ it.before.current_mse = .finite current_mse
              ∧ current_mse ≠ 0
              ∧ 1 - new_mse / current_mse < lm_delta_threshold)
        ∧ (res.run.exit = LMExit.max_iterations →
            res.run.iterations.length = lm_max_iterations)
        ∧ res.final_mse = res.run.final.current_mse :=
  ⟨⟨rfl, rfl, rfl⟩, by simp [axis_observation], fun _ _ _ _ => rfl,
    lm_optimization_terminates (example_lm_env cg_at_start) main_globals [scenario_camera]
      [axis_point (200 : ℚ)] [axis_observation 1] ⟨rfl, rfl, rfl⟩ (by simp [axis_observation])
      (fun _ _ _ _ => rfl)⟩

/-- Counterexample to C15 as stated: one camera, one point and one observation
that names camera 1.  The first evaluation of the residual leaves
`lm_optimization` through the exception of `at()`, before the loop: none of
the three exits is taken and `final_mse` is not set. -/
theorem lm_optimization_out_of_range_counterexample :
    ¬ ((⟨![0, 0], 1, 0⟩ : Observation ℚ).camera_id < [(scenario_camera : Camera ℚ)].length)
      ∧ lm_optimization (example_lm_env cg_at_start) main_globals [scenario_camera]
          [(scenario_point : Point3D ℚ)] [⟨![0, 0], 1, 0⟩] = .error Fault.access
      ∧ ∀ res, lm_optimization (example_lm_env cg_at_start) main_globals [scenario_camera]
          [(scenario_point : Point3D ℚ)] [⟨![0, 0], 1, 0⟩] ≠ .ok res := by
  have h := thrown_some _ _ out_of_range_run
  refine ⟨by simp, h, ?_⟩
  intro res hres
  rw [h] at hres
  cases hres

/-- Witness of C16: the run on the scenario camera, the point `(0, 0, 200)` and
the pixel `(1, 0)`. -/
theorem lm_optimization_trust_region_radius_witness :
    ∃ res : LMResult ℚ,
      lm_optimization (example_lm_env cg_at_start) main_globals [scenario_camera]
          [axis_point 200] [axis_observation 1] = .ok res
      ∧ ((res.run.iterations.head?.map (fun it => it.before)).getD
          res.run.final).trust_region_radius = 1000
      ∧ List.Chain' (fun a b => b.before = a.after) res.run.iterations
      ∧ res.run.final = (res.run.iterations.getLast?.map (fun it => it.after)).getD
          ((res.run.iterations.head?.map (fun it => it.before)).getD res.run.final)
      ∧ (∀ it ∈ res.run.iterations,
          0 < it.before.trust_region_radius
          ∧ (it.successful = true → it.stop = false →
              it.after.trust_region_radius = it.before.trust_region_radius * 10
                ∧ it.before.trust_region_radius < it.after.trust_region_radius)
          ∧ (it.successful = true → it.stop = true →
              it.after.trust_region_radius = it.before.trust_region_radius
                ∧ res.run.exit = LMExit.delta_threshold
                ∧ res.run.iterations.getLast? = some it)
          ∧ (it.successful = false →
              it.after.trust_region_radius = it.before.trust_region_radius * (1 / 10)
                ∧ it.after.trust_region_radius < it.before.trust_region_radius)) := by
  obtain ⟨res, hres, -⟩ := toOption_map_some _ _ _ axis_run
  exact ⟨res, hres, lm_optimization_trust_region_radius _ _ _ _ _ res hres⟩

/-- Counterexample to C16 as stated: the run on the scenario camera, the point
`(0, 0, 200)` and the pixel `(1, 0)` has one iteration; it is successful, the
error falls from 1 to about `1 - 1.25e-9`, and the loop is left through the
test of the relative improvement before the radius is multiplied: the
radius is 1000 before the iteration, after it and at the end of the run. -/
theorem lm_optimization_radius_kept_counterexample :
    ∃ res : LMResult ℚ,
      lm_optimization (example_lm_env cg_at_start) main_globals [scenario_camera]
          [axis_point 200] [axis_observation 1] = .ok res
      ∧ res.run.exit = LMExit.delta_threshold
      ∧ res.run.final.trust_region_radius = 1000
      ∧ ∃ it, res.run.iterations = [it] ∧ it.successful = true
          ∧ it.before.trust_region_radius = 1000 ∧ it.after.trust_region_radius = 1000
          ∧ it.after.trust_region_radius ≠ it.before.trust_region_radius * 10 := by
  obtain ⟨res, hres, hs⟩ := toOption_map_some _ _ _ axis_run
  obtain ⟨res1, hres1, hr⟩ := toOption_map_some _ _ _ axis_run_radius
  rw [hres] at hres1
  have e : res = res1 := Except.ok.inj hres1
  rw [← e] at hr
  have hsucc := congrArg (fun s => s.2.1) hs
  simp only [] at hsucc
  refine ⟨res, hres, congrArg (fun s => s.1) hs, congrArg (fun s => s.2.2.1) hs, ?_⟩
  cases hi : res.run.iterations with
  | nil =>
    rw [hi] at hr
    simp at hr
  | cons it tl =>
    rw [hi] at hr hsucc
    cases tl with
    | cons it2 tl2 => simp at hr
    | nil =>
      simp only [List.map_cons, List.map_nil, List.cons.injEq, Prod.mk.injEq, and_true] at hr hsucc
      refine ⟨it, rfl, hsucc.1, hr.1, hr.2, ?_⟩
      rw [hr.1, hr.2]
      norm_num

/-- Witness of C18: Jacobians of two rows for one camera and one point, a
solver that reports invalid input and an output vector that holds two
values at entry. -/
theorem my_solve_schur_status_witness :
    (diagonal_jacobian 2 9 (0 : ℚ)).cols = 1 * 9 ∧ (diagonal_jacobian 2 3 (1 : ℚ)).cols = 1 * 3
      ∧ (diagonal_jacobian 2 9 (0 : ℚ)).rows = (diagonal_jacobian 2 3 (1 : ℚ)).rows
      ∧ [(1 : ℚ), 0].length = (diagonal_jacobian 2 9 (0 : ℚ)).rows
      ∧ BlockUniform (diagonal_jacobian 2 9 (0 : ℚ)) 9 1
      ∧ BlockUniform (diagonal_jacobian 2 3 (1 : ℚ)) 3 1
      ∧ (∀ S rhs x P,
          ((example_lm_env cg_invalid_input : LMEnv ℚ).solver.cg_solve S rhs x P).2.length
            = x.length)
      ∧ ∃ sys st dc status dx1,
        schur_system (example_lm_env cg_invalid_input : LMEnv ℚ).solver
            (diagonal_jacobian 2 9 0) (diagonal_jacobian 2 3 1) [1, 0] = .ok sys
        ∧ (example_lm_env cg_invalid_input : LMEnv ℚ).solver.cg_solve sys.S sys.rhs
            (List.replicate (diagonal_jacobian 2 9 (0 : ℚ)).cols 0) sys.precond = (st, dc)
        ∧ my_solve_schur (example_lm_env cg_invalid_input : LMEnv ℚ).solver
            (diagonal_jacobian 2 9 0) (diagonal_jacobian 2 3 1) [1, 0] [7, 7]
            = .ok (status, dx1)
        ∧ status.num_cg_iterations = st.num_iterations
        ∧ (status.success = true ↔
            st.info = CGInfo.CG_CONVERGENCE ∨ st.info = CGInfo.CG_MAX_ITERATIONS)
        ∧ (status.success = false ↔ st.info = CGInfo.CG_INVALID_INPUT)
        ∧ (st.info = CGInfo.CG_INVALID_INPUT → dx1 = [7, 7]) :=
  ⟨rfl, rfl, rfl, rfl, fun _ _ _ _ _ _ _ _ => rfl, fun _ _ _ _ _ _ _ _ => rfl,
    fun _ _ _ _ => rfl,
    my_solve_schur_status (example_lm_env cg_invalid_input : LMEnv ℚ).solver
      (diagonal_jacobian 2 9 0) (diagonal_jacobian 2 3 1) [1, 0] [7, 7] 1 1 rfl rfl rfl rfl
      (fun _ _ _ _ _ _ _ _ => rfl) (fun _ _ _ _ _ _ _ _ => rfl) (fun _ _ _ _ => rfl)⟩

/-- Witness of C20: the 3x3 block that is twice the identity, and the 2x2
block of ones with the stand-ins `cholesky_first_bad` and `isfinite_upto_one`. -/
theorem invert_block_matrix_inplace_blocks_witness :
    (0 : ℚ) ≤ 1 / 2 ^ 52 ∧ BlockDiagonal (scaled_block (2 : ℚ)) 3 1 ∧ 0 < 2
      ∧ BlockDiagonal (ones_block 2 : SparseMatrix ℚ) 2 1
      ∧ (∃ C, invert_block_matrix_3x3_inplace (1 / 2 ^ 52) (scaled_block (2 : ℚ)) = .ok C
        ∧ BlockDiagonal C 3 1
        ∧ ∀ b, b < 1 →
          (MATH_DOUBLE_EQ (1 / 2 ^ 52)
              (matrix_determinant ((scaled_block (2 : ℚ)).block3 b)) 0 = true →
            ∀ i j, i < 3 → j < 3 →
              C.entry (b * 3 + i) (b * 3 + j) = (scaled_block (2 : ℚ)).entry (b * 3 + i) (b * 3 + j))
          ∧ (MATH_DOUBLE_EQ (1 / 2 ^ 52)
              (matrix_determinant ((scaled_block (2 : ℚ)).block3 b)) 0 = false →
            ∀ i j, i < 3 → j < 3 →
              (scaled_block (2 : ℚ)).entry (b * 3 + i) (b * 3 + 0) * C.entry (b * 3 + 0) (b * 3 + j)
                + (scaled_block (2 : ℚ)).entry (b * 3 + i) (b * 3 + 1)
                  * C.entry (b * 3 + 1) (b * 3 + j)
                + (scaled_block (2 : ℚ)).entry (b * 3 + i) (b * 3 + 2)
                  * C.entry (b * 3 + 2) (b * 3 + j)
                = if i = j then 1 else 0))
      ∧ (∃ P, invert_block_matrix_NxN_inplace cholesky_first_bad isfinite_upto_one
            (ones_block 2 : SparseMatrix ℚ) 2 = .ok P
        ∧ BlockDiagonal P 2 1
        ∧ ∀ b i j, b < 1 → i < 2 → j < 2 →
          P.entry (b * 2 + i) (b * 2 + j)
            = if isfinite_upto_one ((cholesky_first_bad
                  ((ones_block 2 : SparseMatrix ℚ).block_values 2 b) 2).getD (j * 2 + i) 0)
              then (cholesky_first_bad
                  ((ones_block 2 : SparseMatrix ℚ).block_values 2 b) 2).getD (j * 2 + i) 0
              else 0) :=
  ⟨by norm_num, full_block_diagonal _ 3 rfl rfl (fun _ _ => rfl), by norm_num,
    full_block_diagonal _ 2 rfl rfl (fun _ _ => rfl),
    invert_block_matrix_inplace_blocks (1 / 2 ^ 52) cholesky_first_bad isfinite_upto_one
      (scaled_block (2 : ℚ)) (ones_block 2) 1 2 1 (by norm_num)
      (full_block_diagonal _ 3 rfl rfl (fun _ _ => rfl)) (by norm_num)
      (full_block_diagonal _ 2 rfl rfl (fun _ _ => rfl))⟩

/-- Counterexample to C20 as stated.  The 3x3 matrix of ones is one block with
determinant zero: `invert_block_matrix_3x3_inplace` returns it with all nine
values still one.  On the 2x2 matrix of ones, with a Cholesky inversion whose
result `[2, 1, 1, 1]` has one value that `isfinite` rejects,
`invert_block_matrix_NxN_inplace` returns a block with a zero in that place
and ones in the three other places. -/
theorem invert_block_matrix_inplace_zero_block_counterexample :
    matrix_determinant ((ones_block 3 : SparseMatrix ℚ).block3 0) = 0
      ∧ MATH_DOUBLE_EQ (1 / 2 ^ 52 : ℚ)
          (matrix_determinant ((ones_block 3 : SparseMatrix ℚ).block3 0)) 0 = true
      ∧ (∃ C, invert_block_matrix_3x3_inplace (1 / 2 ^ 52) (ones_block 3 : SparseMatrix ℚ) = .ok C
          ∧ ∀ i j, i < 3 → j < 3 → C.entry i j = 1)
      ∧ isfinite_upto_one ((cholesky_first_bad
          ((ones_block 2 : SparseMatrix ℚ).block_values 2 0) 2).getD 0 0) = false
      ∧ (∃ P, invert_block_matrix_NxN_inplace cholesky_first_bad isfinite_upto_one
            (ones_block 2 : SparseMatrix ℚ) 2 = .ok P
          ∧ P.entry 0 0 = 0 ∧ P.entry 1 0 = 1 ∧ P.entry 0 1 = 1 ∧ P.entry 1 1 = 1) := by
  have hd3 : BlockDiagonal (ones_block 3 : SparseMatrix ℚ) 3 1 :=
    full_block_diagonal _ 3 rfl rfl (fun _ _ => rfl)
  have hd2 : BlockDiagonal (ones_block 2 : SparseMatrix ℚ) 2 1 :=
    full_block_diagonal _ 2 rfl rfl (fun _ _ => rfl)
  have hone : ∀ k : Fin 9, (ones_block 3 : SparseMatrix ℚ).block3 0 k = 1 := by
    intro k
    have h1 : k.val / 3 < 3 := by omega
    have h2 : k.val % 3 < 3 := by omega
    simp [SparseMatrix.block3, SparseMatrix.entry, ones_block, h1, h2]
  have hdet : matrix_determinant ((ones_block 3 : SparseMatrix ℚ).block3 0) = 0 := by
    simp only [matrix_determinant, hone]
    norm_num
  refine ⟨hdet, ?_, ?_, ?_, ?_⟩
  · rw [hdet]
    simp [MATH_DOUBLE_EQ]
  · obtain ⟨C, hC, -, -⟩ := invert_block_matrix_3x3_inplace_ok (1 / 2 ^ 52 : ℚ) (ones_block 3) 1 hd3
    refine ⟨C, hC, ?_⟩
    intro i j hi hj
    have h := invert_block_matrix_3x3_inplace_skipped (1 / 2 ^ 52 : ℚ) (ones_block 3) C 1 hd3 hC
      0 (by norm_num) (by rw [hdet]; simp [MATH_DOUBLE_EQ]) i j hi hj
    simp only [Nat.zero_mul, Nat.zero_add] at h
    rw [h]
    simp [SparseMatrix.entry, ones_block, hi, hj]
  · simp [cholesky_first_bad, isfinite_upto_one]
  · obtain ⟨P, hP, hPd, hPv⟩ := invert_block_matrix_NxN_inplace_values cholesky_first_bad
      isfinite_upto_one (ones_block 2 : SparseMatrix ℚ) 2 1 (by norm_num) hd2
    refine ⟨P, hP, ?_, ?_, ?_, ?_⟩
    · have h := entry_in_block P 2 1 0 0 0 hPd (by norm_num) (by norm_num) (by norm_num)
      have v := hPv 0 0 0 (by norm_num) (by norm_num) (by norm_num)
      rw [invert_block_NxN_getD _ _ _ _ _ (by norm_num)] at v
      simp only [Nat.zero_mul, Nat.zero_add] at h v
      rw [h, v]
      simp [cholesky_first_bad, isfinite_upto_one]
    · have h := entry_in_block P 2 1 0 1 0 hPd (by norm_num) (by norm_num) (by norm_num)
      have v := hPv 0 1 0 (by norm_num) (by norm_num) (by norm_num)
      rw [invert_block_NxN_getD _ _ _ _ _ (by norm_num)] at v
      simp only [Nat.zero_mul, Nat.zero_add] at h v
      rw [h, v]
      simp [cholesky_first_bad, isfinite_upto_one]
    · have h := entry_in_block P 2 1 0 0 1 hPd (by norm_num) (by norm_num) (by norm_num)
      have v := hPv 0 0 1 (by norm_num) (by norm_num) (by norm_num)
      rw [invert_block_NxN_getD _ _ _ _ _ (by norm_num)] at v
      simp only [Nat.zero_mul, Nat.zero_add] at h v
      rw [h, v]
      simp [cholesky_first_bad, isfinite_upto_one]
    · have h := entry_in_block P 2 1 0 1 1 hPd (by norm_num) (by norm_num) (by norm_num)
      have v := hPv 0 1 1 (by norm_num) (by norm_num) (by norm_num)
      rw [invert_block_NxN_getD _ _ _ _ _ (by norm_num)] at v
      simp only [Nat.zero_mul, Nat.zero_add] at h v
      rw [h, v]
      simp [cholesky_first_bad, isfinite_upto_one]

/-- Witness of C22: the point `(1, 0, 0)` and the update `(1, 0, 0)`, whose sums
are exact in `double`, and the scenario camera with the same update. -/
theorem update_negation_restores_witness :
    update_point false (update_point false (⟨![1, 0, 0]⟩ : Point3D ℚ) (single_update 0 1)
        Point3D.fresh) (fun j => - single_update 0 1 j) Point3D.fresh = ⟨![1, 0, 0]⟩
      ∧ update_point_double (update_point_double ⟨![1, 0, 0]⟩ (single_update 0 1))
          (fun j => - single_update 0 1 j) = ⟨![1, 0, 0]⟩ := by
  obtain ⟨h1, -, -, -, -, -, -, -, h9, -⟩ := update_negation_restores (libm_at_zero : Libm ℚ)
    ⟨![1, 0, 0]⟩ Point3D.fresh Point3D.fresh (single_update 0 1) scenario_camera Camera.fresh
    Camera.fresh (single_update 0 1)
  refine ⟨h1, h9 ⟨![1, 0, 0]⟩ (single_update 0 1) ?_ ?_⟩
  · intro i
    fin_cases i <;> decide!
  · intro i
    fin_cases i <;> decide!

/-- Counterexample to C22 as stated: the point `(1, 0, 0)` and the update
`(2^53, 0, 0)`, all of them `double` values.  The sum `1 + 2^53` lies halfway
between the `double` values `2^53` and `2^53 + 2` and is rounded to `2^53`, so
the update with the negated vector gives `(0, 0, 0)`, not the point.  The same
happens to the focal length 1 of the scenario camera. -/
theorem update_point_double_counterexample :
    round_double 1 = 1 ∧ round_double 0 = 0 ∧ round_double (2 ^ 53) = 2 ^ 53
      ∧ double_add 1 (2 ^ 53) = 2 ^ 53
      ∧ (update_point_double (update_point_double ⟨![1, 0, 0]⟩ (single_update 0 (2 ^ 53)))
          (fun j => - single_update 0 (2 ^ 53) j)).pos = ![0, 0, 0]
      ∧ (update_point_double (update_point_double ⟨![1, 0, 0]⟩ (single_update 0 (2 ^ 53)))
          (fun j => - single_update 0 (2 ^ 53) j)).pos ≠ ![1, 0, 0]
      ∧ (scenario_camera : Camera ℚ).focal_length = 1
      ∧ (update_camera_double (update_camera_double scenario_camera (single_update 0 (2 ^ 53)))
          (fun j => - single_update 0 (2 ^ 53) j)).focal_length = 0 := by
  refine ⟨?_, ?_, ?_, ?_, ?_, ?_, ?_, ?_⟩ <;> decide!

/-- Witness of C29: the 3x3 matrix of ones, one block of nine values. -/
theorem block_walk_whole_blocks_witness :
    0 < 3 ∧ (ones_block 3 : SparseMatrix ℚ).rows = (ones_block 3 : SparseMatrix ℚ).cols
      ∧ (ones_block 3 : SparseMatrix ℚ).num_non_zero = (ones_block 3 : SparseMatrix ℚ).rows * 3
      ∧ (3 ∣ (ones_block 3 : SparseMatrix ℚ).rows →
          (ones_block 3 : SparseMatrix ℚ).values.length
            = (ones_block 3 : SparseMatrix ℚ).rows / 3 * (3 * 3)
          ∧ ∀ f : List ℚ → List ℚ,
            block_walk (3 * 3) f (ones_block 3 : SparseMatrix ℚ).values.length
                (ones_block 3 : SparseMatrix ℚ).values
              = some ((List.range ((ones_block 3 : SparseMatrix ℚ).rows / 3)).flatMap
                  (fun b => f (((ones_block 3 : SparseMatrix ℚ).values.drop (b * (3 * 3))).take
                    (3 * 3)))))
      ∧ (¬ 3 ∣ (ones_block 3 : SparseMatrix ℚ).rows →
          ∀ (f : List ℚ → List ℚ) (fuel : ℕ),
            block_walk (3 * 3) f fuel (ones_block 3 : SparseMatrix ℚ).values = none)
      ∧ ((∃ P, invert_block_matrix_NxN_inplace cholesky_first_bad isfinite_upto_one
            (ones_block 3 : SparseMatrix ℚ) 3 = .ok P) ↔ 3 ∣ (ones_block 3 : SparseMatrix ℚ).rows)
      ∧ (3 = 3 →
          ((∃ C, invert_block_matrix_3x3_inplace (1 / 2 ^ 52) (ones_block 3 : SparseMatrix ℚ)
            = .ok C) ↔ 3 ∣ (ones_block 3 : SparseMatrix ℚ).rows)) :=
  ⟨by norm_num, rfl, by decide!,
    block_walk_whole_blocks (1 / 2 ^ 52) cholesky_first_bad isfinite_upto_one
      (ones_block 3 : SparseMatrix ℚ) 3 (by norm_num) rfl (by decide!)⟩

/-- Counterexample to C29 as stated.  The 4x4 matrix that stores the first
three rows of every column is square and holds `12 = rows * 3` values, so it
passes both checks of `invert_block_matrix_3x3_inplace` and of
`invert_block_matrix_NxN_inplace` with block size 3; the walk reads the
values 0 to 8, then starts a block at value 9 with three values left: it
reads past the end of the array and its pointer never equals the end.  The
same happens with the 3x3 matrix of six values and block size 2. -/
theorem block_walk_overrun_counterexample :
    (three_of_four : SparseMatrix ℚ).rows = (three_of_four : SparseMatrix ℚ).cols
      ∧ (three_of_four : SparseMatrix ℚ).num_non_zero = (three_of_four : SparseMatrix ℚ).rows * 3
      ∧ (three_of_four : SparseMatrix ℚ).values.length = 12
      ∧ (∀ fuel, block_walk 9 (invert_block_3x3 (1 / 2 ^ 52)) fuel
          (three_of_four : SparseMatrix ℚ).values = none)
      ∧ invert_block_matrix_3x3_inplace (1 / 2 ^ 52) (three_of_four : SparseMatrix ℚ)
          = .error Fault.undefined
      ∧ invert_block_matrix_NxN_inplace cholesky_first_bad isfinite_upto_one
          (three_of_four : SparseMatrix ℚ) 3 = .error Fault.undefined
      ∧ (two_of_three : SparseMatrix ℚ).rows = (two_of_three : SparseMatrix ℚ).cols
      ∧ (two_of_three : SparseMatrix ℚ).num_non_zero = (two_of_three : SparseMatrix ℚ).rows * 2
      ∧ invert_block_matrix_NxN_inplace cholesky_first_bad isfinite_upto_one
          (two_of_three : SparseMatrix ℚ) 2 = .error Fault.undefined := by
  have hl : (three_of_four : SparseMatrix ℚ).values.length = 12 := by decide!
  refine ⟨rfl, by decide!, hl, ?_, thrown_some _ _ (by decide!), thrown_some _ _ (by decide!),
    rfl, by decide!, thrown_some _ _ (by decide!)⟩
  intro fuel
  exact block_walk_overrun 9 _ fuel _ (by rw [hl]; decide)

/-- Witness of C21: the scenario camera, the point `(0, 0, 200)` and the pixel
`(1, 0)`, the lists passed being the global lists, with a conjugate gradient
solver that stops at its start vector: the run has one iteration. -/
theorem block_inversion_preconditions_witness :
    ((main_globals : LMGlobals ℚ).cameras = none ∧ (main_globals : LMGlobals ℚ).points = none
        ∧ (main_globals : LMGlobals ℚ).observations = none)
      ∧ (∀ o ∈ [(axis_observation 1 : Observation ℚ)],
          o.camera_id < [(scenario_camera : Camera ℚ)].length
            ∧ o.point_id < [(axis_point 200 : Point3D ℚ)].length)
      ∧ (∀ S rhs x P,
          ((example_lm_env cg_at_start : LMEnv ℚ).solver.cg_solve S rhs x P).2.length = x.length)
      ∧ ∃ res, lm_optimization (example_lm_env cg_at_start) main_globals [scenario_camera]
          [axis_point (200 : ℚ)] [axis_observation 1] = .ok res
        ∧ res.run.iterations.length = 1
        ∧ ∀ it ∈ res.run.iterations, ∃ Jc Jp B C,
          analytic_jacobian it.before.cameras it.before.points [axis_observation 1]
            = .ok (Jc, Jp)
          ∧ matrix_block_column_multiply Jc camera_block_dim = .ok B
          ∧ matrix_block_column_multiply Jp 3 = .ok C
          ∧ (C.mult_diagonal (1 + 1 / 1000)).num_non_zero
              = (C.mult_diagonal (1 + 1 / 1000)).rows * 3
          ∧ (B.mult_diagonal (1 + 1 / 1000)).num_non_zero
              = (B.mult_diagonal (1 + 1 / 1000)).rows * camera_block_dim := by
  have hin : ∀ o ∈ [(axis_observation 1 : Observation ℚ)],
      o.camera_id < [(scenario_camera : Camera ℚ)].length
        ∧ o.point_id < [(axis_point 200 : Point3D ℚ)].length := by
    simp [axis_observation]
  obtain ⟨res, hres, hall⟩ :=
    block_inversion_preconditions (example_lm_env cg_at_start) main_globals [scenario_camera]
      [axis_point (200 : ℚ)] [axis_observation 1] ⟨rfl, rfl, rfl⟩ hin (fun _ _ _ _ => rfl)
  obtain ⟨res1, hres1, hs⟩ := toOption_map_some _ _ _ axis_run_counters
  rw [hres] at hres1
  have e : res = res1 := Except.ok.inj hres1
  rw [← e] at hs
  refine ⟨⟨rfl, rfl, rfl⟩, hin, fun _ _ _ _ => rfl, res, hres, congrArg (fun s => s.1) hs, ?_⟩
  intro it hit
  obtain ⟨-, -, -, Jc, Jp, B, C, hJ, hB, hC, hd⟩ := hall it hit
  exact ⟨Jc, Jp, B, C, hJ, hB, hC, (hd (1 + 1 / 1000)).2.1, (hd (1 + 1 / 1000)).2.2.2.1⟩

/-- Counterexample to C21 as stated: `lm_optimization` is passed the scenario
camera, the point `(0, 0, 200)` and one in-range observation, while the global
observation list is another list that holds two observations.  The residual
`F` of the passed list has two values; `analytic_jacobian` reads the global
list and returns Jacobians of four rows; `JcT.multiply(F)` in
`my_solve_schur` (line 666) throws `std::invalid_argument`, which nothing
catches: the exception leaves `lm_optimization`. -/
theorem lm_optimization_other_observations_counterexample :
    (∀ o ∈ [(axis_observation 1 : Observation ℚ)],
        o.camera_id < [(scenario_camera : Camera ℚ)].length
          ∧ o.point_id < [(axis_point 200 : Point3D ℚ)].length)
      ∧ (other_observations_globals : LMGlobals ℚ).observations
          = some [axis_observation 1, axis_observation 1]
      ∧ (analytic_jacobian [(scenario_camera : Camera ℚ)] [axis_point 200]
          [axis_observation 1, axis_observation 1]).toOption.map
            (fun J => (J.1.rows, J.1.cols, J.2.rows, J.2.cols)) = some (4, 9, 4, 3)
      ∧ (compute_reprojection_errors (libm_at_zero : Libm ℚ) [] none [scenario_camera]
          [axis_point 200] [axis_observation 1]).map List.length = some 2
      ∧ lm_optimization (example_lm_env cg_at_start) other_observations_globals
          [scenario_camera] [axis_point (200 : ℚ)] [axis_observation 1]
        = .error (Fault.invalid_argument "Incompatible dimensions")
      ∧ ∀ res, lm_optimization (example_lm_env cg_at_start) other_observations_globals
          [scenario_camera] [axis_point (200 : ℚ)] [axis_observation 1] ≠ .ok res := by
  have h := thrown_some _ _ other_observations_run
  refine ⟨by simp [axis_observation], rfl, other_observations_shapes.1,
    other_observations_shapes.2, h, ?_⟩
  intro res hres
  rw [h] at hres
  cases hres

/-- Witness of C25: the run on the scenario camera, the point `(0, 0, 200)` and
the pixel `(1, 0)`, entered with the counters at zero, has one iteration and
leaves the counters at 1, 1 and 0. -/
theorem lm_optimization_statistics_witness :
    ∃ res : LMResult ℚ,
      lm_optimization (example_lm_env cg_at_start) main_globals [scenario_camera]
          [axis_point 200] [axis_observation 1] = .ok res
      ∧ res.run.iterations.length = 1
      ∧ res.run.final.num_lm_iterations = res.run.iterations.length
      ∧ res.run.final.num_lm_iterations = res.run.final.num_lm_successful_iterations
          + res.run.final.num_lm_unsuccessful_iterations
      ∧ (∃ F, compute_reprojection_errors (example_lm_env cg_at_start : LMEnv ℚ).lm [] none
            res.run.final.cameras res.run.final.points [axis_observation 1] = some F
          ∧ residual_mse (residual_kind (example_lm_env cg_at_start : LMEnv ℚ).lm none
              res.run.final.cameras res.run.final.points [axis_observation 1]) F
            = res.final_mse) := by
  obtain ⟨res, hres, hs⟩ := toOption_map_some _ _ _ axis_run_counters
  obtain ⟨-, h2, -, -, -, -, h7⟩ := lm_optimization_statistics _ _ _ _ _ res hres
  exact ⟨res, hres, congrArg (fun s => s.1) hs, (h7 rfl rfl rfl).1, (h7 rfl rfl rfl).2, h2⟩

/-- Counterexample to C25 as stated: two calls of `lm_optimization` in a row on
the scenario camera, the point `(0, 0, 200)` and the pixel `(1, 0)`, the second
on the lists and with the counters the first one left.  Each call runs one
iteration; the counters are not set back at entry, so after the second call
`num_lm_iterations` is 2, not the number of iterations that call executed. -/
theorem lm_optimization_second_call_counterexample :
    ∃ res1 res2 : LMResult ℚ,
      lm_optimization (example_lm_env cg_at_start) main_globals [scenario_camera]
          [axis_point 200] [axis_observation 1] = .ok res1
      ∧ res1.run.iterations.length = 1 ∧ res1.run.final.num_lm_iterations = 1
      ∧ lm_optimization (example_lm_env cg_at_start) res1.globals res1.run.final.cameras
          res1.run.final.points [axis_observation 1] = .ok res2
      ∧ res2.run.iterations.length = 1 ∧ res2.run.final.num_lm_iterations = 2
      ∧ res2.run.final.num_lm_iterations ≠ res2.run.iterations.length := by
  obtain ⟨res2, hres2, hs2⟩ := toOption_map_some _ _ _ axis_second_run
  obtain ⟨res1, hres1, hsecond⟩ := bind_ok_inv _ _ _ hres2
  obtain ⟨res1', hres1', hs1⟩ := toOption_map_some _ _ _ axis_run_counters
  rw [hres1] at hres1'
  have e : res1 = res1' := Except.ok.inj hres1'
  rw [← e] at hs1
  have l2 : res2.run.iterations.length = 1 := congrArg (fun s => s.1) hs2
  have n2 : res2.run.final.num_lm_iterations = 2 := congrArg (fun s => s.2.1) hs2
  refine ⟨res1, res2, hres1, congrArg (fun s => s.1) hs1, congrArg (fun s => s.2.1) hs1,
    hsecond, l2, n2, ?_⟩
  rw [l2, n2]
  decide

/-- Witness of C26: the run on the scenario camera, the point `(0, 0, 200)` and
the pixel `(1, 0)` with the lists passed being the global lists. -/
theorem lm_optimization_jacobian_witness :
    ∃ res : LMResult ℚ,
      lm_optimization (example_lm_env cg_at_start) main_globals [scenario_camera]
          [axis_point 200] [axis_observation 1] = .ok res
      ∧ res.run.iterations.length = 1
      ∧ ∀ it ∈ res.run.iterations, ∃ Jc Jp status,
          analytic_jacobian it.before.cameras it.before.points [axis_observation 1]
            = .ok (Jc, Jp)
          ∧ my_solve_schur
              { (example_lm_env cg_at_start : LMEnv ℚ).solver with
                trust_region_radius := it.before.trust_region_radius } Jc Jp it.before.F []
            = .ok (status, it.delta_x)
          ∧ compute_reprojection_errors (example_lm_env cg_at_start : LMEnv ℚ).lm [] none
              it.before.cameras it.before.points [axis_observation 1] = some it.before.F := by
  obtain ⟨res, hres, hs⟩ := toOption_map_some _ _ _ axis_run_counters
  obtain ⟨h1, -⟩ := lm_optimization_jacobian _ _ _ _ _ res hres
  refine ⟨res, hres, congrArg (fun s => s.1) hs, ?_⟩
  intro it hit
  obtain ⟨Jc, Jp, status, -, hS, -, hF, hJ⟩ := h1 it hit
  exact ⟨Jc, Jp, status, hJ rfl rfl rfl, hS, hF⟩

/-- Counterexample to C26 as stated: `lm_optimization` is passed the scenario
camera, the point `(0, 0, 200)` and the pixel `(1, 0)` while the global point
list is another list that holds the point `(0, 0, 400)`.  The run has one
iteration.  Its residual is that of the passed lists, but the Jacobian handed
to the solver is that of the global lists, with `1/400` where the Jacobian of
the passed lists has `1/200`, and the step `1001 / 64000000000` it gives is not
the step `1001 / 8000000000` of the Jacobian of the passed lists. -/
theorem lm_optimization_global_lists_counterexample :
    ∃ (res : LMResult ℚ) (it : LMIteration ℚ) (Jc Jp Jc1 Jp1 : SparseMatrix ℚ)
      (status status1 : Status) (dx1 : List ℚ),
      lm_optimization (example_lm_env cg_at_start) other_point_globals [scenario_camera]
          [axis_point 200] [axis_observation 1] = .ok res
      ∧ res.run.iterations = [it]
      ∧ it.before.cameras = [scenario_camera] ∧ it.before.points = [axis_point 200]
      ∧ it.before.F = [-1, 0]
      ∧ analytic_jacobian [(scenario_camera : Camera ℚ)] [axis_point 400] [axis_observation 1]
          = .ok (Jc, Jp)
      ∧ my_solve_schur
          { (example_lm_env cg_at_start : LMEnv ℚ).solver with
            trust_region_radius := it.before.trust_region_radius } Jc Jp it.before.F []
          = .ok (status, it.delta_x)
      ∧ analytic_jacobian it.before.cameras it.before.points [axis_observation 1]
          = .ok (Jc1, Jp1)
      ∧ my_solve_schur (example_lm_env cg_at_start : LMEnv ℚ).solver Jc1 Jp1 [-1, 0] []
          = .ok (status1, dx1)
      ∧ Jp.entry 0 0 = 1 / 400 ∧ Jp1.entry 0 0 = 1 / 200
      ∧ it.delta_x = [0, 0, 0, 0, 0, 0, 0, 0, 0, 1001 / 64000000000, 0, 0]
      ∧ dx1 = [0, 0, 0, 0, 0, 0, 0, 0, 0, 1001 / 8000000000, 0, 0] := by
  obtain ⟨res, hres, hs⟩ := toOption_map_some _ _ _ other_point_run
  obtain ⟨hchain, hc, hp, -, hits⟩ := lm_optimization_shape _ _ _ _ _ res hres
  obtain ⟨F, hF, hrun, -⟩ := lm_optimization_inv _ _ _ _ _ res hres
  have hF0 : compute_reprojection_errors (example_lm_env cg_at_start : LMEnv ℚ).lm [] none
      [scenario_camera] [axis_point 200] [axis_observation 1] = some [-1, 0] := by decide!
  rw [hF0] at hF
  have hFe : F = [-1, 0] := (Option.some.inj hF).symm
  have hpos : (0 : ℚ) < TRUST_REGION_RADIUS_INIT := by
    unfold TRUST_REGION_RADIUS_INIT
    norm_num
  obtain ⟨-, hfirst, -⟩ := lm_loop_structure _ _ _ _ _ _ _ hrun hpos
  cases hi : res.run.iterations with
  | nil =>
    rw [hi] at hs
    simp at hs
  | cons it tl =>
    rw [hi] at hs hc hp hits hfirst
    cases tl with
    | cons it2 tl2 => simp at hs
    | nil =>
      simp only [List.map_cons, List.map_nil, List.cons.injEq, and_true] at hs
      simp only [List.head?_cons, Option.map_some', Option.getD_some] at hc hp hfirst
      obtain ⟨Jc, Jp, status, Fn, dm, dr, hJ, hS, -⟩ :=
        lm_iteration_inv _ _ _ it.before it (hits it (List.mem_singleton.mpr rfl)).1
      have hbF : it.before.F = [-1, 0] := by
        rw [hfirst]
        exact hFe
      have hJ' : analytic_jacobian [(scenario_camera : Camera ℚ)] [axis_point 400]
          [axis_observation 1] = .ok (Jc, Jp) := by
        rw [hc] at hJ
        exact hJ
      obtain ⟨J1, hJ1, -⟩ := toOption_map_some _ _ _ jacobian_entry_200.1
      obtain ⟨r1, hr1, hdx1⟩ := toOption_map_some _ _ _ jacobian_entry_200.2
      rw [hJ1] at hr1
      have h400 := jacobian_entry_400
      rw [hJ'] at h400
      have h200 := jacobian_entry_200.1
      rw [hJ1] at h200
      refine ⟨res, it, Jc, Jp, J1.1, J1.2, status, r1.1, r1.2, hres, hi, hc, hp, hbF, hJ', hS,
        ?_, hr1, Option.some.inj h400, Option.some.inj h200, hs, hdx1⟩
      rw [hc, hp]
      exact hJ1

/-- Witness of C27: the run on the scenario camera, the point `(0, 0, 200)` and
the pixel `(1, 0)`; its one iteration is successful. -/
theorem lm_optimization_residual_invariant_witness :
    ∃ res : LMResult ℚ,
      lm_optimization (example_lm_env cg_at_start) main_globals [scenario_camera]
          [axis_point 200] [axis_observation 1] = .ok res
      ∧ res.run.iterations.map (fun it => (it.successful, it.stop)) = [(true, true)]
      ∧ compute_reprojection_errors (example_lm_env cg_at_start : LMEnv ℚ).lm [] none
          res.run.final.cameras res.run.final.points [axis_observation 1]
          = some res.run.final.F
      ∧ residual_mse (residual_kind (example_lm_env cg_at_start : LMEnv ℚ).lm none
          res.run.final.cameras res.run.final.points [axis_observation 1]) res.run.final.F
        = res.run.final.current_mse
      ∧ ∀ it ∈ res.run.iterations,
          compute_reprojection_errors (example_lm_env cg_at_start : LMEnv ℚ).lm [] none
            it.after.cameras it.after.points [axis_observation 1] = some it.after.F := by
  obtain ⟨res, hres, hs⟩ := toOption_map_some _ _ _ axis_run
  obtain ⟨h1, h2, h3, -⟩ := lm_optimization_residual_invariant _ _ _ _ _ res hres
  exact ⟨res, hres, congrArg (fun s => s.2.1) hs, h2 [], h3,
    fun it hit => (h1 it hit).2.2.1 []⟩

/-- Witness of C28: the scenario of the specification with an update vector of
twelve zeros. -/
theorem indices_in_range_witness :
    (∀ o ∈ [(scenario_observation : Observation ℚ)],
        o.camera_id < [(scenario_camera : Camera ℚ)].length
          ∧ o.point_id < [(scenario_point : Point3D ℚ)].length)
      ∧ (List.replicate 12 (0 : ℚ)).length
          = 9 * [(scenario_camera : Camera ℚ)].length + 3 * [(scenario_point : Point3D ℚ)].length
      ∧ (∃ F, compute_reprojection_errors libm_at_zero [] (some (List.replicate 12 (0 : ℚ)))
            [scenario_camera] [scenario_point] [scenario_observation] = some F
          ∧ F.length = [(scenario_observation : Observation ℚ)].length * 2)
      ∧ (∃ cameras1 points1, update_parameters libm_at_zero (List.replicate 12 (0 : ℚ))
            [scenario_camera] [scenario_point] = some (cameras1, points1)
          ∧ cameras1.length = [(scenario_camera : Camera ℚ)].length
          ∧ points1.length = [(scenario_point : Point3D ℚ)].length)
      ∧ (∃ ct pt Jc Jp, analytic_jacobian_triplets [(scenario_camera : Camera ℚ)]
            [scenario_point] [scenario_observation] = .ok (ct, pt)
          ∧ analytic_jacobian [(scenario_camera : Camera ℚ)] [scenario_point]
              [scenario_observation] = .ok (Jc, Jp)
          ∧ (∀ t ∈ ct, t.row < Jc.rows ∧ t.col < Jc.cols)
          ∧ (∀ t ∈ pt, t.row < Jp.rows ∧ t.col < Jp.cols)) := by
  obtain ⟨h1, -, h3, ⟨ct, pt, Jc, Jp, ht, hJ, -, -, -, -, hc, hp⟩, -⟩ :=
    indices_in_range (libm_at_zero : Libm ℚ) [] (List.replicate 12 0) [scenario_camera]
      [scenario_point] [scenario_observation] scenario_in_range (by simp)
  exact ⟨scenario_in_range, by simp, h1, h3, ⟨ct, pt, Jc, Jp, ht, hJ, hc, hp⟩⟩

/-- Witness of C30: the run on the scenario camera, the point `(0, 0, 200)` and
the pixel `(1, 0)`. -/
theorem lm_optimization_divisors_witness :
    [(axis_observation 1 : Observation ℚ)] ≠ []
      ∧ ∃ res : LMResult ℚ,
        lm_optimization (example_lm_env cg_at_start) main_globals [scenario_camera]
            [axis_point 200] [axis_observation 1] = .ok res
        ∧ res.initial_mse = .finite 1
        ∧ res.initial_mse ≠ Extended.nan
        ∧ res.run.iterations.length = 1
        ∧ ∀ it ∈ res.run.iterations,
            0 < it.before.trust_region_radius
            ∧ Extended.le (.finite lm_mse_threshold) it.before.current_mse = true
            ∧ ((∃ current_mse, it.before.current_mse = .finite current_mse
                  ∧ lm_mse_threshold ≤ current_mse ∧ 0 < current_mse)
                ∨ it.before.current_mse = .pos_inf)
            ∧ (it.successful = true →
                ∃ ratio, Extended.sub (.finite 1)
                      (Extended.div it.new_mse it.before.current_mse) = .finite ratio
                  ∧ 0 < ratio ∧ ratio ≤ 1) := by
  obtain ⟨res, hres, hs⟩ := toOption_map_some _ _ _ axis_run_summary
  have hi : res.initial_mse = .finite 1 := congrArg (fun s => s.2) hs
  have hnan : res.initial_mse ≠ Extended.nan := by
    rw [hi]
    intro hn
    cases hn
  obtain ⟨-, -, -, h4⟩ := lm_optimization_divisors (example_lm_env cg_at_start) main_globals
    [scenario_camera] [axis_point (200 : ℚ)] [axis_observation 1] res (by simp) hnan hres
  refine ⟨by simp, res, hres, hi, hnan, congrArg (fun s => s.1) hs, ?_⟩
  intro it hit
  obtain ⟨-, h2, h3, h4, -, h6⟩ := h4 it hit
  exact ⟨h2, h3, h4, h6⟩

/-- Counterexample to C30 as stated: the scenario camera, the point
`(1, 0, 0)` and the pixel `(0, 0)`: a non-empty observation list with all
indices in range.  The depth of the point is zero, the perspective division
is `1.0 / 0` and `0.0 / 0`, and the first error is NaN.  It is not below the
absolute threshold, so the loop is entered; with a solver that reports success
the ratio `new_mse / current_mse` is computed in each of the 100 iterations
with a `current_mse` that is NaN: `current_mse >= lm_mse_threshold` does not
hold there, and the ratio is NaN. -/
theorem lm_optimization_nan_ratio_counterexample :
    [(scenario_observation : Observation ℚ)] ≠ []
      ∧ (∀ o ∈ [(scenario_observation : Observation ℚ)],
          o.camera_id < [(scenario_camera : Camera ℚ)].length
            ∧ o.point_id < [(plane_point 1 : Point3D ℚ)].length)
      ∧ camera_depth (scenario_camera : Camera ℚ) (plane_point 1) = 0
      ∧ camera_x (scenario_camera : Camera ℚ) (plane_point 1) = 1
      ∧ camera_y (scenario_camera : Camera ℚ) (plane_point 1) = 0
      ∧ ∃ res : LMResult ℚ,
        lm_optimization (example_lm_env cg_at_start) main_globals [scenario_camera]
            [plane_point 1] [scenario_observation] = .ok res
        ∧ res.initial_mse = Extended.nan
        ∧ res.run.iterations.length = 100
        ∧ ∀ it ∈ res.run.iterations,
            it.solve_success = true
            ∧ it.before.current_mse = Extended.nan
            ∧ Extended.le (.finite lm_mse_threshold) it.before.current_mse = false
            ∧ Extended.div it.new_mse it.before.current_mse = Extended.nan := by
  have hin : ∀ o ∈ [(scenario_observation : Observation ℚ)],
      o.camera_id < [(scenario_camera : Camera ℚ)].length
        ∧ o.point_id < [(plane_point 1 : Point3D ℚ)].length := by
    simp [scenario_observation]
  obtain ⟨res, hres⟩ := lm_optimization_returns (example_lm_env cg_at_start) main_globals
    [scenario_camera] [(plane_point 1 : Point3D ℚ)] [scenario_observation] ⟨rfl, rfl, rfl⟩ hin
    (fun _ _ _ _ => rfl)
  obtain ⟨h1, -, -, h4, h5, -⟩ := lm_optimization_nan _ _ _ _ _ res hres
    (Or.inr (by decide!))
  have hsolve := cg_at_start_solves _ _ rfl _ _ _ _ res hres
  refine ⟨by simp, hin, by decide!, by decide!, by decide!, res, hres, h1, h4, ?_⟩
  intro it hit
  have hb := (h5 it hit).2
  refine ⟨hsolve it hit, hb, ?_, ?_⟩
  · rw [hb]
    rfl
  · rw [hb]
    cases it.new_mse <;> rfl

end Witnesses
end BA
